import Mathlib

/-!
# Secure heap (buddy allocator) of `src/node_secure_heap.cc`

A shallow embedding of the allocator and a verification of the properties its
specification states.

Modelling conventions.

* `size_t` and `uintptr_t` values are natural numbers; additions and
  subtractions that the program does on pointers are taken modulo `2 ^ 64`
  (`wadd`, `wsub`).  Every shift amount the program uses is below 64, so
  `1llu << e` is `1 <<< e`.
* A `Block*` is represented by the base address of the block it points to: the
  heap owns exactly one `Block` per key of `base_addresses`, the key is the
  block's `base_address`, and a block never moves.  The null pointer is `0`.
* A call ends in one of three ways (`Result`): it returns, the process aborts
  (`fatal`: a failed `CHECK`, `UNREACHABLE()`), or the program leaves defined
  behaviour (`undefined`: decrementing the `begin()` iterator of the map,
  dereferencing a `Block*` that points to no block of the map).
* The operating system is a parameter: `page_size` is what `sysconf` reports and
  `os size` is the address `AllocProtectedMemory(size)` obtains (`0` when the
  reservation fails).  `calloc`, `new` and `std::vector::push_back` are assumed
  to succeed and `munmap` to return 0.
* The contents of the protected memory are not part of the heap state
  `SecureHeap`; only the bookkeeping (`free_slices`, `base_addresses`,
  `alloc_sizes`) is.  The two `memset` calls of the program are embedded over a
  separate store (`Memory`, `FreeZero`, `FreeWithMemory`, `SecureHeap_zalloc`).
* Which buddy computations a call makes is not visible in the heap it returns;
  `AllocTrace` and `FreeTrace` follow the same control flow and list them.
* The definitions follow `node_secure_heap.cc`; the `ephemeral` parameter that
  the header declares for `Block` and `CreateBlock` does not occur there.
-/

namespace NodeSecureHeap

/-- Value of `SECURE_HEAP_MIN_EXP`. -/
def SECURE_HEAP_MIN_EXP : Nat := 8

/-- Value of `SECURE_HEAP_MAX_EXP`. -/
def SECURE_HEAP_MAX_EXP : Nat := 20

/-- Number of values of `size_t` and of `uintptr_t`. -/
def WORD : Nat := 2 ^ 64

/-- Unsigned 64-bit addition. -/
def wadd (a b : Nat) : Nat := (a + b) % WORD

/-- Unsigned 64-bit subtraction (operands below `2 ^ 64`). -/
def wsub (a b : Nat) : Nat := (a + WORD - b) % WORD

/-- How a call ends: normally, in a failed `CHECK`, or in undefined behaviour. -/
inductive Result (α : Type) where
  | ok (value : α)
  | fatal
  | undefined
  deriving DecidableEq, Repr

/-- The loop of `WidthOfSize`: `i` runs from `k - 1` down to `0`; falling out of
the loop reaches `UNREACHABLE()`, which aborts. -/
def WidthOfSizeLoop : Nat → Nat → Result Nat
  | 0, _ => Result.fatal
  | i + 1, n =>
    if n &&& (1 <<< i) ≠ 0 then
      Result.ok (if n = 1 <<< i then i else i + 1)
    else WidthOfSizeLoop i n

/-- `WidthOfSize(n)`: `CHECK_NE(n, 0)`, then the slow path over the 64 bits. -/
def WidthOfSize (n : Nat) : Result Nat :=
  if n = 0 then Result.fatal else WidthOfSizeLoop 64 n

/-- `GetOffsetInUnits(base, ptr)`. -/
def GetOffsetInUnits (base ptr : Nat) : Nat :=
  (wsub ptr base) >>> SECURE_HEAP_MIN_EXP

/-- `struct BlockAddress`: `block` is the base address of the block pointed to
(`0` for `nullptr`), `address` the address of the slice. -/
structure BlockAddress where
  block : Nat
  address : Nat
  deriving DecidableEq, Repr

/-- `BlockAddress::BlockAddress()`: both members null. -/
def BlockAddress.empty : BlockAddress := ⟨0, 0⟩

/-- `BlockAddress::operator bool`. -/
def BlockAddress.toBool (a : BlockAddress) : Bool := a.address != 0

/-- `BlockAddress::GetBuddy(exponent)`; `block->base_address` is `a.block`. -/
def BlockAddress.GetBuddy (a : BlockAddress) (exponent : Nat) : BlockAddress :=
  let my_offset := wsub a.address a.block
  let their_offset := my_offset ^^^ (1 <<< exponent)
  ⟨a.block, wadd a.block their_offset⟩

/-- `BlockAddress::GetAddressAtNextExponent(current_exponent)`. -/
def BlockAddress.GetAddressAtNextExponent (a : BlockAddress) (current_exponent : Nat) :
    BlockAddress :=
  let my_offset := wsub a.address a.block
  let buddy_offset := my_offset ^^^ (1 <<< current_exponent)
  ⟨a.block, wadd a.block (my_offset &&& buddy_offset)⟩

/-- `class FreeStack`: the vector `addresses`, first element first. -/
abbrev FreeStack := List BlockAddress

/-- `FreeStack::Push`: `push_back`. -/
def FreeStack.Push (s : FreeStack) (addr : BlockAddress) : FreeStack := s ++ [addr]

/-- `FreeStack::Remove`: `std::remove` keeps the elements different from `addr`
in their order; nothing is erased when none was equal. -/
def FreeStack.Remove (s : FreeStack) (addr : BlockAddress) : Bool × FreeStack :=
  let kept := s.filter (fun x => x != addr)
  if kept.length = s.length then (false, s) else (true, kept)

/-- `FreeStack::Height`. -/
def FreeStack.Height (s : FreeStack) : Nat := s.length

/-- `FreeStack::Pop`: the last element of the vector, or the empty address. -/
def FreeStack.Pop (s : FreeStack) : BlockAddress × FreeStack :=
  match s.getLast? with
  | none => (BlockAddress.empty, s)
  | some address => (address, s.dropLast)

/-- `class Block`. -/
structure Block where
  base_address : Nat
  own_exponent : Nat
  alloc_sizes : List Nat
  deriving DecidableEq, Repr

/-- `Block::Block(base_address, exponent)`: the three `CHECK`s, then a zeroed
table of `(1 << exponent) >> MIN_EXP` entries. -/
def Block.create (base_address exponent : Nat) : Result Block :=
  if base_address = 0 then Result.fatal
  else if ¬ (exponent ≥ SECURE_HEAP_MIN_EXP) then Result.fatal
  else if ¬ (exponent ≤ SECURE_HEAP_MAX_EXP) then Result.fatal
  else
    let size_in_units := (1 <<< exponent) >>> SECURE_HEAP_MIN_EXP
    Result.ok ⟨base_address, exponent, List.replicate size_in_units 0⟩

/-- `Block::SetAllocationSize`. -/
def Block.SetAllocationSize (b : Block) (ptr exponent : Nat) : Block :=
  { b with alloc_sizes := b.alloc_sizes.set (GetOffsetInUnits b.base_address ptr) exponent }

/-- `Block::GetAllocationSize`. -/
def Block.GetAllocationSize (b : Block) (ptr : Nat) : Nat :=
  b.alloc_sizes.getD (GetOffsetInUnits b.base_address ptr) 0

/-- `Block::IsValidPointer`. -/
def Block.IsValidPointer (b : Block) (ptr : Nat) : Bool :=
  decide (ptr ≥ b.base_address) &&
  decide (ptr < wadd b.base_address (1 <<< b.own_exponent)) &&
  decide (ptr % (1 <<< SECURE_HEAP_MIN_EXP) = 0)

/-- `class SecureHeap`: the array of 13 free stacks (index `exponent - MIN_EXP`)
and the ordered map `base_addresses`, as the list of its blocks in key order. -/
structure SecureHeap where
  free_slices : List FreeStack
  base_addresses : List Block
  deriving DecidableEq, Repr

/-- The default-constructed heap: 13 empty stacks and an empty map. -/
def SecureHeap.init : SecureHeap :=
  ⟨List.replicate (SECURE_HEAP_MAX_EXP - SECURE_HEAP_MIN_EXP + 1) [], []⟩

/-- `free_slices[exponent - SECURE_HEAP_MIN_EXP]`. -/
def SecureHeap.stack (h : SecureHeap) (exponent : Nat) : FreeStack :=
  h.free_slices.getD (exponent - SECURE_HEAP_MIN_EXP) []

/-- Assignment to `free_slices[exponent - SECURE_HEAP_MIN_EXP]`. -/
def SecureHeap.setStack (h : SecureHeap) (exponent : Nat) (s : FreeStack) : SecureHeap :=
  { h with free_slices := h.free_slices.set (exponent - SECURE_HEAP_MIN_EXP) s }

/-- Dereference of a `Block*`. -/
def SecureHeap.findBlock (h : SecureHeap) (block : Nat) : Option Block :=
  h.base_addresses.find? (fun b => b.base_address == block)

/-- A write through a `Block*`: the block it points to is replaced by `f` of it
(`Alloc` and `Free` write only through pointers to blocks of the map). -/
def SecureHeap.updateBlock (h : SecureHeap) (block : Nat) (f : Block → Block) : SecureHeap :=
  { h with base_addresses :=
      h.base_addresses.map (fun b => if b.base_address = block then f b else b) }

/-- `std::map::upper_bound`: position of the first key greater than `key`
(the length of the list when there is none). -/
def upper_bound (m : List Block) (key : Nat) : Nat :=
  m.findIdx (fun b => decide (key < b.base_address))

/-- `base_addresses[key] = block`: insert in key order, replacing an equal key. -/
def mapInsert : List Block → Block → List Block
  | [], blk => [blk]
  | b :: rest, blk =>
    if blk.base_address < b.base_address then blk :: b :: rest
    else if blk.base_address = b.base_address then blk :: rest
    else b :: mapInsert rest blk

/-- `base_addresses.erase(key)`. -/
def mapErase (m : List Block) (key : Nat) : List Block :=
  m.filter (fun b => b.base_address != key)

/-- `SecureHeap::GetBlockAddress`.  `upper--` on `begin()` is undefined. -/
def SecureHeap.GetBlockAddress (h : SecureHeap) (ptr : Nat) : Result BlockAddress :=
  if ¬ h.base_addresses.isEmpty then
    let upper := upper_bound h.base_addresses ptr
    if upper = 0 then Result.undefined
    else
      match h.base_addresses[upper - 1]? with
      | none => Result.undefined
      | some blk =>
        if blk.IsValidPointer ptr then Result.ok ⟨blk.base_address, ptr⟩
        else Result.ok BlockAddress.empty
  else Result.ok BlockAddress.empty

/-- `SecureHeap::AllocExponent`, recursion unrolled over `n`, the number of
exponents from `exponent` up to `SECURE_HEAP_MAX_EXP + 1`. -/
def SecureHeap.AllocExponentFrom : Nat → SecureHeap → Nat → BlockAddress × SecureHeap
  | 0, h, _ => (BlockAddress.empty, h)
  | n + 1, h, exponent =>
    if exponent > SECURE_HEAP_MAX_EXP then (BlockAddress.empty, h)
    else
      let popped := (h.stack exponent).Pop
      let h1 := h.setStack exponent popped.2
      if ¬ popped.1.toBool then
        let r := SecureHeap.AllocExponentFrom n h1 (exponent + 1)
        if r.1.toBool then
          let buddy := r.1.GetBuddy exponent
          (r.1, r.2.setStack exponent ((r.2.stack exponent).Push buddy))
        else r
      else (popped.1, h1)

/-- `SecureHeap::AllocExponent(exponent)`. -/
def SecureHeap.AllocExponent (h : SecureHeap) (exponent : Nat) : BlockAddress × SecureHeap :=
  h.AllocExponentFrom (SECURE_HEAP_MAX_EXP + 2 - exponent) exponent

/-- `GetPageSizeExponent()` for the page size the system reports. -/
def GetPageSizeExponent (page_size : Nat) : Result Nat :=
  match WidthOfSize page_size with
  | Result.ok exponent => if page_size = 1 <<< exponent then Result.ok exponent else Result.fatal
  | Result.fatal => Result.fatal
  | Result.undefined => Result.undefined

/-- `AllocProtectedMemory(size)`: `CHECK_NE(size, 0)`, then the address the
system gives (`0` for every failure). -/
def AllocProtectedMemory (os : Nat → Nat) (size : Nat) : Result Nat :=
  if size = 0 then Result.fatal else Result.ok (os size)

/-- The exponent `CreateBlock` reserves for a request of `min_exponent` when the
page-size exponent is `page_size_exponent`. -/
def blockExponent (page_size_exponent min_exponent : Nat) : Nat :=
  let page_multiplier := if page_size_exponent ≤ 12 then 4 else 3
  let desired_exponent := min SECURE_HEAP_MAX_EXP (page_size_exponent + page_multiplier)
  max min_exponent desired_exponent

/-- `SecureHeap::CreateBlock(min_exponent)`; the result is the new `Block*`
(`0` for `nullptr`) and the heap. -/
def SecureHeap.CreateBlock (page_size : Nat) (os : Nat → Nat) (h : SecureHeap)
    (min_exponent : Nat) : Result (Nat × SecureHeap) :=
  if ¬ (min_exponent ≥ SECURE_HEAP_MIN_EXP) then Result.fatal
  else if ¬ (min_exponent ≤ SECURE_HEAP_MAX_EXP) then Result.fatal
  else
    match GetPageSizeExponent page_size with
    | Result.fatal => Result.fatal
    | Result.undefined => Result.undefined
    | Result.ok page_size_exponent =>
      let block_exponent := blockExponent page_size_exponent min_exponent
      match AllocProtectedMemory os (1 <<< block_exponent) with
      | Result.fatal => Result.fatal
      | Result.undefined => Result.undefined
      | Result.ok base_address =>
        if base_address ≠ 0 then
          match Block.create base_address block_exponent with
          | Result.fatal => Result.fatal
          | Result.undefined => Result.undefined
          | Result.ok block =>
            let base_block_addr : BlockAddress := ⟨base_address, base_address⟩
            let h1 := h.setStack block_exponent ((h.stack block_exponent).Push base_block_addr)
            Result.ok (base_address,
              { h1 with base_addresses := mapInsert h1.base_addresses block })
        else Result.ok (0, h)

/-- `SecureHeap::DestroyBlock(block)`. -/
def SecureHeap.DestroyBlock (h : SecureHeap) (block : Nat) : Result SecureHeap :=
  if block = 0 then Result.fatal
  else Result.ok { h with base_addresses := mapErase h.base_addresses block }

/-- `SecureHeap::Alloc(sz)`: the pointer returned (`0` for `nullptr`) and the heap. -/
def SecureHeap.Alloc (page_size : Nat) (os : Nat → Nat) (h : SecureHeap) (sz : Nat) :
    Result (Nat × SecureHeap) :=
  if sz = 0 then Result.ok (0, h)
  else
    match WidthOfSize sz with
    | Result.fatal => Result.fatal
    | Result.undefined => Result.undefined
    | Result.ok width =>
      let exponent := max SECURE_HEAP_MIN_EXP width
      let r := h.AllocExponent exponent
      let retried : Result (BlockAddress × SecureHeap) :=
        if ¬ r.1.toBool ∧ exponent ≤ SECURE_HEAP_MAX_EXP then
          match r.2.CreateBlock page_size os exponent with
          | Result.fatal => Result.fatal
          | Result.undefined => Result.undefined
          | Result.ok created =>
            if created.1 ≠ 0 then
              let r2 := created.2.AllocExponent exponent
              if r2.1.toBool then Result.ok r2 else Result.fatal
            else Result.ok (r.1, created.2)
        else Result.ok r
      match retried with
      | Result.fatal => Result.fatal
      | Result.undefined => Result.undefined
      | Result.ok (addr, h2) =>
        if addr.toBool then
          Result.ok (addr.address,
            h2.updateBlock addr.block (fun b => b.SetAllocationSize addr.address exponent))
        else Result.ok (addr.address, h2)

/-- The `while` loop of `SecureHeap::Free`, unrolled over `n`, the number of
exponents from `exponent` up to `own_exponent`: the slice and exponent reached
and the heap. -/
def SecureHeap.FreeLoop : Nat → SecureHeap → Nat → BlockAddress → Nat →
    BlockAddress × Nat × SecureHeap
  | 0, h, _, addr, exponent => (addr, exponent, h)
  | n + 1, h, own_exponent, addr, exponent =>
    if exponent < own_exponent then
      let removed := (h.stack exponent).Remove (addr.GetBuddy exponent)
      if removed.1 then
        SecureHeap.FreeLoop n (h.setStack exponent removed.2) own_exponent
          (addr.GetAddressAtNextExponent exponent) (exponent + 1)
      else (addr, exponent, h)
    else (addr, exponent, h)

/-- `SecureHeap::Free(ptr)`. -/
def SecureHeap.Free (h : SecureHeap) (ptr : Nat) : Result SecureHeap :=
  if ptr = 0 then Result.ok h
  else if h.base_addresses.isEmpty then Result.fatal
  else
    match h.GetBlockAddress ptr with
    | Result.fatal => Result.fatal
    | Result.undefined => Result.undefined
    | Result.ok found =>
      if found.block = 0 then Result.fatal
      else
        match h.findBlock found.block with
        | none => Result.undefined
        | some block =>
          if ¬ block.IsValidPointer ptr then Result.fatal
          else
            let addr : BlockAddress := ⟨found.block, ptr⟩
            let exponent := block.GetAllocationSize ptr
            if exponent = 0 then Result.fatal
            else
              let h1 := h.updateBlock addr.block (fun b => b.SetAllocationSize ptr 0)
              -- memset(ptr, 0, 1llu << exponent) happens here
              let r := h1.FreeLoop (block.own_exponent - exponent) block.own_exponent addr exponent
              if r.2.1 = block.own_exponent then r.2.2.DestroyBlock r.1.block
              else Result.ok (r.2.2.setStack r.2.1 ((r.2.2.stack r.2.1).Push r.1))

/-- Wrapping sum of `1llu << own_exponent` over the blocks (first loop of
`GetUsedMemory`). -/
def totalMem (m : List Block) : Nat :=
  m.foldl (fun total_mem b => wadd total_mem (1 <<< b.own_exponent)) 0

/-- Wrapping sum of `Height() << exp` over the size classes (second loop of
`GetUsedMemory`). -/
def unusedMem (h : SecureHeap) : Nat :=
  (List.range' SECURE_HEAP_MIN_EXP (SECURE_HEAP_MAX_EXP + 1 - SECURE_HEAP_MIN_EXP)).foldl
    (fun unused_mem exp => wadd unused_mem (((h.stack exp).Height <<< exp) % WORD)) 0

/-- `SecureHeap::GetUsedMemory`. -/
def SecureHeap.GetUsedMemory (h : SecureHeap) : Result Nat :=
  let total_mem := totalMem h.base_addresses
  let unused_mem := unusedMem h
  if unused_mem ≤ total_mem then Result.ok (total_mem - unused_mem) else Result.fatal

/-- `SecureHeap::Cleanup`, a non-const member: the value returned and the heap
after the call (the body assigns nothing). -/
def SecureHeap.Cleanup (h : SecureHeap) : Bool × SecureHeap := (h.base_addresses.isEmpty, h)

/-- `SecureHeap_done()`. -/
def SecureHeap_done (h : SecureHeap) : Bool × SecureHeap := h.Cleanup

/-- `SecureHeap_malloc(sz, file, line)`. -/
def SecureHeap_malloc (page_size : Nat) (os : Nat → Nat) (h : SecureHeap) (sz : Nat) :
    Result (Nat × SecureHeap) :=
  h.Alloc page_size os sz

/-- `SecureHeap_free(ptr, file, line)`. -/
def SecureHeap_free (h : SecureHeap) (ptr : Nat) : Result SecureHeap := h.Free ptr

/-- `SecureHeap_clear_free(ptr, num, file, line)`. -/
def SecureHeap_clear_free (h : SecureHeap) (ptr _num : Nat) : Result SecureHeap := h.Free ptr

/-- `SecureHeap_used()`. -/
def SecureHeap_used (h : SecureHeap) : Result Nat := h.GetUsedMemory

/-- `HeapInspector::GetBlocks`. -/
def GetBlocks (h : SecureHeap) : List Block := h.base_addresses

/-- `HeapInspector::GetFreeSlices(exponent)`. -/
def GetFreeSlices (h : SecureHeap) (exponent : Nat) : List BlockAddress := h.stack exponent

/-- `SecureHeap_allocated(ptr)`. -/
def SecureHeap_allocated (h : SecureHeap) (ptr : Nat) : Result Bool :=
  match h.GetBlockAddress ptr with
  | Result.fatal => Result.fatal
  | Result.undefined => Result.undefined
  | Result.ok addr => Result.ok (addr.block != 0)

/-- `SecureHeap_actual_size(ptr)`. -/
def SecureHeap_actual_size (h : SecureHeap) (ptr : Nat) : Result Nat :=
  match h.GetBlockAddress ptr with
  | Result.fatal => Result.fatal
  | Result.undefined => Result.undefined
  | Result.ok addr =>
    if addr.toBool then
      match h.findBlock addr.block with
      | none => Result.undefined
      | some block => Result.ok ((1 <<< block.GetAllocationSize ptr) % WORD)
    else Result.ok 0

/-! ## The contents of memory

`SecureHeap` holds the bookkeeping only.  The two places where the allocator
writes to the memory it manages are the `memset` of `Free` and the `memset` of
`SecureHeap_zalloc`; they are embedded here over an explicit store, next to the
bookkeeping functions above. -/

/-- The contents of memory: the byte stored at each address. -/
abbrev Memory := Nat → Nat

/-- The C library call `memset(ptr, c, n)`. -/
def memset (mem : Memory) (ptr c n : Nat) : Memory :=
  fun x => if ptr ≤ x ∧ x < ptr + n then c else mem x

/-- `SecureHeap::Free(ptr)` for a non-null `ptr` up to and including the
`memset`: the heap (table entry cleared), the memory (span zeroed), the block
and the exponent read from the table. -/
def SecureHeap.FreeZero (h : SecureHeap) (mem : Memory) (ptr : Nat) :
    Result (SecureHeap × Memory × Block × Nat) :=
  if h.base_addresses.isEmpty then Result.fatal
  else
    match h.GetBlockAddress ptr with
    | Result.fatal => Result.fatal
    | Result.undefined => Result.undefined
    | Result.ok found =>
      if found.block = 0 then Result.fatal
      else
        match h.findBlock found.block with
        | none => Result.undefined
        | some block =>
          if ¬ block.IsValidPointer ptr then Result.fatal
          else
            let exponent := block.GetAllocationSize ptr
            if exponent = 0 then Result.fatal
            else
              let h1 := h.updateBlock found.block (fun b => b.SetAllocationSize ptr 0)
              Result.ok (h1, memset mem ptr 0 (1 <<< exponent), block, exponent)

/-- `SecureHeap::Free(ptr)` with the memory: `FreeZero`, then the coalescing
loop and the final push or `DestroyBlock`, none of which writes to memory. -/
def SecureHeap.FreeWithMemory (h : SecureHeap) (mem : Memory) (ptr : Nat) :
    Result (SecureHeap × Memory) :=
  if ptr = 0 then Result.ok (h, mem)
  else
    match h.FreeZero mem ptr with
    | Result.fatal => Result.fatal
    | Result.undefined => Result.undefined
    | Result.ok (h1, mem1, block, exponent) =>
      let addr : BlockAddress := ⟨block.base_address, ptr⟩
      let r := h1.FreeLoop (block.own_exponent - exponent) block.own_exponent addr exponent
      if r.2.1 = block.own_exponent then
        match r.2.2.DestroyBlock r.1.block with
        | Result.fatal => Result.fatal
        | Result.undefined => Result.undefined
        | Result.ok h2 => Result.ok (h2, mem1)
      else Result.ok (r.2.2.setStack r.2.1 ((r.2.2.stack r.2.1).Push r.1), mem1)

/-- `SecureHeap_zalloc(sz, file, line)` with the memory. -/
def SecureHeap_zalloc (page_size : Nat) (os : Nat → Nat) (h : SecureHeap) (mem : Memory)
    (sz : Nat) : Result (Nat × SecureHeap × Memory) :=
  match h.Alloc page_size os sz with
  | Result.fatal => Result.fatal
  | Result.undefined => Result.undefined
  | Result.ok (p, h1) =>
    if p ≠ 0 then Result.ok (p, h1, memset mem p 0 sz) else Result.ok (p, h1, mem)

/-! ## The buddy computations of a call

The same control flow as `AllocExponent`, `Alloc` and `Free`, returning instead
of the heap the list of buddy computations in the order the code makes them. -/

/-- One event of a call: `request slice e` is a call `slice.GetBuddy(e)`;
`use buddy e` is the value of such a call handed to `Remove` or `Push` of the
free stack for `e`. -/
inductive BuddyEvent where
  | request (slice : BlockAddress) (exponent : Nat)
  | use (buddy : BlockAddress) (exponent : Nat)
  deriving DecidableEq, Repr

/-- The events of `AllocExponentFrom`. -/
def SecureHeap.AllocExponentTrace : Nat → SecureHeap → Nat → List BuddyEvent
  | 0, _, _ => []
  | n + 1, h, exponent =>
    if exponent > SECURE_HEAP_MAX_EXP then []
    else
      let popped := (h.stack exponent).Pop
      let h1 := h.setStack exponent popped.2
      if ¬ popped.1.toBool then
        let r := SecureHeap.AllocExponentFrom n h1 (exponent + 1)
        SecureHeap.AllocExponentTrace n h1 (exponent + 1) ++
          (if r.1.toBool then
            [BuddyEvent.request r.1 exponent, BuddyEvent.use (r.1.GetBuddy exponent) exponent]
          else [])
      else []

/-- The events of `SecureHeap::Alloc(sz)`: those of the first `AllocExponent`,
then those of the retry after `CreateBlock`. -/
def SecureHeap.AllocTrace (page_size : Nat) (os : Nat → Nat) (h : SecureHeap) (sz : Nat) :
    List BuddyEvent :=
  if sz = 0 then []
  else
    match WidthOfSize sz with
    | Result.fatal => []
    | Result.undefined => []
    | Result.ok width =>
      let exponent := max SECURE_HEAP_MIN_EXP width
      let r := h.AllocExponent exponent
      h.AllocExponentTrace (SECURE_HEAP_MAX_EXP + 2 - exponent) exponent ++
        (if ¬ r.1.toBool ∧ exponent ≤ SECURE_HEAP_MAX_EXP then
          match r.2.CreateBlock page_size os exponent with
          | Result.fatal => []
          | Result.undefined => []
          | Result.ok created =>
            if created.1 ≠ 0 then
              created.2.AllocExponentTrace (SECURE_HEAP_MAX_EXP + 2 - exponent) exponent
            else []
        else [])

/-- The events of the `while` loop of `SecureHeap::Free`, entered with the buddy
of `addr` at `exponent` already computed. -/
def SecureHeap.FreeLoopTrace : Nat → SecureHeap → Nat → BlockAddress → Nat → List BuddyEvent
  | 0, _, _, _, _ => []
  | n + 1, h, own_exponent, addr, exponent =>
    if exponent < own_exponent then
      let removed := (h.stack exponent).Remove (addr.GetBuddy exponent)
      BuddyEvent.use (addr.GetBuddy exponent) exponent ::
        (if removed.1 then
          BuddyEvent.request (addr.GetAddressAtNextExponent exponent) (exponent + 1) ::
            SecureHeap.FreeLoopTrace n (h.setStack exponent removed.2) own_exponent
              (addr.GetAddressAtNextExponent exponent) (exponent + 1)
        else [])
    else []

/-- The events of `SecureHeap::Free(ptr)`. -/
def SecureHeap.FreeTrace (h : SecureHeap) (ptr : Nat) : List BuddyEvent :=
  if ptr = 0 then []
  else if h.base_addresses.isEmpty then []
  else
    match h.GetBlockAddress ptr with
    | Result.fatal => []
    | Result.undefined => []
    | Result.ok found =>
      if found.block = 0 then []
      else
        match h.findBlock found.block with
        | none => []
        | some block =>
          if ¬ block.IsValidPointer ptr then []
          else
            let addr : BlockAddress := ⟨found.block, ptr⟩
            let exponent := block.GetAllocationSize ptr
            if exponent = 0 then []
            else
              let h1 := h.updateBlock addr.block (fun b => b.SetAllocationSize ptr 0)
              BuddyEvent.request addr exponent ::
                h1.FreeLoopTrace (block.own_exponent - exponent) block.own_exponent addr exponent

/-! ## The recursion of `AllocExponent`

The same control flow as `AllocExponentFrom`, returning the number of nested
recursive self-calls, or `none` when the bound `n` on the calls is used up. -/

/-- Depth of the recursion of `AllocExponent(exponent)`: `some 0` when the call
returns without calling itself, one more than the depth of the call
`AllocExponent(exponent + 1)` otherwise; `none` when more than `n` calls would be
needed. -/
def SecureHeap.AllocExponentDepth : Nat → SecureHeap → Nat → Option Nat
  | 0, _, _ => none
  | n + 1, h, exponent =>
    if exponent > SECURE_HEAP_MAX_EXP then some 0
    else
      let popped := (h.stack exponent).Pop
      let h1 := h.setStack exponent popped.2
      if ¬ popped.1.toBool then
        match SecureHeap.AllocExponentDepth n h1 (exponent + 1) with
        | none => none
        | some d => some (d + 1)
      else some 0

/-! ## Specification vocabulary -/

/-- Size class of a request of `sz` bytes: `max(MIN_EXP, ceil(log2 sz))`. -/
def sizeClass (sz : Nat) : Nat := max SECURE_HEAP_MIN_EXP (Nat.clog 2 sz)

/-- The page size is a power of two that fits a `size_t`. -/
def PageSizeOk (page_size : Nat) : Prop := ∃ p, p < 64 ∧ page_size = 2 ^ p

/-- What the operating system guarantees for a reservation made in heap state
`h`: a span it hands out starts at a non-null multiple of the minimum unit
(pages are at least that large), ends below the top of the address space, and
overlaps no span that is still reserved. -/
def OSContract (os : Nat → Nat) (h : SecureHeap) : Prop :=
  ∀ size, os size ≠ 0 →
    2 ^ SECURE_HEAP_MIN_EXP ∣ os size ∧ os size + size < WORD ∧
    ∀ b ∈ h.base_addresses,
      os size + size ≤ b.base_address ∨ b.base_address + 2 ^ b.own_exponent ≤ os size

/-- Heap states reachable from the empty heap by calls that respect the
contract, together with the list of live allocations (pointer, requested
size): `Alloc` with any answer of the operating system that satisfies
`OSContract`, `Free` of a live pointer, `Free(nullptr)`. -/
inductive Reach (page_size : Nat) : SecureHeap → List (Nat × Nat) → Prop
  | init : Reach page_size SecureHeap.init []
  | alloc {h h1 : SecureHeap} {L : List (Nat × Nat)} {os : Nat → Nat} {sz p : Nat} :
      Reach page_size h L → OSContract os h → sz < WORD →
      h.Alloc page_size os sz = Result.ok (p, h1) → p ≠ 0 →
      Reach page_size h1 ((p, sz) :: L)
  | alloc_null {h h1 : SecureHeap} {L : List (Nat × Nat)} {os : Nat → Nat} {sz : Nat} :
      Reach page_size h L → OSContract os h → sz < WORD →
      h.Alloc page_size os sz = Result.ok (0, h1) →
      Reach page_size h1 L
  | free {h h1 : SecureHeap} {L : List (Nat × Nat)} {p sz : Nat} :
      Reach page_size h L → (p, sz) ∈ L → h.Free p = Result.ok h1 →
      Reach page_size h1 (L.erase (p, sz))
  | free_null {h h1 : SecureHeap} {L : List (Nat × Nat)} :
      Reach page_size h L → h.Free 0 = Result.ok h1 →
      Reach page_size h1 L

/-- Kind of a slice: on a free stack, handed out, or held by a call in progress
(popped or being merged, on no stack and not yet recorded). -/
inductive SliceKind where
  | free
  | live
  | pending
  deriving DecidableEq, Repr

/-- A slice: `2 ^ exp` bytes starting at `addr`, inside the block with base
`block`. -/
structure Slice where
  kind : SliceKind
  block : Nat
  addr : Nat
  exp : Nat
  deriving DecidableEq, Repr

/-- Byte `x` lies in the span of the slice. -/
def Slice.has (s : Slice) (x : Nat) : Prop := s.addr ≤ x ∧ x < s.addr + 2 ^ s.exp

/-- The free stack of class `e` holds the address `a` of block `B`. -/
def SecureHeap.isFree (h : SecureHeap) (B a e : Nat) : Prop :=
  SECURE_HEAP_MIN_EXP ≤ e ∧ e ≤ SECURE_HEAP_MAX_EXP ∧ (⟨B, a⟩ : BlockAddress) ∈ h.stack e

/-- Block `B` records a live allocation of class `e` at address `a`: the entry
of `alloc_sizes` for the unit that starts at `a` is `e`, and `e` is not zero. -/
def SecureHeap.isLive (h : SecureHeap) (B a e : Nat) : Prop :=
  ∃ b ∈ h.base_addresses, b.base_address = B ∧ B ≤ a ∧ a < B + 2 ^ b.own_exponent ∧
    2 ^ SECURE_HEAP_MIN_EXP ∣ a - B ∧
    b.alloc_sizes.getD ((a - B) / 2 ^ SECURE_HEAP_MIN_EXP) 0 = e ∧ e ≠ 0

/-- The slices of a heap state: the entries of the free stacks, the nonzero
entries of the `alloc_sizes` tables and the slice in progress, if any. -/
def Slices (h : SecureHeap) (pend : Option (Nat × Nat × Nat)) (s : Slice) : Prop :=
  (s.kind = SliceKind.free ∧ h.isFree s.block s.addr s.exp) ∨
  (s.kind = SliceKind.live ∧ h.isLive s.block s.addr s.exp) ∨
  (s.kind = SliceKind.pending ∧ pend = some (s.block, s.addr, s.exp))

/-- A block as `CreateBlock` makes it: non-null base on a unit boundary, span
below the top of the address space, exponent in range, one table entry per
unit. -/
def BlockOk (b : Block) : Prop :=
  0 < b.base_address ∧ 2 ^ SECURE_HEAP_MIN_EXP ∣ b.base_address ∧
  b.base_address + 2 ^ b.own_exponent < WORD ∧
  SECURE_HEAP_MIN_EXP ≤ b.own_exponent ∧ b.own_exponent ≤ SECURE_HEAP_MAX_EXP ∧
  b.alloc_sizes.length = 2 ^ (b.own_exponent - SECURE_HEAP_MIN_EXP)

/-- The slice of class `e` at `a` lies in block `b` at an offset that is a
multiple of its size. -/
def Fits (b : Block) (a e : Nat) : Prop :=
  b.base_address ≤ a ∧ 2 ^ e ∣ a - b.base_address ∧
  a + 2 ^ e ≤ b.base_address + 2 ^ b.own_exponent

/-- Bytes on the free stacks, the stack at index `i` holding slices of class
`e + i`. -/
def stackSum : Nat → List FreeStack → Nat
  | _, [] => 0
  | e, s :: rest => s.length * 2 ^ e + stackSum (e + 1) rest

/-- Bytes of the live allocations. -/
def liveSum (L : List (Nat × Nat)) : Nat := (L.map (fun a => 2 ^ sizeClass a.2)).sum

/-- Bytes of all blocks. -/
def blockSum (m : List Block) : Nat := (m.map (fun b => 2 ^ b.own_exponent)).sum

/-- Bytes of the slice in progress. -/
def pendSize : Option (Nat × Nat × Nat) → Nat
  | none => 0
  | some (_, _, e) => 2 ^ e

/-- The invariant of the allocator, for a heap state, its live allocations and
the slice a call in progress holds (`none` between calls). -/
structure InvP (h : SecureHeap) (L : List (Nat × Nat)) (pend : Option (Nat × Nat × Nat)) :
    Prop where
  len : h.free_slices.length = SECURE_HEAP_MAX_EXP - SECURE_HEAP_MIN_EXP + 1
  sorted : h.base_addresses.Pairwise
    (fun x y => x.base_address + 2 ^ x.own_exponent ≤ y.base_address)
  blk_ok : ∀ b ∈ h.base_addresses, BlockOk b
  nodup : ∀ e, (h.stack e).Nodup
  free_ok : ∀ B a e, h.isFree B a e →
    ∃ b ∈ h.base_addresses, b.base_address = B ∧ e < b.own_exponent ∧ Fits b a e
  live_ok : ∀ B a e, h.isLive B a e →
    ∃ b ∈ h.base_addresses, b.base_address = B ∧ SECURE_HEAP_MIN_EXP ≤ e ∧
      e ≤ b.own_exponent ∧ Fits b a e
  pend_ok : ∀ B a e, pend = some (B, a, e) →
    ∃ b ∈ h.base_addresses, b.base_address = B ∧ SECURE_HEAP_MIN_EXP ≤ e ∧
      e ≤ b.own_exponent ∧ Fits b a e
  uniq : ∀ s t x, Slices h pend s → Slices h pend t → s.has x → t.has x → s = t
  cover : ∀ b ∈ h.base_addresses, ∀ x, b.base_address ≤ x →
    x < b.base_address + 2 ^ b.own_exponent →
    ∃ s, Slices h pend s ∧ s.block = b.base_address ∧ s.has x
  nobuddy : ∀ B P e, 2 ^ (e + 1) ∣ P - B → h.isFree B P e → ¬ h.isFree B (P + 2 ^ e) e
  ghost_in : ∀ p sz, (p, sz) ∈ L →
    0 < sz ∧ sz ≤ 2 ^ SECURE_HEAP_MAX_EXP ∧ ∃ B, h.isLive B p (sizeClass sz)
  ghost_out : ∀ B a e, h.isLive B a e → ∃ sz, (a, sz) ∈ L
  ghost_nodup : (L.map Prod.fst).Nodup
  sum : stackSum SECURE_HEAP_MIN_EXP h.free_slices + liveSum L + pendSize pend =
    blockSum h.base_addresses

/-- State after the splits that turn the slice `t` of class `e + d` into a slice
of class `e`: the buddy at each class from `e + d - 1` down to `e` is pushed on
the stack of its class. -/
def splitFrom : Nat → SecureHeap → BlockAddress → Nat → SecureHeap
  | 0, h, _, _ => h
  | d + 1, h, t, e =>
    let h1 := splitFrom d h t (e + 1)
    h1.setStack e ((h1.stack e).Push (t.GetBuddy e))

/-- The heap with a new block of exponent `E` at `base` in the map: a zeroed
table and no slice of it on any stack. -/
def SecureHeap.withBlock (h : SecureHeap) (base E : Nat) : SecureHeap :=
  { h with base_addresses :=
      mapInsert h.base_addresses ⟨base, E, List.replicate (2 ^ (E - SECURE_HEAP_MIN_EXP)) 0⟩ }

/-- Address of the slice of class `j` of the block at `B` that holds the
address `p`: the offset of `p` rounded down to a multiple of `2 ^ j`. -/
def sliceAt (B p j : Nat) : Nat := B + (p - B) / 2 ^ j * 2 ^ j

/-- Buddy at class `j` of the slice of class `j` that holds `p`. -/
def buddyAt (B p j : Nat) : BlockAddress := BlockAddress.GetBuddy ⟨B, sliceAt B p j⟩ j

/-- The heap after `d` merges at the classes `e`, `e + 1`, ... of the slices that
hold `p`: the buddy is filtered out of each of these stacks. -/
def mergeFrom : Nat → SecureHeap → Nat → Nat → Nat → SecureHeap
  | 0, h, _, _, _ => h
  | d + 1, h, B, p, e =>
    mergeFrom d (h.setStack e ((h.stack e).filter (fun x => x != buddyAt B p e))) B p (e + 1)

/-- The addresses of the span of class `sizeClass sz` at `p`. -/
def span (p sz : Nat) : Set Nat := {x | p ≤ x ∧ x < p + 2 ^ sizeClass sz}

/-- The addresses inside the blocks of the heap. -/
def mapped (h : SecureHeap) : Set Nat :=
  {x | ∃ b ∈ h.base_addresses, b.base_address ≤ x ∧ x < b.base_address + 2 ^ b.own_exponent}

/-- Reachable states with the memory.  `ReachM page_size h L mem Z`: the heap
`h`, the live allocations `L` and the memory `mem` are reached from the empty
heap by `SecureHeap_malloc`, `SecureHeap_zalloc`, `SecureHeap_free` and by the
program storing a byte inside a live allocation; `Z` is the set of addresses
zeroed by a `Free` and not handed out since, in a block that has stayed in the
map since. -/
inductive ReachM (page_size : Nat) : SecureHeap → List (Nat × Nat) → Memory → Set Nat → Prop
  | init (mem : Memory) : ReachM page_size SecureHeap.init [] mem ∅
  | malloc {h h1 : SecureHeap} {L : List (Nat × Nat)} {mem : Memory} {Z : Set Nat}
      {os : Nat → Nat} {sz p : Nat} :
      ReachM page_size h L mem Z → OSContract os h → sz < WORD →
      SecureHeap_malloc page_size os h sz = Result.ok (p, h1) → p ≠ 0 →
      ReachM page_size h1 ((p, sz) :: L) mem (Z \ span p sz)
  | zalloc {h h1 : SecureHeap} {L : List (Nat × Nat)} {mem mem1 : Memory} {Z : Set Nat}
      {os : Nat → Nat} {sz p : Nat} :
      ReachM page_size h L mem Z → OSContract os h → sz < WORD →
      SecureHeap_zalloc page_size os h mem sz = Result.ok (p, h1, mem1) → p ≠ 0 →
      ReachM page_size h1 ((p, sz) :: L) mem1 (Z \ span p sz)
  | alloc_null {h h1 : SecureHeap} {L : List (Nat × Nat)} {mem : Memory} {Z : Set Nat}
      {os : Nat → Nat} {sz : Nat} :
      ReachM page_size h L mem Z → OSContract os h → sz < WORD →
      SecureHeap_malloc page_size os h sz = Result.ok (0, h1) →
      ReachM page_size h1 L mem Z
  | free {h h1 : SecureHeap} {L : List (Nat × Nat)} {mem mem1 : Memory} {Z : Set Nat}
      {p sz : Nat} :
      ReachM page_size h L mem Z → (p, sz) ∈ L →
      h.FreeWithMemory mem p = Result.ok (h1, mem1) →
      ReachM page_size h1 (L.erase (p, sz)) mem1 ((Z ∪ span p sz) ∩ mapped h1)
  | free_null {h h1 : SecureHeap} {L : List (Nat × Nat)} {mem mem1 : Memory} {Z : Set Nat} :
      ReachM page_size h L mem Z → h.FreeWithMemory mem 0 = Result.ok (h1, mem1) →
      ReachM page_size h1 L mem1 Z
  | store {h : SecureHeap} {L : List (Nat × Nat)} {mem : Memory} {Z : Set Nat}
      {q s x v : Nat} :
      ReachM page_size h L mem Z → (q, s) ∈ L → x ∈ span q s →
      ReachM page_size h L (Function.update mem x v) Z

/-! ## Concrete states -/

/-- An operating system that reserves the span at address 65536 for any request
of at most 1 MiB and refuses larger ones. -/
def demoOS : Nat → Nat := fun size => if size ≤ 2 ^ 20 then 65536 else 0

/-- An operating system that refuses every reservation. -/
def noMemOS : Nat → Nat := fun _ => 0

/-- The heap after `Alloc(100)` on the empty heap, with pages of 4096 bytes and
`demoOS`: one block of 64 KiB at 65536, its first 256 bytes handed out, one free
slice in each class from 8 to 15. -/
def demoHeap : SecureHeap :=
  ⟨[[⟨65536, 65792⟩], [⟨65536, 66048⟩], [⟨65536, 66560⟩], [⟨65536, 67584⟩],
    [⟨65536, 69632⟩], [⟨65536, 73728⟩], [⟨65536, 81920⟩], [⟨65536, 98304⟩],
    [], [], [], [], []],
   [⟨65536, 16, 8 :: List.replicate 255 0⟩]⟩

/-- The heap after a further `Alloc(1024)` on `demoHeap`: the free slice of
class 10 is handed out. -/
def demoHeap2 : SecureHeap :=
  ⟨[[⟨65536, 65792⟩], [⟨65536, 66048⟩], [], [⟨65536, 67584⟩],
    [⟨65536, 69632⟩], [⟨65536, 73728⟩], [⟨65536, 81920⟩], [⟨65536, 98304⟩],
    [], [], [], [], []],
   [⟨65536, 16, 8 :: 0 :: 0 :: 0 :: 10 :: List.replicate 251 0⟩]⟩

/-- An operating system that reserves the span at address 196608 for any
request of at most 1 MiB and refuses larger ones. -/
def demoOS2 : Nat → Nat := fun size => if size ≤ 2 ^ 20 then 196608 else 0

/-- The heap after `Alloc(65536)` on the empty heap (pages of 4096 bytes,
`demoOS`): one block of 64 KiB at 65536, handed out whole. -/
def wholeHeap1 : SecureHeap :=
  ⟨List.replicate 13 [], [⟨65536, 16, 16 :: List.replicate 255 0⟩]⟩

/-- The heap after a further `Alloc(65536)` with `demoOS2`: a second block of
64 KiB at 196608, handed out whole. -/
def wholeHeap2 : SecureHeap :=
  ⟨List.replicate 13 [],
   [⟨65536, 16, 16 :: List.replicate 255 0⟩, ⟨196608, 16, 16 :: List.replicate 255 0⟩]⟩

/-- The heap after `Free(65536)` on `wholeHeap2`: the block at 65536 is
destroyed, the block at 196608 remains. -/
def wholeHeap3 : SecureHeap :=
  ⟨List.replicate 13 [], [⟨196608, 16, 16 :: List.replicate 255 0⟩]⟩

/-- The heap after `Free(65536)` on `demoHeap2`: the slice merges with its free
buddies of classes 8 and 9; the buddy of class 10 is live, so the merged slice
of class 10 is pushed. -/
def demoHeap3 : SecureHeap :=
  ⟨[[], [], [⟨65536, 65536⟩], [⟨65536, 67584⟩],
    [⟨65536, 69632⟩], [⟨65536, 73728⟩], [⟨65536, 81920⟩], [⟨65536, 98304⟩],
    [], [], [], [], []],
   [⟨65536, 16, 0 :: 0 :: 0 :: 0 :: 10 :: List.replicate 251 0⟩]⟩

/-- An operating system that reserves the span at address 65536 for any request
of at most 64 KiB and refuses larger ones. -/
def lowOS : Nat → Nat := fun size => if size ≤ 2 ^ 16 then 65536 else 0

/-- The heap after `Alloc(65536)` on the empty heap with `demoOS2` (pages of
4096 bytes): one block of 64 KiB at 196608, handed out whole. -/
def highFirstHeap1 : SecureHeap :=
  ⟨List.replicate 13 [], [⟨196608, 16, 16 :: List.replicate 255 0⟩]⟩

/-- The heap after a further `Alloc(65536)` with `lowOS`: a second block of
64 KiB, at 65536, handed out whole.  The block with the lowest base is the one
inserted last: in the red-black tree of `base_addresses` its node is the left
child of the root (the node of the block at 196608), not the root. -/
def highFirstHeap2 : SecureHeap :=
  ⟨List.replicate 13 [],
   [⟨65536, 16, 16 :: List.replicate 255 0⟩, ⟨196608, 16, 16 :: List.replicate 255 0⟩]⟩

/-! ## Machine arithmetic -/

theorem wadd_eq {a b : Nat} (h : a + b < WORD) : wadd a b = a + b := by
  unfold wadd
  exact Nat.mod_eq_of_lt h

theorem wsub_eq {a b : Nat} (hba : b ≤ a) (ha : a < WORD) : wsub a b = a - b := by
  unfold wsub
  have h1 : a + WORD - b = (a - b) + WORD := by omega
  rw [h1, Nat.add_mod_right]
  exact Nat.mod_eq_of_lt (by omega)

theorem two_pow_succ_eq (e : Nat) : 2 ^ (e + 1) = 2 ^ e + 2 ^ e := by
  rw [pow_succ]; omega

theorem two_pow_pos_nat (e : Nat) : 0 < 2 ^ e := Nat.two_pow_pos e

/-! ## Offsets of buddies -/

theorem even_xor_one (q : Nat) : (2 * q) ^^^ 1 = 2 * q + 1 := by
  apply Nat.eq_of_testBit_eq
  intro i
  cases i with
  | zero => simp [Nat.testBit_xor, Nat.testBit_zero]
  | succ j =>
    rw [Nat.testBit_xor]
    simp only [Nat.testBit_succ]
    have h1 : (2 * q) / 2 = q := by omega
    have h2 : (2 * q + 1) / 2 = q := by omega
    have h3 : (1 : Nat) / 2 = 0 := by decide
    rw [h1, h2, h3]
    simp

theorem odd_xor_one (q : Nat) : (2 * q + 1) ^^^ 1 = 2 * q := by
  have h := even_xor_one q
  rw [← h, Nat.xor_assoc, Nat.xor_self, Nat.xor_zero]

theorem even_and_odd (q : Nat) : (2 * q) &&& (2 * q + 1) = 2 * q := by
  apply Nat.eq_of_testBit_eq
  intro i
  cases i with
  | zero => simp [Nat.testBit_and, Nat.testBit_zero]
  | succ j =>
    rw [Nat.testBit_and]
    simp only [Nat.testBit_succ]
    have h1 : (2 * q) / 2 = q := by omega
    have h2 : (2 * q + 1) / 2 = q := by omega
    rw [h1, h2]
    simp

theorem mul_pow_xor (e a b : Nat) : (2 ^ e * a) ^^^ (2 ^ e * b) = 2 ^ e * (a ^^^ b) := by
  apply Nat.eq_of_testBit_eq
  intro i
  simp only [Nat.testBit_xor, Nat.testBit_mul_pow_two]
  by_cases h : i ≥ e <;> simp [h]

theorem mul_pow_and (e a b : Nat) : (2 ^ e * a) &&& (2 ^ e * b) = 2 ^ e * (a &&& b) := by
  apply Nat.eq_of_testBit_eq
  intro i
  simp only [Nat.testBit_and, Nat.testBit_mul_pow_two]
  by_cases h : i ≥ e <;> simp [h]

/-- Offset of the buddy of a slice that is the lower half of its parent. -/
theorem xor_pow_lower {e y : Nat} (h : 2 ^ (e + 1) ∣ y) : y ^^^ 2 ^ e = y + 2 ^ e := by
  obtain ⟨q, rfl⟩ := h
  have h1 : 2 ^ (e + 1) * q = 2 ^ e * (2 * q) := by rw [pow_succ]; ring
  have h2 : (2 : Nat) ^ e = 2 ^ e * 1 := by ring
  rw [h1]
  nth_rewrite 2 [h2]
  rw [mul_pow_xor, even_xor_one]
  ring

/-- Offset of the buddy of a slice that is the upper half of its parent. -/
theorem xor_pow_upper {e y : Nat} (h : 2 ^ (e + 1) ∣ y) : (y + 2 ^ e) ^^^ 2 ^ e = y := by
  rw [← xor_pow_lower h, Nat.xor_assoc, Nat.xor_self, Nat.xor_zero]

/-- Offset of the parent of a lower half. -/
theorem and_pow_lower {e y : Nat} (h : 2 ^ (e + 1) ∣ y) : y &&& (y ^^^ 2 ^ e) = y := by
  rw [xor_pow_lower h]
  obtain ⟨q, rfl⟩ := h
  have h1 : 2 ^ (e + 1) * q = 2 ^ e * (2 * q) := by rw [pow_succ]; ring
  have h2 : 2 ^ e * (2 * q) + 2 ^ e = 2 ^ e * (2 * q + 1) := by ring
  rw [h1, h2, mul_pow_and, even_and_odd]

/-- Offset of the parent of an upper half. -/
theorem and_pow_upper {e y : Nat} (h : 2 ^ (e + 1) ∣ y) :
    (y + 2 ^ e) &&& ((y + 2 ^ e) ^^^ 2 ^ e) = y := by
  rw [xor_pow_upper h, Nat.and_comm]
  have := and_pow_lower h
  rw [xor_pow_lower h] at this
  exact this

/-- A multiple of `2 ^ e` is the lower or the upper half of a parent of class
`e + 1`. -/
theorem dvd_pow_cases {e y : Nat} (h : 2 ^ e ∣ y) :
    2 ^ (e + 1) ∣ y ∨ (2 ^ e ≤ y ∧ 2 ^ (e + 1) ∣ y - 2 ^ e) := by
  obtain ⟨q, rfl⟩ := h
  rcases Nat.even_or_odd' q with ⟨k, hk | hk⟩
  · left
    refine ⟨k, ?_⟩
    rw [hk, pow_succ]; ring
  · right
    have hpos := two_pow_pos_nat e
    have h1 : 2 ^ e * q = 2 ^ (e + 1) * k + 2 ^ e := by rw [hk, pow_succ]; ring
    constructor
    · rw [h1]; omega
    · refine ⟨k, ?_⟩
      rw [h1]; omega

theorem not_dvd_add_pow {e y : Nat} (h : 2 ^ (e + 1) ∣ y) : ¬ 2 ^ (e + 1) ∣ y + 2 ^ e := by
  intro h2
  have h3 : 2 ^ (e + 1) ∣ 2 ^ e := (Nat.dvd_add_right h).mp h2
  have h4 := Nat.le_of_dvd (two_pow_pos_nat e) h3
  have h5 := two_pow_succ_eq e
  have h6 := two_pow_pos_nat e
  omega

/-- A slot of size `2 ^ k` that starts below `2 ^ E` at a multiple of its size
ends at or below `2 ^ E`. -/
theorem dyadic_fits {k E off : Nat} (hk : k ≤ E) (hd : 2 ^ k ∣ off) (hlt : off < 2 ^ E) :
    off + 2 ^ k ≤ 2 ^ E := by
  obtain ⟨q, rfl⟩ := hd
  obtain ⟨c, hc⟩ : 2 ^ k ∣ 2 ^ E := Nat.pow_dvd_pow 2 hk
  rw [hc] at hlt ⊢
  have hpos := two_pow_pos_nat k
  have hq : q < c := Nat.lt_of_mul_lt_mul_left hlt
  calc 2 ^ k * q + 2 ^ k = 2 ^ k * (q + 1) := by ring
    _ ≤ 2 ^ k * c := Nat.mul_le_mul_left _ hq

/-- Two slots at multiples of their sizes that share a point are nested. -/
theorem dyadic_nested {e k a c x : Nat} (hek : e ≤ k) (ha : 2 ^ e ∣ a) (hc : 2 ^ k ∣ c)
    (hxa : a ≤ x) (hxa2 : x < a + 2 ^ e) (hxc : c ≤ x) (hxc2 : x < c + 2 ^ k) :
    c ≤ a ∧ a + 2 ^ e ≤ c + 2 ^ k := by
  obtain ⟨m, rfl⟩ := ha
  obtain ⟨d, hd⟩ : 2 ^ e ∣ 2 ^ k := Nat.pow_dvd_pow 2 hek
  obtain ⟨n, rfl⟩ := hc
  rw [hd] at hxc hxc2 ⊢
  have hpos := two_pow_pos_nat e
  have h1 : 2 ^ e * d * n = 2 ^ e * (d * n) := by ring
  rw [h1] at hxc hxc2 ⊢
  have h2 : 2 ^ e * (d * n) < 2 ^ e * (m + 1) := by
    have : 2 ^ e * (m + 1) = 2 ^ e * m + 2 ^ e := by ring
    omega
  have h3 : d * n < m + 1 := Nat.lt_of_mul_lt_mul_left h2
  have h4 : 2 ^ e * m < 2 ^ e * (d * n + d) := by
    have : 2 ^ e * (d * n + d) = 2 ^ e * (d * n) + 2 ^ e * d := by ring
    omega
  have h5 : m < d * n + d := Nat.lt_of_mul_lt_mul_left h4
  constructor
  · exact Nat.mul_le_mul_left _ (by omega)
  · calc 2 ^ e * m + 2 ^ e = 2 ^ e * (m + 1) := by ring
      _ ≤ 2 ^ e * (d * n + d) := Nat.mul_le_mul_left _ (by omega)
      _ = 2 ^ e * (d * n) + 2 ^ e * d := by ring

/-! ## `WidthOfSize` -/

theorem and_two_pow_eq_zero {n i : Nat} (h : n < 2 ^ i) : n &&& 2 ^ i = 0 := by
  rw [Nat.and_two_pow, Nat.testBit_lt_two_pow h]
  simp

theorem and_two_pow_ne_zero {n i : Nat} (h1 : 2 ^ i ≤ n) (h2 : n < 2 ^ (i + 1)) :
    n &&& 2 ^ i ≠ 0 := by
  rw [Nat.and_two_pow]
  have hpos := two_pow_pos_nat i
  have hb : n.testBit i = true := by
    rw [Nat.testBit_to_div_mod]
    have hdiv : n / 2 ^ i = 1 := by
      apply Nat.div_eq_of_lt_le
      · simpa using h1
      · rw [two_pow_succ_eq] at h2; omega
    simp [hdiv]
  rw [hb]
  simp

theorem clog_of_between {n i : Nat} (h1 : 2 ^ i < n) (h2 : n ≤ 2 ^ (i + 1)) :
    Nat.clog 2 n = i + 1 := by
  have ha : Nat.clog 2 n ≤ i + 1 := (Nat.le_pow_iff_clog_le (by decide)).mp h2
  have hb : i < Nat.clog 2 n := (Nat.pow_lt_iff_lt_clog (by decide)).mp h1
  omega

theorem WidthOfSizeLoop_eq (k n : Nat) (h0 : 0 < n) (hk : n < 2 ^ k) :
    WidthOfSizeLoop k n = Result.ok (Nat.clog 2 n) := by
  induction k with
  | zero => simp at hk; omega
  | succ i ih =>
    unfold WidthOfSizeLoop
    rw [Nat.one_shiftLeft]
    by_cases hlt : n < 2 ^ i
    · rw [if_neg (by rw [and_two_pow_eq_zero hlt]; simp)]
      exact ih hlt
    · have hge : 2 ^ i ≤ n := by omega
      rw [if_pos (and_two_pow_ne_zero hge hk)]
      by_cases heq : n = 2 ^ i
      · rw [if_pos heq, heq, Nat.clog_pow 2 i (by decide)]
      · rw [if_neg heq, @clog_of_between n i (by omega) (by omega)]

/-- For every nonzero `size_t` value, `WidthOfSize` returns the least `w` with
`n ≤ 2 ^ w`. -/
theorem WidthOfSize_eq {n : Nat} (h0 : 0 < n) (hn : n < WORD) :
    WidthOfSize n = Result.ok (Nat.clog 2 n) := by
  unfold WidthOfSize
  rw [if_neg (by omega)]
  exact WidthOfSizeLoop_eq 64 n h0 hn

theorem le_two_pow_clog (n : Nat) : n ≤ 2 ^ Nat.clog 2 n :=
  (Nat.le_pow_iff_clog_le (by decide)).mpr le_rfl

theorem clog_le_of_le_pow {n k : Nat} (h : n ≤ 2 ^ k) : Nat.clog 2 n ≤ k :=
  (Nat.le_pow_iff_clog_le (by decide)).mp h

theorem lt_clog_of_pow_lt {n k : Nat} (h : 2 ^ k < n) : k < Nat.clog 2 n :=
  (Nat.pow_lt_iff_lt_clog (by decide)).mp h

/-! ## The array of free stacks -/

@[simp] theorem setStack_base (h : SecureHeap) (e : Nat) (s : FreeStack) :
    (h.setStack e s).base_addresses = h.base_addresses := rfl

@[simp] theorem setStack_len (h : SecureHeap) (e : Nat) (s : FreeStack) :
    (h.setStack e s).free_slices.length = h.free_slices.length := by
  simp [SecureHeap.setStack]

theorem getD_set_same {α : Type} (l : List α) (i : Nat) (a d : α) (hi : i < l.length) :
    (l.set i a).getD i d = a := by
  rw [List.getD_eq_getElem?_getD, List.getElem?_set]
  simp [hi]

theorem getD_set_ne {α : Type} (l : List α) (i j : Nat) (a d : α) (hij : i ≠ j) :
    (l.set i a).getD j d = l.getD j d := by
  rw [List.getD_eq_getElem?_getD, List.getD_eq_getElem?_getD, List.getElem?_set]
  simp [hij]

theorem set_getD_self {α : Type} (l : List α) (i : Nat) (d : α) :
    l.set i (l.getD i d) = l := by
  induction l generalizing i with
  | nil => simp
  | cons x xs ih =>
    cases i with
    | zero => simp
    | succ j => simpa [List.getD_eq_getElem?_getD] using ih j

theorem stack_setStack_same (h : SecureHeap) (e : Nat) (s : FreeStack)
    (hi : e - SECURE_HEAP_MIN_EXP < h.free_slices.length) :
    (h.setStack e s).stack e = s := by
  unfold SecureHeap.stack SecureHeap.setStack
  exact getD_set_same _ _ _ _ hi

theorem stack_setStack_ne (h : SecureHeap) (e k : Nat) (s : FreeStack)
    (hne : k - SECURE_HEAP_MIN_EXP ≠ e - SECURE_HEAP_MIN_EXP) :
    (h.setStack k s).stack e = h.stack e := by
  unfold SecureHeap.stack SecureHeap.setStack
  exact getD_set_ne _ _ _ _ _ hne

theorem setStack_self (h : SecureHeap) (e : Nat) : h.setStack e (h.stack e) = h := by
  unfold SecureHeap.stack SecureHeap.setStack
  rw [set_getD_self]

theorem setStack_setStack (h : SecureHeap) (e : Nat) (s t : FreeStack) :
    (h.setStack e s).setStack e t = h.setStack e t := by
  unfold SecureHeap.setStack
  simp [List.set_set]

/-- The stack of class `e` after an assignment to the stack of class `k`, for
classes in range. -/
theorem stack_setStack (h : SecureHeap) (e k : Nat) (s : FreeStack)
    (hlen : h.free_slices.length = SECURE_HEAP_MAX_EXP - SECURE_HEAP_MIN_EXP + 1)
    (hk1 : SECURE_HEAP_MIN_EXP ≤ k) (hk2 : k ≤ SECURE_HEAP_MAX_EXP)
    (he : SECURE_HEAP_MIN_EXP ≤ e) :
    (h.setStack k s).stack e = if e = k then s else h.stack e := by
  by_cases hek : e = k
  · subst hek
    rw [if_pos rfl]
    apply stack_setStack_same
    rw [hlen]
    unfold SECURE_HEAP_MAX_EXP SECURE_HEAP_MIN_EXP at *
    omega
  · rw [if_neg hek]
    apply stack_setStack_ne
    unfold SECURE_HEAP_MIN_EXP at *
    omega

theorem isFree_setStack (h : SecureHeap) (k : Nat) (s : FreeStack)
    (hlen : h.free_slices.length = SECURE_HEAP_MAX_EXP - SECURE_HEAP_MIN_EXP + 1)
    (hk1 : SECURE_HEAP_MIN_EXP ≤ k) (hk2 : k ≤ SECURE_HEAP_MAX_EXP) (B a e : Nat) :
    (h.setStack k s).isFree B a e ↔
      (e = k ∧ (⟨B, a⟩ : BlockAddress) ∈ s) ∨ (e ≠ k ∧ h.isFree B a e) := by
  unfold SecureHeap.isFree
  constructor
  · rintro ⟨h1, h2, h3⟩
    rw [stack_setStack h e k s hlen hk1 hk2 h1] at h3
    by_cases hek : e = k
    · rw [if_pos hek] at h3; exact Or.inl ⟨hek, h3⟩
    · rw [if_neg hek] at h3; exact Or.inr ⟨hek, h1, h2, h3⟩
  · rintro (⟨hek, hm⟩ | ⟨hek, h1, h2, h3⟩)
    · subst hek
      refine ⟨hk1, hk2, ?_⟩
      rw [stack_setStack h e e s hlen hk1 hk2 hk1, if_pos rfl]; exact hm
    · refine ⟨h1, h2, ?_⟩
      rw [stack_setStack h e k s hlen hk1 hk2 h1, if_neg hek]; exact h3

/-! ## `FreeStack` -/

theorem Pop_nil : FreeStack.Pop [] = (BlockAddress.empty, []) := rfl

theorem Pop_concat (S : FreeStack) (t : BlockAddress) :
    FreeStack.Pop (S ++ [t]) = (t, S) := by
  unfold FreeStack.Pop
  rw [List.getLast?_concat, List.dropLast_concat]

theorem filter_length_eq_iff (s : FreeStack) (a : BlockAddress) :
    (s.filter (fun x => x != a)).length = s.length ↔ a ∉ s := by
  induction s with
  | nil => simp
  | cons x xs ih =>
    by_cases hx : x = a
    · subst hx
      simp
      have := List.length_filter_le (fun y => y != x) xs
      omega
    · have hx2 : (x != a) = true := by simpa using hx
      simp only [List.filter_cons, hx2, if_true, List.length_cons, List.mem_cons, not_or]
      constructor
      · intro hl
        exact ⟨fun h => hx h.symm, ih.mp (by omega)⟩
      · rintro ⟨_, hn⟩
        have := ih.mpr hn
        omega

theorem Remove_of_mem {s : FreeStack} {a : BlockAddress} (h : a ∈ s) :
    s.Remove a = (true, s.filter (fun x => x != a)) := by
  unfold FreeStack.Remove
  have : ¬ (s.filter (fun x => x != a)).length = s.length := by
    rw [filter_length_eq_iff]; simpa using h
  simp only [this, if_false]

theorem Remove_of_not_mem {s : FreeStack} {a : BlockAddress} (h : a ∉ s) :
    s.Remove a = (false, s) := by
  unfold FreeStack.Remove
  have : (s.filter (fun x => x != a)).length = s.length := by
    rw [filter_length_eq_iff]; exact h
  simp only [this, if_true]

theorem filter_ne_length_of_nodup {s : FreeStack} {a : BlockAddress} (hn : s.Nodup)
    (h : a ∈ s) : (s.filter (fun x => x != a)).length + 1 = s.length := by
  induction s with
  | nil => simp at h
  | cons x xs ih =>
    rw [List.nodup_cons] at hn
    by_cases hx : x = a
    · subst hx
      have h1 : (List.filter (fun y => y != x) xs) = xs := by
        rw [List.filter_eq_self]
        intro y hy
        have : y ≠ x := fun e => hn.1 (e ▸ hy)
        simpa using this
      simp [h1]
    · have hx2 : (x != a) = true := by simpa using hx
      simp only [List.filter_cons, hx2, if_true]
      have hmem : a ∈ xs := by
        rcases List.mem_cons.mp h with e | e
        · exact absurd e.symm hx
        · exact e
      have := ih hn.2 hmem
      simp only [List.length_cons]
      omega

theorem mem_filter_ne (s : FreeStack) (a x : BlockAddress) :
    x ∈ s.filter (fun y => y != a) ↔ x ∈ s ∧ x ≠ a := by
  rw [List.mem_filter]
  simp

/-! ## Bytes on the stacks -/

theorem stackSum_set (fs : List FreeStack) (e i : Nat) (s : FreeStack) (hi : i < fs.length) :
    stackSum e (fs.set i s) + (fs.getD i []).length * 2 ^ (e + i) =
      stackSum e fs + s.length * 2 ^ (e + i) := by
  induction fs generalizing e i with
  | nil => simp at hi
  | cons x xs ih =>
    cases i with
    | zero =>
      simp [stackSum]
      omega
    | succ j =>
      simp only [List.set_cons_succ, stackSum, List.getD_cons_succ]
      have hj : j < xs.length := by simpa using hi
      have := ih (e + 1) j hj
      have he : e + 1 + j = e + (j + 1) := by omega
      rw [he] at this
      omega

theorem stackSum_setStack (h : SecureHeap) (k : Nat) (s : FreeStack)
    (hlen : h.free_slices.length = SECURE_HEAP_MAX_EXP - SECURE_HEAP_MIN_EXP + 1)
    (hk1 : SECURE_HEAP_MIN_EXP ≤ k) (hk2 : k ≤ SECURE_HEAP_MAX_EXP) :
    stackSum SECURE_HEAP_MIN_EXP (h.setStack k s).free_slices + (h.stack k).length * 2 ^ k =
      stackSum SECURE_HEAP_MIN_EXP h.free_slices + s.length * 2 ^ k := by
  have hi : k - SECURE_HEAP_MIN_EXP < h.free_slices.length := by
    rw [hlen]; unfold SECURE_HEAP_MAX_EXP SECURE_HEAP_MIN_EXP at *; omega
  have := stackSum_set h.free_slices SECURE_HEAP_MIN_EXP (k - SECURE_HEAP_MIN_EXP) s hi
  have hk : SECURE_HEAP_MIN_EXP + (k - SECURE_HEAP_MIN_EXP) = k := by omega
  rw [hk] at this
  exact this

/-! ## The map of blocks -/

theorem block_end_pos (b : Block) : b.base_address < b.base_address + 2 ^ b.own_exponent := by
  have := two_pow_pos_nat b.own_exponent
  omega

theorem mem_mapInsert_fresh (m : List Block) (blk b : Block)
    (hfresh : ∀ x ∈ m, x.base_address ≠ blk.base_address) :
    b ∈ mapInsert m blk ↔ b = blk ∨ b ∈ m := by
  induction m with
  | nil => simp [mapInsert]
  | cons x xs ih =>
    have hx : x.base_address ≠ blk.base_address := hfresh x (List.mem_cons_self _ _)
    have ih2 := ih (fun y hy => hfresh y (List.mem_cons_of_mem _ hy))
    unfold mapInsert
    by_cases h1 : blk.base_address < x.base_address
    · rw [if_pos h1]; simp
    · rw [if_neg h1, if_neg (fun e => hx e.symm)]
      simp only [List.mem_cons, ih2]
      tauto

theorem pairwise_mapInsert (m : List Block) (blk : Block)
    (hs : m.Pairwise (fun x y => x.base_address + 2 ^ x.own_exponent ≤ y.base_address))
    (hd : ∀ b ∈ m, blk.base_address + 2 ^ blk.own_exponent ≤ b.base_address ∨
      b.base_address + 2 ^ b.own_exponent ≤ blk.base_address) :
    (mapInsert m blk).Pairwise
      (fun x y => x.base_address + 2 ^ x.own_exponent ≤ y.base_address) := by
  induction m with
  | nil => simp [mapInsert]
  | cons x xs ih =>
    rw [List.pairwise_cons] at hs
    have hdx := hd x (List.mem_cons_self _ _)
    have hbx := block_end_pos x
    have hbb := block_end_pos blk
    have ih2 := ih hs.2 (fun y hy => hd y (List.mem_cons_of_mem _ hy))
    unfold mapInsert
    by_cases h1 : blk.base_address < x.base_address
    · rw [if_pos h1, List.pairwise_cons]
      refine ⟨?_, List.pairwise_cons.mpr hs⟩
      intro y hy
      rcases List.mem_cons.mp hy with rfl | hy
      · omega
      · have := hs.1 y hy
        have := hd y (List.mem_cons_of_mem _ hy)
        have := block_end_pos y
        omega
    · rw [if_neg h1, if_neg (by omega), List.pairwise_cons]
      refine ⟨?_, ih2⟩
      intro y hy
      have hfresh : ∀ z ∈ xs, z.base_address ≠ blk.base_address := by
        intro z hz
        have := hd z (List.mem_cons_of_mem _ hz)
        have := block_end_pos z
        omega
      rcases (mem_mapInsert_fresh xs blk y hfresh).mp hy with rfl | hy
      · omega
      · exact hs.1 y hy

theorem blockSum_mapInsert_fresh (m : List Block) (blk : Block)
    (hfresh : ∀ x ∈ m, x.base_address ≠ blk.base_address) :
    blockSum (mapInsert m blk) = blockSum m + 2 ^ blk.own_exponent := by
  induction m with
  | nil => simp [mapInsert, blockSum]
  | cons x xs ih =>
    have hx : x.base_address ≠ blk.base_address := hfresh x (List.mem_cons_self _ _)
    have ih2 := ih (fun y hy => hfresh y (List.mem_cons_of_mem _ hy))
    unfold mapInsert
    by_cases h1 : blk.base_address < x.base_address
    · rw [if_pos h1]; simp [blockSum]; omega
    · rw [if_neg h1, if_neg (fun e => hx e.symm)]
      simp only [blockSum, List.map_cons, List.sum_cons] at ih2 ⊢
      omega

theorem mem_mapErase (m : List Block) (B : Nat) (b : Block) :
    b ∈ mapErase m B ↔ b ∈ m ∧ b.base_address ≠ B := by
  unfold mapErase
  rw [List.mem_filter]
  simp

theorem pairwise_mapErase (m : List Block) (B : Nat)
    (hs : m.Pairwise (fun x y => x.base_address + 2 ^ x.own_exponent ≤ y.base_address)) :
    (mapErase m B).Pairwise
      (fun x y => x.base_address + 2 ^ x.own_exponent ≤ y.base_address) :=
  List.Pairwise.filter _ hs

/-- Keys of the map are unique. -/
theorem block_unique {m : List Block}
    (hs : m.Pairwise (fun x y => x.base_address + 2 ^ x.own_exponent ≤ y.base_address))
    {x y : Block} (hx : x ∈ m) (hy : y ∈ m) (hxy : x.base_address = y.base_address) :
    x = y := by
  induction m with
  | nil => simp at hx
  | cons z zs ih =>
    rw [List.pairwise_cons] at hs
    have hbx := block_end_pos x
    have hby := block_end_pos y
    rcases List.mem_cons.mp hx with hxz | hx1 <;> rcases List.mem_cons.mp hy with hyz | hy1
    · rw [hxz, hyz]
    · have := hs.1 y hy1; rw [hxz] at hxy hbx; omega
    · have := hs.1 x hx1; rw [hyz] at hxy hby; omega
    · exact ih hs.2 hx1 hy1

theorem blockSum_mapErase (m : List Block) (b : Block)
    (hs : m.Pairwise (fun x y => x.base_address + 2 ^ x.own_exponent ≤ y.base_address))
    (hb : b ∈ m) :
    blockSum (mapErase m b.base_address) + 2 ^ b.own_exponent = blockSum m := by
  induction m with
  | nil => simp at hb
  | cons z zs ih =>
    have hs2 := List.pairwise_cons.mp hs
    unfold mapErase
    by_cases hz : z.base_address = b.base_address
    · have hzb : z = b := block_unique hs (List.mem_cons_self _ _) hb hz
      subst hzb
      have hrest : List.filter (fun x => x.base_address != z.base_address) zs = zs := by
        rw [List.filter_eq_self]
        intro y hy
        have := hs2.1 y hy
        have := block_end_pos z
        have : y.base_address ≠ z.base_address := by omega
        simpa using this
      simp [blockSum, hrest]
      omega
    · have hmem : b ∈ zs := by
        rcases List.mem_cons.mp hb with rfl | h
        · exact absurd rfl hz
        · exact h
      have hz2 : (z.base_address != b.base_address) = true := by simpa using hz
      have := ih hs2.2 hmem
      unfold mapErase at this
      simp only [List.filter_cons, hz2, if_true, blockSum, List.map_cons, List.sum_cons] at this ⊢
      omega

@[simp] theorem updateBlock_free_slices (h : SecureHeap) (B : Nat) (f : Block → Block) :
    (h.updateBlock B f).free_slices = h.free_slices := rfl

@[simp] theorem updateBlock_stack (h : SecureHeap) (B : Nat) (f : Block → Block) (e : Nat) :
    (h.updateBlock B f).stack e = h.stack e := rfl

theorem mem_updateBlock (h : SecureHeap) (B : Nat) (f : Block → Block) (b1 : Block) :
    b1 ∈ (h.updateBlock B f).base_addresses ↔
      ∃ b ∈ h.base_addresses, b1 = if b.base_address = B then f b else b := by
  unfold SecureHeap.updateBlock
  simp only [List.mem_map]
  constructor
  · rintro ⟨b, hb, rfl⟩; exact ⟨b, hb, rfl⟩
  · rintro ⟨b, hb, rfl⟩; exact ⟨b, hb, rfl⟩

theorem pairwise_updateBlock (h : SecureHeap) (B : Nat) (f : Block → Block)
    (hf1 : ∀ b, (f b).base_address = b.base_address)
    (hf2 : ∀ b, (f b).own_exponent = b.own_exponent)
    (hs : h.base_addresses.Pairwise
      (fun x y => x.base_address + 2 ^ x.own_exponent ≤ y.base_address)) :
    (h.updateBlock B f).base_addresses.Pairwise
      (fun x y => x.base_address + 2 ^ x.own_exponent ≤ y.base_address) := by
  unfold SecureHeap.updateBlock
  apply List.Pairwise.map _ _ hs
  intro a b hab
  by_cases ha : a.base_address = B <;> by_cases hb : b.base_address = B <;>
    simp only [ha, hb, if_true, if_false, hf1, hf2] <;> omega

theorem blockSum_updateBlock (h : SecureHeap) (B : Nat) (f : Block → Block)
    (hf2 : ∀ b, (f b).own_exponent = b.own_exponent) :
    blockSum (h.updateBlock B f).base_addresses = blockSum h.base_addresses := by
  unfold SecureHeap.updateBlock blockSum
  simp only [List.map_map]
  congr 1
  apply List.map_congr_left
  intro b _
  by_cases hb : b.base_address = B <;> simp [hb, hf2]

theorem findBlock_of_mem {h : SecureHeap}
    (hs : h.base_addresses.Pairwise
      (fun x y => x.base_address + 2 ^ x.own_exponent ≤ y.base_address))
    {b : Block} (hb : b ∈ h.base_addresses) : h.findBlock b.base_address = some b := by
  unfold SecureHeap.findBlock
  generalize h.base_addresses = m at hs hb
  induction m with
  | nil => simp at hb
  | cons z zs ih =>
    by_cases hz : z.base_address = b.base_address
    · have hzb : z = b := block_unique hs (List.mem_cons_self _ _) hb hz
      subst hzb
      simp
    · have hmem : b ∈ zs := by
        rcases List.mem_cons.mp hb with rfl | h
        · exact absurd rfl hz
        · exact h
      have hz2 : (z.base_address == b.base_address) = false := by simpa using hz
      rw [List.find?_cons, hz2]
      exact ih (List.pairwise_cons.mp hs).2 hmem

theorem findBlock_some {h : SecureHeap} {B : Nat} {b : Block} (hf : h.findBlock B = some b) :
    b ∈ h.base_addresses ∧ b.base_address = B := by
  unfold SecureHeap.findBlock at hf
  constructor
  · exact List.mem_of_find?_eq_some hf
  · have := List.find?_some hf
    simpa using this

/-- The predecessor search of `GetBlockAddress` finds the block that holds the
pointer. -/
theorem upper_bound_of_mem {m : List Block}
    (hs : m.Pairwise (fun x y => x.base_address + 2 ^ x.own_exponent ≤ y.base_address))
    {b : Block} (hb : b ∈ m) {ptr : Nat} (h1 : b.base_address ≤ ptr)
    (h2 : ptr < b.base_address + 2 ^ b.own_exponent) :
    upper_bound m ptr ≠ 0 ∧ m[upper_bound m ptr - 1]? = some b := by
  induction m with
  | nil => simp at hb
  | cons x xs ih =>
    have hs2 := List.pairwise_cons.mp hs
    unfold upper_bound
    rw [List.findIdx_cons]
    have hx : ¬ ptr < x.base_address := by
      intro hlt
      rcases List.mem_cons.mp hb with rfl | hb2
      · omega
      · have := hs2.1 b hb2
        have := block_end_pos x
        omega
    have hx2 : decide (ptr < x.base_address) = false := by simpa using hx
    rw [hx2]
    simp only [cond_false, Nat.add_sub_cancel]
    refine ⟨by omega, ?_⟩
    rcases List.mem_cons.mp hb with rfl | hb2
    · have h0 : List.findIdx (fun b => decide (ptr < b.base_address)) xs = 0 := by
        cases xs with
        | nil => rfl
        | cons y ys =>
          rw [List.findIdx_cons]
          have := hs2.1 y (List.mem_cons_self _ _)
          have hy : decide (ptr < y.base_address) = true := by
            simp only [decide_eq_true_eq]; omega
          rw [hy]; rfl
      rw [h0]; simp
    · obtain ⟨hne, hget⟩ := ih hs2.2 hb2
      unfold upper_bound at hne hget
      have : List.findIdx (fun b => decide (ptr < b.base_address)) xs =
          (List.findIdx (fun b => decide (ptr < b.base_address)) xs - 1) + 1 := by omega
      rw [this, List.getElem?_cons_succ]
      exact hget

theorem upper_bound_le_length (m : List Block) (ptr : Nat) : upper_bound m ptr ≤ m.length := by
  unfold upper_bound
  exact List.findIdx_le_length _

/-! ## Table entries -/

theorem GetOffsetInUnits_eq {B p : Nat} (h1 : B ≤ p) (h2 : p < WORD) :
    GetOffsetInUnits B p = (p - B) / 2 ^ SECURE_HEAP_MIN_EXP := by
  unfold GetOffsetInUnits
  rw [wsub_eq h1 h2, Nat.shiftRight_eq_div_pow]

theorem unit_index_lt {B p E : Nat} (h1 : B ≤ p) (h2 : p < B + 2 ^ E)
    (hE : SECURE_HEAP_MIN_EXP ≤ E) :
    (p - B) / 2 ^ SECURE_HEAP_MIN_EXP < 2 ^ (E - SECURE_HEAP_MIN_EXP) := by
  rw [Nat.div_lt_iff_lt_mul (two_pow_pos_nat _), ← pow_add]
  have : E - SECURE_HEAP_MIN_EXP + SECURE_HEAP_MIN_EXP = E := by omega
  rw [this]
  omega

theorem unit_index_inj {B p a : Nat} (h1 : B ≤ p) (h2 : B ≤ a)
    (hp : 2 ^ SECURE_HEAP_MIN_EXP ∣ p - B) (ha : 2 ^ SECURE_HEAP_MIN_EXP ∣ a - B)
    (he : (a - B) / 2 ^ SECURE_HEAP_MIN_EXP = (p - B) / 2 ^ SECURE_HEAP_MIN_EXP) : a = p := by
  have e1 := Nat.div_mul_cancel hp
  have e2 := Nat.div_mul_cancel ha
  rw [he] at e2
  omega

/-! ## How the updates change the slices -/

theorem isLive_setStack (h : SecureHeap) (k : Nat) (s : FreeStack) (B a e : Nat) :
    (h.setStack k s).isLive B a e ↔ h.isLive B a e := Iff.rfl

theorem isFree_updateBlock (h : SecureHeap) (B0 : Nat) (f : Block → Block) (B a e : Nat) :
    (h.updateBlock B0 f).isFree B a e ↔ h.isFree B a e := Iff.rfl

theorem SetAllocationSize_base (b : Block) (p v : Nat) :
    (b.SetAllocationSize p v).base_address = b.base_address := rfl

theorem SetAllocationSize_exp (b : Block) (p v : Nat) :
    (b.SetAllocationSize p v).own_exponent = b.own_exponent := rfl

theorem SetAllocationSize_length (b : Block) (p v : Nat) :
    (b.SetAllocationSize p v).alloc_sizes.length = b.alloc_sizes.length := by
  simp [Block.SetAllocationSize]

/-- The live slices after a write of `v` to the table entry of `p`. -/
theorem isLive_updateBlock_set {h : SecureHeap}
    (hs : h.base_addresses.Pairwise
      (fun x y => x.base_address + 2 ^ x.own_exponent ≤ y.base_address))
    {b : Block} (hb : b ∈ h.base_addresses) {p : Nat} (v : Nat)
    (h1 : b.base_address ≤ p) (h2 : p < b.base_address + 2 ^ b.own_exponent)
    (hp : 2 ^ SECURE_HEAP_MIN_EXP ∣ p - b.base_address)
    (hlen : b.alloc_sizes.length = 2 ^ (b.own_exponent - SECURE_HEAP_MIN_EXP))
    (hE : SECURE_HEAP_MIN_EXP ≤ b.own_exponent) (hW : p < WORD) (B a e : Nat) :
    (h.updateBlock b.base_address (fun x => x.SetAllocationSize p v)).isLive B a e ↔
      (B = b.base_address ∧ a = p ∧ v = e ∧ e ≠ 0) ∨
      (¬ (B = b.base_address ∧ a = p) ∧ h.isLive B a e) := by
  have hidx : (p - b.base_address) / 2 ^ SECURE_HEAP_MIN_EXP < b.alloc_sizes.length := by
    rw [hlen]; exact unit_index_lt h1 h2 hE
  have hoff := GetOffsetInUnits_eq h1 hW
  unfold SecureHeap.isLive
  constructor
  · rintro ⟨b1, hb1, hB, ha1, ha2, ha3, hget, he⟩
    obtain ⟨x, hx, rfl⟩ := (mem_updateBlock _ _ _ _).mp hb1
    by_cases hxb : x.base_address = b.base_address
    · have hxeq : x = b := block_unique hs hx hb hxb
      subst hxeq
      rw [if_pos rfl] at hB ha2 hget
      rw [SetAllocationSize_base] at hB
      rw [SetAllocationSize_exp] at ha2
      subst hB
      by_cases hap : a = p
      · subst hap
        left
        refine ⟨rfl, rfl, ?_, he⟩
        simp only [Block.SetAllocationSize] at hget
        rw [hoff, getD_set_same _ _ _ _ hidx] at hget
        exact hget
      · right
        refine ⟨fun hh => hap hh.2, x, hx, rfl, ha1, ha2, ha3, ?_, he⟩
        simp only [Block.SetAllocationSize] at hget
        rw [hoff, getD_set_ne] at hget
        · exact hget
        · intro heq
          exact hap (unit_index_inj h1 ha1 hp ha3 heq.symm)
    · rw [if_neg hxb] at hB ha2 hget
      right
      refine ⟨fun hh => hxb (hB.trans hh.1), x, hx, hB, ha1, ha2, ha3, hget, he⟩
  · rintro (⟨rfl, rfl, rfl, he⟩ | ⟨hne, x, hx, hB, ha1, ha2, ha3, hget, he⟩)
    · refine ⟨b.SetAllocationSize a v, ?_, rfl, h1, h2, hp, ?_, he⟩
      · exact (mem_updateBlock _ _ _ _).mpr ⟨b, hb, by rw [if_pos rfl]⟩
      · simp only [Block.SetAllocationSize]
        rw [hoff, getD_set_same _ _ _ _ hidx]
    · by_cases hxb : x.base_address = b.base_address
      · have hxeq : x = b := block_unique hs hx hb hxb
        subst hxeq
        have hap : a ≠ p := fun hh => hne ⟨hB.symm, hh⟩
        refine ⟨x.SetAllocationSize p v, ?_, hB, ha1, ha2, ha3, ?_, he⟩
        · exact (mem_updateBlock _ _ _ _).mpr ⟨x, hx, by rw [if_pos rfl]⟩
        · simp only [Block.SetAllocationSize]
          rw [hoff, getD_set_ne]
          · exact hget
          · intro heq
            subst hB
            exact hap (unit_index_inj h1 ha1 hp ha3 heq.symm)
      · refine ⟨x, ?_, hB, ha1, ha2, ha3, hget, he⟩
        exact (mem_updateBlock _ _ _ _).mpr ⟨x, hx, by rw [if_neg hxb]⟩

theorem getD_replicate_zero (n i : Nat) : (List.replicate n 0).getD i 0 = 0 := by
  rw [List.getD_eq_getElem?_getD, List.getElem?_replicate]
  by_cases h : i < n <;> simp [h]

/-- A block whose table is all zero adds no live slice. -/
theorem isLive_insert_fresh (h : SecureHeap) (blk : Block)
    (hfresh : ∀ x ∈ h.base_addresses, x.base_address ≠ blk.base_address)
    (hz : ∃ n, blk.alloc_sizes = List.replicate n 0) (B a e : Nat) :
    SecureHeap.isLive { h with base_addresses := mapInsert h.base_addresses blk } B a e ↔
      h.isLive B a e := by
  unfold SecureHeap.isLive
  constructor
  · rintro ⟨b1, hb1, hB, ha1, ha2, ha3, hget, he⟩
    rcases (mem_mapInsert_fresh _ _ _ hfresh).mp hb1 with rfl | hb1
    · obtain ⟨n, hn⟩ := hz
      rw [hn, getD_replicate_zero] at hget
      exact absurd hget.symm he
    · exact ⟨b1, hb1, hB, ha1, ha2, ha3, hget, he⟩
  · rintro ⟨b1, hb1, hrest⟩
    exact ⟨b1, (mem_mapInsert_fresh _ _ _ hfresh).mpr (Or.inr hb1), hrest⟩

theorem isLive_erase (h : SecureHeap) (B0 : Nat) (B a e : Nat) :
    SecureHeap.isLive { h with base_addresses := mapErase h.base_addresses B0 } B a e ↔
      h.isLive B a e ∧ B ≠ B0 := by
  unfold SecureHeap.isLive
  constructor
  · rintro ⟨b1, hb1, hB, hrest⟩
    obtain ⟨hm, hne⟩ := (mem_mapErase _ _ _).mp hb1
    exact ⟨⟨b1, hm, hB, hrest⟩, fun e => hne (hB.trans e)⟩
  · rintro ⟨⟨b1, hb1, hB, hrest⟩, hne⟩
    exact ⟨b1, (mem_mapErase _ _ _).mpr ⟨hb1, fun e => hne (hB.symm.trans e)⟩, hB, hrest⟩

/-! ## Replacing slices by slices that fill the same bytes -/

theorem uniq_replace {O O1 : Slice → Prop} (R N : Slice → Prop)
    (hO : ∀ s t x, O s → O t → s.has x → t.has x → s = t)
    (hsub : ∀ s, O1 s → (O s ∧ ¬ R s) ∨ N s)
    (hN : ∀ s t x, N s → N t → s.has x → t.has x → s = t)
    (hdisj : ∀ n s x, N n → O s → ¬ R s → n.has x → s.has x → False) :
    ∀ s t x, O1 s → O1 t → s.has x → t.has x → s = t := by
  intro s t x hs ht hsx htx
  rcases hsub s hs with ⟨hs1, hs2⟩ | hs1 <;> rcases hsub t ht with ⟨ht1, ht2⟩ | ht1
  · exact hO s t x hs1 ht1 hsx htx
  · exact (hdisj t s x ht1 hs1 hs2 htx hsx).elim
  · exact (hdisj s t x hs1 ht1 ht2 hsx htx).elim
  · exact hN s t x hs1 ht1 hsx htx

/-- New slices that lie inside removed slices meet no slice that stays. -/
theorem disj_of_inside {O : Slice → Prop} (R N : Slice → Prop)
    (hO : ∀ s t x, O s → O t → s.has x → t.has x → s = t)
    (hin : ∀ n x, N n → n.has x → ∃ r, O r ∧ R r ∧ r.has x) :
    ∀ n s x, N n → O s → ¬ R s → n.has x → s.has x → False := by
  intro n s x hn hs hsR hnx hsx
  obtain ⟨r, hr1, hr2, hr3⟩ := hin n x hn hnx
  have := hO s r x hs hr1 hsx hr3
  subst this
  exact hsR hr2

theorem cover_replace {O O1 : Slice → Prop} (R : Slice → Prop) {B lo hi : Nat}
    (hkeep : ∀ s, O s → ¬ R s → O1 s)
    (hfill : ∀ r x, O r → R r → r.block = B → r.has x → ∃ n, O1 n ∧ n.block = B ∧ n.has x)
    (hO : ∀ x, lo ≤ x → x < hi → ∃ s, O s ∧ s.block = B ∧ s.has x) :
    ∀ x, lo ≤ x → x < hi → ∃ s, O1 s ∧ s.block = B ∧ s.has x := by
  intro x h1 h2
  obtain ⟨s, hs, hsB, hsx⟩ := hO x h1 h2
  by_cases hR : R s
  · exact hfill s x hs hR hsB hsx
  · exact ⟨s, hkeep s hs hR, hsB, hsx⟩

/-! ## Steps of `Alloc` and `Free` keep the invariant -/

@[simp] theorem Slices_free (h : SecureHeap) (pend : Option (Nat × Nat × Nat)) (B a e : Nat) :
    Slices h pend ⟨SliceKind.free, B, a, e⟩ ↔ h.isFree B a e := by
  simp [Slices]

@[simp] theorem Slices_live (h : SecureHeap) (pend : Option (Nat × Nat × Nat)) (B a e : Nat) :
    Slices h pend ⟨SliceKind.live, B, a, e⟩ ↔ h.isLive B a e := by
  simp [Slices]

@[simp] theorem Slices_pending (h : SecureHeap) (pend : Option (Nat × Nat × Nat))
    (B a e : Nat) :
    Slices h pend ⟨SliceKind.pending, B, a, e⟩ ↔ pend = some (B, a, e) := by
  simp [Slices]

theorem stack_setStack_cases (h : SecureHeap) (k e : Nat) (s : FreeStack) :
    (h.setStack k s).stack e = s ∨ (h.setStack k s).stack e = h.stack e := by
  by_cases hne : k - SECURE_HEAP_MIN_EXP = e - SECURE_HEAP_MIN_EXP
  · by_cases hi : k - SECURE_HEAP_MIN_EXP < h.free_slices.length
    · left
      unfold SecureHeap.stack SecureHeap.setStack
      rw [← hne]
      exact getD_set_same _ _ _ _ hi
    · right
      unfold SecureHeap.stack SecureHeap.setStack
      rw [List.set_eq_of_length_le (by omega)]
  · right
    exact stack_setStack_ne h e k s hne

theorem Fits.mono {b : Block} {a e : Nat} (hf : Fits b a e) :
    b.base_address ≤ a ∧ a < b.base_address + 2 ^ b.own_exponent := by
  have := two_pow_pos_nat e
  unfold Fits at hf
  omega

/-- Popping the top of a free stack makes it the slice in progress. -/
theorem InvP.pop {h : SecureHeap} {L : List (Nat × Nat)} (inv : InvP h L none) {k : Nat}
    (hk1 : SECURE_HEAP_MIN_EXP ≤ k) (hk2 : k ≤ SECURE_HEAP_MAX_EXP) {S : FreeStack}
    {t : BlockAddress} (hst : h.stack k = S ++ [t]) :
    InvP (h.setStack k S) L (some (t.block, t.address, k)) := by
  have hnd : (S ++ [t]).Nodup := hst ▸ inv.nodup k
  have htS : t ∉ S := by
    intro hm
    have := (List.nodup_append.mp hnd).2.2
    exact this hm (List.mem_singleton_self t)
  have hSnd : S.Nodup := (List.nodup_append.mp hnd).1
  have htfree : h.isFree t.block t.address k :=
    ⟨hk1, hk2, by rw [hst]; simp⟩
  have hfree : ∀ B a e, (h.setStack k S).isFree B a e →
      h.isFree B a e ∧ ¬ (B = t.block ∧ a = t.address ∧ e = k) := by
    intro B a e hf
    rcases (isFree_setStack h k S inv.len hk1 hk2 B a e).mp hf with ⟨rfl, hm⟩ | ⟨hne, hf2⟩
    · refine ⟨⟨hk1, hk2, by rw [hst]; exact List.mem_append_left _ hm⟩, ?_⟩
      rintro ⟨rfl, rfl, _⟩
      exact htS hm
    · exact ⟨hf2, fun hh => hne hh.2.2⟩
  have hfree2 : ∀ B a e, h.isFree B a e → ¬ (B = t.block ∧ a = t.address ∧ e = k) →
      (h.setStack k S).isFree B a e := by
    intro B a e hf hne
    rw [isFree_setStack h k S inv.len hk1 hk2]
    by_cases hek : e = k
    · left
      subst hek
      refine ⟨rfl, ?_⟩
      have hm := hf.2.2
      rw [hst] at hm
      rcases List.mem_append.mp hm with hm | hm
      · exact hm
      · exfalso
        apply hne
        have := List.mem_singleton.mp hm
        rw [← this]
        exact ⟨rfl, rfl, rfl⟩
    · exact Or.inr ⟨hek, hf⟩
  refine
    { len := by rw [setStack_len]; exact inv.len
      sorted := inv.sorted
      blk_ok := inv.blk_ok
      nodup := ?_
      free_ok := fun B a e hf => inv.free_ok B a e (hfree B a e hf).1
      live_ok := inv.live_ok
      pend_ok := ?_
      uniq := ?_
      cover := ?_
      nobuddy := fun B P e hd hf1 hf2 =>
        inv.nobuddy B P e hd (hfree B P e hf1).1 (hfree _ _ _ hf2).1
      ghost_in := inv.ghost_in
      ghost_out := inv.ghost_out
      ghost_nodup := inv.ghost_nodup
      sum := ?_ }
  · intro e
    rcases stack_setStack_cases h k e S with h1 | h1 <;> rw [h1]
    · exact hSnd
    · exact inv.nodup e
  · intro B a e hp
    simp only [Option.some.injEq, Prod.mk.injEq] at hp
    obtain ⟨rfl, rfl, rfl⟩ := hp
    obtain ⟨b, hb, hB, hlt, hfit⟩ := inv.free_ok _ _ _ htfree
    exact ⟨b, hb, hB, hk1, by omega, hfit⟩
  · apply uniq_replace (fun s => s = ⟨SliceKind.free, t.block, t.address, k⟩)
      (fun s => s = ⟨SliceKind.pending, t.block, t.address, k⟩) inv.uniq
    · rintro ⟨kd, B, a, e⟩ hs
      cases kd with
      | free =>
        left
        rw [Slices_free] at hs ⊢
        refine ⟨(hfree B a e hs).1, ?_⟩
        intro heq
        simp only [Slice.mk.injEq, true_and] at heq
        exact (hfree B a e hs).2 heq
      | live =>
        left
        rw [Slices_live] at hs ⊢
        exact ⟨hs, by simp⟩
      | pending =>
        right
        rw [Slices_pending] at hs
        simp only [Option.some.injEq, Prod.mk.injEq] at hs
        obtain ⟨rfl, rfl, rfl⟩ := hs
        rfl
    · intro s u x hs hu _ _
      rw [hs, hu]
    · apply disj_of_inside _ _ inv.uniq
      intro n x hn hx
      refine ⟨⟨SliceKind.free, t.block, t.address, k⟩, ?_, rfl, ?_⟩
      · rw [Slices_free]; exact htfree
      · rw [hn] at hx; exact hx
  · intro b hb
    apply cover_replace (fun s => s = ⟨SliceKind.free, t.block, t.address, k⟩) _ _
      (inv.cover b hb)
    · rintro ⟨kd, B, a, e⟩ hs hR
      cases kd with
      | free =>
        rw [Slices_free] at hs ⊢
        apply hfree2 B a e hs
        intro hh
        apply hR
        obtain ⟨rfl, rfl, rfl⟩ := hh
        rfl
      | live => rw [Slices_live] at hs ⊢; exact hs
      | pending => rw [Slices_pending] at hs; simp at hs
    · intro r x _ hR hrB hx
      refine ⟨⟨SliceKind.pending, t.block, t.address, k⟩, ?_, ?_, ?_⟩
      · rw [Slices_pending]
      · rw [hR] at hrB; exact hrB
      · rw [hR] at hx; exact hx
  · have h1 := stackSum_setStack h k S inv.len hk1 hk2
    have h2 := inv.sum
    rw [hst] at h1
    simp only [List.length_append, List.length_singleton, pendSize, setStack_base] at h1 h2 ⊢
    have : (S.length + 1) * 2 ^ k = S.length * 2 ^ k + 2 ^ k := by ring
    omega

/-- No free slice shares a byte with the slice in progress. -/
theorem InvP.free_not_pending {h : SecureHeap} {L : List (Nat × Nat)} {B A k : Nat}
    (inv : InvP h L (some (B, A, k))) {B1 a e x : Nat} (hf : h.isFree B1 a e)
    (h1 : a ≤ x) (h2 : x < a + 2 ^ e) (h3 : A ≤ x) (h4 : x < A + 2 ^ k) : False := by
  have := inv.uniq ⟨SliceKind.free, B1, a, e⟩ ⟨SliceKind.pending, B, A, k⟩ x
    (by rw [Slices_free]; exact hf) (by rw [Slices_pending]) ⟨h1, h2⟩ ⟨h3, h4⟩
  simp at this

/-- No live slice shares a byte with the slice in progress. -/
theorem InvP.live_not_pending {h : SecureHeap} {L : List (Nat × Nat)} {B A k : Nat}
    (inv : InvP h L (some (B, A, k))) {B1 a e x : Nat} (hf : h.isLive B1 a e)
    (h1 : a ≤ x) (h2 : x < a + 2 ^ e) (h3 : A ≤ x) (h4 : x < A + 2 ^ k) : False := by
  have := inv.uniq ⟨SliceKind.live, B1, a, e⟩ ⟨SliceKind.pending, B, A, k⟩ x
    (by rw [Slices_live]; exact hf) (by rw [Slices_pending]) ⟨h1, h2⟩ ⟨h3, h4⟩
  simp at this

theorem isFree_push (h : SecureHeap) (k : Nat) (f : BlockAddress)
    (hlen : h.free_slices.length = SECURE_HEAP_MAX_EXP - SECURE_HEAP_MIN_EXP + 1)
    (hk1 : SECURE_HEAP_MIN_EXP ≤ k) (hk2 : k ≤ SECURE_HEAP_MAX_EXP) (B a e : Nat) :
    (h.setStack k (h.stack k ++ [f])).isFree B a e ↔
      h.isFree B a e ∨ (B = f.block ∧ a = f.address ∧ e = k) := by
  rw [isFree_setStack h k _ hlen hk1 hk2]
  constructor
  · rintro (⟨rfl, hm⟩ | ⟨_, hf⟩)
    · rcases List.mem_append.mp hm with hm | hm
      · exact Or.inl ⟨hk1, hk2, hm⟩
      · right
        have := List.mem_singleton.mp hm
        rw [← this]
        exact ⟨rfl, rfl, rfl⟩
    · exact Or.inl hf
  · rintro (hf | ⟨rfl, rfl, rfl⟩)
    · by_cases hek : e = k
      · subst hek
        exact Or.inl ⟨rfl, List.mem_append_left _ hf.2.2⟩
      · exact Or.inr ⟨hek, hf⟩
    · exact Or.inl ⟨rfl, by simp⟩

/-- Splitting the slice in progress: its upper half goes on the stack of the
class below, its lower half stays in progress. -/
theorem InvP.split {h : SecureHeap} {L : List (Nat × Nat)} {B A e : Nat}
    (inv : InvP h L (some (B, A, e + 1))) (he : SECURE_HEAP_MIN_EXP ≤ e) :
    InvP (h.setStack e (h.stack e ++ [⟨B, A + 2 ^ e⟩])) L (some (B, A, e)) := by
  obtain ⟨b, hb, hB, _, hE, hfit⟩ := inv.pend_ok B A (e + 1) rfl
  obtain ⟨_, _, _, _, hE20, _⟩ := inv.blk_ok b hb
  obtain ⟨hfit1, hfit2, hfit3⟩ := hfit
  have hk2 : e ≤ SECURE_HEAP_MAX_EXP := by omega
  have hpow := two_pow_succ_eq e
  have hpos := two_pow_pos_nat e
  have hdvd : 2 ^ e ∣ A - b.base_address :=
    Dvd.dvd.trans (Nat.pow_dvd_pow 2 (Nat.le_succ e)) hfit2
  have hnew : ¬ h.isFree B (A + 2 ^ e) e := by
    intro hf
    exact inv.free_not_pending hf (le_refl _) (by omega) (by omega) (by omega)
  have hfree := isFree_push h e ⟨B, A + 2 ^ e⟩ inv.len he hk2
  refine
    { len := by rw [setStack_len]; exact inv.len
      sorted := inv.sorted
      blk_ok := inv.blk_ok
      nodup := ?_
      free_ok := ?_
      live_ok := inv.live_ok
      pend_ok := ?_
      uniq := ?_
      cover := ?_
      nobuddy := ?_
      ghost_in := inv.ghost_in
      ghost_out := inv.ghost_out
      ghost_nodup := inv.ghost_nodup
      sum := ?_ }
  · intro e1
    rcases stack_setStack_cases h e e1 (h.stack e ++ [⟨B, A + 2 ^ e⟩]) with h1 | h1 <;> rw [h1]
    · rw [List.nodup_append]
      refine ⟨inv.nodup e, List.nodup_singleton _, ?_⟩
      intro x hx1 hx2
      rw [List.mem_singleton.mp hx2] at hx1
      exact hnew ⟨he, hk2, hx1⟩
    · exact inv.nodup e1
  · intro B1 a e1 hf
    rcases (hfree B1 a e1).mp hf with hf | ⟨rfl, rfl, rfl⟩
    · exact inv.free_ok B1 a e1 hf
    · refine ⟨b, hb, hB, by omega, ?_, ?_, ?_⟩
      · show b.base_address ≤ A + 2 ^ e1
        omega
      · show 2 ^ e1 ∣ A + 2 ^ e1 - b.base_address
        have : A + 2 ^ e1 - b.base_address = (A - b.base_address) + 2 ^ e1 := by omega
        rw [this]
        exact Dvd.dvd.add hdvd (dvd_refl _)
      · show A + 2 ^ e1 + 2 ^ e1 ≤ b.base_address + 2 ^ b.own_exponent
        omega
  · intro B1 a e1 hp
    simp only [Option.some.injEq, Prod.mk.injEq] at hp
    obtain ⟨rfl, rfl, rfl⟩ := hp
    exact ⟨b, hb, hB, he, by omega, hfit1, hdvd, by omega⟩
  · apply uniq_replace (fun s => s = ⟨SliceKind.pending, B, A, e + 1⟩)
      (fun s => s = ⟨SliceKind.pending, B, A, e⟩ ∨ s = ⟨SliceKind.free, B, A + 2 ^ e, e⟩)
      inv.uniq
    · rintro ⟨kd, B1, a, e1⟩ hs
      cases kd with
      | free =>
        rw [Slices_free] at hs
        rcases (hfree B1 a e1).mp hs with hf | ⟨rfl, rfl, rfl⟩
        · left; rw [Slices_free]; exact ⟨hf, by simp⟩
        · right; right; rfl
      | live =>
        left
        rw [Slices_live] at hs ⊢
        exact ⟨hs, by simp⟩
      | pending =>
        right; left
        rw [Slices_pending] at hs
        simp only [Option.some.injEq, Prod.mk.injEq] at hs
        obtain ⟨rfl, rfl, rfl⟩ := hs
        rfl
    · intro s u x hs hu hsx hux
      rcases hs with rfl | rfl <;> rcases hu with rfl | rfl
      · rfl
      · exfalso; simp only [Slice.has] at hsx hux; omega
      · exfalso; simp only [Slice.has] at hsx hux; omega
      · rfl
    · apply disj_of_inside _ _ inv.uniq
      intro n x hn hx
      refine ⟨⟨SliceKind.pending, B, A, e + 1⟩, by rw [Slices_pending], rfl, ?_⟩
      rcases hn with rfl | rfl <;> simp only [Slice.has] at hx ⊢ <;> omega
  · intro b1 hb1
    apply cover_replace (fun s => s = ⟨SliceKind.pending, B, A, e + 1⟩) _ _
      (inv.cover b1 hb1)
    · rintro ⟨kd, B1, a, e1⟩ hs hR
      cases kd with
      | free =>
        rw [Slices_free] at hs ⊢
        exact (hfree B1 a e1).mpr (Or.inl hs)
      | live => rw [Slices_live] at hs ⊢; exact hs
      | pending =>
        rw [Slices_pending] at hs
        simp only [Option.some.injEq, Prod.mk.injEq] at hs
        obtain ⟨rfl, rfl, rfl⟩ := hs
        exact absurd rfl hR
    · intro r x _ hR hrB hx
      rw [hR] at hrB hx
      simp only [Slice.has] at hx
      by_cases hlt : x < A + 2 ^ e
      · refine ⟨⟨SliceKind.pending, B, A, e⟩, by rw [Slices_pending], hrB, ?_⟩
        simp only [Slice.has]; omega
      · refine ⟨⟨SliceKind.free, B, A + 2 ^ e, e⟩, ?_, hrB, ?_⟩
        · rw [Slices_free]; exact (hfree _ _ _).mpr (Or.inr ⟨rfl, rfl, rfl⟩)
        · simp only [Slice.has]; omega
  · intro B1 P e1 hd hg1 hg2
    rcases (hfree B1 P e1).mp hg1 with hf1 | ⟨rfl, rfl, rfl⟩
    · rcases (hfree B1 (P + 2 ^ e1) e1).mp hg2 with hf2 | ⟨hBB, hP, hee⟩
      · exact inv.nobuddy B1 P e1 hd hf1 hf2
      · simp only at hP hBB
        subst hee
        have hPA : P = A := by omega
        subst hPA
        exact inv.free_not_pending hf1 (le_refl _) (by omega) (le_refl _) (by omega)
    · simp only at hd
      have h1 : A + 2 ^ e1 - B1 = (A - B1) + 2 ^ e1 := by omega
      rw [h1] at hd
      rw [← hB] at hd
      exact not_dvd_add_pow hfit2 hd
  · have h1 := stackSum_setStack h e (h.stack e ++ [⟨B, A + 2 ^ e⟩]) inv.len he hk2
    have h2 := inv.sum
    simp only [List.length_append, List.length_singleton, pendSize, setStack_base] at h1 h2 ⊢
    have : ((h.stack e).length + 1) * 2 ^ e = (h.stack e).length * 2 ^ e + 2 ^ e := by ring
    omega

/-- Pushing the slice in progress, whose buddy is not free and which is smaller
than its block, on the stack of its class. -/
theorem InvP.push {h : SecureHeap} {L : List (Nat × Nat)} {B A e : Nat}
    (inv : InvP h L (some (B, A, e)))
    (hE : ∀ b ∈ h.base_addresses, b.base_address = B → e < b.own_exponent)
    (hb1 : 2 ^ (e + 1) ∣ A - B → ¬ h.isFree B (A + 2 ^ e) e)
    (hb2 : ∀ P, 2 ^ (e + 1) ∣ P - B → A = P + 2 ^ e → ¬ h.isFree B P e) :
    InvP (h.setStack e (h.stack e ++ [⟨B, A⟩])) L none := by
  obtain ⟨b, hb, hB, he, hE1, hfit⟩ := inv.pend_ok B A e rfl
  obtain ⟨_, _, _, _, hE20, _⟩ := inv.blk_ok b hb
  have hk2 : e ≤ SECURE_HEAP_MAX_EXP := by omega
  have hpos := two_pow_pos_nat e
  have hnew : ¬ h.isFree B A e := by
    intro hf
    exact inv.free_not_pending hf (le_refl _) (by omega) (le_refl _) (by omega)
  have hfree := isFree_push h e ⟨B, A⟩ inv.len he hk2
  refine
    { len := by rw [setStack_len]; exact inv.len
      sorted := inv.sorted
      blk_ok := inv.blk_ok
      nodup := ?_
      free_ok := ?_
      live_ok := inv.live_ok
      pend_ok := by intro _ _ _ hp; simp at hp
      uniq := ?_
      cover := ?_
      nobuddy := ?_
      ghost_in := inv.ghost_in
      ghost_out := inv.ghost_out
      ghost_nodup := inv.ghost_nodup
      sum := ?_ }
  · intro e1
    rcases stack_setStack_cases h e e1 (h.stack e ++ [⟨B, A⟩]) with h1 | h1 <;> rw [h1]
    · rw [List.nodup_append]
      refine ⟨inv.nodup e, List.nodup_singleton _, ?_⟩
      intro x hx1 hx2
      rw [List.mem_singleton.mp hx2] at hx1
      exact hnew ⟨he, hk2, hx1⟩
    · exact inv.nodup e1
  · intro B1 a e1 hf
    rcases (hfree B1 a e1).mp hf with hf | ⟨rfl, rfl, rfl⟩
    · exact inv.free_ok B1 a e1 hf
    · exact ⟨b, hb, hB, hE b hb hB, hfit⟩
  · apply uniq_replace (fun s => s = ⟨SliceKind.pending, B, A, e⟩)
      (fun s => s = ⟨SliceKind.free, B, A, e⟩) inv.uniq
    · rintro ⟨kd, B1, a, e1⟩ hs
      cases kd with
      | free =>
        rw [Slices_free] at hs
        rcases (hfree B1 a e1).mp hs with hf | ⟨rfl, rfl, rfl⟩
        · left; rw [Slices_free]; exact ⟨hf, by simp⟩
        · right; rfl
      | live =>
        left
        rw [Slices_live] at hs ⊢
        exact ⟨hs, by simp⟩
      | pending =>
        rw [Slices_pending] at hs
        simp at hs
    · intro s u x hs hu _ _
      rw [hs, hu]
    · apply disj_of_inside _ _ inv.uniq
      intro n x hn hx
      refine ⟨⟨SliceKind.pending, B, A, e⟩, by rw [Slices_pending], rfl, ?_⟩
      rw [hn] at hx; exact hx
  · intro b1 hb1
    apply cover_replace (fun s => s = ⟨SliceKind.pending, B, A, e⟩) _ _
      (inv.cover b1 hb1)
    · rintro ⟨kd, B1, a, e1⟩ hs hR
      cases kd with
      | free =>
        rw [Slices_free] at hs ⊢
        exact (hfree B1 a e1).mpr (Or.inl hs)
      | live => rw [Slices_live] at hs ⊢; exact hs
      | pending =>
        rw [Slices_pending] at hs
        simp only [Option.some.injEq, Prod.mk.injEq] at hs
        obtain ⟨rfl, rfl, rfl⟩ := hs
        exact absurd rfl hR
    · intro r x _ hR hrB hx
      rw [hR] at hrB hx
      refine ⟨⟨SliceKind.free, B, A, e⟩, ?_, hrB, hx⟩
      rw [Slices_free]; exact (hfree _ _ _).mpr (Or.inr ⟨rfl, rfl, rfl⟩)
  · intro B1 P e1 hd hg1 hg2
    rcases (hfree B1 P e1).mp hg1 with hf1 | ⟨rfl, rfl, rfl⟩
    · rcases (hfree B1 (P + 2 ^ e1) e1).mp hg2 with hf2 | ⟨hBB, hP, hee⟩
      · exact inv.nobuddy B1 P e1 hd hf1 hf2
      · simp only at hP hBB
        subst hee
        subst hBB
        exact hb2 P hd hP.symm hf1
    · rcases (hfree B1 (P + 2 ^ e1) e1).mp hg2 with hf2 | ⟨_, hP, _⟩
      · exact hb1 hd hf2
      · simp only at hP
        have := two_pow_pos_nat e1
        omega
  · have h1 := stackSum_setStack h e (h.stack e ++ [⟨B, A⟩]) inv.len he hk2
    have h2 := inv.sum
    simp only [List.length_append, List.length_singleton, pendSize, setStack_base] at h1 h2 ⊢
    have : ((h.stack e).length + 1) * 2 ^ e = (h.stack e).length * 2 ^ e + 2 ^ e := by ring
    omega

theorem isFree_filter (h : SecureHeap) (k : Nat) (f : BlockAddress)
    (hlen : h.free_slices.length = SECURE_HEAP_MAX_EXP - SECURE_HEAP_MIN_EXP + 1)
    (hk1 : SECURE_HEAP_MIN_EXP ≤ k) (hk2 : k ≤ SECURE_HEAP_MAX_EXP) (B a e : Nat) :
    (h.setStack k ((h.stack k).filter (fun x => x != f))).isFree B a e ↔
      h.isFree B a e ∧ ¬ (B = f.block ∧ a = f.address ∧ e = k) := by
  rw [isFree_setStack h k _ hlen hk1 hk2]
  constructor
  · rintro (⟨rfl, hm⟩ | ⟨hne, hf⟩)
    · rw [mem_filter_ne] at hm
      refine ⟨⟨hk1, hk2, hm.1⟩, ?_⟩
      rintro ⟨rfl, rfl, _⟩
      exact hm.2 rfl
    · exact ⟨hf, fun hh => hne hh.2.2⟩
  · rintro ⟨hf, hne⟩
    by_cases hek : e = k
    · subst hek
      left
      refine ⟨rfl, ?_⟩
      rw [mem_filter_ne]
      refine ⟨hf.2.2, ?_⟩
      intro heq
      apply hne
      rw [← heq]
      exact ⟨rfl, rfl, rfl⟩
    · exact Or.inr ⟨hek, hf⟩

/-- Merging the slice in progress with its free buddy `Q`: the buddy leaves its
stack and the parent `P` is in progress. -/
theorem InvP.merge {h : SecureHeap} {L : List (Nat × Nat)} {B A e P Q : Nat}
    (inv : InvP h L (some (B, A, e))) (hPB : B ≤ P) (hdiv : 2 ^ (e + 1) ∣ P - B)
    (hAQ : (A = P ∧ Q = P + 2 ^ e) ∨ (A = P + 2 ^ e ∧ Q = P))
    (hQ : (⟨B, Q⟩ : BlockAddress) ∈ h.stack e) :
    InvP (h.setStack e ((h.stack e).filter (fun x => x != ⟨B, Q⟩))) L
      (some (B, P, e + 1)) := by
  obtain ⟨b, hb, hB, he, hE1, hfit⟩ := inv.pend_ok B A e rfl
  obtain ⟨_, _, _, _, hE20, _⟩ := inv.blk_ok b hb
  have hk2 : e ≤ SECURE_HEAP_MAX_EXP := by omega
  have hpos := two_pow_pos_nat e
  have hpow := two_pow_succ_eq e
  have hQfree : h.isFree B Q e := ⟨he, hk2, hQ⟩
  obtain ⟨b2, hb2, hB2, hlt, hfitQ⟩ := inv.free_ok B Q e hQfree
  have hbb : b2 = b := block_unique inv.sorted hb2 hb (hB2.trans hB.symm)
  subst hbb
  obtain ⟨hfit1, hfit2, hfit3⟩ := hfit
  obtain ⟨hq1, hq2, hq3⟩ := hfitQ
  have hfree := isFree_filter h e ⟨B, Q⟩ inv.len he hk2
  refine
    { len := by rw [setStack_len]; exact inv.len
      sorted := inv.sorted
      blk_ok := inv.blk_ok
      nodup := ?_
      free_ok := fun B1 a e1 hf => inv.free_ok B1 a e1 ((hfree B1 a e1).mp hf).1
      live_ok := inv.live_ok
      pend_ok := ?_
      uniq := ?_
      cover := ?_
      nobuddy := fun B1 P1 e1 hd hf1 hf2 =>
        inv.nobuddy B1 P1 e1 hd ((hfree _ _ _).mp hf1).1 ((hfree _ _ _).mp hf2).1
      ghost_in := inv.ghost_in
      ghost_out := inv.ghost_out
      ghost_nodup := inv.ghost_nodup
      sum := ?_ }
  · intro e1
    rcases stack_setStack_cases h e e1 ((h.stack e).filter (fun x => x != ⟨B, Q⟩))
      with h1 | h1 <;> rw [h1]
    · exact List.Nodup.filter _ (inv.nodup e)
    · exact inv.nodup e1
  · intro B1 a e1 hp
    simp only [Option.some.injEq, Prod.mk.injEq] at hp
    obtain ⟨rfl, rfl, rfl⟩ := hp
    refine ⟨b2, hb, hB, by omega, by omega, by omega, ?_, ?_⟩
    · rw [hB]; exact hdiv
    · rcases hAQ with ⟨rfl, rfl⟩ | ⟨rfl, rfl⟩ <;> omega
  · apply uniq_replace
      (fun s => s = ⟨SliceKind.pending, B, A, e⟩ ∨ s = ⟨SliceKind.free, B, Q, e⟩)
      (fun s => s = ⟨SliceKind.pending, B, P, e + 1⟩) inv.uniq
    · rintro ⟨kd, B1, a, e1⟩ hs
      cases kd with
      | free =>
        left
        rw [Slices_free] at hs ⊢
        obtain ⟨hf, hne⟩ := (hfree B1 a e1).mp hs
        refine ⟨hf, ?_⟩
        rintro (heq | heq)
        · simp at heq
        · simp only [Slice.mk.injEq, true_and] at heq
          exact hne heq
      | live =>
        left
        rw [Slices_live] at hs ⊢
        exact ⟨hs, by simp⟩
      | pending =>
        right
        rw [Slices_pending] at hs
        simp only [Option.some.injEq, Prod.mk.injEq] at hs
        obtain ⟨rfl, rfl, rfl⟩ := hs
        rfl
    · intro s u x hs hu _ _
      rw [hs, hu]
    · apply disj_of_inside _ _ inv.uniq
      intro n x hn hx
      rw [hn] at hx
      simp only [Slice.has] at hx
      by_cases hlt2 : x < A + 2 ^ e ∧ A ≤ x
      · refine ⟨⟨SliceKind.pending, B, A, e⟩, by rw [Slices_pending], Or.inl rfl, ?_⟩
        simp only [Slice.has]; omega
      · refine ⟨⟨SliceKind.free, B, Q, e⟩, by rw [Slices_free]; exact hQfree, Or.inr rfl, ?_⟩
        simp only [Slice.has]
        rcases hAQ with ⟨rfl, rfl⟩ | ⟨rfl, rfl⟩ <;> omega
  · intro b1 hb1
    apply cover_replace
      (fun s => s = ⟨SliceKind.pending, B, A, e⟩ ∨ s = ⟨SliceKind.free, B, Q, e⟩) _ _
      (inv.cover b1 hb1)
    · rintro ⟨kd, B1, a, e1⟩ hs hR
      cases kd with
      | free =>
        rw [Slices_free] at hs ⊢
        refine (hfree B1 a e1).mpr ⟨hs, ?_⟩
        rintro ⟨rfl, rfl, rfl⟩
        exact hR (Or.inr rfl)
      | live => rw [Slices_live] at hs ⊢; exact hs
      | pending =>
        rw [Slices_pending] at hs
        simp only [Option.some.injEq, Prod.mk.injEq] at hs
        obtain ⟨rfl, rfl, rfl⟩ := hs
        exact absurd (Or.inl rfl) hR
    · intro r x _ hR hrB hx
      refine ⟨⟨SliceKind.pending, B, P, e + 1⟩, by rw [Slices_pending], ?_, ?_⟩
      · rcases hR with rfl | rfl <;> exact hrB
      · rcases hR with rfl | rfl <;> simp only [Slice.has] at hx ⊢ <;>
          rcases hAQ with ⟨rfl, rfl⟩ | ⟨rfl, rfl⟩ <;> omega
  · have h1 := stackSum_setStack h e ((h.stack e).filter (fun x => x != ⟨B, Q⟩)) inv.len he hk2
    have h2 := inv.sum
    have h3 := filter_ne_length_of_nodup (inv.nodup e) hQ
    simp only [pendSize, setStack_base] at h1 h2 ⊢
    rw [← h3] at h1
    have : ((List.filter (fun x => x != ⟨B, Q⟩) (h.stack e)).length + 1) * 2 ^ e =
        (List.filter (fun x => x != ⟨B, Q⟩) (h.stack e)).length * 2 ^ e + 2 ^ e := by ring
    omega

theorem stack_with_base (h : SecureHeap) (m : List Block) (e : Nat) :
    SecureHeap.stack { h with base_addresses := m } e = h.stack e := rfl

theorem isFree_with_base (h : SecureHeap) (m : List Block) (B a e : Nat) :
    SecureHeap.isFree { h with base_addresses := m } B a e ↔ h.isFree B a e := Iff.rfl

/-- A new block, disjoint from the others and with an all-zero table, enters the
map with its whole span in progress. -/
theorem InvP.create {h : SecureHeap} {L : List (Nat × Nat)} (inv : InvP h L none)
    (blk : Block) (hok : BlockOk blk) (hz : ∃ n, blk.alloc_sizes = List.replicate n 0)
    (hd : ∀ b ∈ h.base_addresses,
      blk.base_address + 2 ^ blk.own_exponent ≤ b.base_address ∨
      b.base_address + 2 ^ b.own_exponent ≤ blk.base_address) :
    InvP { h with base_addresses := mapInsert h.base_addresses blk } L
      (some (blk.base_address, blk.base_address, blk.own_exponent)) := by
  have hfresh : ∀ x ∈ h.base_addresses, x.base_address ≠ blk.base_address := by
    intro x hx
    have := hd x hx
    have := block_end_pos x
    have := block_end_pos blk
    omega
  have hmem := fun b => mem_mapInsert_fresh h.base_addresses blk b hfresh
  have hlive := isLive_insert_fresh h blk hfresh hz
  have hinblk : ∀ s, Slices h none s → ∀ x, s.has x →
      ∃ b ∈ h.base_addresses, b.base_address ≤ x ∧ x < b.base_address + 2 ^ b.own_exponent := by
    rintro ⟨kd, B1, a, e1⟩ hs x hx
    simp only [Slice.has] at hx
    cases kd with
    | free =>
      rw [Slices_free] at hs
      obtain ⟨b, hb, _, _, hf1, _, hf3⟩ := inv.free_ok _ _ _ hs
      exact ⟨b, hb, by omega, by omega⟩
    | live =>
      rw [Slices_live] at hs
      obtain ⟨b, hb, _, _, _, hf1, _, hf3⟩ := inv.live_ok _ _ _ hs
      exact ⟨b, hb, by omega, by omega⟩
    | pending => rw [Slices_pending] at hs; simp at hs
  refine
    { len := inv.len
      sorted := pairwise_mapInsert _ _ inv.sorted hd
      blk_ok := ?_
      nodup := inv.nodup
      free_ok := ?_
      live_ok := ?_
      pend_ok := ?_
      uniq := ?_
      cover := ?_
      nobuddy := inv.nobuddy
      ghost_in := ?_
      ghost_out := ?_
      ghost_nodup := inv.ghost_nodup
      sum := ?_ }
  · intro b hb
    rcases (hmem b).mp hb with rfl | hb
    · exact hok
    · exact inv.blk_ok b hb
  · intro B a e hf
    obtain ⟨b, hb, hrest⟩ := inv.free_ok B a e hf
    exact ⟨b, (hmem b).mpr (Or.inr hb), hrest⟩
  · intro B a e hl
    obtain ⟨b, hb, hrest⟩ := inv.live_ok B a e ((hlive B a e).mp hl)
    exact ⟨b, (hmem b).mpr (Or.inr hb), hrest⟩
  · intro B a e hp
    simp only [Option.some.injEq, Prod.mk.injEq] at hp
    obtain ⟨rfl, rfl, rfl⟩ := hp
    refine ⟨blk, (hmem blk).mpr (Or.inl rfl), rfl, hok.2.2.2.1, le_refl _, le_refl _, ?_, le_refl _⟩
    simp
  · apply uniq_replace (fun _ => False)
      (fun s => s = ⟨SliceKind.pending, blk.base_address, blk.base_address, blk.own_exponent⟩)
      inv.uniq
    · rintro ⟨kd, B1, a, e1⟩ hs
      cases kd with
      | free => left; rw [Slices_free] at hs ⊢; exact ⟨hs, not_false⟩
      | live => left; rw [Slices_live] at hs ⊢; exact ⟨(hlive _ _ _).mp hs, not_false⟩
      | pending =>
        right
        rw [Slices_pending] at hs
        simp only [Option.some.injEq, Prod.mk.injEq] at hs
        obtain ⟨rfl, rfl, rfl⟩ := hs
        rfl
    · intro s u x hs hu _ _
      rw [hs, hu]
    · intro n s x hn hs _ hnx hsx
      obtain ⟨b, hb, h1, h2⟩ := hinblk s hs x hsx
      rw [hn] at hnx
      simp only [Slice.has] at hnx
      have := hd b hb
      omega
  · intro b hb x hx1 hx2
    rcases (hmem b).mp hb with rfl | hb
    · exact ⟨⟨SliceKind.pending, b.base_address, b.base_address, b.own_exponent⟩,
        by rw [Slices_pending], rfl, hx1, hx2⟩
    · obtain ⟨⟨kd, B1, a, e1⟩, hs, hsB, hsx⟩ := inv.cover b hb x hx1 hx2
      refine ⟨⟨kd, B1, a, e1⟩, ?_, hsB, hsx⟩
      cases kd with
      | free => rw [Slices_free] at hs ⊢; exact hs
      | live => rw [Slices_live] at hs ⊢; exact (hlive _ _ _).mpr hs
      | pending => rw [Slices_pending] at hs; simp at hs
  · intro p sz hp
    obtain ⟨h1, h2, B, hl⟩ := inv.ghost_in p sz hp
    exact ⟨h1, h2, B, (hlive _ _ _).mpr hl⟩
  · intro B a e hl
    exact inv.ghost_out B a e ((hlive _ _ _).mp hl)
  · have h2 := inv.sum
    simp only [pendSize] at h2 ⊢
    rw [blockSum_mapInsert_fresh _ _ hfresh]
    omega

/-- When the slice in progress is a whole block, the block leaves the map. -/
theorem InvP.destroy {h : SecureHeap} {L : List (Nat × Nat)} {A : Nat} {b : Block}
    (inv : InvP h L (some (b.base_address, A, b.own_exponent))) (hb : b ∈ h.base_addresses) :
    InvP { h with base_addresses := mapErase h.base_addresses b.base_address } L none := by
  obtain ⟨b2, hb2, hB2, _, _, hfit⟩ := inv.pend_ok _ _ _ rfl
  have hbb : b2 = b := block_unique inv.sorted hb2 hb hB2
  subst hbb
  obtain ⟨hfit1, _, hfit3⟩ := hfit
  have hA : A = b2.base_address := by omega
  subst hA
  have hmem := mem_mapErase h.base_addresses b2.base_address
  have hlive := isLive_erase h b2.base_address
  have hfreeB : ∀ B a e, h.isFree B a e → B ≠ b2.base_address := by
    intro B a e hf hB
    obtain ⟨b3, hb3, hB3, _, hf1, _, hf3⟩ := inv.free_ok B a e hf
    have hbb : b3 = b2 := block_unique inv.sorted hb3 hb (hB3.trans hB)
    subst hbb
    have := two_pow_pos_nat e
    exact inv.free_not_pending hf (le_refl a) (by omega) hf1 (by omega)
  have hliveB : ∀ B a e, h.isLive B a e → B ≠ b2.base_address := by
    intro B a e hf hB
    obtain ⟨b3, hb3, hB3, _, _, hf1, _, hf3⟩ := inv.live_ok B a e hf
    have hbb : b3 = b2 := block_unique inv.sorted hb3 hb (hB3.trans hB)
    subst hbb
    have := two_pow_pos_nat e
    exact inv.live_not_pending hf (le_refl a) (by omega) hf1 (by omega)
  refine
    { len := inv.len
      sorted := pairwise_mapErase _ _ inv.sorted
      blk_ok := fun b1 hb1 => inv.blk_ok b1 ((hmem b1).mp hb1).1
      nodup := inv.nodup
      free_ok := ?_
      live_ok := ?_
      pend_ok := by intro _ _ _ hp; simp at hp
      uniq := ?_
      cover := ?_
      nobuddy := inv.nobuddy
      ghost_in := ?_
      ghost_out := ?_
      ghost_nodup := inv.ghost_nodup
      sum := ?_ }
  · intro B a e hf
    obtain ⟨b3, hb3, hB3, hrest⟩ := inv.free_ok B a e hf
    refine ⟨b3, (hmem b3).mpr ⟨hb3, ?_⟩, hB3, hrest⟩
    rw [hB3]
    exact hfreeB B a e hf
  · intro B a e hl
    obtain ⟨hl1, hne⟩ := (hlive B a e).mp hl
    obtain ⟨b3, hb3, hB3, hrest⟩ := inv.live_ok B a e hl1
    exact ⟨b3, (hmem b3).mpr ⟨hb3, by rw [hB3]; exact hne⟩, hB3, hrest⟩
  · apply uniq_replace
      (fun s => s = ⟨SliceKind.pending, b2.base_address, b2.base_address, b2.own_exponent⟩)
      (fun _ => False) inv.uniq
    · rintro ⟨kd, B1, a, e1⟩ hs
      left
      cases kd with
      | free => rw [Slices_free] at hs ⊢; exact ⟨hs, by simp⟩
      | live => rw [Slices_live] at hs ⊢; exact ⟨((hlive _ _ _).mp hs).1, by simp⟩
      | pending => rw [Slices_pending] at hs; simp at hs
    · intro s u x hs
      exact hs.elim
    · intro n s x hn
      exact hn.elim
  · intro b1 hb1 x hx1 hx2
    obtain ⟨hb1m, hne⟩ := (hmem b1).mp hb1
    obtain ⟨⟨kd, B1, a, e1⟩, hs, hsB, hsx⟩ := inv.cover b1 hb1m x hx1 hx2
    simp only at hsB
    refine ⟨⟨kd, B1, a, e1⟩, ?_, hsB, hsx⟩
    cases kd with
    | free => rw [Slices_free] at hs ⊢; exact hs
    | live =>
      rw [Slices_live] at hs ⊢
      exact (hlive _ _ _).mpr ⟨hs, by rw [hsB]; exact hne⟩
    | pending =>
      rw [Slices_pending] at hs
      simp only [Option.some.injEq, Prod.mk.injEq] at hs
      exact absurd (hsB.symm.trans hs.1.symm) hne
  · intro p sz hp
    obtain ⟨h1, h2, B, hl⟩ := inv.ghost_in p sz hp
    exact ⟨h1, h2, B, (hlive _ _ _).mpr ⟨hl, hliveB _ _ _ hl⟩⟩
  · intro B a e hl
    exact inv.ghost_out B a e ((hlive _ _ _).mp hl).1
  · have h2 := inv.sum
    have h3 := blockSum_mapErase h.base_addresses b2 inv.sorted hb
    simp only [pendSize] at h2 ⊢
    omega

theorem exists_updated (h : SecureHeap) (B p v : Nat) {b : Block} (hb : b ∈ h.base_addresses) :
    ∃ b1 ∈ (h.updateBlock B (fun x => x.SetAllocationSize p v)).base_addresses,
      b1.base_address = b.base_address ∧ b1.own_exponent = b.own_exponent ∧
      b1.alloc_sizes.length = b.alloc_sizes.length := by
  by_cases hB : b.base_address = B
  · exact ⟨b.SetAllocationSize p v, (mem_updateBlock _ _ _ _).mpr ⟨b, hb, by rw [if_pos hB]⟩,
      rfl, rfl, SetAllocationSize_length _ _ _⟩
  · exact ⟨b, (mem_updateBlock _ _ _ _).mpr ⟨b, hb, by rw [if_neg hB]⟩, rfl, rfl, rfl⟩

theorem exists_original (h : SecureHeap) (B p v : Nat) {b1 : Block}
    (hb : b1 ∈ (h.updateBlock B (fun x => x.SetAllocationSize p v)).base_addresses) :
    ∃ b ∈ h.base_addresses,
      b1.base_address = b.base_address ∧ b1.own_exponent = b.own_exponent ∧
      b1.alloc_sizes.length = b.alloc_sizes.length := by
  obtain ⟨b, hb0, rfl⟩ := (mem_updateBlock _ _ _ _).mp hb
  by_cases hB : b.base_address = B
  · rw [if_pos hB]
    exact ⟨b, hb0, rfl, rfl, SetAllocationSize_length _ _ _⟩
  · rw [if_neg hB]
    exact ⟨b, hb0, rfl, rfl, rfl⟩

theorem Fits_congr {b b1 : Block} (h1 : b1.base_address = b.base_address)
    (h2 : b1.own_exponent = b.own_exponent) (a e : Nat) : Fits b1 a e ↔ Fits b a e := by
  unfold Fits
  rw [h1, h2]

theorem BlockOk_congr {b b1 : Block} (h1 : b1.base_address = b.base_address)
    (h2 : b1.own_exponent = b.own_exponent)
    (h3 : b1.alloc_sizes.length = b.alloc_sizes.length) (hok : BlockOk b) : BlockOk b1 := by
  unfold BlockOk at *
  rw [h1, h2, h3]
  exact hok

/-- The parts of the invariant that only look at bases and exponents of the
blocks survive a write to a table. -/
theorem InvP.update_frame {h : SecureHeap} {L : List (Nat × Nat)}
    {pend : Option (Nat × Nat × Nat)} (inv : InvP h L pend) (B p v : Nat) :
    (h.updateBlock B (fun x => x.SetAllocationSize p v)).base_addresses.Pairwise
      (fun x y => x.base_address + 2 ^ x.own_exponent ≤ y.base_address) ∧
    (∀ b ∈ (h.updateBlock B (fun x => x.SetAllocationSize p v)).base_addresses, BlockOk b) ∧
    (∀ B1 a e, h.isFree B1 a e →
      ∃ b ∈ (h.updateBlock B (fun x => x.SetAllocationSize p v)).base_addresses,
        b.base_address = B1 ∧ e < b.own_exponent ∧ Fits b a e) ∧
    (∀ B1 a e, h.isLive B1 a e ∨ pend = some (B1, a, e) →
      ∃ b ∈ (h.updateBlock B (fun x => x.SetAllocationSize p v)).base_addresses,
        b.base_address = B1 ∧ SECURE_HEAP_MIN_EXP ≤ e ∧ e ≤ b.own_exponent ∧ Fits b a e) := by
  refine ⟨?_, ?_, ?_, ?_⟩
  · exact pairwise_updateBlock h B _ (fun _ => rfl) (fun _ => rfl) inv.sorted
  · intro b1 hb1
    obtain ⟨b, hb, h1, h2, h3⟩ := exists_original h B p v hb1
    exact BlockOk_congr h1 h2 h3 (inv.blk_ok b hb)
  · intro B1 a e hf
    obtain ⟨b, hb, hB, hlt, hfit⟩ := inv.free_ok B1 a e hf
    obtain ⟨b1, hb1, h1, h2, _⟩ := exists_updated h B p v hb
    exact ⟨b1, hb1, h1.trans hB, by rw [h2]; exact hlt, (Fits_congr h1 h2 a e).mpr hfit⟩
  · intro B1 a e hl
    have : ∃ b ∈ h.base_addresses, b.base_address = B1 ∧ SECURE_HEAP_MIN_EXP ≤ e ∧
        e ≤ b.own_exponent ∧ Fits b a e := by
      rcases hl with hl | hl
      · exact inv.live_ok B1 a e hl
      · exact inv.pend_ok B1 a e hl
    obtain ⟨b, hb, hB, hge, hle, hfit⟩ := this
    obtain ⟨b1, hb1, h1, h2, _⟩ := exists_updated h B p v hb
    exact ⟨b1, hb1, h1.trans hB, hge, by rw [h2]; exact hle, (Fits_congr h1 h2 a e).mpr hfit⟩

theorem sizeClass_ge (sz : Nat) : SECURE_HEAP_MIN_EXP ≤ sizeClass sz := by
  unfold sizeClass; exact le_max_left _ _

theorem liveSum_cons (a : Nat × Nat) (L : List (Nat × Nat)) :
    liveSum (a :: L) = 2 ^ sizeClass a.2 + liveSum L := by
  simp [liveSum]

theorem liveSum_erase {L : List (Nat × Nat)} {a : Nat × Nat} (ha : a ∈ L) :
    liveSum (L.erase a) + 2 ^ sizeClass a.2 = liveSum L := by
  induction L with
  | nil => simp at ha
  | cons x xs ih =>
    by_cases hx : x = a
    · subst hx
      simp [liveSum]
      omega
    · have hmem : a ∈ xs := by
        rcases List.mem_cons.mp ha with e | e
        · exact absurd e.symm hx
        · exact e
      have hx2 : (x == a) = false := by simpa using hx
      rw [List.erase_cons, hx2]
      simp only [Bool.false_eq_true, if_false, liveSum_cons]
      have := ih hmem
      omega

/-- Recording the slice in progress in `alloc_sizes` makes it a live
allocation. -/
theorem InvP.mark {h : SecureHeap} {L : List (Nat × Nat)} {B A e : Nat}
    (inv : InvP h L (some (B, A, e))) (sz : Nat) (hsz0 : 0 < sz)
    (hsz1 : sz ≤ 2 ^ SECURE_HEAP_MAX_EXP) (hcls : sizeClass sz = e) :
    InvP (h.updateBlock B (fun x => x.SetAllocationSize A e)) ((A, sz) :: L) none := by
  obtain ⟨b, hb, hB, he, hE1, hfit⟩ := inv.pend_ok B A e rfl
  subst hB
  obtain ⟨_, _, hW, hE8, hE20, hlen⟩ := inv.blk_ok b hb
  obtain ⟨hfit1, hfit2, hfit3⟩ := hfit
  have hpos := two_pow_pos_nat e
  have hdvd : 2 ^ SECURE_HEAP_MIN_EXP ∣ A - b.base_address :=
    Dvd.dvd.trans (Nat.pow_dvd_pow 2 he) hfit2
  have hlive := isLive_updateBlock_set inv.sorted hb e hfit1 (by omega) hdvd hlen hE8
    (by omega)
  have hnot : ∀ B1 e1, ¬ h.isLive B1 A e1 := by
    intro B1 e1 hl
    have := two_pow_pos_nat e1
    exact inv.live_not_pending hl (le_refl _) (by omega) (le_refl _) (by omega)
  have hlive2 : ∀ B1 a e1, (h.updateBlock b.base_address
      (fun x => x.SetAllocationSize A e)).isLive B1 a e1 ↔
      h.isLive B1 a e1 ∨ (B1 = b.base_address ∧ a = A ∧ e1 = e) := by
    intro B1 a e1
    rw [hlive]
    constructor
    · rintro (⟨h1, h2, h3, _⟩ | ⟨_, hl⟩)
      · exact Or.inr ⟨h1, h2, h3.symm⟩
      · exact Or.inl hl
    · rintro (hl | ⟨h1, h2, h3⟩)
      · right
        refine ⟨?_, hl⟩
        rintro ⟨_, rfl⟩
        exact hnot _ _ hl
      · left
        refine ⟨h1, h2, h3.symm, ?_⟩
        unfold SECURE_HEAP_MIN_EXP at he
        omega
  obtain ⟨fr1, fr2, fr3, fr4⟩ := inv.update_frame b.base_address A e
  refine
    { len := inv.len
      sorted := fr1
      blk_ok := fr2
      nodup := inv.nodup
      free_ok := fr3
      live_ok := ?_
      pend_ok := by intro _ _ _ hp; simp at hp
      uniq := ?_
      cover := ?_
      nobuddy := inv.nobuddy
      ghost_in := ?_
      ghost_out := ?_
      ghost_nodup := ?_
      sum := ?_ }
  · intro B1 a e1 hl
    rcases (hlive2 B1 a e1).mp hl with hl | ⟨rfl, rfl, rfl⟩
    · exact fr4 B1 a e1 (Or.inl hl)
    · exact fr4 _ _ _ (Or.inr rfl)
  · apply uniq_replace (fun s => s = ⟨SliceKind.pending, b.base_address, A, e⟩)
      (fun s => s = ⟨SliceKind.live, b.base_address, A, e⟩) inv.uniq
    · rintro ⟨kd, B1, a, e1⟩ hs
      cases kd with
      | free => left; rw [Slices_free] at hs ⊢; exact ⟨hs, by simp⟩
      | live =>
        rw [Slices_live] at hs
        rcases (hlive2 B1 a e1).mp hs with hl | ⟨rfl, rfl, rfl⟩
        · left; rw [Slices_live]; exact ⟨hl, by simp⟩
        · right; rfl
      | pending => rw [Slices_pending] at hs; simp at hs
    · intro s u x hs hu _ _
      rw [hs, hu]
    · apply disj_of_inside _ _ inv.uniq
      intro n x hn hx
      refine ⟨⟨SliceKind.pending, b.base_address, A, e⟩, by rw [Slices_pending], rfl, ?_⟩
      rw [hn] at hx; exact hx
  · intro b1 hb1
    obtain ⟨b0, hb0, h1, h2, _⟩ := exists_original h _ _ _ hb1
    rw [h1, h2]
    apply cover_replace (fun s => s = ⟨SliceKind.pending, b.base_address, A, e⟩) _ _
      (inv.cover b0 hb0)
    · rintro ⟨kd, B1, a, e1⟩ hs hR
      cases kd with
      | free => rw [Slices_free] at hs ⊢; exact hs
      | live => rw [Slices_live] at hs ⊢; exact (hlive2 _ _ _).mpr (Or.inl hs)
      | pending =>
        rw [Slices_pending] at hs
        simp only [Option.some.injEq, Prod.mk.injEq] at hs
        obtain ⟨rfl, rfl, rfl⟩ := hs
        exact absurd rfl hR
    · intro r x _ hR hrB hx
      rw [hR] at hrB hx
      refine ⟨⟨SliceKind.live, b.base_address, A, e⟩, ?_, hrB, hx⟩
      rw [Slices_live]; exact (hlive2 _ _ _).mpr (Or.inr ⟨rfl, rfl, rfl⟩)
  · intro p sz1 hp
    rcases List.mem_cons.mp hp with heq | hp
    · simp only [Prod.mk.injEq] at heq
      obtain ⟨rfl, rfl⟩ := heq
      exact ⟨hsz0, hsz1, b.base_address, (hlive2 _ _ _).mpr (Or.inr ⟨rfl, rfl, hcls⟩)⟩
    · obtain ⟨h1, h2, B1, hl⟩ := inv.ghost_in p sz1 hp
      exact ⟨h1, h2, B1, (hlive2 _ _ _).mpr (Or.inl hl)⟩
  · intro B1 a e1 hl
    rcases (hlive2 B1 a e1).mp hl with hl | ⟨rfl, rfl, rfl⟩
    · obtain ⟨sz1, hm⟩ := inv.ghost_out B1 a e1 hl
      exact ⟨sz1, List.mem_cons_of_mem _ hm⟩
    · exact ⟨sz, List.mem_cons_self _ _⟩
  · simp only [List.map_cons, List.nodup_cons]
    refine ⟨?_, inv.ghost_nodup⟩
    intro hm
    obtain ⟨⟨p1, sz1⟩, hm1, hm2⟩ := List.mem_map.mp hm
    simp only at hm2
    subst hm2
    obtain ⟨_, _, B1, hl⟩ := inv.ghost_in p1 sz1 hm1
    exact hnot _ _ hl
  · have h2 := inv.sum
    have h4 := blockSum_updateBlock h b.base_address (fun x => x.SetAllocationSize A e)
      (fun _ => rfl)
    rw [h4, liveSum_cons]
    simp only [pendSize, updateBlock_free_slices, hcls] at h2 ⊢
    omega

/-- Clearing the table entry of a live allocation puts its slice in progress. -/
theorem InvP.unmark {h : SecureHeap} {L : List (Nat × Nat)} (inv : InvP h L none)
    {p sz : Nat} (hp : (p, sz) ∈ L) {b : Block} (hb : b ∈ h.base_addresses)
    (hl : h.isLive b.base_address p (sizeClass sz)) :
    InvP (h.updateBlock b.base_address (fun x => x.SetAllocationSize p 0)) (L.erase (p, sz))
      (some (b.base_address, p, sizeClass sz)) := by
  obtain ⟨b2, hb2, hB2, he, hE1, hfit⟩ := inv.live_ok _ _ _ hl
  have hbb : b2 = b := block_unique inv.sorted hb2 hb hB2
  subst hbb
  obtain ⟨_, _, hW, hE8, hE20, hlen⟩ := inv.blk_ok b2 hb
  obtain ⟨hfit1, hfit2, hfit3⟩ := hfit
  have hpos := two_pow_pos_nat (sizeClass sz)
  have hdvd : 2 ^ SECURE_HEAP_MIN_EXP ∣ p - b2.base_address :=
    Dvd.dvd.trans (Nat.pow_dvd_pow 2 he) hfit2
  have hlive := isLive_updateBlock_set inv.sorted hb 0 hfit1 (by omega) hdvd hlen hE8
    (by omega)
  have hsame : ∀ B1 e1, h.isLive B1 p e1 → B1 = b2.base_address ∧ e1 = sizeClass sz := by
    intro B1 e1 hl1
    have := inv.uniq ⟨SliceKind.live, B1, p, e1⟩ ⟨SliceKind.live, b2.base_address, p, sizeClass sz⟩
      p (by rw [Slices_live]; exact hl1) (by rw [Slices_live]; exact hl)
      ⟨le_refl _, by have := two_pow_pos_nat e1; simp only; omega⟩
      ⟨le_refl _, by simp only; omega⟩
    simp only [Slice.mk.injEq, true_and] at this
    exact ⟨this.1, this.2⟩
  have hlive2 : ∀ B1 a e1, (h.updateBlock b2.base_address
      (fun x => x.SetAllocationSize p 0)).isLive B1 a e1 ↔ h.isLive B1 a e1 ∧ a ≠ p := by
    intro B1 a e1
    rw [hlive]
    constructor
    · rintro (⟨_, _, h3, h4⟩ | ⟨hne, hl1⟩)
      · exact absurd h3.symm h4
      · refine ⟨hl1, ?_⟩
        rintro rfl
        exact hne ⟨(hsame _ _ hl1).1, rfl⟩
    · rintro ⟨hl1, hne⟩
      exact Or.inr ⟨fun hh => hne hh.2, hl1⟩
  have herase : ∀ q s, (q, s) ∈ L.erase (p, sz) ↔ (q, s) ∈ L ∧ q ≠ p := by
    intro q s
    have hnd : L.Nodup := List.Nodup.of_map _ inv.ghost_nodup
    rw [List.Nodup.mem_erase_iff hnd]
    constructor
    · rintro ⟨hne, hm⟩
      refine ⟨hm, ?_⟩
      rintro rfl
      apply hne
      have := List.inj_on_of_nodup_map inv.ghost_nodup hm hp rfl
      exact this
    · rintro ⟨hm, hne⟩
      refine ⟨?_, hm⟩
      intro heq
      simp only [Prod.mk.injEq] at heq
      exact hne heq.1
  obtain ⟨fr1, fr2, fr3, fr4⟩ := inv.update_frame b2.base_address p 0
  refine
    { len := inv.len
      sorted := fr1
      blk_ok := fr2
      nodup := inv.nodup
      free_ok := fr3
      live_ok := fun B1 a e1 hl1 => fr4 B1 a e1 (Or.inl ((hlive2 _ _ _).mp hl1).1)
      pend_ok := ?_
      uniq := ?_
      cover := ?_
      nobuddy := inv.nobuddy
      ghost_in := ?_
      ghost_out := ?_
      ghost_nodup := ?_
      sum := ?_ }
  · intro B1 a e1 hpd
    simp only [Option.some.injEq, Prod.mk.injEq] at hpd
    obtain ⟨rfl, rfl, rfl⟩ := hpd
    exact fr4 _ _ _ (Or.inl hl)
  · apply uniq_replace (fun s => s = ⟨SliceKind.live, b2.base_address, p, sizeClass sz⟩)
      (fun s => s = ⟨SliceKind.pending, b2.base_address, p, sizeClass sz⟩) inv.uniq
    · rintro ⟨kd, B1, a, e1⟩ hs
      cases kd with
      | free => left; rw [Slices_free] at hs ⊢; exact ⟨hs, by simp⟩
      | live =>
        left
        rw [Slices_live] at hs ⊢
        obtain ⟨hl1, hne⟩ := (hlive2 B1 a e1).mp hs
        refine ⟨hl1, ?_⟩
        intro heq
        simp only [Slice.mk.injEq, true_and] at heq
        exact hne heq.2.1
      | pending =>
        right
        rw [Slices_pending] at hs
        simp only [Option.some.injEq, Prod.mk.injEq] at hs
        obtain ⟨rfl, rfl, rfl⟩ := hs
        rfl
    · intro s u x hs hu _ _
      rw [hs, hu]
    · apply disj_of_inside _ _ inv.uniq
      intro n x hn hx
      refine ⟨⟨SliceKind.live, b2.base_address, p, sizeClass sz⟩,
        by rw [Slices_live]; exact hl, rfl, ?_⟩
      rw [hn] at hx; exact hx
  · intro b1 hb1
    obtain ⟨b0, hb0, h1, h2, _⟩ := exists_original h _ _ _ hb1
    rw [h1, h2]
    apply cover_replace (fun s => s = ⟨SliceKind.live, b2.base_address, p, sizeClass sz⟩) _ _
      (inv.cover b0 hb0)
    · rintro ⟨kd, B1, a, e1⟩ hs hR
      cases kd with
      | free => rw [Slices_free] at hs ⊢; exact hs
      | live =>
        rw [Slices_live] at hs ⊢
        refine (hlive2 _ _ _).mpr ⟨hs, ?_⟩
        rintro rfl
        obtain ⟨rfl, rfl⟩ := hsame _ _ hs
        exact hR rfl
      | pending => rw [Slices_pending] at hs; simp at hs
    · intro r x _ hR hrB hx
      rw [hR] at hrB hx
      exact ⟨⟨SliceKind.pending, b2.base_address, p, sizeClass sz⟩,
        by rw [Slices_pending], hrB, hx⟩
  · intro q s hq
    obtain ⟨hm, hne⟩ := (herase q s).mp hq
    obtain ⟨h1, h2, B1, hl1⟩ := inv.ghost_in q s hm
    exact ⟨h1, h2, B1, (hlive2 _ _ _).mpr ⟨hl1, hne⟩⟩
  · intro B1 a e1 hl1
    obtain ⟨hl2, hne⟩ := (hlive2 _ _ _).mp hl1
    obtain ⟨s, hm⟩ := inv.ghost_out B1 a e1 hl2
    exact ⟨s, (herase a s).mpr ⟨hm, hne⟩⟩
  · have hnd : L.Nodup := List.Nodup.of_map _ inv.ghost_nodup
    have hsub : (L.erase (p, sz)).Sublist L := List.erase_sublist _ _
    exact List.Nodup.sublist (List.Sublist.map _ hsub) inv.ghost_nodup
  · have h2 := inv.sum
    have h3 := liveSum_erase hp
    have h4 := blockSum_updateBlock h b2.base_address (fun x => x.SetAllocationSize p 0)
      (fun _ => rfl)
    rw [h4]
    simp only [pendSize, updateBlock_free_slices] at h2 h3 ⊢
    omega

/-! ## Buddy and parent of a slice -/

theorem GetBuddy_lower {B A e : Nat} (h1 : B ≤ A) (h2 : 2 ^ (e + 1) ∣ A - B)
    (h3 : A + 2 ^ e < WORD) :
    BlockAddress.GetBuddy ⟨B, A⟩ e = ⟨B, A + 2 ^ e⟩ := by
  have hpos := two_pow_pos_nat e
  unfold BlockAddress.GetBuddy
  simp only [Nat.one_shiftLeft]
  rw [wsub_eq h1 (by omega), xor_pow_lower h2, wadd_eq (by omega)]
  congr 1
  omega

theorem GetBuddy_upper {B P e : Nat} (h1 : B ≤ P) (h2 : 2 ^ (e + 1) ∣ P - B)
    (h3 : P + 2 ^ e < WORD) :
    BlockAddress.GetBuddy ⟨B, P + 2 ^ e⟩ e = ⟨B, P⟩ := by
  unfold BlockAddress.GetBuddy
  simp only [Nat.one_shiftLeft]
  rw [wsub_eq (by omega) h3]
  have : P + 2 ^ e - B = (P - B) + 2 ^ e := by omega
  rw [this, xor_pow_upper h2, wadd_eq (by omega)]
  congr 1
  omega

theorem GetNext_lower {B A e : Nat} (h1 : B ≤ A) (h2 : 2 ^ (e + 1) ∣ A - B)
    (h3 : A + 2 ^ e < WORD) :
    BlockAddress.GetAddressAtNextExponent ⟨B, A⟩ e = ⟨B, A⟩ := by
  have hpos := two_pow_pos_nat e
  unfold BlockAddress.GetAddressAtNextExponent
  simp only [Nat.one_shiftLeft]
  rw [wsub_eq h1 (by omega), and_pow_lower h2, wadd_eq (by omega)]
  congr 1
  omega

theorem GetNext_upper {B P e : Nat} (h1 : B ≤ P) (h2 : 2 ^ (e + 1) ∣ P - B)
    (h3 : P + 2 ^ e < WORD) :
    BlockAddress.GetAddressAtNextExponent ⟨B, P + 2 ^ e⟩ e = ⟨B, P⟩ := by
  unfold BlockAddress.GetAddressAtNextExponent
  simp only [Nat.one_shiftLeft]
  rw [wsub_eq (by omega) h3]
  have : P + 2 ^ e - B = (P - B) + 2 ^ e := by omega
  rw [this, and_pow_upper h2, wadd_eq (by omega)]
  congr 1
  omega

/-! ## `AllocExponent` -/

theorem toBool_empty : BlockAddress.empty.toBool = false := rfl

theorem toBool_of_ne {t : BlockAddress} (h : t.address ≠ 0) : t.toBool = true := by
  unfold BlockAddress.toBool
  simpa using h

theorem toBool_iff (t : BlockAddress) : t.toBool = true ↔ t.address ≠ 0 := by
  unfold BlockAddress.toBool
  simp

/-- With every stack from class `e` up empty, `AllocExponent` fails and leaves
the heap as it is. -/
theorem AllocExponentFrom_fail (n : Nat) (h : SecureHeap) (e : Nat)
    (hempty : ∀ e1, e ≤ e1 → e1 ≤ SECURE_HEAP_MAX_EXP → h.stack e1 = []) :
    h.AllocExponentFrom n e = (BlockAddress.empty, h) := by
  induction n generalizing e with
  | zero => rfl
  | succ n ih =>
    unfold SecureHeap.AllocExponentFrom
    by_cases hgt : e > SECURE_HEAP_MAX_EXP
    · rw [if_pos hgt]
    · rw [if_neg hgt]
      have hs : h.stack e = [] := hempty e (le_refl _) (by omega)
      have hself : h.setStack e [] = h := by
        have := setStack_self h e
        rw [hs] at this
        exact this
      simp only [hs, Pop_nil, toBool_empty, hself, Bool.false_eq_true, not_false_eq_true,
        if_true]
      rw [ih (e + 1) (fun e1 h1 h2 => hempty e1 (by omega) h2)]
      simp [toBool_empty]

/-- With the stacks of the classes from `e` up to `e + d - 1` empty and `t` on
top of the stack of class `e + d`, `AllocExponent(e)` pops `t` and splits it
down to class `e`. -/
theorem AllocExponentFrom_succeed (d : Nat) (n : Nat) (h : SecureHeap) (e : Nat)
    (S : FreeStack) (t : BlockAddress) (hk : e + d ≤ SECURE_HEAP_MAX_EXP) (hn : d + 1 ≤ n)
    (hempty : ∀ e1, e ≤ e1 → e1 < e + d → h.stack e1 = [])
    (hst : h.stack (e + d) = S ++ [t]) (ht : t.address ≠ 0) :
    h.AllocExponentFrom n e = (t, splitFrom d (h.setStack (e + d) S) t e) := by
  induction d generalizing n e with
  | zero =>
    obtain ⟨n1, rfl⟩ : ∃ n1, n = n1 + 1 := ⟨n - 1, by omega⟩
    unfold SecureHeap.AllocExponentFrom
    rw [if_neg (by omega)]
    simp only [Nat.add_zero] at hst ⊢
    simp only [hst, Pop_concat, toBool_of_ne ht, not_true_eq_false, if_false, splitFrom]
  | succ d ih =>
    obtain ⟨n1, rfl⟩ : ∃ n1, n = n1 + 1 := ⟨n - 1, by omega⟩
    unfold SecureHeap.AllocExponentFrom
    rw [if_neg (by omega)]
    have hs : h.stack e = [] := hempty e (le_refl _) (by omega)
    have hself : h.setStack e [] = h := by
      have := setStack_self h e
      rw [hs] at this
      exact this
    have hk2 : e + 1 + d = e + (d + 1) := by omega
    have hrec := ih n1 (e + 1) (by omega) (by omega)
      (fun e1 h1 h2 => hempty e1 (by omega) (by omega)) (by rw [hk2]; exact hst)
    simp only [hs, Pop_nil, toBool_empty, hself, Bool.false_eq_true, not_false_eq_true,
      if_true, hrec, toBool_of_ne ht, splitFrom, hk2]

@[simp] theorem splitFrom_base (d : Nat) (h : SecureHeap) (t : BlockAddress) (e : Nat) :
    (splitFrom d h t e).base_addresses = h.base_addresses := by
  induction d generalizing e with
  | zero => rfl
  | succ d ih => simp [splitFrom, ih]

@[simp] theorem splitFrom_len (d : Nat) (h : SecureHeap) (t : BlockAddress) (e : Nat) :
    (splitFrom d h t e).free_slices.length = h.free_slices.length := by
  induction d generalizing e with
  | zero => rfl
  | succ d ih => simp [splitFrom, ih]

/-- The stacks after the splits. -/
theorem stack_splitFrom (d : Nat) (h : SecureHeap) (t : BlockAddress) (e e1 : Nat)
    (hlen : h.free_slices.length = SECURE_HEAP_MAX_EXP - SECURE_HEAP_MIN_EXP + 1)
    (he : SECURE_HEAP_MIN_EXP ≤ e) (hk : e + d ≤ SECURE_HEAP_MAX_EXP + 1)
    (he1 : SECURE_HEAP_MIN_EXP ≤ e1) :
    (splitFrom d h t e).stack e1 =
      if e ≤ e1 ∧ e1 < e + d then h.stack e1 ++ [t.GetBuddy e1] else h.stack e1 := by
  induction d generalizing e with
  | zero =>
    simp only [splitFrom, Nat.add_zero]
    rw [if_neg (by omega)]
  | succ d ih =>
    simp only [splitFrom]
    have hlen2 : (splitFrom d h t (e + 1)).free_slices.length =
        SECURE_HEAP_MAX_EXP - SECURE_HEAP_MIN_EXP + 1 := by rw [splitFrom_len]; exact hlen
    rw [stack_setStack _ e1 e _ hlen2 he (by omega) he1]
    have ih1 := ih (e + 1) (by omega) (by omega)
    by_cases hee : e1 = e
    · subst hee
      rw [if_pos rfl, if_pos (by omega), FreeStack.Push]
      have := ih (e1 + 1) (by omega) (by omega)
      rw [this, if_neg (by omega)]
    · rw [if_neg hee, ih1]
      by_cases hc : e + 1 ≤ e1 ∧ e1 < e + 1 + d
      · rw [if_pos hc, if_pos (by omega)]
      · rw [if_neg hc, if_neg (by omega)]

/-- The splits keep the invariant: the slice in progress shrinks from class
`e + d` to class `e`. -/
theorem InvP.splitFrom {h : SecureHeap} {L : List (Nat × Nat)} {B A : Nat} (d e : Nat)
    (inv : InvP h L (some (B, A, e + d))) (he : SECURE_HEAP_MIN_EXP ≤ e) :
    InvP (NodeSecureHeap.splitFrom d h ⟨B, A⟩ e) L (some (B, A, e)) := by
  induction d generalizing e with
  | zero => exact inv
  | succ d ih =>
    have hk2 : e + 1 + d = e + (d + 1) := by omega
    have inv1 : InvP (NodeSecureHeap.splitFrom d h ⟨B, A⟩ (e + 1)) L (some (B, A, e + 1)) :=
      ih (e + 1) (by rw [hk2]; exact inv) (by omega)
    obtain ⟨b, hb, hB, _, hE, hfit1, hfit2, hfit3⟩ := inv1.pend_ok B A (e + 1) rfl
    obtain ⟨_, _, hW, _⟩ := inv1.blk_ok b hb
    have hpow := two_pow_succ_eq e
    have hbud : BlockAddress.GetBuddy ⟨B, A⟩ e = ⟨B, A + 2 ^ e⟩ :=
      GetBuddy_lower (by omega) (by rw [← hB]; exact hfit2) (by omega)
    simp only [NodeSecureHeap.splitFrom, FreeStack.Push, hbud]
    exact inv1.split he

/-! ## `CreateBlock` -/

theorem blockExponent_bounds (pexp w : Nat) (hw : w ≤ SECURE_HEAP_MAX_EXP) :
    w ≤ blockExponent pexp w ∧ blockExponent pexp w ≤ SECURE_HEAP_MAX_EXP := by
  unfold blockExponent
  simp only
  constructor
  · exact le_max_left _ _
  · exact max_le hw (min_le_left _ _)

theorem GetPageSizeExponent_of_ok {page_size : Nat} (hps : PageSizeOk page_size) :
    ∃ p, GetPageSizeExponent page_size = Result.ok p := by
  obtain ⟨p, hp, rfl⟩ := hps
  refine ⟨p, ?_⟩
  unfold GetPageSizeExponent
  have hlt : 2 ^ p < WORD := by
    unfold WORD
    exact Nat.pow_lt_pow_right (by decide) hp
  rw [WidthOfSize_eq (two_pow_pos_nat p) hlt, Nat.clog_pow 2 p (by decide)]
  simp [Nat.one_shiftLeft]

/-- The block `CreateBlock` makes for base `base` and exponent `E`. -/
theorem Block_create_eq {base E : Nat} (hb : base ≠ 0) (h1 : SECURE_HEAP_MIN_EXP ≤ E)
    (h2 : E ≤ SECURE_HEAP_MAX_EXP) :
    Block.create base E =
      Result.ok ⟨base, E, List.replicate (2 ^ (E - SECURE_HEAP_MIN_EXP)) 0⟩ := by
  unfold Block.create
  rw [if_neg hb, if_neg (by omega), if_neg (by omega)]
  simp only [Nat.one_shiftLeft, Nat.shiftRight_eq_div_pow]
  have : 2 ^ E / 2 ^ SECURE_HEAP_MIN_EXP = 2 ^ (E - SECURE_HEAP_MIN_EXP) :=
    Nat.pow_div h1 (by decide)
  rw [this]

theorem CreateBlock_eq (page_size : Nat) (os : Nat → Nat) (h : SecureHeap) (w : Nat)
    (h1 : SECURE_HEAP_MIN_EXP ≤ w) (h2 : w ≤ SECURE_HEAP_MAX_EXP) (pexp : Nat)
    (hp : GetPageSizeExponent page_size = Result.ok pexp) :
    h.CreateBlock page_size os w =
      if os (2 ^ blockExponent pexp w) ≠ 0 then
        Result.ok (os (2 ^ blockExponent pexp w),
          { free_slices := (h.setStack (blockExponent pexp w)
              (h.stack (blockExponent pexp w) ++
                [⟨os (2 ^ blockExponent pexp w), os (2 ^ blockExponent pexp w)⟩])).free_slices
            base_addresses := mapInsert h.base_addresses
              ⟨os (2 ^ blockExponent pexp w), blockExponent pexp w,
                List.replicate (2 ^ (blockExponent pexp w - SECURE_HEAP_MIN_EXP)) 0⟩ })
      else Result.ok (0, h) := by
  obtain ⟨hE1, hE2⟩ := blockExponent_bounds pexp w h2
  unfold SecureHeap.CreateBlock
  rw [if_neg (by omega), if_neg (by omega), hp]
  simp only [AllocProtectedMemory, Nat.one_shiftLeft]
  rw [if_neg (by have := two_pow_pos_nat (blockExponent pexp w); omega)]
  by_cases hb : os (2 ^ blockExponent pexp w) = 0
  · simp [hb]
  · simp only [hb, ne_eq, not_false_eq_true, if_true]
    rw [Block_create_eq hb (by omega) hE2]
    rfl

/-! ## `Alloc` -/

theorem sizeClass_le_iff {sz : Nat} :
    sizeClass sz ≤ SECURE_HEAP_MAX_EXP ↔ sz ≤ 2 ^ SECURE_HEAP_MAX_EXP := by
  unfold sizeClass
  constructor
  · intro h
    have h1 : Nat.clog 2 sz ≤ SECURE_HEAP_MAX_EXP := le_trans (le_max_right _ _) h
    exact (Nat.le_pow_iff_clog_le (by decide)).mpr h1
  · intro h
    exact max_le (by decide) (clog_le_of_le_pow h)

/-- Among the stacks of the classes from `w` to `MAX_EXP`, either all are empty
or there is a first one that is not. -/
theorem first_nonempty (h : SecureHeap) (n w : Nat) (hn : w + n = SECURE_HEAP_MAX_EXP + 1) :
    (∀ e1, w ≤ e1 → e1 ≤ SECURE_HEAP_MAX_EXP → h.stack e1 = []) ∨
    ∃ d, w + d ≤ SECURE_HEAP_MAX_EXP ∧ (∀ e1, w ≤ e1 → e1 < w + d → h.stack e1 = []) ∧
      h.stack (w + d) ≠ [] := by
  induction n generalizing w with
  | zero => left; intro e1 h1 h2; omega
  | succ n ih =>
    by_cases hs : h.stack w = []
    · rcases ih (w + 1) (by omega) with hall | ⟨d, hd1, hd2, hd3⟩
      · left
        intro e1 h1 h2
        by_cases he : e1 = w
        · rw [he]; exact hs
        · exact hall e1 (by omega) h2
      · right
        refine ⟨d + 1, by omega, ?_, ?_⟩
        · intro e1 h1 h2
          by_cases he : e1 = w
          · rw [he]; exact hs
          · exact hd2 e1 (by omega) (by omega)
        · have : w + (d + 1) = w + 1 + d := by omega
          rw [this]; exact hd3
    · right
      exact ⟨0, by omega, fun e1 h1 h2 => by omega, hs⟩

theorem Alloc_zero (page_size : Nat) (os : Nat → Nat) (h : SecureHeap) :
    h.Alloc page_size os 0 = Result.ok (0, h) := by
  unfold SecureHeap.Alloc
  rw [if_pos rfl]

/-- `Alloc` when a free slice of a sufficient class exists: the top of the first
non-empty stack from the class of the request up is popped, split down to that
class and recorded. -/
theorem Alloc_of_free (page_size : Nat) (os : Nat → Nat) (h : SecureHeap) (sz d : Nat)
    (S : FreeStack) (t : BlockAddress) (h0 : 0 < sz) (hW : sz < WORD)
    (hk : sizeClass sz + d ≤ SECURE_HEAP_MAX_EXP)
    (hempty : ∀ e1, sizeClass sz ≤ e1 → e1 < sizeClass sz + d → h.stack e1 = [])
    (hst : h.stack (sizeClass sz + d) = S ++ [t]) (ht : t.address ≠ 0) :
    h.Alloc page_size os sz = Result.ok (t.address,
      (splitFrom d (h.setStack (sizeClass sz + d) S) t (sizeClass sz)).updateBlock t.block
        (fun b => b.SetAllocationSize t.address (sizeClass sz))) := by
  unfold SecureHeap.Alloc
  rw [if_neg (by omega), WidthOfSize_eq h0 hW]
  simp only
  have hcls : max SECURE_HEAP_MIN_EXP (Nat.clog 2 sz) = sizeClass sz := rfl
  rw [hcls]
  unfold SecureHeap.AllocExponent
  rw [AllocExponentFrom_succeed d _ h (sizeClass sz) S t hk (by omega) hempty hst ht]
  simp only [toBool_of_ne ht, not_true_eq_false, false_and, if_false, if_true]

/-- `Alloc` when no free slice of a sufficient class exists and the request is
too large for any class. -/
theorem Alloc_too_large (page_size : Nat) (os : Nat → Nat) (h : SecureHeap) (sz : Nat)
    (hW : sz < WORD) (hbig : 2 ^ SECURE_HEAP_MAX_EXP < sz) :
    h.Alloc page_size os sz = Result.ok (0, h) := by
  have h0 : 0 < sz := lt_trans (two_pow_pos_nat _) hbig
  have hcl : ¬ sizeClass sz ≤ SECURE_HEAP_MAX_EXP := by
    rw [sizeClass_le_iff]; omega
  unfold SecureHeap.Alloc
  rw [if_neg (by omega), WidthOfSize_eq h0 hW]
  simp only
  have hcls : max SECURE_HEAP_MIN_EXP (Nat.clog 2 sz) = sizeClass sz := rfl
  rw [hcls]
  unfold SecureHeap.AllocExponent
  rw [AllocExponentFrom_fail _ h (sizeClass sz) (fun e1 h1 h2 => by omega)]
  simp only [toBool_empty, hcl, and_false, if_false]
  rfl

/-- `Alloc` when no free slice of a sufficient class exists and the class is in
range: a block is created if the system gives memory. -/
theorem Alloc_of_no_free (page_size : Nat) (os : Nat → Nat) (h : SecureHeap) (sz : Nat)
    (hlen : h.free_slices.length = SECURE_HEAP_MAX_EXP - SECURE_HEAP_MIN_EXP + 1)
    (h0 : 0 < sz) (hW : sz < WORD) (hcl : sizeClass sz ≤ SECURE_HEAP_MAX_EXP)
    (hempty : ∀ e1, sizeClass sz ≤ e1 → e1 ≤ SECURE_HEAP_MAX_EXP → h.stack e1 = [])
    (pexp : Nat) (hp : GetPageSizeExponent page_size = Result.ok pexp) :
    h.Alloc page_size os sz =
      if os (2 ^ blockExponent pexp (sizeClass sz)) ≠ 0 then
        Result.ok (os (2 ^ blockExponent pexp (sizeClass sz)),
          (splitFrom (blockExponent pexp (sizeClass sz) - sizeClass sz)
            (h.withBlock (os (2 ^ blockExponent pexp (sizeClass sz)))
              (blockExponent pexp (sizeClass sz)))
            ⟨os (2 ^ blockExponent pexp (sizeClass sz)),
              os (2 ^ blockExponent pexp (sizeClass sz))⟩
            (sizeClass sz)).updateBlock (os (2 ^ blockExponent pexp (sizeClass sz)))
              (fun b => b.SetAllocationSize (os (2 ^ blockExponent pexp (sizeClass sz)))
                (sizeClass sz)))
      else Result.ok (0, h) := by
  have hw8 := sizeClass_ge sz
  obtain ⟨hE1, hE2⟩ := blockExponent_bounds pexp (sizeClass sz) hcl
  unfold SecureHeap.Alloc
  rw [if_neg (by omega), WidthOfSize_eq h0 hW]
  simp only
  have hcls : max SECURE_HEAP_MIN_EXP (Nat.clog 2 sz) = sizeClass sz := rfl
  rw [hcls]
  unfold SecureHeap.AllocExponent
  rw [AllocExponentFrom_fail _ h (sizeClass sz) hempty]
  simp only [toBool_empty, Bool.false_eq_true, not_false_eq_true, hcl, and_self, if_true]
  rw [CreateBlock_eq page_size os h (sizeClass sz) hw8 hcl pexp hp]
  by_cases hb : os (2 ^ blockExponent pexp (sizeClass sz)) = 0
  · simp only [hb, ne_eq, not_true_eq_false, if_false, toBool_empty, Bool.false_eq_true]
    rfl
  · simp only [hb, ne_eq, not_false_eq_true, if_true]
    generalize hE : blockExponent pexp (sizeClass sz) = E at *
    generalize hbase : os (2 ^ E) = base at *
    have hsE : h.stack E = [] := hempty E hE1 hE2
    have hd : sizeClass sz + (E - sizeClass sz) = E := by omega
    have hrun := AllocExponentFrom_succeed (E - sizeClass sz)
      (SECURE_HEAP_MAX_EXP + 2 - sizeClass sz)
      { free_slices := (h.setStack E (h.stack E ++ [⟨base, base⟩])).free_slices
        base_addresses := mapInsert h.base_addresses
          ⟨base, E, List.replicate (2 ^ (E - SECURE_HEAP_MIN_EXP)) 0⟩ }
      (sizeClass sz) [] ⟨base, base⟩ (by omega) (by omega)
      (by
        intro e1 h1 h2
        show (h.setStack E (h.stack E ++ [⟨base, base⟩])).stack e1 = []
        rw [stack_setStack h e1 E _ hlen (by omega) hE2 (by omega), if_neg (by omega)]
        exact hempty e1 h1 (by omega))
      (by
        rw [hd]
        show (h.setStack E (h.stack E ++ [⟨base, base⟩])).stack E = [] ++ [⟨base, base⟩]
        rw [stack_setStack h E E _ hlen (by omega) hE2 (by omega), if_pos rfl, hsE])
      hb
    rw [hrun]
    have htb : BlockAddress.toBool ⟨base, base⟩ = true := toBool_of_ne hb
    simp only [htb, if_true]
    have hstate : SecureHeap.setStack
        { free_slices := (h.setStack E (h.stack E ++ [⟨base, base⟩])).free_slices
          base_addresses := mapInsert h.base_addresses
            ⟨base, E, List.replicate (2 ^ (E - SECURE_HEAP_MIN_EXP)) 0⟩ }
        (sizeClass sz + (E - sizeClass sz)) [] = h.withBlock base E := by
      rw [hd]
      have h1 : (h.setStack E (h.stack E ++ [⟨base, base⟩])).setStack E [] = h := by
        rw [setStack_setStack]
        have := setStack_self h E
        rw [hsE] at this
        exact this
      have h2 := congrArg SecureHeap.free_slices h1
      simp only [SecureHeap.setStack, SecureHeap.withBlock] at h2 ⊢
      rw [h2]
    rw [hstate]

theorem CreateBlock_not_ok (page_size : Nat) (os : Nat → Nat) (h : SecureHeap) (w : Nat)
    (hp : ∀ pexp, GetPageSizeExponent page_size ≠ Result.ok pexp) :
    ∀ r, h.CreateBlock page_size os w ≠ Result.ok r := by
  intro r
  unfold SecureHeap.CreateBlock
  by_cases h1 : ¬ (w ≥ SECURE_HEAP_MIN_EXP)
  · rw [if_pos h1]; simp
  · rw [if_neg h1]
    by_cases h2 : ¬ (w ≤ SECURE_HEAP_MAX_EXP)
    · rw [if_pos h2]; simp
    · rw [if_neg h2]
      cases hg : GetPageSizeExponent page_size with
      | ok pexp => exact absurd hg (hp pexp)
      | fatal => simp
      | undefined => simp

theorem Alloc_no_free_not_ok (page_size : Nat) (os : Nat → Nat) (h : SecureHeap) (sz : Nat)
    (h0 : 0 < sz) (hW : sz < WORD) (hcl : sizeClass sz ≤ SECURE_HEAP_MAX_EXP)
    (hempty : ∀ e1, sizeClass sz ≤ e1 → e1 ≤ SECURE_HEAP_MAX_EXP → h.stack e1 = [])
    (hp : ∀ pexp, GetPageSizeExponent page_size ≠ Result.ok pexp) :
    ∀ r, h.Alloc page_size os sz ≠ Result.ok r := by
  intro r
  unfold SecureHeap.Alloc
  rw [if_neg (by omega), WidthOfSize_eq h0 hW]
  simp only
  have hcls : max SECURE_HEAP_MIN_EXP (Nat.clog 2 sz) = sizeClass sz := rfl
  rw [hcls]
  unfold SecureHeap.AllocExponent
  rw [AllocExponentFrom_fail _ h (sizeClass sz) hempty]
  simp only [toBool_empty, Bool.false_eq_true, not_false_eq_true, hcl, and_self, if_true]
  have hc := CreateBlock_not_ok page_size os h (sizeClass sz) hp
  cases hcb : h.CreateBlock page_size os (sizeClass sz) with
  | ok c => exact absurd hcb (hc c)
  | fatal => simp
  | undefined => simp

theorem free_address_ne_zero {h : SecureHeap} {L : List (Nat × Nat)}
    {pend : Option (Nat × Nat × Nat)} (inv : InvP h L pend) {B a e : Nat}
    (hf : h.isFree B a e) : a ≠ 0 ∧ B ≠ 0 := by
  obtain ⟨b, hb, hB, _, hfit, _⟩ := inv.free_ok B a e hf
  obtain ⟨hpos, _⟩ := inv.blk_ok b hb
  omega

/-- `Alloc` keeps the invariant: a non-null result is a new live allocation, a
null result leaves the heap as it was. -/
theorem Alloc_inv {page_size : Nat} {os : Nat → Nat} {h h1 : SecureHeap}
    {L : List (Nat × Nat)} {sz p : Nat} (inv : InvP h L none) (hos : OSContract os h)
    (hW : sz < WORD) (hA : h.Alloc page_size os sz = Result.ok (p, h1)) :
    (p ≠ 0 → InvP h1 ((p, sz) :: L) none) ∧ (p = 0 → h1 = h) := by
  by_cases h0 : sz = 0
  · subst h0
    rw [Alloc_zero] at hA
    simp only [Result.ok.injEq, Prod.mk.injEq] at hA
    obtain ⟨rfl, rfl⟩ := hA
    exact ⟨fun hne => absurd rfl hne, fun _ => rfl⟩
  have hpos : 0 < sz := by omega
  by_cases hbig : 2 ^ SECURE_HEAP_MAX_EXP < sz
  · rw [Alloc_too_large page_size os h sz hW hbig] at hA
    simp only [Result.ok.injEq, Prod.mk.injEq] at hA
    obtain ⟨rfl, rfl⟩ := hA
    exact ⟨fun hne => absurd rfl hne, fun _ => rfl⟩
  have hsz : sz ≤ 2 ^ SECURE_HEAP_MAX_EXP := by omega
  have hcl : sizeClass sz ≤ SECURE_HEAP_MAX_EXP := sizeClass_le_iff.mpr hsz
  have hw8 := sizeClass_ge sz
  rcases first_nonempty h (SECURE_HEAP_MAX_EXP + 1 - sizeClass sz) (sizeClass sz) (by omega)
    with hempty | ⟨d, hd1, hd2, hd3⟩
  · cases hg : GetPageSizeExponent page_size with
    | fatal =>
      exact absurd hA (Alloc_no_free_not_ok page_size os h sz hpos hW hcl hempty
        (by rw [hg]; simp) _)
    | undefined =>
      exact absurd hA (Alloc_no_free_not_ok page_size os h sz hpos hW hcl hempty
        (by rw [hg]; simp) _)
    | ok pexp =>
      rw [Alloc_of_no_free page_size os h sz inv.len hpos hW hcl hempty pexp hg] at hA
      obtain ⟨hE1, hE2⟩ := blockExponent_bounds pexp (sizeClass sz) hcl
      generalize hE : blockExponent pexp (sizeClass sz) = E at *
      by_cases hb : os (2 ^ E) = 0
      · rw [if_neg (by simpa using hb)] at hA
        simp only [Result.ok.injEq, Prod.mk.injEq] at hA
        obtain ⟨rfl, rfl⟩ := hA
        exact ⟨fun hne => absurd rfl hne, fun _ => rfl⟩
      · rw [if_pos hb] at hA
        simp only [Result.ok.injEq, Prod.mk.injEq] at hA
        obtain ⟨rfl, rfl⟩ := hA
        refine ⟨fun _ => ?_, fun h0 => absurd h0 hb⟩
        obtain ⟨hal, hfitw, hdisj⟩ := hos (2 ^ E) hb
        have hok : BlockOk ⟨os (2 ^ E), E, List.replicate (2 ^ (E - SECURE_HEAP_MIN_EXP)) 0⟩ := by
          show 0 < os (2 ^ E) ∧ 2 ^ SECURE_HEAP_MIN_EXP ∣ os (2 ^ E) ∧
            os (2 ^ E) + 2 ^ E < WORD ∧ SECURE_HEAP_MIN_EXP ≤ E ∧ E ≤ SECURE_HEAP_MAX_EXP ∧
            (List.replicate (2 ^ (E - SECURE_HEAP_MIN_EXP)) 0).length =
              2 ^ (E - SECURE_HEAP_MIN_EXP)
          refine ⟨by omega, hal, hfitw, by omega, hE2, ?_⟩
          simp
        have inv1 := inv.create _ hok ⟨_, rfl⟩ hdisj
        have hd : sizeClass sz + (E - sizeClass sz) = E := by omega
        have inv2 := InvP.splitFrom (E - sizeClass sz) (sizeClass sz)
          (by rw [hd]; exact inv1) hw8
        exact inv2.mark sz hpos hsz rfl
  · obtain ⟨S, t, hst⟩ : ∃ S t, h.stack (sizeClass sz + d) = S ++ [t] := by
      rcases List.eq_nil_or_concat (h.stack (sizeClass sz + d)) with h1 | ⟨S, t, h1⟩
      · exact absurd h1 hd3
      · exact ⟨S, t, by rw [h1, List.concat_eq_append]⟩
    have htf : h.isFree t.block t.address (sizeClass sz + d) :=
      ⟨by omega, hd1, by rw [hst]; simp⟩
    have ht := (free_address_ne_zero inv htf).1
    rw [Alloc_of_free page_size os h sz d S t hpos hW hd1 hd2 hst ht] at hA
    simp only [Result.ok.injEq, Prod.mk.injEq] at hA
    obtain ⟨rfl, rfl⟩ := hA
    refine ⟨fun _ => ?_, fun h0 => absurd h0 ht⟩
    have inv1 := inv.pop (by omega) hd1 hst
    have inv2 := InvP.splitFrom d (sizeClass sz) inv1 hw8
    exact inv2.mark sz hpos hsz rfl

/-- With a page size that is a power of two, `Alloc` returns: no `CHECK` fails. -/
theorem Alloc_returns {page_size : Nat} (os : Nat → Nat) {h : SecureHeap}
    {L : List (Nat × Nat)} (sz : Nat) (inv : InvP h L none) (hps : PageSizeOk page_size)
    (hW : sz < WORD) : ∃ r, h.Alloc page_size os sz = Result.ok r := by
  by_cases h0 : sz = 0
  · subst h0
    exact ⟨_, Alloc_zero _ _ _⟩
  have hpos : 0 < sz := by omega
  by_cases hbig : 2 ^ SECURE_HEAP_MAX_EXP < sz
  · exact ⟨_, Alloc_too_large page_size os h sz hW hbig⟩
  have hsz : sz ≤ 2 ^ SECURE_HEAP_MAX_EXP := by omega
  have hcl : sizeClass sz ≤ SECURE_HEAP_MAX_EXP := sizeClass_le_iff.mpr hsz
  have hw8 := sizeClass_ge sz
  rcases first_nonempty h (SECURE_HEAP_MAX_EXP + 1 - sizeClass sz) (sizeClass sz) (by omega)
    with hempty | ⟨d, hd1, hd2, hd3⟩
  · obtain ⟨pexp, hg⟩ := GetPageSizeExponent_of_ok hps
    rw [Alloc_of_no_free page_size os h sz inv.len hpos hW hcl hempty pexp hg]
    by_cases hb : os (2 ^ blockExponent pexp (sizeClass sz)) = 0
    · rw [if_neg (by simpa using hb)]; exact ⟨_, rfl⟩
    · rw [if_pos hb]; exact ⟨_, rfl⟩
  · obtain ⟨S, t, hst⟩ : ∃ S t, h.stack (sizeClass sz + d) = S ++ [t] := by
      rcases List.eq_nil_or_concat (h.stack (sizeClass sz + d)) with h1 | ⟨S, t, h1⟩
      · exact absurd h1 hd3
      · exact ⟨S, t, by rw [h1, List.concat_eq_append]⟩
    have htf : h.isFree t.block t.address (sizeClass sz + d) :=
      ⟨by omega, hd1, by rw [hst]; simp⟩
    have ht := (free_address_ne_zero inv htf).1
    exact ⟨_, Alloc_of_free page_size os h sz d S t hpos hW hd1 hd2 hst ht⟩

/-! ## `GetBlockAddress` -/

theorem IsValidPointer_iff {b : Block} (hok : BlockOk b) (ptr : Nat) :
    b.IsValidPointer ptr = true ↔
      b.base_address ≤ ptr ∧ ptr < b.base_address + 2 ^ b.own_exponent ∧
      ptr % 2 ^ SECURE_HEAP_MIN_EXP = 0 := by
  obtain ⟨_, _, hW, _⟩ := hok
  unfold Block.IsValidPointer
  simp only [Nat.one_shiftLeft, wadd_eq hW, Bool.and_eq_true, decide_eq_true_eq, ge_iff_le]
  tauto

theorem mod_unit_of_fits {B p : Nat} (h1 : B ≤ p) (hB : 2 ^ SECURE_HEAP_MIN_EXP ∣ B)
    (hp : 2 ^ SECURE_HEAP_MIN_EXP ∣ p - B) : p % 2 ^ SECURE_HEAP_MIN_EXP = 0 := by
  have : p = (p - B) + B := by omega
  rw [this]
  exact Nat.mod_eq_zero_of_dvd (Dvd.dvd.add hp hB)

/-- For a pointer inside a block, `GetBlockAddress` finds that block. -/
theorem GetBlockAddress_of_mem {h : SecureHeap} {L : List (Nat × Nat)}
    {pend : Option (Nat × Nat × Nat)} (inv : InvP h L pend) {b : Block}
    (hb : b ∈ h.base_addresses) {ptr : Nat} (h1 : b.base_address ≤ ptr)
    (h2 : ptr < b.base_address + 2 ^ b.own_exponent) :
    h.GetBlockAddress ptr =
      Result.ok (if ptr % 2 ^ SECURE_HEAP_MIN_EXP = 0 then ⟨b.base_address, ptr⟩
        else BlockAddress.empty) := by
  obtain ⟨hne, hget⟩ := upper_bound_of_mem inv.sorted hb h1 h2
  unfold SecureHeap.GetBlockAddress
  have hnil : h.base_addresses.isEmpty = false := by
    cases hm : h.base_addresses with
    | nil => rw [hm] at hb; simp at hb
    | cons _ _ => rfl
  simp only [hnil, Bool.false_eq_true, not_false_eq_true, if_true, hne, if_false, hget]
  by_cases hmod : ptr % 2 ^ SECURE_HEAP_MIN_EXP = 0
  · rw [if_pos ((IsValidPointer_iff (inv.blk_ok b hb) ptr).mpr ⟨h1, h2, hmod⟩), if_pos hmod]
  · have : ¬ b.IsValidPointer ptr = true := by
      rw [IsValidPointer_iff (inv.blk_ok b hb)]
      tauto
    rw [if_neg this, if_neg hmod]

/-! ## `Free` -/

theorem pending_block {h : SecureHeap} {L : List (Nat × Nat)} {B A e : Nat}
    (inv : InvP h L (some (B, A, e))) {b : Block} (hb : b ∈ h.base_addresses)
    (hB : b.base_address = B) :
    SECURE_HEAP_MIN_EXP ≤ e ∧ e ≤ b.own_exponent ∧ Fits b A e := by
  obtain ⟨b2, hb2, hB2, h1, h2, h3⟩ := inv.pend_ok B A e rfl
  have : b2 = b := block_unique inv.sorted hb2 hb (hB2.trans hB.symm)
  subst this
  exact ⟨h1, h2, h3⟩

/-- The merge loop of `Free` keeps the invariant; when it stops below the
exponent of the block, the buddy of the slice it holds is not free. -/
theorem FreeLoop_inv {L : List (Nat × Nat)} {b : Block} (n : Nat) :
    ∀ (h : SecureHeap) (A e : Nat), InvP h L (some (b.base_address, A, e)) →
      b ∈ h.base_addresses → b.own_exponent - e ≤ n →
      ∃ A1 e1 h1, h.FreeLoop n b.own_exponent ⟨b.base_address, A⟩ e =
          (⟨b.base_address, A1⟩, e1, h1) ∧
        InvP h1 L (some (b.base_address, A1, e1)) ∧
        h1.base_addresses = h.base_addresses ∧ e1 ≤ b.own_exponent ∧
        (e1 < b.own_exponent →
          (2 ^ (e1 + 1) ∣ A1 - b.base_address → ¬ h1.isFree b.base_address (A1 + 2 ^ e1) e1) ∧
          (∀ P, 2 ^ (e1 + 1) ∣ P - b.base_address → A1 = P + 2 ^ e1 →
            ¬ h1.isFree b.base_address P e1)) := by
  induction n with
  | zero =>
    intro h A e inv hb hn
    obtain ⟨_, hle, _⟩ := pending_block inv hb rfl
    refine ⟨A, e, h, rfl, inv, rfl, hle, ?_⟩
    intro hlt
    omega
  | succ n ih =>
    intro h A e inv hb hn
    obtain ⟨he8, hle, hfit1, hfit2, hfit3⟩ := pending_block inv hb rfl
    obtain ⟨_, _, hW, _, hE20, _⟩ := inv.blk_ok b hb
    have hpos := two_pow_pos_nat e
    have hk2 : e ≤ SECURE_HEAP_MAX_EXP := by omega
    unfold SecureHeap.FreeLoop
    by_cases hlt : e < b.own_exponent
    · rw [if_pos hlt]
      rcases dvd_pow_cases hfit2 with hlow | ⟨hge, hup⟩
      · rw [GetBuddy_lower hfit1 hlow (by omega)]
        by_cases hm : (⟨b.base_address, A + 2 ^ e⟩ : BlockAddress) ∈ h.stack e
        · rw [Remove_of_mem hm]
          simp only [if_true]
          rw [GetNext_lower hfit1 hlow (by omega)]
          have inv1 := inv.merge hfit1 hlow (Or.inl ⟨rfl, rfl⟩) hm
          obtain ⟨A1, e1, h1, hr1, hr2, hr3, hr4, hr5⟩ :=
            ih _ A (e + 1) inv1 (by simpa using hb) (by omega)
          exact ⟨A1, e1, h1, hr1, hr2, by rw [hr3]; rfl, hr4, hr5⟩
        · rw [Remove_of_not_mem hm]
          simp only [Bool.false_eq_true, if_false]
          refine ⟨A, e, h, rfl, inv, rfl, hle, fun _ => ⟨?_, ?_⟩⟩
          · intro _ hf
            exact hm hf.2.2
          · intro P hP hA hf
            obtain ⟨b2, hb2, hB2, _, hq1, _⟩ := inv.free_ok _ _ _ hf
            rw [hB2] at hq1
            have : A - b.base_address = (P - b.base_address) + 2 ^ e := by omega
            rw [this] at hlow
            exact not_dvd_add_pow hP hlow
      · have hA : A = (A - 2 ^ e) + 2 ^ e := by omega
        have hPB : b.base_address ≤ A - 2 ^ e := by omega
        have hPd : 2 ^ (e + 1) ∣ (A - 2 ^ e) - b.base_address := by
          have : A - 2 ^ e - b.base_address = A - b.base_address - 2 ^ e := by omega
          rw [this]; exact hup
        have hbud : BlockAddress.GetBuddy ⟨b.base_address, A⟩ e =
            ⟨b.base_address, A - 2 ^ e⟩ := by
          have := GetBuddy_upper hPB hPd (by omega)
          rw [← hA] at this
          exact this
        have hnext : BlockAddress.GetAddressAtNextExponent ⟨b.base_address, A⟩ e =
            ⟨b.base_address, A - 2 ^ e⟩ := by
          have := GetNext_upper hPB hPd (by omega)
          rw [← hA] at this
          exact this
        rw [hbud]
        by_cases hm : (⟨b.base_address, A - 2 ^ e⟩ : BlockAddress) ∈ h.stack e
        · rw [Remove_of_mem hm]
          simp only [if_true]
          rw [hnext]
          have inv1 := inv.merge hPB hPd (Or.inr ⟨hA, rfl⟩) hm
          obtain ⟨A1, e1, h1, hr1, hr2, hr3, hr4, hr5⟩ :=
            ih _ (A - 2 ^ e) (e + 1) inv1 (by simpa using hb) (by omega)
          exact ⟨A1, e1, h1, hr1, hr2, by rw [hr3]; rfl, hr4, hr5⟩
        · rw [Remove_of_not_mem hm]
          simp only [Bool.false_eq_true, if_false]
          refine ⟨A, e, h, rfl, inv, rfl, hle, fun _ => ⟨?_, ?_⟩⟩
          · intro hd _
            have : A - b.base_address = (A - 2 ^ e - b.base_address) + 2 ^ e := by omega
            rw [this] at hd
            exact not_dvd_add_pow hPd hd
          · intro P _ hAP hf
            have : P = A - 2 ^ e := by omega
            rw [this] at hf
            exact hm hf.2.2
    · rw [if_neg hlt]
      refine ⟨A, e, h, rfl, inv, rfl, hle, ?_⟩
      intro hlt2
      omega

/-- `Free` of a live pointer returns, and it keeps the invariant with the
allocation removed from the live ones. -/
theorem Free_inv {h : SecureHeap} {L : List (Nat × Nat)} {p sz : Nat} (inv : InvP h L none)
    (hp : (p, sz) ∈ L) :
    ∃ h1, h.Free p = Result.ok h1 ∧ InvP h1 (L.erase (p, sz)) none := by
  obtain ⟨_, _, B, hl⟩ := inv.ghost_in p sz hp
  have hl0 := hl
  obtain ⟨b, hb, hB, hp1, hp2, hp3, hget, hne⟩ := hl
  subst hB
  obtain ⟨hbpos, hbal, hW, hE8, hE20, hlen⟩ := inv.blk_ok b hb
  have hmod := mod_unit_of_fits hp1 hbal hp3
  have hnil : h.base_addresses.isEmpty = false := by
    cases hm : h.base_addresses with
    | nil => rw [hm] at hb; simp at hb
    | cons _ _ => rfl
  have hvalid : b.IsValidPointer p = true :=
    (IsValidPointer_iff (inv.blk_ok b hb) p).mpr ⟨hp1, hp2, hmod⟩
  have hsize : b.GetAllocationSize p = sizeClass sz := by
    unfold Block.GetAllocationSize
    rw [GetOffsetInUnits_eq hp1 (by omega)]
    exact hget
  have inv1 := inv.unmark hp hb hl0
  have hb1 : b.SetAllocationSize p 0 ∈
      (h.updateBlock b.base_address (fun x => x.SetAllocationSize p 0)).base_addresses :=
    (mem_updateBlock _ _ _ _).mpr ⟨b, hb, by rw [if_pos rfl]⟩
  obtain ⟨A1, e1, h2, hr1, hr2, hr3, hr4, hr5⟩ :=
    @FreeLoop_inv (L.erase (p, sz)) (b.SetAllocationSize p 0) (b.own_exponent - sizeClass sz)
      _ p (sizeClass sz) inv1 hb1 (le_refl _)
  simp only [SetAllocationSize_base, SetAllocationSize_exp] at hr1 hr2 hr4 hr5
  have hb2 : b.SetAllocationSize p 0 ∈ h2.base_addresses := by rw [hr3]; exact hb1
  unfold SecureHeap.Free
  rw [if_neg (by omega), hnil]
  simp only [Bool.false_eq_true, if_false]
  rw [GetBlockAddress_of_mem inv hb hp1 hp2, if_pos hmod]
  simp only
  rw [if_neg (by omega), findBlock_of_mem inv.sorted hb]
  simp only [hvalid, not_true_eq_false, if_false, hsize]
  rw [if_neg hne, hr1]
  simp only
  by_cases hE : e1 = b.own_exponent
  · rw [if_pos hE]
    unfold SecureHeap.DestroyBlock
    rw [if_neg (by omega)]
    refine ⟨_, rfl, ?_⟩
    subst hE
    exact @InvP.destroy h2 (L.erase (p, sz)) A1 (b.SetAllocationSize p 0) hr2 hb2
  · rw [if_neg hE]
    refine ⟨_, rfl, ?_⟩
    have hlt : e1 < b.own_exponent := by omega
    obtain ⟨hc1, hc2⟩ := hr5 hlt
    apply InvP.push hr2 _ hc1 hc2
    intro b3 hb3 hB3
    have : b3 = b.SetAllocationSize p 0 := block_unique hr2.sorted hb3 hb2 hB3
    rw [this]
    exact hlt

theorem Free_null (h : SecureHeap) : h.Free 0 = Result.ok h := by
  unfold SecureHeap.Free
  rw [if_pos rfl]

theorem InvP_init : InvP SecureHeap.init [] none := by
  refine
    { len := by simp [SecureHeap.init]
      sorted := List.Pairwise.nil
      blk_ok := by intro b hb; simp [SecureHeap.init] at hb
      nodup := ?_
      free_ok := ?_
      live_ok := ?_
      pend_ok := by intro _ _ _ hp; simp at hp
      uniq := ?_
      cover := by intro b hb; simp [SecureHeap.init] at hb
      nobuddy := ?_
      ghost_in := by intro _ _ hp; simp at hp
      ghost_out := ?_
      ghost_nodup := by simp
      sum := by decide }
  · intro e
    have : SecureHeap.init.stack e = [] := by
      unfold SecureHeap.stack SecureHeap.init
      rw [List.getD_eq_getElem?_getD, List.getElem?_replicate]
      split <;> rfl
    rw [this]
    exact List.nodup_nil
  · intro B a e hf
    have : SecureHeap.init.stack e = [] := by
      unfold SecureHeap.stack SecureHeap.init
      rw [List.getD_eq_getElem?_getD, List.getElem?_replicate]
      split <;> rfl
    have hm := hf.2.2
    rw [this] at hm
    simp at hm
  · rintro B a e ⟨b, hb, _⟩
    simp [SecureHeap.init] at hb
  · rintro ⟨kd, B, a, e⟩ t x hs
    have hstack : ∀ e, SecureHeap.init.stack e = [] := by
      intro e
      unfold SecureHeap.stack SecureHeap.init
      rw [List.getD_eq_getElem?_getD, List.getElem?_replicate]
      split <;> rfl
    cases kd with
    | free =>
      rw [Slices_free] at hs
      have hm := hs.2.2
      rw [hstack] at hm
      simp at hm
    | live =>
      rw [Slices_live] at hs
      obtain ⟨b, hb, _⟩ := hs
      simp [SecureHeap.init] at hb
    | pending => rw [Slices_pending] at hs; simp at hs
  · intro B P e _ hf
    have : SecureHeap.init.stack e = [] := by
      unfold SecureHeap.stack SecureHeap.init
      rw [List.getD_eq_getElem?_getD, List.getElem?_replicate]
      split <;> rfl
    have hm := hf.2.2
    rw [this] at hm
    simp at hm
  · rintro B a e ⟨b, hb, _⟩
    simp [SecureHeap.init] at hb

/-- Every reachable heap state satisfies the invariant. -/
theorem Reach.inv {page_size : Nat} {h : SecureHeap} {L : List (Nat × Nat)}
    (hr : Reach page_size h L) : InvP h L none := by
  induction hr with
  | init => exact InvP_init
  | alloc _ hos hW hA hp ih => exact (Alloc_inv ih hos hW hA).1 hp
  | alloc_null _ hos hW hA ih =>
    have := (Alloc_inv ih hos hW hA).2 rfl
    rw [this]; exact ih
  | free _ hp hF ih =>
    obtain ⟨h2, hF2, inv2⟩ := Free_inv ih hp
    rw [hF] at hF2
    simp only [Result.ok.injEq] at hF2
    rw [hF2]; exact inv2
  | free_null _ hF ih =>
    rw [Free_null] at hF
    simp only [Result.ok.injEq] at hF
    rw [← hF]; exact ih

/-! ## Used memory -/

theorem blockSum_bound (m : List Block) (lo U : Nat)
    (hs : m.Pairwise (fun x y => x.base_address + 2 ^ x.own_exponent ≤ y.base_address))
    (hb : ∀ b ∈ m, lo ≤ b.base_address ∧ b.base_address + 2 ^ b.own_exponent ≤ U)
    (hlo : lo ≤ U) : lo + blockSum m ≤ U := by
  induction m generalizing lo with
  | nil => simpa [blockSum] using hlo
  | cons x xs ih =>
    rw [List.pairwise_cons] at hs
    obtain ⟨hx1, hx2⟩ := hb x (List.mem_cons_self _ _)
    have := ih (x.base_address + 2 ^ x.own_exponent) hs.2
      (fun b hb1 => ⟨hs.1 b hb1, (hb b (List.mem_cons_of_mem _ hb1)).2⟩) hx2
    simp only [blockSum, List.map_cons, List.sum_cons] at this ⊢
    omega

theorem totalMem_fold (m : List Block) (acc : Nat) (h : acc + blockSum m < WORD) :
    m.foldl (fun total_mem b => wadd total_mem (1 <<< b.own_exponent)) acc =
      acc + blockSum m := by
  induction m generalizing acc with
  | nil => simp [blockSum]
  | cons x xs ih =>
    simp only [blockSum, List.map_cons, List.sum_cons] at h
    simp only [List.foldl_cons, Nat.one_shiftLeft] at ih ⊢
    rw [wadd_eq (by omega), ih]
    · simp only [blockSum, List.map_cons, List.sum_cons]; omega
    · simp only [blockSum]; omega

theorem unusedMem_fold (fs : List FreeStack) (e0 acc : Nat)
    (h : acc + stackSum e0 fs < WORD) :
    (List.range' e0 fs.length).foldl
      (fun unused_mem exp =>
        wadd unused_mem ((FreeStack.Height (fs.getD (exp - e0) []) <<< exp) % WORD)) acc =
      acc + stackSum e0 fs := by
  induction fs generalizing e0 acc with
  | nil => simp [stackSum]
  | cons s rest ih =>
    simp only [stackSum] at h
    simp only [List.length_cons, List.range'_succ, List.foldl_cons, Nat.sub_self,
      List.getD_cons_zero, FreeStack.Height, Nat.shiftLeft_eq]
    rw [Nat.mod_eq_of_lt (by omega), wadd_eq (by omega)]
    have hcongr : ∀ (l : List Nat) (a : Nat), (∀ x ∈ l, e0 + 1 ≤ x) →
        l.foldl (fun unused_mem exp =>
          wadd unused_mem ((FreeStack.Height ((s :: rest).getD (exp - e0) []) <<< exp) % WORD)) a =
        l.foldl (fun unused_mem exp =>
          wadd unused_mem ((FreeStack.Height (rest.getD (exp - (e0 + 1)) []) <<< exp) % WORD)) a := by
      intro l
      induction l with
      | nil => intro a _; rfl
      | cons y ys ihl =>
        intro a hy
        simp only [List.foldl_cons]
        have hy1 := hy y (List.mem_cons_self _ _)
        have : y - e0 = (y - (e0 + 1)) + 1 := by omega
        rw [this, List.getD_cons_succ]
        exact ihl _ (fun x hx => hy x (List.mem_cons_of_mem _ hx))
    have hmem : ∀ x ∈ List.range' (e0 + 1) rest.length, e0 + 1 ≤ x := by
      intro x hx
      rw [List.mem_range'] at hx
      obtain ⟨i, _, rfl⟩ := hx
      omega
    simp only [FreeStack.Height, Nat.shiftLeft_eq] at hcongr ih
    rw [hcongr _ _ hmem, ih (e0 + 1) _ (by omega)]
    simp only [stackSum]
    omega

/-- In a state that satisfies the invariant, `GetUsedMemory` returns the bytes
of the live allocations: neither sum wraps and the `CHECK_LE` holds. -/
theorem GetUsedMemory_eq {h : SecureHeap} {L : List (Nat × Nat)} (inv : InvP h L none) :
    totalMem h.base_addresses = blockSum h.base_addresses ∧
    unusedMem h = stackSum SECURE_HEAP_MIN_EXP h.free_slices ∧
    unusedMem h ≤ totalMem h.base_addresses ∧
    h.GetUsedMemory = Result.ok (liveSum L) := by
  have hbound : 1 + blockSum h.base_addresses ≤ WORD := by
    apply blockSum_bound _ _ _ inv.sorted
    · intro b hb
      obtain ⟨h1, _, h3, _⟩ := inv.blk_ok b hb
      omega
    · exact Nat.one_le_two_pow
  have hsum := inv.sum
  simp only [pendSize] at hsum
  have ht : totalMem h.base_addresses = blockSum h.base_addresses := by
    unfold totalMem
    rw [totalMem_fold _ 0 (by omega)]
    omega
  have hu : unusedMem h = stackSum SECURE_HEAP_MIN_EXP h.free_slices := by
    unfold unusedMem
    have hl : SECURE_HEAP_MAX_EXP + 1 - SECURE_HEAP_MIN_EXP = h.free_slices.length := by
      rw [inv.len]; rfl
    rw [hl]
    have := unusedMem_fold h.free_slices SECURE_HEAP_MIN_EXP 0 (by omega)
    simp only [SecureHeap.stack]
    rw [this]
    omega
  refine ⟨ht, hu, by omega, ?_⟩
  unfold SecureHeap.GetUsedMemory
  simp only
  rw [ht, hu, if_pos (by omega)]
  have hsub : blockSum h.base_addresses - stackSum SECURE_HEAP_MIN_EXP h.free_slices =
      liveSum L := by omega
  rw [hsub]

/-! ## Every block holds a live allocation -/

theorem slot_eq_of_same_class {e a c x : Nat} (ha : 2 ^ e ∣ a) (hc : 2 ^ e ∣ c)
    (hxa : a ≤ x) (hxa2 : x < a + 2 ^ e) (hxc : c ≤ x) (hxc2 : x < c + 2 ^ e) : a = c := by
  have h1 := dyadic_nested (le_refl e) ha hc hxa hxa2 hxc hxc2
  have h2 := dyadic_nested (le_refl e) hc ha hxc hxc2 hxa hxa2
  omega

/-- Between calls every block of the map holds at least one live allocation:
a block tiled by free slices only would hold two free buddies. -/
theorem block_has_live {h : SecureHeap} {L : List (Nat × Nat)} (inv : InvP h L none)
    {b : Block} (hb : b ∈ h.base_addresses) : ∃ a e, h.isLive b.base_address a e := by
  by_contra hno
  have hno2 : ∀ a e, ¬ h.isLive b.base_address a e := fun a e hl => hno ⟨a, e, hl⟩
  -- every byte of the block lies in a free slice of the block
  have hcov : ∀ x, b.base_address ≤ x → x < b.base_address + 2 ^ b.own_exponent →
      ∃ a e, h.isFree b.base_address a e ∧ a ≤ x ∧ x < a + 2 ^ e := by
    intro x h1 h2
    obtain ⟨⟨kd, B1, a, e⟩, hs, hsB, hsx⟩ := inv.cover b hb x h1 h2
    simp only at hsB
    subst hsB
    cases kd with
    | free => rw [Slices_free] at hs; exact ⟨a, e, hs, hsx.1, hsx.2⟩
    | live => rw [Slices_live] at hs; exact absurd hs (hno2 a e)
    | pending => rw [Slices_pending] at hs; simp at hs
  have hex : ∃ e, ∃ a, h.isFree b.base_address a e := by
    obtain ⟨a, e, hf, _⟩ := hcov b.base_address (le_refl _) (block_end_pos b)
    exact ⟨e, a, hf⟩
  classical
  obtain ⟨a, hf⟩ := Nat.find_spec hex
  have hmin : ∀ a1 e1, h.isFree b.base_address a1 e1 → Nat.find hex ≤ e1 :=
    fun a1 e1 hf1 => Nat.find_min' hex ⟨a1, hf1⟩
  generalize Nat.find hex = e at hf hmin
  obtain ⟨b2, hb2, hB2, hlt, hfit1, hfit2, hfit3⟩ := inv.free_ok _ _ _ hf
  have hbb : b2 = b := block_unique inv.sorted hb2 hb hB2
  subst hbb
  have hpos := two_pow_pos_nat e
  have hpow := two_pow_succ_eq e
  -- the slice of the buddy: its class is `e`, or it contains the slice at `a`
  have key : ∀ P, b2.base_address ≤ P → 2 ^ (e + 1) ∣ P - b2.base_address →
      (a = P ∨ a = P + 2 ^ e) → ∀ q, (q = P ∨ q = P + 2 ^ e) → h.isFree b2.base_address q e := by
    intro P hPB hPd haP q hq
    have hPlt : P - b2.base_address < 2 ^ b2.own_exponent := by
      rcases haP with rfl | rfl <;> omega
    have hPfit := dyadic_fits (by omega : e + 1 ≤ b2.own_exponent) hPd hPlt
    obtain ⟨a1, e1, hf1, hq1, hq2⟩ := hcov q (by rcases hq with rfl | rfl <;> omega)
      (by rcases hq with rfl | rfl <;> omega)
    have hle := hmin a1 e1 hf1
    obtain ⟨b3, hb3, hB3, _, hg1, hg2, hg3⟩ := inv.free_ok _ _ _ hf1
    have hbb : b3 = b2 := block_unique inv.sorted hb3 hb hB3
    subst hbb
    by_cases hee : e1 = e
    · subst hee
      have hqd : 2 ^ e1 ∣ q - b3.base_address := by
        have h2 : 2 ^ e1 ∣ P - b3.base_address :=
          Dvd.dvd.trans (Nat.pow_dvd_pow 2 (Nat.le_succ e1)) hPd
        rcases hq with rfl | rfl
        · exact h2
        · have : P + 2 ^ e1 - b3.base_address = (P - b3.base_address) + 2 ^ e1 := by omega
          rw [this]
          exact Dvd.dvd.add h2 (dvd_refl _)
      have := slot_eq_of_same_class hg2 hqd (by omega : a1 - b3.base_address ≤ q - b3.base_address)
        (by omega) (le_refl _) (by omega)
      have : a1 = q := by omega
      rw [← this]
      exact hf1
    · exfalso
      have hnest := dyadic_nested (by omega : e + 1 ≤ e1) hPd hg2
        (by omega : P - b3.base_address ≤ q - b3.base_address)
        (by rcases hq with rfl | rfl <;> omega)
        (by omega : a1 - b3.base_address ≤ q - b3.base_address) (by omega)
      have := inv.uniq ⟨SliceKind.free, b3.base_address, a, e⟩
        ⟨SliceKind.free, b3.base_address, a1, e1⟩ a
        (by rw [Slices_free]; exact hf) (by rw [Slices_free]; exact hf1)
        ⟨le_refl _, by simp only; omega⟩
        ⟨by simp only; rcases haP with rfl | rfl <;> omega,
         by simp only; rcases haP with rfl | rfl <;> omega⟩
      simp only [Slice.mk.injEq, true_and] at this
      exact hee this.2.symm
  rcases dvd_pow_cases hfit2 with hlow | ⟨hge, hup⟩
  · have h1 := key a hfit1 hlow (Or.inl rfl) (a + 2 ^ e) (Or.inr rfl)
    exact inv.nobuddy _ a e hlow hf h1
  · have hPB : b2.base_address ≤ a - 2 ^ e := by omega
    have hPd : 2 ^ (e + 1) ∣ (a - 2 ^ e) - b2.base_address := by
      have : a - 2 ^ e - b2.base_address = a - b2.base_address - 2 ^ e := by omega
      rw [this]; exact hup
    have hA : a = (a - 2 ^ e) + 2 ^ e := by omega
    have h1 := key (a - 2 ^ e) hPB hPd (Or.inr hA) (a - 2 ^ e) (Or.inl rfl)
    have h2 : h.isFree b2.base_address (a - 2 ^ e + 2 ^ e) e := by rw [← hA]; exact hf
    exact inv.nobuddy _ (a - 2 ^ e) e hPd h1 h2

/-! ## Concrete reachable states -/

theorem demoOS_contract : OSContract demoOS SecureHeap.init := by
  intro size hne
  unfold demoOS at hne ⊢
  by_cases hs : size ≤ 2 ^ 20
  · rw [if_pos hs]
    refine ⟨by decide, ?_, ?_⟩
    · unfold WORD; omega
    · intro b hb; simp [SecureHeap.init] at hb
  · rw [if_neg hs] at hne
    exact absurd rfl hne

theorem noMemOS_contract (h : SecureHeap) : OSContract noMemOS h := by
  intro size hne
  exact absurd rfl hne

set_option maxRecDepth 100000 in
theorem demoHeap_alloc :
    SecureHeap.init.Alloc 4096 demoOS 100 = Result.ok (65536, demoHeap) := by
  decide

set_option maxRecDepth 100000 in
theorem demoHeap2_alloc :
    demoHeap.Alloc 4096 noMemOS 1024 = Result.ok (66560, demoHeap2) := by
  decide

set_option maxRecDepth 100000 in
theorem demoHeap_free : demoHeap.Free 65536 = Result.ok SecureHeap.init := by
  decide

theorem demoHeap_reach : Reach 4096 demoHeap [(65536, 100)] :=
  Reach.alloc Reach.init demoOS_contract (by unfold WORD; omega) demoHeap_alloc (by decide)

theorem demoHeap2_reach : Reach 4096 demoHeap2 [(66560, 1024), (65536, 100)] :=
  Reach.alloc demoHeap_reach (noMemOS_contract _) (by unfold WORD; omega) demoHeap2_alloc
    (by decide)

theorem freed_reach : Reach 4096 SecureHeap.init [] :=
  Reach.free demoHeap_reach (List.mem_singleton_self _) demoHeap_free

theorem pageSize_4096 : PageSizeOk 4096 := ⟨12, by decide, by decide⟩

/-! ## Properties of reachable states -/

/-- C1: in every heap state reachable by contract-respecting `Alloc` and `Free`
calls, the slices of each block (the entries of that block on the free stacks,
each entry counted once, and the nonzero entries of its `alloc_sizes` table) are
pairwise disjoint, lie inside the block and together cover
`[base, base + 2^own_exponent)`; in particular two live allocations that share a
byte are the same allocation. -/
theorem C1_slices_tile_blocks {page_size : Nat} {h : SecureHeap} {L : List (Nat × Nat)}
    (hr : Reach page_size h L) :
    (∀ e, (h.stack e).Nodup) ∧
    (∀ b ∈ h.base_addresses, ∀ i, i < b.alloc_sizes.length → b.alloc_sizes.getD i 0 ≠ 0 →
      h.isLive b.base_address (b.base_address + i * 2 ^ SECURE_HEAP_MIN_EXP)
        (b.alloc_sizes.getD i 0)) ∧
    (∀ s t x, Slices h none s → Slices h none t → s.has x → t.has x → s = t) ∧
    (∀ s, Slices h none s → ∃ b ∈ h.base_addresses, b.base_address = s.block ∧
      ∀ x, s.has x → b.base_address ≤ x ∧ x < b.base_address + 2 ^ b.own_exponent) ∧
    (∀ b ∈ h.base_addresses, ∀ x, b.base_address ≤ x →
      x < b.base_address + 2 ^ b.own_exponent →
      ∃ s, Slices h none s ∧ s.block = b.base_address ∧ s.has x) ∧
    (∀ B1 a1 e1 B2 a2 e2 x, h.isLive B1 a1 e1 → h.isLive B2 a2 e2 →
      a1 ≤ x → x < a1 + 2 ^ e1 → a2 ≤ x → x < a2 + 2 ^ e2 →
      B1 = B2 ∧ a1 = a2 ∧ e1 = e2) := by
  have inv := hr.inv
  refine ⟨inv.nodup, ?_, inv.uniq, ?_, inv.cover, ?_⟩
  · intro b hb i hi hne
    obtain ⟨_, _, _, hE8, _, hlen⟩ := inv.blk_ok b hb
    have hpos := two_pow_pos_nat SECURE_HEAP_MIN_EXP
    refine ⟨b, hb, rfl, by omega, ?_, ?_, ?_, hne⟩
    · rw [hlen] at hi
      have h1 : i * 2 ^ SECURE_HEAP_MIN_EXP <
          2 ^ (b.own_exponent - SECURE_HEAP_MIN_EXP) * 2 ^ SECURE_HEAP_MIN_EXP :=
        Nat.mul_lt_mul_of_pos_right hi hpos
      rw [← pow_add] at h1
      have h2 : b.own_exponent - SECURE_HEAP_MIN_EXP + SECURE_HEAP_MIN_EXP = b.own_exponent := by
        omega
      rw [h2] at h1
      omega
    · rw [Nat.add_sub_cancel_left]
      exact Dvd.intro_left _ rfl
    · rw [Nat.add_sub_cancel_left, Nat.mul_div_cancel _ hpos]
  · rintro ⟨kd, B, a, e⟩ hs
    cases kd with
    | free =>
      rw [Slices_free] at hs
      obtain ⟨b, hb, hB, _, h1, _, h3⟩ := inv.free_ok _ _ _ hs
      refine ⟨b, hb, hB, ?_⟩
      intro x hx
      simp only [Slice.has] at hx
      omega
    | live =>
      rw [Slices_live] at hs
      obtain ⟨b, hb, hB, _, _, h1, _, h3⟩ := inv.live_ok _ _ _ hs
      refine ⟨b, hb, hB, ?_⟩
      intro x hx
      simp only [Slice.has] at hx
      omega
    | pending => rw [Slices_pending] at hs; simp at hs
  · intro B1 a1 e1 B2 a2 e2 x hl1 hl2 h1 h2 h3 h4
    have := inv.uniq ⟨SliceKind.live, B1, a1, e1⟩ ⟨SliceKind.live, B2, a2, e2⟩ x
      (by rw [Slices_live]; exact hl1) (by rw [Slices_live]; exact hl2) ⟨h1, h2⟩ ⟨h3, h4⟩
    simpa using this

theorem C1_slices_tile_blocks_witness :
    Reach 4096 demoHeap2 [(66560, 1024), (65536, 100)] ∧
    ((∀ e, (demoHeap2.stack e).Nodup) ∧
    (∀ b ∈ demoHeap2.base_addresses, ∀ i, i < b.alloc_sizes.length →
      b.alloc_sizes.getD i 0 ≠ 0 →
      demoHeap2.isLive b.base_address (b.base_address + i * 2 ^ SECURE_HEAP_MIN_EXP)
        (b.alloc_sizes.getD i 0)) ∧
    (∀ s t x, Slices demoHeap2 none s → Slices demoHeap2 none t → s.has x → t.has x → s = t) ∧
    (∀ s, Slices demoHeap2 none s → ∃ b ∈ demoHeap2.base_addresses, b.base_address = s.block ∧
      ∀ x, s.has x → b.base_address ≤ x ∧ x < b.base_address + 2 ^ b.own_exponent) ∧
    (∀ b ∈ demoHeap2.base_addresses, ∀ x, b.base_address ≤ x →
      x < b.base_address + 2 ^ b.own_exponent →
      ∃ s, Slices demoHeap2 none s ∧ s.block = b.base_address ∧ s.has x) ∧
    (∀ B1 a1 e1 B2 a2 e2 x, demoHeap2.isLive B1 a1 e1 → demoHeap2.isLive B2 a2 e2 →
      a1 ≤ x → x < a1 + 2 ^ e1 → a2 ≤ x → x < a2 + 2 ^ e2 →
      B1 = B2 ∧ a1 = a2 ∧ e1 = e2)) :=
  ⟨demoHeap2_reach, C1_slices_tile_blocks demoHeap2_reach⟩

/-- C2: in every reachable heap state `GetUsedMemory()` returns the sum of
`2^exponent` over the live allocations, the exponent recorded for a live
pointer being the size class of its request; the two sums it computes do not
wrap (they are the bytes of all blocks and the bytes on the free stacks) and its
check `unused_mem <= total_mem` holds. -/
theorem C2_used_memory_is_live_bytes {page_size : Nat} {h : SecureHeap}
    {L : List (Nat × Nat)} (hr : Reach page_size h L) :
    h.GetUsedMemory = Result.ok (liveSum L) ∧
    (∀ p sz, (p, sz) ∈ L → ∃ B, h.isLive B p (sizeClass sz)) ∧
    totalMem h.base_addresses = blockSum h.base_addresses ∧
    unusedMem h = stackSum SECURE_HEAP_MIN_EXP h.free_slices ∧
    unusedMem h ≤ totalMem h.base_addresses := by
  have inv := hr.inv
  obtain ⟨h1, h2, h3, h4⟩ := GetUsedMemory_eq inv
  exact ⟨h4, fun p sz hp => (inv.ghost_in p sz hp).2.2, h1, h2, h3⟩

theorem C2_used_memory_is_live_bytes_witness :
    Reach 4096 demoHeap2 [(66560, 1024), (65536, 100)] ∧
    (demoHeap2.GetUsedMemory = Result.ok (liveSum [(66560, 1024), (65536, 100)]) ∧
    (∀ p sz, (p, sz) ∈ [(66560, 1024), (65536, 100)] →
      ∃ B, demoHeap2.isLive B p (sizeClass sz)) ∧
    totalMem demoHeap2.base_addresses = blockSum demoHeap2.base_addresses ∧
    unusedMem demoHeap2 = stackSum SECURE_HEAP_MIN_EXP demoHeap2.free_slices ∧
    unusedMem demoHeap2 ≤ totalMem demoHeap2.base_addresses) :=
  ⟨demoHeap2_reach, C2_used_memory_is_live_bytes demoHeap2_reach⟩

theorem stack_out_of_range {h : SecureHeap}
    (hlen : h.free_slices.length = SECURE_HEAP_MAX_EXP - SECURE_HEAP_MIN_EXP + 1) (e : Nat) :
    ∃ e1, SECURE_HEAP_MIN_EXP ≤ e1 ∧ e1 ≤ SECURE_HEAP_MAX_EXP ∧ h.stack e = h.stack e1 ∨
      h.stack e = [] := by
  by_cases h1 : e < SECURE_HEAP_MIN_EXP
  · refine ⟨SECURE_HEAP_MIN_EXP, Or.inl ⟨le_refl _, by decide, ?_⟩⟩
    unfold SecureHeap.stack
    have : e - SECURE_HEAP_MIN_EXP = SECURE_HEAP_MIN_EXP - SECURE_HEAP_MIN_EXP := by omega
    rw [this]
  · by_cases h2 : e ≤ SECURE_HEAP_MAX_EXP
    · exact ⟨e, Or.inl ⟨by omega, h2, rfl⟩⟩
    · refine ⟨e, Or.inr ?_⟩
      unfold SecureHeap.stack
      rw [List.getD_eq_getElem?_getD, List.getElem?_eq_none]
      · rfl
      · rw [hlen]
        unfold SECURE_HEAP_MAX_EXP SECURE_HEAP_MIN_EXP at *
        omega

/-- C3: a reachable heap state with no live allocation (every allocation made
so far has been freed, in whatever order) has an empty block map, every free
stack empty, and `GetUsedMemory()` returns 0. -/
theorem C3_all_freed_heap_is_empty {page_size : Nat} {h : SecureHeap}
    (hr : Reach page_size h []) :
    h.base_addresses = [] ∧ (∀ e, h.stack e = []) ∧ h.GetUsedMemory = Result.ok 0 := by
  have inv := hr.inv
  have hblocks : h.base_addresses = [] := by
    cases hm : h.base_addresses with
    | nil => rfl
    | cons b rest =>
      exfalso
      have hb : b ∈ h.base_addresses := by rw [hm]; exact List.mem_cons_self _ _
      obtain ⟨a, e, hl⟩ := block_has_live inv hb
      obtain ⟨sz, hsz⟩ := inv.ghost_out _ _ _ hl
      simp at hsz
  have hin : ∀ e, SECURE_HEAP_MIN_EXP ≤ e → e ≤ SECURE_HEAP_MAX_EXP → h.stack e = [] := by
    intro e h1 h2
    cases hs : h.stack e with
    | nil => rfl
    | cons t rest =>
      exfalso
      have hf : h.isFree t.block t.address e := ⟨h1, h2, by rw [hs]; exact List.mem_cons_self _ _⟩
      obtain ⟨b, hb, _⟩ := inv.free_ok _ _ _ hf
      rw [hblocks] at hb
      simp at hb
  refine ⟨hblocks, ?_, ?_⟩
  · intro e
    obtain ⟨e1, hc | hc⟩ := stack_out_of_range inv.len e
    · rw [hc.2.2]; exact hin e1 hc.1 hc.2.1
    · exact hc
  · have := (GetUsedMemory_eq inv).2.2.2
    simpa [liveSum] using this

theorem C3_all_freed_heap_is_empty_witness :
    Reach 4096 SecureHeap.init [] ∧
    (SecureHeap.init.base_addresses = [] ∧ (∀ e, SecureHeap.init.stack e = []) ∧
      SecureHeap.init.GetUsedMemory = Result.ok 0) :=
  ⟨freed_reach, C3_all_freed_heap_is_empty freed_reach⟩

/-- C4: for every live pointer `p` that `Alloc(s)` returned (so `1 ≤ s ≤
2^MAX_EXP`), `actual_size(p)` is `2^max(MIN_EXP, ceil(log2 s))`, which is the
least power of two that is at least `s` and at least `2^MIN_EXP`. -/
theorem C4_actual_size_of_live_pointer {page_size : Nat} {h : SecureHeap}
    {L : List (Nat × Nat)} {p s : Nat} (hr : Reach page_size h L) (hp : (p, s) ∈ L) :
    1 ≤ s ∧ s ≤ 2 ^ SECURE_HEAP_MAX_EXP ∧
    SecureHeap_actual_size h p = Result.ok (2 ^ max SECURE_HEAP_MIN_EXP (Nat.clog 2 s)) ∧
    s ≤ 2 ^ max SECURE_HEAP_MIN_EXP (Nat.clog 2 s) ∧
    (∀ k, SECURE_HEAP_MIN_EXP ≤ k → s ≤ 2 ^ k → max SECURE_HEAP_MIN_EXP (Nat.clog 2 s) ≤ k) := by
  have inv := hr.inv
  obtain ⟨hs0, hs1, B, hl⟩ := inv.ghost_in p s hp
  obtain ⟨b, hb, hB, hp1, hp2, hp3, hget, hne⟩ := hl
  subst hB
  obtain ⟨hbpos, hbal, hW, hE8, hE20, hlen⟩ := inv.blk_ok b hb
  have hmod := mod_unit_of_fits hp1 hbal hp3
  have hcl : sizeClass s ≤ SECURE_HEAP_MAX_EXP := sizeClass_le_iff.mpr hs1
  refine ⟨hs0, hs1, ?_, ?_, ?_⟩
  · unfold SecureHeap_actual_size
    rw [GetBlockAddress_of_mem inv hb hp1 hp2, if_pos hmod]
    have htb : BlockAddress.toBool ⟨b.base_address, p⟩ = true := toBool_of_ne (by simp; omega)
    simp only [htb, if_true]
    rw [findBlock_of_mem inv.sorted hb]
    simp only
    have hsize : b.GetAllocationSize p = sizeClass s := by
      unfold Block.GetAllocationSize
      rw [GetOffsetInUnits_eq hp1 (by omega)]
      exact hget
    rw [hsize, Nat.one_shiftLeft]
    have hlt : 2 ^ sizeClass s < WORD := by
      unfold WORD
      exact Nat.pow_lt_pow_right (by decide) (by unfold SECURE_HEAP_MAX_EXP at hcl; omega)
    rw [Nat.mod_eq_of_lt hlt]
    rfl
  · exact le_trans (le_two_pow_clog s) (Nat.pow_le_pow_right (by decide) (le_max_right _ _))
  · intro k hk hsk
    exact max_le hk (clog_le_of_le_pow hsk)

theorem C4_actual_size_of_live_pointer_witness :
    Reach 4096 demoHeap2 [(66560, 1024), (65536, 100)] ∧
    (65536, 100) ∈ [(66560, 1024), (65536, 100)] ∧
    (1 ≤ 100 ∧ 100 ≤ 2 ^ SECURE_HEAP_MAX_EXP ∧
    SecureHeap_actual_size demoHeap2 65536 =
      Result.ok (2 ^ max SECURE_HEAP_MIN_EXP (Nat.clog 2 100)) ∧
    100 ≤ 2 ^ max SECURE_HEAP_MIN_EXP (Nat.clog 2 100) ∧
    (∀ k, SECURE_HEAP_MIN_EXP ≤ k → 100 ≤ 2 ^ k →
      max SECURE_HEAP_MIN_EXP (Nat.clog 2 100) ≤ k)) :=
  ⟨demoHeap2_reach, by decide,
    C4_actual_size_of_live_pointer demoHeap2_reach (by decide)⟩

/-! ## Reverse lookup -/

theorem upper_bound_eq_zero_iff (m : List Block) (ptr : Nat) (hm : m ≠ []) :
    upper_bound m ptr = 0 ↔ ∃ x rest, m = x :: rest ∧ ptr < x.base_address := by
  cases m with
  | nil => exact absurd rfl hm
  | cons x rest =>
    unfold upper_bound
    rw [List.findIdx_cons]
    by_cases hx : ptr < x.base_address
    · simp [hx]
    · simp [hx]

theorem head_base_le {m : List Block}
    (hs : m.Pairwise (fun x y => x.base_address + 2 ^ x.own_exponent ≤ y.base_address))
    {x : Block} {rest : List Block} (hm : m = x :: rest) {b : Block} (hb : b ∈ m) :
    x.base_address ≤ b.base_address := by
  subst hm
  rw [List.pairwise_cons] at hs
  rcases List.mem_cons.mp hb with rfl | hb
  · exact le_refl _
  · have := hs.1 b hb
    have := two_pow_pos_nat x.own_exponent
    omega

/-- What `GetBlockAddress` does, case by case, in a state that satisfies the
invariant. -/
theorem GetBlockAddress_cases {h : SecureHeap} {L : List (Nat × Nat)}
    {pend : Option (Nat × Nat × Nat)} (inv : InvP h L pend) (ptr : Nat) :
    (h.base_addresses = [] → h.GetBlockAddress ptr = Result.ok BlockAddress.empty) ∧
    (h.base_addresses ≠ [] → (∀ b ∈ h.base_addresses, ptr < b.base_address) →
      h.GetBlockAddress ptr = Result.undefined) ∧
    (∀ b ∈ h.base_addresses, b.base_address ≤ ptr →
      ptr < b.base_address + 2 ^ b.own_exponent →
      h.GetBlockAddress ptr =
        Result.ok (if ptr % 2 ^ SECURE_HEAP_MIN_EXP = 0 then ⟨b.base_address, ptr⟩
          else BlockAddress.empty)) ∧
    ((∃ b ∈ h.base_addresses, b.base_address ≤ ptr) →
      (∀ b ∈ h.base_addresses,
        ¬ (b.base_address ≤ ptr ∧ ptr < b.base_address + 2 ^ b.own_exponent)) →
      h.GetBlockAddress ptr = Result.ok BlockAddress.empty) := by
  refine ⟨?_, ?_, ?_, ?_⟩
  · intro hm
    unfold SecureHeap.GetBlockAddress
    rw [hm]
    rfl
  · intro hm hall
    unfold SecureHeap.GetBlockAddress
    have hnil : h.base_addresses.isEmpty = false := by
      cases hc : h.base_addresses with
      | nil => exact absurd hc hm
      | cons _ _ => rfl
    have hz : upper_bound h.base_addresses ptr = 0 := by
      rw [upper_bound_eq_zero_iff _ _ hm]
      cases hc : h.base_addresses with
      | nil => exact absurd hc hm
      | cons x rest =>
        exact ⟨x, rest, rfl, hall x (by rw [hc]; exact List.mem_cons_self _ _)⟩
    simp only [hnil, Bool.false_eq_true, not_false_eq_true, if_true, hz]
  · intro b hb h1 h2
    exact GetBlockAddress_of_mem inv hb h1 h2
  · rintro ⟨b, hb, hle⟩ hnone
    have hm : h.base_addresses ≠ [] := by
      intro hc; rw [hc] at hb; simp at hb
    have hnil : h.base_addresses.isEmpty = false := by
      cases hc : h.base_addresses with
      | nil => exact absurd hc hm
      | cons _ _ => rfl
    have hnz : upper_bound h.base_addresses ptr ≠ 0 := by
      intro hz
      obtain ⟨x, rest, hx, hlt⟩ := (upper_bound_eq_zero_iff _ _ hm).mp hz
      have := head_base_le inv.sorted hx hb
      omega
    have hle2 := upper_bound_le_length h.base_addresses ptr
    have hlt : upper_bound h.base_addresses ptr - 1 < h.base_addresses.length := by omega
    unfold SecureHeap.GetBlockAddress
    simp only [hnil, Bool.false_eq_true, not_false_eq_true, if_true, hnz, if_false]
    rw [List.getElem?_eq_getElem hlt]
    simp only
    have hmem : h.base_addresses[upper_bound h.base_addresses ptr - 1] ∈ h.base_addresses :=
      List.getElem_mem _
    have hnv : ¬ (h.base_addresses[upper_bound h.base_addresses ptr - 1]).IsValidPointer ptr
        = true := by
      rw [IsValidPointer_iff (inv.blk_ok _ hmem)]
      intro hv
      exact hnone _ hmem ⟨hv.1, hv.2.1⟩
    rw [if_neg hnv]

/-- C5 (as amended): in every reachable heap state `GetBlockAddress(p).block` is
non-null for every live pointer `p` (returned by some `Alloc` and not freed
since); and whenever `GetBlockAddress(p)` returns, its block is non-null if and
only if `p` is a multiple of `2^MIN_EXP` inside the span of some block of the
map, whether or not an allocation starts at `p`. -/
theorem C5_block_nonnull_iff_unit_in_block {page_size : Nat} {h : SecureHeap}
    {L : List (Nat × Nat)} (hr : Reach page_size h L) :
    (∀ p sz, (p, sz) ∈ L → ∃ a, h.GetBlockAddress p = Result.ok a ∧ a.block ≠ 0) ∧
    (∀ p a, h.GetBlockAddress p = Result.ok a →
      (a.block ≠ 0 ↔ ∃ b ∈ h.base_addresses, b.base_address ≤ p ∧
        p < b.base_address + 2 ^ b.own_exponent ∧ p % 2 ^ SECURE_HEAP_MIN_EXP = 0)) := by
  have inv := hr.inv
  constructor
  · intro p sz hp
    obtain ⟨_, _, B, b, hb, hB, hp1, hp2, hp3, _⟩ := inv.ghost_in p sz hp
    obtain ⟨hbpos, hbal, _⟩ := inv.blk_ok b hb
    have hmod := mod_unit_of_fits (by omega : b.base_address ≤ p) hbal (by rw [hB]; exact hp3)
    refine ⟨⟨b.base_address, p⟩, ?_, by simp only; omega⟩
    rw [GetBlockAddress_of_mem inv hb (by omega) (by omega), if_pos hmod]
  · intro p a hga
    obtain ⟨c1, c2, c3, c4⟩ := GetBlockAddress_cases inv p
    by_cases hm : h.base_addresses = []
    · rw [c1 hm] at hga
      simp only [Result.ok.injEq] at hga
      subst hga
      simp [BlockAddress.empty, hm]
    · by_cases hin : ∃ b ∈ h.base_addresses, b.base_address ≤ p ∧
          p < b.base_address + 2 ^ b.own_exponent
      · obtain ⟨b, hb, h1, h2⟩ := hin
        obtain ⟨hbpos, _⟩ := inv.blk_ok b hb
        rw [c3 b hb h1 h2] at hga
        simp only [Result.ok.injEq] at hga
        by_cases hmod : p % 2 ^ SECURE_HEAP_MIN_EXP = 0
        · rw [if_pos hmod] at hga
          subst hga
          constructor
          · intro _; exact ⟨b, hb, h1, h2, hmod⟩
          · intro _; simp only; omega
        · rw [if_neg hmod] at hga
          subst hga
          constructor
          · intro hne; exact absurd rfl hne
          · rintro ⟨_, _, _, _, hmod2⟩; exact absurd hmod2 hmod
      · have hnone : ∀ b ∈ h.base_addresses,
            ¬ (b.base_address ≤ p ∧ p < b.base_address + 2 ^ b.own_exponent) :=
          fun b hb hc => hin ⟨b, hb, hc⟩
        by_cases hge : ∃ b ∈ h.base_addresses, b.base_address ≤ p
        · rw [c4 hge hnone] at hga
          simp only [Result.ok.injEq] at hga
          subst hga
          constructor
          · intro hne; exact absurd rfl hne
          · rintro ⟨b, hb, h1, h2, _⟩; exact absurd ⟨h1, h2⟩ (hnone b hb)
        · have hall : ∀ b ∈ h.base_addresses, p < b.base_address := by
            intro b hb
            by_contra hc
            exact hge ⟨b, hb, by omega⟩
          rw [c2 hm hall] at hga
          simp at hga

set_option maxRecDepth 100000 in
theorem C5_block_nonnull_iff_unit_in_block_witness :
    Reach 4096 demoHeap [(65536, 100)] ∧
    ((∀ p sz, (p, sz) ∈ [(65536, 100)] →
      ∃ a, demoHeap.GetBlockAddress p = Result.ok a ∧ a.block ≠ 0) ∧
    (∀ p a, demoHeap.GetBlockAddress p = Result.ok a →
      (a.block ≠ 0 ↔ ∃ b ∈ demoHeap.base_addresses, b.base_address ≤ p ∧
        p < b.base_address + 2 ^ b.own_exponent ∧ p % 2 ^ SECURE_HEAP_MIN_EXP = 0))) :=
  ⟨demoHeap_reach, C5_block_nonnull_iff_unit_in_block demoHeap_reach⟩

set_option maxRecDepth 100000 in
/-- C5 as stated fails: in the reachable state `demoHeap` the only live pointer
is 65536, yet `GetBlockAddress(65792)` (the free slice of class 8, one unit
further) returns a non-null block. -/
theorem C5_counterexample :
    ¬ (∀ (page_size : Nat) (h : SecureHeap) (L : List (Nat × Nat)) (p : Nat),
        Reach page_size h L →
        ((∃ a, h.GetBlockAddress p = Result.ok a ∧ a.block ≠ 0) ↔ ∃ sz, (p, sz) ∈ L)) := by
  intro hall
  have h1 := (hall 4096 demoHeap [(65536, 100)] 65792 demoHeap_reach).mp
    ⟨⟨65536, 65792⟩, by decide, by decide⟩
  obtain ⟨sz, hsz⟩ := h1
  simp at hsz

theorem demoOS2_contract_init : OSContract demoOS2 SecureHeap.init := by
  intro size hne
  unfold demoOS2 at hne ⊢
  by_cases hs : size ≤ 2 ^ 20
  · rw [if_pos hs]
    refine ⟨by decide, ?_, ?_⟩
    · unfold WORD; omega
    · intro b hb
      exact absurd hb (List.not_mem_nil _)
  · rw [if_neg hs] at hne
    exact absurd rfl hne

theorem lowOS_contract : OSContract lowOS highFirstHeap1 := by
  intro size hne
  unfold lowOS at hne ⊢
  by_cases hs : size ≤ 2 ^ 16
  · rw [if_pos hs]
    refine ⟨by decide, ?_, ?_⟩
    · unfold WORD; omega
    · intro b hb
      have hb2 : b = ⟨196608, 16, 16 :: List.replicate 255 0⟩ :=
        List.mem_singleton.mp hb
      rw [hb2]
      left
      show 65536 + size ≤ 196608
      omega
  · rw [if_neg hs] at hne
    exact absurd rfl hne

set_option maxRecDepth 100000 in
theorem highFirstHeap1_alloc :
    SecureHeap.init.Alloc 4096 demoOS2 65536 = Result.ok (196608, highFirstHeap1) := by
  decide

set_option maxRecDepth 100000 in
theorem highFirstHeap2_alloc :
    highFirstHeap1.Alloc 4096 lowOS 65536 = Result.ok (65536, highFirstHeap2) := by
  decide

/-- The state with the blocks at 196608 and 65536, created in this order, is
reachable. -/
theorem highFirstHeap2_reach :
    Reach 4096 highFirstHeap2 [(65536, 65536), (196608, 65536)] :=
  Reach.alloc
    (Reach.alloc Reach.init demoOS2_contract_init (by unfold WORD; omega) highFirstHeap1_alloc
      (by decide))
    lowOS_contract (by unfold WORD; omega) highFirstHeap2_alloc (by decide)

set_option maxRecDepth 100000 in
/-- C6 (failing input): after `Alloc(65536)` with the system reserving at 196608
and a second `Alloc(65536)` with the system reserving at 65536, the map holds
two non-overlapping blocks, and the block with the lowest base was inserted
last, so its node is not the root of the tree of `base_addresses`.  For the
foreign pointer 4096, which is below every block base, `upper_bound` is
`begin()` and `GetBlockAddress` decrements it: the call is undefined instead of
returning the empty address, and so is `allocated(4096)`. -/
theorem C6_foreign_pointer_below_every_base :
    SecureHeap.init.Alloc 4096 demoOS2 65536 = Result.ok (196608, highFirstHeap1) ∧
    highFirstHeap1.Alloc 4096 lowOS 65536 = Result.ok (65536, highFirstHeap2) ∧
    highFirstHeap2.base_addresses.map (fun b => b.base_address) = [65536, 196608] ∧
    highFirstHeap2.base_addresses.Pairwise
      (fun x y => x.base_address + 2 ^ x.own_exponent ≤ y.base_address) ∧
    upper_bound highFirstHeap2.base_addresses 4096 = 0 ∧
    highFirstHeap2.GetBlockAddress 4096 = Result.undefined ∧
    SecureHeap_allocated highFirstHeap2 4096 = Result.undefined := by
  decide

/-- What `Free` does with a non-null pointer that is not live, in a reachable
state: a fatal assertion, except that the call is undefined when the map is not
empty and the pointer is below every block base. -/
theorem Free_of_not_live {page_size : Nat} {h : SecureHeap} {L : List (Nat × Nat)}
    (hr : Reach page_size h L) {p : Nat} (hp0 : p ≠ 0) (hnl : ∀ sz, (p, sz) ∉ L) :
    (h.Free p = Result.undefined ↔
      (h.base_addresses ≠ [] ∧ ∀ b ∈ h.base_addresses, p < b.base_address)) ∧
    (h.Free p = Result.fatal ↔
      ¬ (h.base_addresses ≠ [] ∧ ∀ b ∈ h.base_addresses, p < b.base_address)) := by
  have inv := hr.inv
  obtain ⟨c1, c2, c3, c4⟩ := GetBlockAddress_cases inv p
  by_cases hm : h.base_addresses = []
  · have hf : h.Free p = Result.fatal := by
      unfold SecureHeap.Free
      rw [if_neg hp0, hm]
      rfl
    rw [hf]
    simp [hm]
  have hnil : h.base_addresses.isEmpty = false := by
    cases hc : h.base_addresses with
    | nil => exact absurd hc hm
    | cons _ _ => rfl
  by_cases hall : ∀ b ∈ h.base_addresses, p < b.base_address
  · have hf : h.Free p = Result.undefined := by
      unfold SecureHeap.Free
      rw [if_neg hp0, hnil]
      simp only [Bool.false_eq_true, if_false]
      rw [c2 hm hall]
    rw [hf]
    simp only [true_iff, reduceCtorEq, false_iff, not_not]
    exact ⟨⟨hm, hall⟩, ⟨hm, hall⟩⟩
  · have hf : h.Free p = Result.fatal := by
      have hge : ∃ b ∈ h.base_addresses, b.base_address ≤ p := by
        by_contra hc
        apply hall
        intro b hb
        by_contra hlt
        exact hc ⟨b, hb, by omega⟩
      unfold SecureHeap.Free
      rw [if_neg hp0, hnil]
      simp only [Bool.false_eq_true, if_false]
      by_cases hin : ∃ b ∈ h.base_addresses, b.base_address ≤ p ∧
          p < b.base_address + 2 ^ b.own_exponent
      · obtain ⟨b, hb, h1, h2⟩ := hin
        obtain ⟨hbpos, hbal, hW, hE8, _, hlen⟩ := inv.blk_ok b hb
        rw [c3 b hb h1 h2]
        by_cases hmod : p % 2 ^ SECURE_HEAP_MIN_EXP = 0
        · rw [if_pos hmod]
          simp only
          rw [if_neg (by omega), findBlock_of_mem inv.sorted hb]
          simp only
          rw [if_neg (by
            rw [not_not]
            exact (IsValidPointer_iff (inv.blk_ok b hb) p).mpr ⟨h1, h2, hmod⟩)]
          have hzero : b.GetAllocationSize p = 0 := by
            by_contra hne
            have hdvd : 2 ^ SECURE_HEAP_MIN_EXP ∣ p - b.base_address :=
              Nat.dvd_sub' (Nat.dvd_of_mod_eq_zero hmod) hbal
            have hl : h.isLive b.base_address p (b.GetAllocationSize p) := by
              refine ⟨b, hb, rfl, h1, h2, hdvd, ?_, hne⟩
              unfold Block.GetAllocationSize
              rw [GetOffsetInUnits_eq h1 (by omega)]
            obtain ⟨sz, hsz⟩ := inv.ghost_out _ _ _ hl
            exact hnl sz hsz
          rw [if_pos hzero]
        · rw [if_neg hmod]
          simp only [BlockAddress.empty, if_true]
      · have hnone : ∀ b ∈ h.base_addresses,
            ¬ (b.base_address ≤ p ∧ p < b.base_address + 2 ^ b.own_exponent) :=
          fun b hb hc => hin ⟨b, hb, hc⟩
        rw [c4 hge hnone]
        simp only [BlockAddress.empty, if_true]
    rw [hf]
    simp [hall]

theorem demoOS2_contract : OSContract demoOS2 wholeHeap1 := by
  intro size hne
  unfold demoOS2 at hne ⊢
  by_cases hs : size ≤ 2 ^ 20
  · rw [if_pos hs]
    refine ⟨by decide, ?_, ?_⟩
    · unfold WORD; omega
    · intro b hb
      have hb2 : b = ⟨65536, 16, 16 :: List.replicate 255 0⟩ :=
        List.mem_singleton.mp hb
      rw [hb2]
      right
      decide
  · rw [if_neg hs] at hne
    exact absurd rfl hne

set_option maxRecDepth 100000 in
theorem wholeHeap1_alloc :
    SecureHeap.init.Alloc 4096 demoOS 65536 = Result.ok (65536, wholeHeap1) := by
  decide

set_option maxRecDepth 100000 in
theorem wholeHeap2_alloc :
    wholeHeap1.Alloc 4096 demoOS2 65536 = Result.ok (196608, wholeHeap2) := by
  decide

set_option maxRecDepth 100000 in
theorem wholeHeap3_free : wholeHeap2.Free 65536 = Result.ok wholeHeap3 := by
  decide

/-- The state in which the block at 65536 has been destroyed and the block at
196608 remains is reachable. -/
theorem wholeHeap3_reach : Reach 4096 wholeHeap3 [(196608, 65536)] :=
  Reach.free
    (Reach.alloc
      (Reach.alloc Reach.init demoOS_contract (by unfold WORD; omega) wholeHeap1_alloc
        (by decide))
      demoOS2_contract (by unfold WORD; omega) wholeHeap2_alloc (by decide))
    (List.mem_cons_of_mem _ (List.mem_singleton_self _)) wholeHeap3_free

set_option maxRecDepth 100000 in
/-- C7 (failing input): in the reachable state `highFirstHeap2` (blocks at
196608 and 65536, created in this order, both handed out whole), `Free(4096)` of
the non-null pointer 4096, which is not a live allocation and is below every
block base, passes `CHECK(!base_addresses.empty())` and is undefined (the
`begin()` iterator of the map is decremented in `GetBlockAddress`, before
`CHECK_NOT_NULL(block)` is reached) instead of ending in a fatal assertion. -/
theorem C7_free_below_every_base :
    Reach 4096 highFirstHeap2 [(65536, 65536), (196608, 65536)] ∧
    highFirstHeap2.base_addresses.map (fun b => b.base_address) = [65536, 196608] ∧
    (∀ sz, ((4096 : Nat), sz) ∉ [((65536 : Nat), (65536 : Nat)), (196608, 65536)]) ∧
    highFirstHeap2.base_addresses.isEmpty = false ∧
    highFirstHeap2.GetBlockAddress 4096 = Result.undefined ∧
    highFirstHeap2.Free 4096 = Result.undefined :=
  ⟨highFirstHeap2_reach, by decide, by intro sz hm; simp at hm, by decide, by decide,
    by decide⟩

/-- C8: in every reachable heap state (page size a power of two) and for every
`size_t` value `sz`, `Alloc(sz)` returns null exactly when `sz == 0`, or
`sz > 2^MAX_EXP`, or no free slice of a class from `max(MIN_EXP, ceil(log2 sz))`
up exists and the reservation of protected pages fails; in each of these cases
`Alloc` returns (no `CHECK` fails) and the heap is unchanged. -/
theorem C8_alloc_returns_null_exactly {page_size : Nat} {h : SecureHeap}
    {L : List (Nat × Nat)} (os : Nat → Nat) (sz : Nat) (hr : Reach page_size h L)
    (hps : PageSizeOk page_size) (hW : sz < WORD) :
    ((sz = 0 ∨ 2 ^ SECURE_HEAP_MAX_EXP < sz ∨
        ((∀ e, sizeClass sz ≤ e → e ≤ SECURE_HEAP_MAX_EXP → h.stack e = []) ∧
          ∃ pexp, GetPageSizeExponent page_size = Result.ok pexp ∧
            os (2 ^ blockExponent pexp (sizeClass sz)) = 0)) →
      h.Alloc page_size os sz = Result.ok (0, h)) ∧
    (∀ h1, h.Alloc page_size os sz = Result.ok (0, h1) →
      (sz = 0 ∨ 2 ^ SECURE_HEAP_MAX_EXP < sz ∨
        ((∀ e, sizeClass sz ≤ e → e ≤ SECURE_HEAP_MAX_EXP → h.stack e = []) ∧
          ∃ pexp, GetPageSizeExponent page_size = Result.ok pexp ∧
            os (2 ^ blockExponent pexp (sizeClass sz)) = 0))) := by
  have inv := hr.inv
  constructor
  · rintro (h0 | hbig | ⟨hempty, pexp, hg, hos⟩)
    · subst h0; exact Alloc_zero _ _ _
    · exact Alloc_too_large page_size os h sz hW hbig
    · by_cases h0 : sz = 0
      · subst h0; exact Alloc_zero _ _ _
      by_cases hbig : 2 ^ SECURE_HEAP_MAX_EXP < sz
      · exact Alloc_too_large page_size os h sz hW hbig
      have hcl : sizeClass sz ≤ SECURE_HEAP_MAX_EXP := sizeClass_le_iff.mpr (by omega)
      rw [Alloc_of_no_free page_size os h sz inv.len (by omega) hW hcl hempty pexp hg,
        if_neg (by simpa using hos)]
  · intro h1 hA
    by_cases h0 : sz = 0
    · exact Or.inl h0
    by_cases hbig : 2 ^ SECURE_HEAP_MAX_EXP < sz
    · exact Or.inr (Or.inl hbig)
    right; right
    have hpos : 0 < sz := by omega
    have hcl : sizeClass sz ≤ SECURE_HEAP_MAX_EXP := sizeClass_le_iff.mpr (by omega)
    rcases first_nonempty h (SECURE_HEAP_MAX_EXP + 1 - sizeClass sz) (sizeClass sz) (by omega)
      with hempty | ⟨d, hd1, hd2, hd3⟩
    · refine ⟨hempty, ?_⟩
      obtain ⟨pexp, hg⟩ := GetPageSizeExponent_of_ok hps
      refine ⟨pexp, hg, ?_⟩
      rw [Alloc_of_no_free page_size os h sz inv.len hpos hW hcl hempty pexp hg] at hA
      by_contra hb
      rw [if_pos hb] at hA
      simp only [Result.ok.injEq, Prod.mk.injEq] at hA
      exact hb hA.1
    · exfalso
      obtain ⟨S, t, hst⟩ : ∃ S t, h.stack (sizeClass sz + d) = S ++ [t] := by
        rcases List.eq_nil_or_concat (h.stack (sizeClass sz + d)) with h1 | ⟨S, t, h1⟩
        · exact absurd h1 hd3
        · exact ⟨S, t, by rw [h1, List.concat_eq_append]⟩
      have htf : h.isFree t.block t.address (sizeClass sz + d) :=
        ⟨by have := sizeClass_ge sz; omega, hd1, by rw [hst]; simp⟩
      have ht := (free_address_ne_zero inv htf).1
      rw [Alloc_of_free page_size os h sz d S t hpos hW hd1 hd2 hst ht] at hA
      simp only [Result.ok.injEq, Prod.mk.injEq] at hA
      exact ht hA.1

theorem sizeClass_70000 : sizeClass 70000 = 17 := by
  unfold sizeClass
  have : Nat.clog 2 70000 = 17 := @clog_of_between 70000 16 (by norm_num) (by norm_num)
  rw [this]
  decide

theorem sizeClass_1024 : sizeClass 1024 = 10 := by
  unfold sizeClass
  have : Nat.clog 2 1024 = 10 := by
    rw [show (1024 : Nat) = 2 ^ 10 by norm_num, Nat.clog_pow 2 10 (by decide)]
  rw [this]
  decide

theorem C8_alloc_returns_null_exactly_witness :
    Reach 4096 demoHeap [(65536, 100)] ∧ PageSizeOk 4096 ∧ 70000 < WORD ∧
    (((70000 = 0 ∨ 2 ^ SECURE_HEAP_MAX_EXP < 70000 ∨
        ((∀ e, sizeClass 70000 ≤ e → e ≤ SECURE_HEAP_MAX_EXP → demoHeap.stack e = []) ∧
          ∃ pexp, GetPageSizeExponent 4096 = Result.ok pexp ∧
            noMemOS (2 ^ blockExponent pexp (sizeClass 70000)) = 0)) →
      demoHeap.Alloc 4096 noMemOS 70000 = Result.ok (0, demoHeap)) ∧
    (∀ h1, demoHeap.Alloc 4096 noMemOS 70000 = Result.ok (0, h1) →
      (70000 = 0 ∨ 2 ^ SECURE_HEAP_MAX_EXP < 70000 ∨
        ((∀ e, sizeClass 70000 ≤ e → e ≤ SECURE_HEAP_MAX_EXP → demoHeap.stack e = []) ∧
          ∃ pexp, GetPageSizeExponent 4096 = Result.ok pexp ∧
            noMemOS (2 ^ blockExponent pexp (sizeClass 70000)) = 0)))) :=
  ⟨demoHeap_reach, pageSize_4096, by unfold WORD; omega,
    C8_alloc_returns_null_exactly noMemOS 70000 demoHeap_reach pageSize_4096
      (by unfold WORD; omega)⟩

/-- C9: in every reachable heap state, for every block and every size class `e`
below the block's own exponent, the free stack for `e` never holds both a slice
of that block and the buddy of that slice at `e`. -/
theorem C9_no_two_free_buddies {page_size : Nat} {h : SecureHeap} {L : List (Nat × Nat)}
    (hr : Reach page_size h L) {b : Block} (hb : b ∈ h.base_addresses) {e : Nat}
    (he8 : SECURE_HEAP_MIN_EXP ≤ e) (he : e < b.own_exponent) {a : BlockAddress}
    (ha : a ∈ h.stack e) (hab : a.block = b.base_address) :
    a.GetBuddy e ∉ h.stack e := by
  have inv := hr.inv
  obtain ⟨hbpos, _, hW, _, hE20, _⟩ := inv.blk_ok b hb
  have hk2 : e ≤ SECURE_HEAP_MAX_EXP := by omega
  obtain ⟨aB, aA⟩ := a
  simp only at hab
  subst hab
  have hf : h.isFree b.base_address aA e := ⟨he8, hk2, ha⟩
  obtain ⟨b2, hb2, hB2, _, hfit1, hfit2, hfit3⟩ := inv.free_ok _ _ _ hf
  have hbb : b2 = b := block_unique inv.sorted hb2 hb hB2
  subst hbb
  have hpos := two_pow_pos_nat e
  intro hm
  rcases dvd_pow_cases hfit2 with hlow | ⟨hge, hup⟩
  · rw [GetBuddy_lower hfit1 hlow (by omega)] at hm
    exact inv.nobuddy _ _ e hlow hf ⟨he8, hk2, hm⟩
  · have hA : aA = (aA - 2 ^ e) + 2 ^ e := by omega
    have hPB : b2.base_address ≤ aA - 2 ^ e := by omega
    have hPd : 2 ^ (e + 1) ∣ (aA - 2 ^ e) - b2.base_address := by
      have : aA - 2 ^ e - b2.base_address = aA - b2.base_address - 2 ^ e := by
        omega
      rw [this]; exact hup
    have hbud := GetBuddy_upper hPB hPd (by omega)
    rw [← hA] at hbud
    rw [hbud] at hm
    have h2 : h.isFree b2.base_address (aA - 2 ^ e + 2 ^ e) e := by rw [← hA]; exact hf
    exact inv.nobuddy _ _ e hPd ⟨he8, hk2, hm⟩ h2

set_option maxRecDepth 100000 in
theorem C9_no_two_free_buddies_witness :
    Reach 4096 demoHeap [(65536, 100)] ∧
    (⟨65536, 16, 8 :: List.replicate 255 0⟩ : Block) ∈ demoHeap.base_addresses ∧
    SECURE_HEAP_MIN_EXP ≤ 8 ∧
    8 < (⟨65536, 16, 8 :: List.replicate 255 0⟩ : Block).own_exponent ∧
    (⟨65536, 65792⟩ : BlockAddress) ∈ demoHeap.stack 8 ∧
    (⟨65536, 65792⟩ : BlockAddress).block =
      (⟨65536, 16, 8 :: List.replicate 255 0⟩ : Block).base_address ∧
    BlockAddress.GetBuddy ⟨65536, 65792⟩ 8 ∉ demoHeap.stack 8 :=
  ⟨demoHeap_reach, by decide, by decide, by decide, by decide, rfl,
    C9_no_two_free_buddies demoHeap_reach
      (b := ⟨65536, 16, 8 :: List.replicate 255 0⟩) (by decide) (by decide) (by decide)
      (by decide) rfl⟩

/-- C10: in every reachable heap state, for a request of `sz` bytes whose class
`w = max(MIN_EXP, ceil(log2 sz))` is at most `MAX_EXP`, with `k` the least class
from `w` up whose stack is not empty and `a` the top (last pushed) entry of that
stack: `Alloc(sz)` returns the address of `a`, takes `a` off stack `k`, pushes
the upper half `a + 2^e` on stack `e` for every `e` in `[w, k)`, records `w` in
`alloc_sizes` of the block of `a` at `a`, and changes nothing else (no block is
created, every other stack and table is as before). -/
theorem C10_alloc_pops_and_splits {page_size : Nat} {h : SecureHeap} {L : List (Nat × Nat)}
    (os : Nat → Nat) (sz k : Nat) (S : FreeStack) (a : BlockAddress)
    (hr : Reach page_size h L) (h0 : 0 < sz) (hW : sz < WORD)
    (hk1 : sizeClass sz ≤ k) (hk2 : k ≤ SECURE_HEAP_MAX_EXP)
    (hempty : ∀ e, sizeClass sz ≤ e → e < k → h.stack e = [])
    (hst : h.stack k = S ++ [a]) :
    ∃ h1, h.Alloc page_size os sz = Result.ok (a.address, h1) ∧ a.address ≠ 0 ∧
      (∀ e, SECURE_HEAP_MIN_EXP ≤ e → h1.stack e =
        if e = k then S
        else if sizeClass sz ≤ e ∧ e < k then h.stack e ++ [⟨a.block, a.address + 2 ^ e⟩]
        else h.stack e) ∧
      h1.free_slices.length = h.free_slices.length ∧
      h1.base_addresses = h.base_addresses.map (fun b =>
        if b.base_address = a.block then b.SetAllocationSize a.address (sizeClass sz) else b) ∧
      (∃ b ∈ h.base_addresses, b.base_address = a.block ∧
        (b.SetAllocationSize a.address (sizeClass sz)).alloc_sizes.getD
          ((a.address - a.block) / 2 ^ SECURE_HEAP_MIN_EXP) 0 = sizeClass sz) := by
  have inv := hr.inv
  have hw8 := sizeClass_ge sz
  have hd : sizeClass sz + (k - sizeClass sz) = k := by omega
  have htf : h.isFree a.block a.address k := ⟨by omega, hk2, by rw [hst]; simp⟩
  have ht := (free_address_ne_zero inv htf).1
  obtain ⟨b, hb, hB, hkE, hfit1, hfit2, hfit3⟩ := inv.free_ok _ _ _ htf
  obtain ⟨hbpos, _, hWb, hE8, hE20, hlen⟩ := inv.blk_ok b hb
  have hA := Alloc_of_free page_size os h sz (k - sizeClass sz) S a h0 hW (by omega)
    (fun e1 h1 h2 => hempty e1 h1 (by omega)) (by rw [hd]; exact hst) ht
  rw [hd] at hA
  refine ⟨_, hA, ht, ?_, ?_, ?_, ?_⟩
  · intro e he
    rw [updateBlock_stack, stack_splitFrom _ _ _ _ _ (by rw [setStack_len]; exact inv.len) hw8
      (by omega) he, stack_setStack h e k S inv.len (by omega) hk2 he, hd]
    by_cases hek : e = k
    · have hc2 : ¬ (sizeClass sz ≤ e ∧ e < k) := by omega
      simp only [if_neg hc2, if_pos hek]
    · by_cases hc : sizeClass sz ≤ e ∧ e < k
      · simp only [if_pos hc, if_neg hek]
        have hdvd : 2 ^ (e + 1) ∣ a.address - a.block := by
          rw [← hB]
          exact Dvd.dvd.trans (Nat.pow_dvd_pow 2 (by omega)) hfit2
        have hle : 2 ^ e ≤ 2 ^ k := Nat.pow_le_pow_right (by decide) (by omega)
        have hbud : a.GetBuddy e = ⟨a.block, a.address + 2 ^ e⟩ :=
          GetBuddy_lower (by omega) hdvd (by omega)
        rw [hbud]
      · simp only [if_neg hc, if_neg hek]
  · simp
  · simp only [SecureHeap.updateBlock, splitFrom_base, setStack_base]
  · refine ⟨b, hb, hB, ?_⟩
    simp only [Block.SetAllocationSize]
    rw [GetOffsetInUnits_eq hfit1 (by have := two_pow_pos_nat k; omega), hB]
    apply getD_set_same
    rw [hlen, ← hB]
    exact unit_index_lt hfit1 (by have := two_pow_pos_nat k; omega) hE8

set_option maxRecDepth 100000 in
theorem C10_alloc_pops_and_splits_witness :
    Reach 4096 demoHeap [(65536, 100)] ∧ 0 < 1024 ∧ 1024 < WORD ∧
    sizeClass 1024 ≤ 10 ∧ 10 ≤ SECURE_HEAP_MAX_EXP ∧
    (∀ e, sizeClass 1024 ≤ e → e < 10 → demoHeap.stack e = []) ∧
    demoHeap.stack 10 = [] ++ [⟨65536, 66560⟩] ∧
    ∃ h1, demoHeap.Alloc 4096 noMemOS 1024 = Result.ok (66560, h1) ∧ 66560 ≠ 0 ∧
      (∀ e, SECURE_HEAP_MIN_EXP ≤ e → h1.stack e =
        if e = 10 then []
        else if sizeClass 1024 ≤ e ∧ e < 10 then demoHeap.stack e ++ [⟨65536, 66560 + 2 ^ e⟩]
        else demoHeap.stack e) ∧
      h1.free_slices.length = demoHeap.free_slices.length ∧
      h1.base_addresses = demoHeap.base_addresses.map (fun b =>
        if b.base_address = 65536 then b.SetAllocationSize 66560 (sizeClass 1024) else b) ∧
      (∃ b ∈ demoHeap.base_addresses, b.base_address = 65536 ∧
        (b.SetAllocationSize 66560 (sizeClass 1024)).alloc_sizes.getD
          ((66560 - 65536) / 2 ^ SECURE_HEAP_MIN_EXP) 0 = sizeClass 1024) :=
  ⟨demoHeap_reach, by decide, by unfold WORD; omega, by rw [sizeClass_1024], by decide,
    by rw [sizeClass_1024]; intro e h1 h2; omega, by decide,
    C10_alloc_pops_and_splits noMemOS 1024 10 [] ⟨65536, 66560⟩ demoHeap_reach (by decide)
      (by unfold WORD; omega) (by rw [sizeClass_1024]) (by decide)
      (by rw [sizeClass_1024]; intro e h1 h2; omega) (by decide)⟩

/-! ## Pure functions: `WidthOfSize`, buddy arithmetic, `FreeStack::Remove` -/

/-- C16: for every `n` with `0 < n < 2^64`, `WidthOfSize(n)` returns (the
`UNREACHABLE` is not reached) the smallest `w` with `2^w >= n`; `w` is
`log2 n` when `n` is a power of two and `floor(log2 n) + 1` otherwise. -/
theorem C16_width_of_size_is_ceil_log2 (n : Nat) (h0 : 0 < n) (hn : n < 2 ^ 64) :
    ∃ w, WidthOfSize n = Result.ok w ∧ n ≤ 2 ^ w ∧ (∀ k, n ≤ 2 ^ k → w ≤ k) ∧
      ((∃ i, n = 2 ^ i) → w = Nat.log 2 n) ∧
      ((¬ ∃ i, n = 2 ^ i) → w = Nat.log 2 n + 1) := by
  refine ⟨Nat.clog 2 n, WidthOfSize_eq h0 (by unfold WORD; exact hn), le_two_pow_clog n,
    fun k hk => clog_le_of_le_pow hk, ?_, ?_⟩
  · rintro ⟨i, rfl⟩
    rw [Nat.clog_pow 2 i (by decide), Nat.log_pow (by decide)]
  · intro hnp
    have h1 : 2 ^ Nat.log 2 n ≤ n := Nat.pow_log_le_self 2 (by omega)
    have h2 : n < 2 ^ (Nat.log 2 n + 1) := Nat.lt_pow_succ_log_self (by decide) n
    have h3 : n ≠ 2 ^ Nat.log 2 n := fun hc => hnp ⟨_, hc⟩
    exact clog_of_between (by omega) (by omega)

theorem C16_width_of_size_is_ceil_log2_witness :
    0 < 100 ∧ 100 < 2 ^ 64 ∧
    ∃ w, WidthOfSize 100 = Result.ok w ∧ 100 ≤ 2 ^ w ∧ (∀ k, 100 ≤ 2 ^ k → w ≤ k) ∧
      ((∃ i, 100 = 2 ^ i) → w = Nat.log 2 100) ∧
      ((¬ ∃ i, 100 = 2 ^ i) → w = Nat.log 2 100 + 1) :=
  ⟨by decide, by decide, C16_width_of_size_is_ceil_log2 100 (by decide) (by decide)⟩

/-- C17: for a block (base `B`, `own_exponent` `E`, `B + 2^E` below `2^64`), an
exponent `e` with `MIN_EXP <= e < E` and a slice offset `off < 2^E` that is a
multiple of `2^e`: `GetBuddy(e)` yields the offset `off XOR 2^e`, whose slice
lies inside the block and is disjoint from the slice at `off`;
`GetAddressAtNextExponent(e)` yields the offset `off AND (off XOR 2^e)`, which
is `off` with bit `e` cleared, the smaller of the two offsets, and a multiple of
`2^(e+1)`; the slice and its buddy together cover exactly the `2^(e+1)` bytes
from the parent offset. -/
theorem C17_buddy_and_parent_offsets (b : Block) (e off : Nat) (hb : BlockOk b)
    (_he : SECURE_HEAP_MIN_EXP ≤ e) (hlt : e < b.own_exponent)
    (hoff : off < 2 ^ b.own_exponent) (hdvd : 2 ^ e ∣ off) :
    BlockAddress.GetBuddy ⟨b.base_address, b.base_address + off⟩ e =
      ⟨b.base_address, b.base_address + (off ^^^ 2 ^ e)⟩ ∧
    (off ^^^ 2 ^ e) + 2 ^ e ≤ 2 ^ b.own_exponent ∧
    ((off ^^^ 2 ^ e) + 2 ^ e ≤ off ∨ off + 2 ^ e ≤ (off ^^^ 2 ^ e)) ∧
    BlockAddress.GetAddressAtNextExponent ⟨b.base_address, b.base_address + off⟩ e =
      ⟨b.base_address, b.base_address + (off &&& (off ^^^ 2 ^ e))⟩ ∧
    (∀ i, (off &&& (off ^^^ 2 ^ e)).testBit i = (off.testBit i && decide (i ≠ e))) ∧
    (off &&& (off ^^^ 2 ^ e)) = min off (off ^^^ 2 ^ e) ∧
    2 ^ (e + 1) ∣ (off &&& (off ^^^ 2 ^ e)) ∧
    (∀ x, ((off &&& (off ^^^ 2 ^ e)) ≤ x ∧ x < (off &&& (off ^^^ 2 ^ e)) + 2 ^ (e + 1)) ↔
      ((off ≤ x ∧ x < off + 2 ^ e) ∨ ((off ^^^ 2 ^ e) ≤ x ∧ x < (off ^^^ 2 ^ e) + 2 ^ e))) := by
  obtain ⟨_, _, hW, _, _, _⟩ := hb
  have hbits : ∀ i, (off &&& (off ^^^ 2 ^ e)).testBit i = (off.testBit i && decide (i ≠ e)) := by
    intro i
    rw [Nat.testBit_and, Nat.testBit_xor, Nat.testBit_two_pow]
    by_cases hie : e = i
    · subst hie
      cases off.testBit e <;> simp
    · have hie2 : i ≠ e := fun hc => hie hc.symm
      cases off.testBit i <;> simp [hie, hie2]
  have h2 := two_pow_succ_eq e
  have hpe := two_pow_pos_nat e
  rcases dvd_pow_cases hdvd with hlow | ⟨hge, hup⟩
  · have hfit := dyadic_fits (Nat.succ_le_of_lt hlt) hlow hoff
    rw [and_pow_lower hlow, xor_pow_lower hlow] at *
    refine ⟨?_, by omega, Or.inr (le_refl _), ?_, hbits, by omega, hlow, fun x => by omega⟩
    · rw [GetBuddy_lower (Nat.le_add_right _ _) (by rw [Nat.add_sub_cancel_left]; exact hlow)
        (by omega), Nat.add_assoc]
    · exact GetNext_lower (Nat.le_add_right _ _) (by rw [Nat.add_sub_cancel_left]; exact hlow)
        (by omega)
  · obtain ⟨y, hy⟩ : ∃ y, off = y + 2 ^ e := ⟨off - 2 ^ e, by omega⟩
    subst hy
    rw [Nat.add_sub_cancel] at hup
    rw [and_pow_upper hup, xor_pow_upper hup] at *
    have hfit := dyadic_fits (Nat.succ_le_of_lt hlt) hup (by omega)
    refine ⟨?_, by omega, Or.inl (le_refl _), ?_, hbits, by omega, hup, fun x => by omega⟩
    · rw [← Nat.add_assoc]
      exact GetBuddy_upper (Nat.le_add_right _ _)
        (by rw [Nat.add_sub_cancel_left]; exact hup) (by omega)
    · rw [← Nat.add_assoc]
      exact GetNext_upper (Nat.le_add_right _ _)
        (by rw [Nat.add_sub_cancel_left]; exact hup) (by omega)

theorem C17_buddy_and_parent_offsets_witness :
    BlockOk ⟨65536, 10, [0, 0, 0, 0]⟩ ∧ SECURE_HEAP_MIN_EXP ≤ 8 ∧
    8 < (⟨65536, 10, [0, 0, 0, 0]⟩ : Block).own_exponent ∧
    768 < 2 ^ (⟨65536, 10, [0, 0, 0, 0]⟩ : Block).own_exponent ∧
    2 ^ 8 ∣ 768 ∧
    BlockAddress.GetBuddy ⟨65536, 65536 + 768⟩ 8 = ⟨65536, 65536 + (768 ^^^ 2 ^ 8)⟩ ∧
    (768 ^^^ 2 ^ 8) + 2 ^ 8 ≤ 2 ^ 10 ∧
    ((768 ^^^ 2 ^ 8) + 2 ^ 8 ≤ 768 ∨ 768 + 2 ^ 8 ≤ (768 ^^^ 2 ^ 8)) ∧
    BlockAddress.GetAddressAtNextExponent ⟨65536, 65536 + 768⟩ 8 =
      ⟨65536, 65536 + (768 &&& (768 ^^^ 2 ^ 8))⟩ ∧
    (∀ i, (768 &&& (768 ^^^ 2 ^ 8)).testBit i = (Nat.testBit 768 i && decide (i ≠ 8))) ∧
    (768 &&& (768 ^^^ 2 ^ 8)) = min 768 (768 ^^^ 2 ^ 8) ∧
    2 ^ (8 + 1) ∣ (768 &&& (768 ^^^ 2 ^ 8)) ∧
    (∀ x, ((768 &&& (768 ^^^ 2 ^ 8)) ≤ x ∧ x < (768 &&& (768 ^^^ 2 ^ 8)) + 2 ^ (8 + 1)) ↔
      ((768 ≤ x ∧ x < 768 + 2 ^ 8) ∨
        ((768 ^^^ 2 ^ 8) ≤ x ∧ x < (768 ^^^ 2 ^ 8) + 2 ^ 8))) :=
  ⟨⟨by decide, by decide, by unfold WORD; decide, by decide, by decide, by decide⟩,
    by decide, by decide, by decide, by decide,
    C17_buddy_and_parent_offsets ⟨65536, 10, [0, 0, 0, 0]⟩ 8 768
      ⟨by decide, by decide, by unfold WORD; decide, by decide, by decide, by decide⟩
      (by decide) (by decide) (by decide) (by decide)⟩

/-- C20: for every FreeStack without duplicate entries and every BlockAddress
`a`, `Remove(a)` returns true exactly when `a` is on the stack; when it returns
true, one element is removed (`Height` drops by one), `a` is no longer on the
stack and the other entries remain in their order (the stack is the old one
with `a` erased); when it returns false the stack is unchanged. -/
theorem C20_remove_takes_out_one_entry (s : FreeStack) (a : BlockAddress) (hs : s.Nodup) :
    ((s.Remove a).1 = true ↔ a ∈ s) ∧
    ((s.Remove a).1 = true →
      (s.Remove a).2.Height + 1 = s.Height ∧ a ∉ (s.Remove a).2 ∧
      (s.Remove a).2 = s.erase a ∧ List.Sublist (s.Remove a).2 s ∧
      (∀ x, x ∈ s → x ≠ a → x ∈ (s.Remove a).2)) ∧
    ((s.Remove a).1 = false → (s.Remove a).2 = s) := by
  by_cases ha : a ∈ s
  · rw [Remove_of_mem ha]
    refine ⟨⟨fun _ => ha, fun _ => rfl⟩, fun _ => ⟨?_, ?_, ?_, ?_, ?_⟩, fun hc => by simp at hc⟩
    · exact filter_ne_length_of_nodup hs ha
    · intro hc
      exact ((mem_filter_ne s a a).mp hc).2 rfl
    · exact (List.Nodup.erase_eq_filter hs a).symm
    · exact List.filter_sublist s
    · intro x hx hxa
      exact (mem_filter_ne s a x).mpr ⟨hx, hxa⟩
  · rw [Remove_of_not_mem ha]
    exact ⟨⟨fun hc => by simp at hc, fun hc => absurd hc ha⟩, fun hc => by simp at hc,
      fun _ => rfl⟩

theorem C20_remove_takes_out_one_entry_witness :
    List.Nodup ([⟨65536, 65792⟩, ⟨65536, 66048⟩, ⟨65536, 66560⟩] : FreeStack) ∧
    ((FreeStack.Remove [⟨65536, 65792⟩, ⟨65536, 66048⟩, ⟨65536, 66560⟩] ⟨65536, 66048⟩).1 = true ↔
      (⟨65536, 66048⟩ : BlockAddress) ∈
        ([⟨65536, 65792⟩, ⟨65536, 66048⟩, ⟨65536, 66560⟩] : FreeStack)) :=
  ⟨by decide,
    (C20_remove_takes_out_one_entry [⟨65536, 65792⟩, ⟨65536, 66048⟩, ⟨65536, 66560⟩]
      ⟨65536, 66048⟩ (by decide)).1⟩

/-! ## Alignment, `Cleanup`, the first allocation and the retry after `CreateBlock` -/

theorem mem_mapInsert_self (m : List Block) (blk : Block) : blk ∈ mapInsert m blk := by
  induction m with
  | nil => simp [mapInsert]
  | cons b rest ih =>
    unfold mapInsert
    by_cases h1 : blk.base_address < b.base_address
    · simp [h1]
    · by_cases h2 : blk.base_address = b.base_address
      · simp [h2]
      · simp only [h1, h2, if_false]
        exact List.mem_cons_of_mem _ ih

/-- When `AllocExponent(w)` returns the empty address in a state that satisfies
the invariant, every stack from `w` up is empty and the heap is unchanged. -/
theorem AllocExponent_empty {h : SecureHeap} {L : List (Nat × Nat)} (inv : InvP h L none)
    {w : Nat} (hw8 : SECURE_HEAP_MIN_EXP ≤ w) (hw : w ≤ SECURE_HEAP_MAX_EXP)
    (hfail : (h.AllocExponent w).1.toBool = false) :
    (∀ e1, w ≤ e1 → e1 ≤ SECURE_HEAP_MAX_EXP → h.stack e1 = []) ∧
    h.AllocExponent w = (BlockAddress.empty, h) := by
  have hall : ∀ e1, w ≤ e1 → e1 ≤ SECURE_HEAP_MAX_EXP → h.stack e1 = [] := by
    rcases first_nonempty h (SECURE_HEAP_MAX_EXP + 1 - w) w (by omega) with hall | ⟨d, hd, hem, hne⟩
    · exact hall
    · exfalso
      obtain ⟨S, t, hSt⟩ : ∃ S t, h.stack (w + d) = S ++ [t] :=
        ⟨_, _, (List.dropLast_append_getLast hne).symm⟩
      have htf : h.isFree t.block t.address (w + d) := ⟨by omega, hd, by rw [hSt]; simp⟩
      have ht := (free_address_ne_zero inv htf).1
      have hrun := AllocExponentFrom_succeed d (SECURE_HEAP_MAX_EXP + 2 - w) h w S t hd
        (by omega) hem hSt ht
      unfold SecureHeap.AllocExponent at hfail
      rw [hrun, toBool_of_ne ht] at hfail
      exact Bool.noConfusion hfail
  exact ⟨hall, AllocExponentFrom_fail _ h w hall⟩

/-- The retried `AllocExponent(w)` on the heap `CreateBlock` leaves, when every
stack from `w` up was empty before: the base of the new block, after the splits
from `E` down to `w`. -/
theorem AllocExponent_after_create (h : SecureHeap) (w E base : Nat)
    (hlen : h.free_slices.length = SECURE_HEAP_MAX_EXP - SECURE_HEAP_MIN_EXP + 1)
    (hw8 : SECURE_HEAP_MIN_EXP ≤ w) (hE1 : w ≤ E) (hE2 : E ≤ SECURE_HEAP_MAX_EXP)
    (hempty : ∀ e1, w ≤ e1 → e1 ≤ SECURE_HEAP_MAX_EXP → h.stack e1 = [])
    (hb : base ≠ 0) :
    SecureHeap.AllocExponent
      { free_slices := (h.setStack E (h.stack E ++ [⟨base, base⟩])).free_slices
        base_addresses := mapInsert h.base_addresses
          ⟨base, E, List.replicate (2 ^ (E - SECURE_HEAP_MIN_EXP)) 0⟩ } w =
      (⟨base, base⟩, splitFrom (E - w) (h.withBlock base E) ⟨base, base⟩ w) := by
  have hsE : h.stack E = [] := hempty E hE1 hE2
  have hd : w + (E - w) = E := by omega
  have hrun := AllocExponentFrom_succeed (E - w) (SECURE_HEAP_MAX_EXP + 2 - w)
    { free_slices := (h.setStack E (h.stack E ++ [⟨base, base⟩])).free_slices
      base_addresses := mapInsert h.base_addresses
        ⟨base, E, List.replicate (2 ^ (E - SECURE_HEAP_MIN_EXP)) 0⟩ }
    w [] ⟨base, base⟩ (by omega) (by omega)
    (by
      intro e1 h1 h2
      show (h.setStack E (h.stack E ++ [⟨base, base⟩])).stack e1 = []
      rw [stack_setStack h e1 E _ hlen (by omega) hE2 (by omega), if_neg (by omega)]
      exact hempty e1 h1 (by omega))
    (by
      rw [hd]
      show (h.setStack E (h.stack E ++ [⟨base, base⟩])).stack E = [] ++ [⟨base, base⟩]
      rw [stack_setStack h E E _ hlen (by omega) hE2 (by omega), if_pos rfl, hsE])
    hb
  unfold SecureHeap.AllocExponent
  rw [hrun]
  have hstate : SecureHeap.setStack
      { free_slices := (h.setStack E (h.stack E ++ [⟨base, base⟩])).free_slices
        base_addresses := mapInsert h.base_addresses
          ⟨base, E, List.replicate (2 ^ (E - SECURE_HEAP_MIN_EXP)) 0⟩ }
      (w + (E - w)) [] = h.withBlock base E := by
    rw [hd]
    have h1 : (h.setStack E (h.stack E ++ [⟨base, base⟩])).setStack E [] = h := by
      rw [setStack_setStack]
      have := setStack_self h E
      rw [hsE] at this
      exact this
    have h2 := congrArg SecureHeap.free_slices h1
    simp only [SecureHeap.setStack, SecureHeap.withBlock] at h2 ⊢
    rw [h2]
  rw [hstate]

/-- A successful `CreateBlock` has read a page-size exponent. -/
theorem CreateBlock_ok_page {page_size : Nat} {os : Nat → Nat} {h : SecureHeap} {w : Nat}
    {r : Nat × SecureHeap} (hc : h.CreateBlock page_size os w = Result.ok r) :
    ∃ pexp, GetPageSizeExponent page_size = Result.ok pexp := by
  cases hp : GetPageSizeExponent page_size with
  | ok pexp => exact ⟨pexp, rfl⟩
  | fatal =>
    unfold SecureHeap.CreateBlock at hc
    rw [hp] at hc
    split_ifs at hc
  | undefined =>
    unfold SecureHeap.CreateBlock at hc
    rw [hp] at hc
    split_ifs at hc

/-- Every stack of a heap without blocks is empty, in a state that satisfies
the invariant. -/
theorem stacks_empty_of_no_blocks {h : SecureHeap} {L : List (Nat × Nat)} (inv : InvP h L none)
    (hnb : h.base_addresses = []) (e : Nat) : h.stack e = [] := by
  have hin : ∀ e1, SECURE_HEAP_MIN_EXP ≤ e1 → e1 ≤ SECURE_HEAP_MAX_EXP → h.stack e1 = [] := by
    intro e1 h1 h2
    apply List.eq_nil_iff_forall_not_mem.mpr
    intro x hx
    obtain ⟨b, hb, _⟩ := inv.free_ok x.block x.address e1 ⟨h1, h2, hx⟩
    rw [hnb] at hb
    exact absurd hb (List.not_mem_nil _)
  obtain ⟨e1, ⟨h1, h2, h3⟩ | h3⟩ := stack_out_of_range inv.len e
  · rw [h3]
    exact hin e1 h1 h2
  · exact h3

/-- C15: in every reachable heap state, every slice of class `e` (entry of the
free stack for `e`, or live allocation recorded with exponent `e`) lies in a
block of the map whose base is a multiple of `2^MIN_EXP`, starts at an offset
from that base that is a multiple of `2^e`, and ends inside the block; and every
non-null pointer returned by `Alloc` is a multiple of 256. -/
theorem C15_slices_aligned_to_their_class {page_size : Nat} {h : SecureHeap}
    {L : List (Nat × Nat)} (hr : Reach page_size h L) :
    (∀ B a e, h.isFree B a e ∨ h.isLive B a e →
      ∃ b ∈ h.base_addresses, b.base_address = B ∧ 2 ^ SECURE_HEAP_MIN_EXP ∣ B ∧ B ≤ a ∧
        2 ^ e ∣ a - B ∧ a + 2 ^ e ≤ B + 2 ^ b.own_exponent) ∧
    (∀ (os : Nat → Nat) (sz p : Nat) (h1 : SecureHeap), OSContract os h → sz < WORD →
      h.Alloc page_size os sz = Result.ok (p, h1) → p ≠ 0 → 256 ∣ p) := by
  have inv := hr.inv
  constructor
  · intro B a e hs
    rcases hs with hf | hl
    · obtain ⟨b, hb, hB, _, h1, h2, h3⟩ := inv.free_ok B a e hf
      have hok := (inv.blk_ok b hb).2.1
      rw [hB] at h1 h2 h3 hok
      exact ⟨b, hb, hB, hok, h1, h2, h3⟩
    · obtain ⟨b, hb, hB, _, _, h1, h2, h3⟩ := inv.live_ok B a e hl
      have hok := (inv.blk_ok b hb).2.1
      rw [hB] at h1 h2 h3 hok
      exact ⟨b, hb, hB, hok, h1, h2, h3⟩
  · intro os sz p h1 hc hW hA hp
    have inv1 := (Alloc_inv inv hc hW hA).1 hp
    obtain ⟨_, _, B, hl⟩ := inv1.ghost_in p sz (List.mem_cons_self _ _)
    obtain ⟨b, hb, hB, he8, _, hle, hdvd, _⟩ := inv1.live_ok B p _ hl
    have hok := (inv1.blk_ok b hb).2.1
    have h256 : (256 : Nat) = 2 ^ SECURE_HEAP_MIN_EXP := by decide
    rw [h256]
    have hd2 : 2 ^ SECURE_HEAP_MIN_EXP ∣ p - b.base_address :=
      Dvd.dvd.trans (Nat.pow_dvd_pow 2 he8) hdvd
    have hsum : p = b.base_address + (p - b.base_address) := by omega
    rw [hsum]
    exact Nat.dvd_add hok hd2

theorem C15_slices_aligned_to_their_class_witness :
    Reach 4096 demoHeap [(65536, 100)] ∧
    (∀ B a e, demoHeap.isFree B a e ∨ demoHeap.isLive B a e →
      ∃ b ∈ demoHeap.base_addresses, b.base_address = B ∧ 2 ^ SECURE_HEAP_MIN_EXP ∣ B ∧ B ≤ a ∧
        2 ^ e ∣ a - B ∧ a + 2 ^ e ≤ B + 2 ^ b.own_exponent) ∧
    (∀ (os : Nat → Nat) (sz p : Nat) (h1 : SecureHeap), OSContract os demoHeap → sz < WORD →
      demoHeap.Alloc 4096 os sz = Result.ok (p, h1) → p ≠ 0 → 256 ∣ p) :=
  ⟨demoHeap_reach, C15_slices_aligned_to_their_class demoHeap_reach⟩

/-- C13: in every reachable heap state, the done hook (`SecureHeap::Cleanup`)
returns true exactly when no allocation is live, and the heap after the call (block map
and free stacks) is the heap before it, whatever it returns. -/
theorem C13_cleanup_succeeds_iff_nothing_live {page_size : Nat} {h : SecureHeap}
    {L : List (Nat × Nat)} (hr : Reach page_size h L) :
    ((SecureHeap_done h).1 = true ↔ L = []) ∧
    ((SecureHeap_done h).1 = true ↔ ∀ B a e, ¬ h.isLive B a e) ∧
    (SecureHeap_done h).2.base_addresses = h.base_addresses ∧
    (SecureHeap_done h).2.free_slices = h.free_slices := by
  have inv := hr.inv
  have hdone : (SecureHeap_done h).1 = true ↔ h.base_addresses = [] := by
    show h.base_addresses.isEmpty = true ↔ _
    exact List.isEmpty_iff
  have hnl : h.base_addresses = [] ↔ ∀ B a e, ¬ h.isLive B a e := by
    constructor
    · rintro hnb B a e ⟨b, hb, _⟩
      rw [hnb] at hb
      exact absurd hb (List.not_mem_nil _)
    · intro hno
      apply List.eq_nil_iff_forall_not_mem.mpr
      intro b hb
      obtain ⟨a, e, hl⟩ := block_has_live inv hb
      exact hno _ a e hl
  have hL : (∀ B a e, ¬ h.isLive B a e) ↔ L = [] := by
    constructor
    · intro hno
      apply List.eq_nil_iff_forall_not_mem.mpr
      rintro ⟨p, sz⟩ hp
      obtain ⟨_, _, B, hl⟩ := inv.ghost_in p sz hp
      exact hno B p _ hl
    · rintro hnil B a e hl
      obtain ⟨sz, hsz⟩ := inv.ghost_out B a e hl
      rw [hnil] at hsz
      exact absurd hsz (List.not_mem_nil _)
  exact ⟨hdone.trans (hnl.trans hL), hdone.trans hnl, rfl, rfl⟩

theorem C13_cleanup_succeeds_iff_nothing_live_witness :
    Reach 4096 demoHeap [(65536, 100)] ∧
    (((SecureHeap_done demoHeap).1 = true ↔ [((65536 : Nat), (100 : Nat))] = []) ∧
    ((SecureHeap_done demoHeap).1 = true ↔ ∀ B a e, ¬ demoHeap.isLive B a e) ∧
    (SecureHeap_done demoHeap).2.base_addresses = demoHeap.base_addresses ∧
    (SecureHeap_done demoHeap).2.free_slices = demoHeap.free_slices) :=
  ⟨demoHeap_reach, C13_cleanup_succeeds_iff_nothing_live demoHeap_reach⟩

/-- C19: in every reachable heap state and for every size whose class `w` is at
most `MAX_EXP`: if the first `AllocExponent(w)` returns the empty address and
`CreateBlock(w)` returns a block, then the retried `AllocExponent(w)` returns a
non-empty address, the slice of class `w` at the base of the new block, so the
`CHECK(addr)` holds and `Alloc` returns that non-null address. -/
theorem C19_retry_after_create_succeeds {page_size : Nat} {h : SecureHeap}
    {L : List (Nat × Nat)} (os : Nat → Nat) (sz blk : Nat) (hc : SecureHeap)
    (hr : Reach page_size h L) (h0 : 0 < sz) (hW : sz < WORD)
    (hcl : sizeClass sz ≤ SECURE_HEAP_MAX_EXP)
    (hfail : (h.AllocExponent (sizeClass sz)).1.toBool = false)
    (hcreate : (h.AllocExponent (sizeClass sz)).2.CreateBlock page_size os (sizeClass sz) =
      Result.ok (blk, hc))
    (hblk : blk ≠ 0) :
    (hc.AllocExponent (sizeClass sz)).1.toBool = true ∧
    (hc.AllocExponent (sizeClass sz)).1 = ⟨blk, blk⟩ ∧
    (∃ b ∈ hc.base_addresses, b.base_address = blk ∧ sizeClass sz ≤ b.own_exponent) ∧
    (∃ h1, h.Alloc page_size os sz = Result.ok (blk, h1)) := by
  have inv := hr.inv
  have hw8 := sizeClass_ge sz
  obtain ⟨hempty, hfst⟩ := AllocExponent_empty inv hw8 hcl hfail
  rw [hfst] at hcreate
  obtain ⟨pexp, hp⟩ := CreateBlock_ok_page hcreate
  obtain ⟨hE1, hE2⟩ := blockExponent_bounds pexp (sizeClass sz) hcl
  rw [CreateBlock_eq page_size os h (sizeClass sz) hw8 hcl pexp hp] at hcreate
  by_cases hos : os (2 ^ blockExponent pexp (sizeClass sz)) = 0
  · rw [if_neg (by simpa using hos)] at hcreate
    simp only [Result.ok.injEq, Prod.mk.injEq] at hcreate
    exact absurd hcreate.1.symm hblk
  · rw [if_pos hos] at hcreate
    simp only [Result.ok.injEq, Prod.mk.injEq] at hcreate
    obtain ⟨hb1, hb2⟩ := hcreate
    have hret := AllocExponent_after_create h (sizeClass sz) (blockExponent pexp (sizeClass sz))
      (os (2 ^ blockExponent pexp (sizeClass sz))) inv.len hw8 hE1 hE2 hempty hos
    rw [hb2, hb1] at hret
    have hA := Alloc_of_no_free page_size os h sz inv.len h0 hW hcl hempty pexp hp
    rw [if_pos hos, hb1] at hA
    refine ⟨?_, ?_, ⟨⟨blk, blockExponent pexp (sizeClass sz),
      List.replicate (2 ^ (blockExponent pexp (sizeClass sz) - SECURE_HEAP_MIN_EXP)) 0⟩,
      ?_, rfl, hE1⟩, ⟨_, hA⟩⟩
    · rw [hret]
      exact toBool_of_ne hblk
    · rw [hret]
    · rw [← hb2, hb1]
      exact mem_mapInsert_self _ _

set_option maxRecDepth 100000 in
theorem C19_retry_after_create_succeeds_witness :
    Reach 4096 SecureHeap.init [] ∧ 0 < 100 ∧ 100 < WORD ∧
    sizeClass 100 ≤ SECURE_HEAP_MAX_EXP ∧
    (SecureHeap.init.AllocExponent (sizeClass 100)).1.toBool = false ∧
    (SecureHeap.init.AllocExponent (sizeClass 100)).2.CreateBlock 4096 demoOS (sizeClass 100) =
      Result.ok (65536, ⟨List.replicate 8 [] ++ [[⟨65536, 65536⟩]] ++ List.replicate 4 [],
        [⟨65536, 16, List.replicate 256 0⟩]⟩) ∧
    (65536 : Nat) ≠ 0 ∧
    ((SecureHeap.AllocExponent ⟨List.replicate 8 [] ++ [[⟨65536, 65536⟩]] ++ List.replicate 4 [],
        [⟨65536, 16, List.replicate 256 0⟩]⟩ (sizeClass 100)).1.toBool = true ∧
    (SecureHeap.AllocExponent ⟨List.replicate 8 [] ++ [[⟨65536, 65536⟩]] ++ List.replicate 4 [],
        [⟨65536, 16, List.replicate 256 0⟩]⟩ (sizeClass 100)).1 = ⟨65536, 65536⟩ ∧
    (∃ b ∈ (⟨List.replicate 8 [] ++ [[⟨65536, 65536⟩]] ++ List.replicate 4 [],
        [⟨65536, 16, List.replicate 256 0⟩]⟩ : SecureHeap).base_addresses,
      b.base_address = 65536 ∧ sizeClass 100 ≤ b.own_exponent) ∧
    (∃ h1, SecureHeap.init.Alloc 4096 demoOS 100 = Result.ok (65536, h1))) := by
  have hcls : sizeClass 100 = 8 := by
    unfold sizeClass
    rw [clog_of_between (i := 6) (by decide) (by decide)]
    decide
  have h1 : 0 < 100 := by decide
  have h2 : 100 < WORD := by unfold WORD; omega
  have h3 : sizeClass 100 ≤ SECURE_HEAP_MAX_EXP := by rw [hcls]; decide
  have h4 : (SecureHeap.init.AllocExponent (sizeClass 100)).1.toBool = false := by
    rw [hcls]; decide
  have h5 : (SecureHeap.init.AllocExponent (sizeClass 100)).2.CreateBlock 4096 demoOS
      (sizeClass 100) =
      Result.ok (65536, ⟨List.replicate 8 [] ++ [[⟨65536, 65536⟩]] ++ List.replicate 4 [],
        [⟨65536, 16, List.replicate 256 0⟩]⟩) := by
    rw [hcls]; decide
  exact ⟨Reach.init, h1, h2, h3, h4, h5, by decide,
    C19_retry_after_create_succeeds demoOS 100 65536 _ Reach.init h1 h2 h3 h4 h5 (by decide)⟩

/-- C12: on a reachable heap with no blocks, for every size whose class `w` is
at most `MAX_EXP` and for which the reservation of `2^E` bytes (`E` the block
exponent for `w`) succeeds with base `B`: `Alloc(size)` returns `B`; the map
then holds exactly one block, with base `B`, own exponent `E` and a table that
records `w` at offset 0 and nothing else; the free stack for each `e` in
`[w, E)` holds exactly one slice, at address `B + 2^e`; every other free stack
is empty. -/
theorem C12_first_alloc_on_empty_heap {page_size : Nat} {h : SecureHeap}
    {L : List (Nat × Nat)} (os : Nat → Nat) (sz pexp E B : Nat)
    (hr : Reach page_size h L) (hnb : h.base_addresses = []) (hc : OSContract os h)
    (h0 : 0 < sz) (hW : sz < WORD) (hcl : sizeClass sz ≤ SECURE_HEAP_MAX_EXP)
    (hp : GetPageSizeExponent page_size = Result.ok pexp)
    (hE : blockExponent pexp (sizeClass sz) = E) (hB : os (2 ^ E) = B) (hB0 : B ≠ 0) :
    ∃ h1, h.Alloc page_size os sz = Result.ok (B, h1) ∧
      h1.base_addresses =
        [⟨B, E, (List.replicate (2 ^ (E - SECURE_HEAP_MIN_EXP)) 0).set 0 (sizeClass sz)⟩] ∧
      h1.free_slices.length = SECURE_HEAP_MAX_EXP - SECURE_HEAP_MIN_EXP + 1 ∧
      (∀ e, SECURE_HEAP_MIN_EXP ≤ e →
        h1.stack e = if sizeClass sz ≤ e ∧ e < E then [⟨B, B + 2 ^ e⟩] else []) := by
  have inv := hr.inv
  have hw8 := sizeClass_ge sz
  obtain ⟨hE1, hE2⟩ := blockExponent_bounds pexp (sizeClass sz) hcl
  have hempty := stacks_empty_of_no_blocks inv hnb
  have hA := Alloc_of_no_free page_size os h sz inv.len h0 hW hcl
    (fun e1 _ _ => hempty e1) pexp hp
  rw [hE] at hA hE1 hE2
  rw [hB, if_pos hB0] at hA
  obtain ⟨_, hBW, _⟩ := hc (2 ^ E) (by rw [hB]; exact hB0)
  rw [hB] at hBW
  have hpE := two_pow_pos_nat E
  have hlenB : (h.withBlock B E).free_slices.length =
      SECURE_HEAP_MAX_EXP - SECURE_HEAP_MIN_EXP + 1 := inv.len
  refine ⟨_, hA, ?_, ?_, ?_⟩
  · simp only [SecureHeap.updateBlock, splitFrom_base, SecureHeap.withBlock, hnb, mapInsert,
      List.map_cons, List.map_nil, if_true, Block.SetAllocationSize]
    rw [GetOffsetInUnits_eq (le_refl B) (by omega), Nat.sub_self, Nat.zero_div]
  · simp only [SecureHeap.updateBlock]
    rw [splitFrom_len]
    exact hlenB
  · intro e he
    have hd : sizeClass sz + (E - sizeClass sz) = E := by omega
    rw [updateBlock_stack, stack_splitFrom _ _ _ _ _ hlenB hw8 (by omega) he, hd]
    have hst : (h.withBlock B E).stack e = [] := hempty e
    rw [hst]
    by_cases hcase : sizeClass sz ≤ e ∧ e < E
    · simp only [if_pos hcase, List.nil_append]
      have hle : 2 ^ e ≤ 2 ^ E := Nat.pow_le_pow_right (by decide) (by omega)
      rw [GetBuddy_lower (le_refl B) (by rw [Nat.sub_self]; exact Nat.dvd_zero _) (by omega)]
    · simp only [if_neg hcase]

set_option maxRecDepth 100000 in
theorem C12_first_alloc_on_empty_heap_witness :
    Reach 4096 SecureHeap.init [] ∧ SecureHeap.init.base_addresses = [] ∧
    OSContract demoOS SecureHeap.init ∧ 0 < 100 ∧ 100 < WORD ∧
    sizeClass 100 ≤ SECURE_HEAP_MAX_EXP ∧ GetPageSizeExponent 4096 = Result.ok 12 ∧
    blockExponent 12 (sizeClass 100) = 16 ∧ demoOS (2 ^ 16) = 65536 ∧ (65536 : Nat) ≠ 0 ∧
    ∃ h1, SecureHeap.init.Alloc 4096 demoOS 100 = Result.ok (65536, h1) ∧
      h1.base_addresses =
        [⟨65536, 16, (List.replicate (2 ^ (16 - SECURE_HEAP_MIN_EXP)) 0).set 0 (sizeClass 100)⟩] ∧
      h1.free_slices.length = SECURE_HEAP_MAX_EXP - SECURE_HEAP_MIN_EXP + 1 ∧
      (∀ e, SECURE_HEAP_MIN_EXP ≤ e →
        h1.stack e = if sizeClass 100 ≤ e ∧ e < 16 then [⟨65536, 65536 + 2 ^ e⟩] else []) := by
  have hcls : sizeClass 100 = 8 := by
    unfold sizeClass
    rw [clog_of_between (i := 6) (by decide) (by decide)]
    decide
  have h2 : 100 < WORD := by unfold WORD; omega
  have h3 : sizeClass 100 ≤ SECURE_HEAP_MAX_EXP := by rw [hcls]; decide
  have h4 : GetPageSizeExponent 4096 = Result.ok 12 := by decide
  have h5 : blockExponent 12 (sizeClass 100) = 16 := by rw [hcls]; decide
  have h6 : demoOS (2 ^ 16) = 65536 := by decide
  exact ⟨Reach.init, rfl, demoOS_contract, by decide, h2, h3, h4, h5, h6, by decide,
    C12_first_alloc_on_empty_heap demoOS 100 12 16 65536 Reach.init rfl demoOS_contract
      (by decide) h2 h3 h4 h5 h6 (by decide)⟩

/-! ## `Free` in closed form -/

theorem floor_mul_unique {k c x : Nat} (hc : k ∣ c) (h1 : c ≤ x) (h2 : x < c + k) :
    x / k * k = c := by
  obtain ⟨q, rfl⟩ := hc
  have hq : x / k = q :=
    Nat.div_eq_of_lt_le (by rw [Nat.mul_comm]; exact h1)
      (by rw [Nat.succ_mul, Nat.mul_comm]; exact h2)
  rw [hq, Nat.mul_comm]

theorem sliceAt_le {B p : Nat} (j : Nat) (h : B ≤ p) : B ≤ sliceAt B p j ∧ sliceAt B p j ≤ p := by
  unfold sliceAt
  have := Nat.div_mul_le_self (p - B) (2 ^ j)
  omega

theorem sliceAt_sub (B p j : Nat) : sliceAt B p j - B = (p - B) / 2 ^ j * 2 ^ j := by
  unfold sliceAt
  rw [Nat.add_sub_cancel_left]

theorem sliceAt_dvd (B p j : Nat) : 2 ^ j ∣ sliceAt B p j - B := by
  rw [sliceAt_sub]
  exact Nat.dvd_mul_left _ _

theorem sliceAt_lt {B p : Nat} (j : Nat) (h : B ≤ p) : p < sliceAt B p j + 2 ^ j := by
  unfold sliceAt
  have := Nat.lt_div_mul_add (a := p - B) (two_pow_pos_nat j)
  omega

theorem sliceAt_of_dvd {B p e : Nat} (h : B ≤ p) (hd : 2 ^ e ∣ p - B) : sliceAt B p e = p := by
  unfold sliceAt
  rw [Nat.div_mul_cancel hd]
  omega

theorem sliceAt_fits {B p E : Nat} (j : Nat) (h : B ≤ p) (h2 : p < B + 2 ^ E) (hj : j ≤ E) :
    sliceAt B p j + 2 ^ j ≤ B + 2 ^ E := by
  have h3 := sliceAt_le j h
  have h4 := dyadic_fits hj (sliceAt_dvd B p j) (by omega)
  omega

/-- The parent of the slice of class `e` that holds `p` is the slice of class
`e + 1` that holds `p`. -/
theorem next_sliceAt {B p E e : Nat} (h : B ≤ p) (h2 : p < B + 2 ^ E) (hW : B + 2 ^ E < WORD)
    (he : e < E) :
    BlockAddress.GetAddressAtNextExponent ⟨B, sliceAt B p e⟩ e = ⟨B, sliceAt B p (e + 1)⟩ := by
  obtain ⟨h3, h4⟩ := sliceAt_le e h
  have h5 := sliceAt_lt e h
  have h6 := sliceAt_fits e h h2 (Nat.le_of_lt he)
  have hpe := two_pow_pos_nat e
  have h2e := two_pow_succ_eq e
  have hsub : ∀ c, B ≤ c → 2 ^ (e + 1) ∣ c - B → c ≤ p → p < c + 2 ^ (e + 1) →
      sliceAt B p (e + 1) = c := by
    intro c hc1 hc2 hc3 hc4
    unfold sliceAt
    rw [floor_mul_unique hc2 (by omega) (by omega)]
    omega
  rcases dvd_pow_cases (sliceAt_dvd B p e) with hlow | ⟨hge, hup⟩
  · rw [GetNext_lower h3 hlow (by omega), hsub _ h3 hlow h4 (by omega)]
  · obtain ⟨P, hP⟩ : ∃ P, sliceAt B p e = P + 2 ^ e := ⟨sliceAt B p e - 2 ^ e, by omega⟩
    rw [hP] at hge hup h3 h4 h5 h6 ⊢
    have hPB : B ≤ P := by omega
    have hup2 : 2 ^ (e + 1) ∣ P - B := by
      have : P + 2 ^ e - B - 2 ^ e = P - B := by omega
      rw [this] at hup
      exact hup
    rw [GetNext_upper hPB hup2 (by omega), hsub P hPB hup2 (by omega) (by omega)]

@[simp] theorem mergeFrom_base (d : Nat) (h : SecureHeap) (B p e : Nat) :
    (mergeFrom d h B p e).base_addresses = h.base_addresses := by
  induction d generalizing h e with
  | zero => rfl
  | succ d ih => simp [mergeFrom, ih]

@[simp] theorem mergeFrom_len (d : Nat) (h : SecureHeap) (B p e : Nat) :
    (mergeFrom d h B p e).free_slices.length = h.free_slices.length := by
  induction d generalizing h e with
  | zero => rfl
  | succ d ih => simp [mergeFrom, ih]

theorem stack_mergeFrom (d : Nat) (h : SecureHeap) (B p e j : Nat)
    (hlen : h.free_slices.length = SECURE_HEAP_MAX_EXP - SECURE_HEAP_MIN_EXP + 1)
    (he : SECURE_HEAP_MIN_EXP ≤ e) (hd : e + d ≤ SECURE_HEAP_MAX_EXP + 1)
    (hj : SECURE_HEAP_MIN_EXP ≤ j) :
    (mergeFrom d h B p e).stack j =
      if e ≤ j ∧ j < e + d then (h.stack j).filter (fun x => x != buddyAt B p j)
      else h.stack j := by
  induction d generalizing h e with
  | zero => rw [mergeFrom, if_neg (by omega)]
  | succ d ih =>
    rw [mergeFrom, ih _ (e + 1) (by rw [setStack_len]; exact hlen) (by omega) (by omega),
      stack_setStack h j e _ hlen he (by omega) hj]
    by_cases hje : j = e
    · subst hje
      rw [if_neg (by omega), if_pos rfl, if_pos (by omega)]
    · rw [if_neg hje]
      by_cases hc : e + 1 ≤ j ∧ j < e + 1 + d
      · rw [if_pos hc, if_pos (by omega)]
      · rw [if_neg hc, if_neg (by omega)]

/-- The loop of `Free` in closed form: started on the slice of class `e` that
holds `p`, it merges while the buddy is on its stack and stops at the first class
`e + d` that is the whole block or whose buddy is not free. -/
theorem FreeLoop_closed {B p E : Nat} (hBp : B ≤ p) (hpE : p < B + 2 ^ E) (hW : B + 2 ^ E < WORD)
    (hE20 : E ≤ SECURE_HEAP_MAX_EXP) (d : Nat) :
    ∀ (n : Nat) (h : SecureHeap) (e : Nat),
      h.free_slices.length = SECURE_HEAP_MAX_EXP - SECURE_HEAP_MIN_EXP + 1 →
      SECURE_HEAP_MIN_EXP ≤ e → e + d ≤ E → E - e ≤ n →
      (∀ j, e ≤ j → j < e + d → buddyAt B p j ∈ h.stack j) →
      (e + d = E ∨ buddyAt B p (e + d) ∉ h.stack (e + d)) →
      SecureHeap.FreeLoop n h E ⟨B, sliceAt B p e⟩ e =
        (⟨B, sliceAt B p (e + d)⟩, e + d, mergeFrom d h B p e) := by
  induction d with
  | zero =>
    intro n h e _ _ hle hn _ hstop
    cases n with
    | zero => rfl
    | succ n =>
      unfold SecureHeap.FreeLoop
      by_cases hlt : e < E
      · rw [if_pos hlt]
        have hnot : buddyAt B p e ∉ h.stack e := by
          rcases hstop with hc | hc
          · omega
          · exact hc
        have hrem := Remove_of_not_mem hnot
        unfold buddyAt at hrem
        simp only [hrem, Bool.false_eq_true, if_false]
        rfl
      · rw [if_neg hlt]
        rfl
  | succ d ih =>
    intro n h e hlen he hle hn hmerge hstop
    cases n with
    | zero => omega
    | succ n =>
      unfold SecureHeap.FreeLoop
      rw [if_pos (by omega)]
      have hrem := Remove_of_mem (hmerge e (le_refl _) (by omega))
      unfold buddyAt at hrem
      simp only [hrem, if_true]
      rw [next_sliceAt hBp hpE hW (by omega)]
      have hrec := ih n (h.setStack e ((h.stack e).filter (fun x => x != buddyAt B p e))) (e + 1)
        (by rw [setStack_len]; exact hlen) (by omega) (by omega) (by omega)
        (by
          intro j hj1 hj2
          rw [stack_setStack h j e _ hlen he (by omega) (by omega), if_neg (by omega)]
          exact hmerge j (by omega) (by omega))
        (by
          rcases hstop with hc | hc
          · exact Or.inl (by omega)
          · right
            rw [stack_setStack h _ e _ hlen he (by omega) (by omega), if_neg (by omega)]
            have hidx : e + 1 + d = e + (d + 1) := by omega
            rw [hidx]
            exact hc)
      have hidx : e + 1 + d = e + (d + 1) := by omega
      rw [hidx] at hrec
      unfold buddyAt at hrec
      rw [hrec]
      rfl

theorem mapErase_updateBlock (h : SecureHeap) (B : Nat) (f : Block → Block)
    (hf : ∀ x, (f x).base_address = x.base_address) :
    mapErase (h.updateBlock B f).base_addresses B = mapErase h.base_addresses B := by
  unfold mapErase SecureHeap.updateBlock
  simp only
  induction h.base_addresses with
  | nil => rfl
  | cons x rest ih =>
    rw [List.map_cons, List.filter_cons, List.filter_cons, ih]
    by_cases hx : x.base_address = B
    · simp [hx, hf]
    · simp [hx]

/-- `Free(p)` of a live pointer `p`, unfolded to the loop. -/
theorem Free_live_eq {h : SecureHeap} {L : List (Nat × Nat)} (inv : InvP h L none)
    {b : Block} (hb : b ∈ h.base_addresses) {p e : Nat}
    (hp1 : b.base_address ≤ p) (hp2 : p < b.base_address + 2 ^ b.own_exponent)
    (hp3 : 2 ^ SECURE_HEAP_MIN_EXP ∣ p - b.base_address)
    (hget : b.alloc_sizes.getD ((p - b.base_address) / 2 ^ SECURE_HEAP_MIN_EXP) 0 = e)
    (hne : e ≠ 0) :
    h.Free p =
      if ((h.updateBlock b.base_address (fun x => x.SetAllocationSize p 0)).FreeLoop
          (b.own_exponent - e) b.own_exponent ⟨b.base_address, p⟩ e).2.1 = b.own_exponent then
        SecureHeap.DestroyBlock
          ((h.updateBlock b.base_address (fun x => x.SetAllocationSize p 0)).FreeLoop
            (b.own_exponent - e) b.own_exponent ⟨b.base_address, p⟩ e).2.2
          ((h.updateBlock b.base_address (fun x => x.SetAllocationSize p 0)).FreeLoop
            (b.own_exponent - e) b.own_exponent ⟨b.base_address, p⟩ e).1.block
      else
        Result.ok (SecureHeap.setStack
          ((h.updateBlock b.base_address (fun x => x.SetAllocationSize p 0)).FreeLoop
            (b.own_exponent - e) b.own_exponent ⟨b.base_address, p⟩ e).2.2
          ((h.updateBlock b.base_address (fun x => x.SetAllocationSize p 0)).FreeLoop
            (b.own_exponent - e) b.own_exponent ⟨b.base_address, p⟩ e).2.1
          ((SecureHeap.stack
            ((h.updateBlock b.base_address (fun x => x.SetAllocationSize p 0)).FreeLoop
              (b.own_exponent - e) b.own_exponent ⟨b.base_address, p⟩ e).2.2
            ((h.updateBlock b.base_address (fun x => x.SetAllocationSize p 0)).FreeLoop
              (b.own_exponent - e) b.own_exponent ⟨b.base_address, p⟩ e).2.1).Push
            ((h.updateBlock b.base_address (fun x => x.SetAllocationSize p 0)).FreeLoop
              (b.own_exponent - e) b.own_exponent ⟨b.base_address, p⟩ e).1)) := by
  obtain ⟨hbpos, hbal, hW, hE8, hE20, hlen⟩ := inv.blk_ok b hb
  have hmod := mod_unit_of_fits hp1 hbal hp3
  have hnil : h.base_addresses.isEmpty = false := by
    cases hm : h.base_addresses with
    | nil => rw [hm] at hb; simp at hb
    | cons _ _ => rfl
  have hvalid : b.IsValidPointer p = true :=
    (IsValidPointer_iff (inv.blk_ok b hb) p).mpr ⟨hp1, hp2, hmod⟩
  have hsize : b.GetAllocationSize p = e := by
    unfold Block.GetAllocationSize
    rw [GetOffsetInUnits_eq hp1 (by omega)]
    exact hget
  unfold SecureHeap.Free
  rw [if_neg (by omega), hnil]
  simp only [Bool.false_eq_true, if_false]
  rw [GetBlockAddress_of_mem inv hb hp1 hp2, if_pos hmod]
  simp only
  rw [if_neg (by omega), findBlock_of_mem inv.sorted hb]
  simp only [hvalid, not_true_eq_false, if_false, hsize]
  rw [if_neg hne]

/-- Two blocks of a sorted map that hold the same address are the same block. -/
theorem block_of_point {m : List Block}
    (hs : m.Pairwise (fun x y => x.base_address + 2 ^ x.own_exponent ≤ y.base_address))
    {x y : Block} (hx : x ∈ m) (hy : y ∈ m) {p : Nat}
    (hx1 : x.base_address ≤ p) (hx2 : p < x.base_address + 2 ^ x.own_exponent)
    (hy1 : y.base_address ≤ p) (hy2 : p < y.base_address + 2 ^ y.own_exponent) : x = y := by
  by_contra hne
  have hsym : m.Pairwise (fun x y => x.base_address + 2 ^ x.own_exponent ≤ y.base_address ∨
      y.base_address + 2 ^ y.own_exponent ≤ x.base_address) := hs.imp (fun h => Or.inl h)
  have := List.Pairwise.forall (fun a c hac => Or.symm hac) hsym hx hy hne
  omega

/-- C11: in every reachable heap state, for a live pointer `p` (requested size
`sz`, recorded exponent `e`, the class of `sz`) in block `b`, with `k` the least
level in `[e, own_exponent]` that is `own_exponent` or at which the buddy of the
`2^k`-aligned slice holding `p` is not on stack `k` (so at every level from `e`
to `k - 1` that buddy is on its stack): `Free(p)` succeeds; it clears the entry
of `alloc_sizes` at `p`; it takes out of the stacks `e .. k-1` exactly those
buddies; if `k < own_exponent` it pushes the `2^k`-aligned slice holding `p` on
stack `k`, otherwise it erases block `b` from the map; every other stack, block
and table entry is as before. -/
theorem C11_free_merges_up_to_first_busy_buddy {page_size : Nat} {h : SecureHeap}
    {L : List (Nat × Nat)} (p sz k : Nat) (b : Block)
    (hr : Reach page_size h L) (hp : (p, sz) ∈ L) (hb : b ∈ h.base_addresses)
    (hin1 : b.base_address ≤ p) (hin2 : p < b.base_address + 2 ^ b.own_exponent)
    (hk1 : sizeClass sz ≤ k) (hk2 : k ≤ b.own_exponent)
    (hmerge : ∀ j, sizeClass sz ≤ j → j < k → buddyAt b.base_address p j ∈ h.stack j)
    (hstop : k = b.own_exponent ∨ buddyAt b.base_address p k ∉ h.stack k) :
    ∃ h1, h.Free p = Result.ok h1 ∧
      b.alloc_sizes.getD ((p - b.base_address) / 2 ^ SECURE_HEAP_MIN_EXP) 0 = sizeClass sz ∧
      (∀ j, SECURE_HEAP_MIN_EXP ≤ j → h1.stack j =
        if sizeClass sz ≤ j ∧ j < k then (h.stack j).erase (buddyAt b.base_address p j)
        else if j = k ∧ k < b.own_exponent then
          h.stack j ++ [⟨b.base_address, sliceAt b.base_address p k⟩]
        else h.stack j) ∧
      h1.free_slices.length = h.free_slices.length ∧
      h1.base_addresses =
        (if k < b.own_exponent then
          h.base_addresses.map (fun x =>
            if x.base_address = b.base_address then
              ⟨x.base_address, x.own_exponent,
                x.alloc_sizes.set ((p - x.base_address) / 2 ^ SECURE_HEAP_MIN_EXP) 0⟩
            else x)
        else mapErase h.base_addresses b.base_address) := by
  have inv := hr.inv
  have hw8 := sizeClass_ge sz
  obtain ⟨_, _, B, hl⟩ := inv.ghost_in p sz hp
  obtain ⟨b1, hb1, hB, hq1, hq2, hp3, hget, hne⟩ := hl
  subst hB
  have hbb : b1 = b := block_of_point inv.sorted hb1 hb hq1 hq2 hin1 hin2
  subst hbb
  obtain ⟨hbpos, hbal, hW, hE8, hE20, hlen⟩ := inv.blk_ok b1 hb
  obtain ⟨b2, _, hB2, _, _, _, hfit, _⟩ :=
    inv.live_ok _ p _ ⟨b1, hb, rfl, hq1, hq2, hp3, hget, hne⟩
  rw [hB2] at hfit
  have hslice : sliceAt b1.base_address p (sizeClass sz) = p := sliceAt_of_dvd hin1 hfit
  have hd : sizeClass sz + (k - sizeClass sz) = k := by omega
  have hlen1 : (h.updateBlock b1.base_address (fun x => x.SetAllocationSize p 0)).free_slices.length
      = SECURE_HEAP_MAX_EXP - SECURE_HEAP_MIN_EXP + 1 := inv.len
  have hloop := FreeLoop_closed hin1 hin2 hW hE20 (k - sizeClass sz)
    (b1.own_exponent - sizeClass sz)
    (h.updateBlock b1.base_address (fun x => x.SetAllocationSize p 0)) (sizeClass sz)
    hlen1 hw8 (by omega) (le_refl _)
    (fun j h1 h2 => hmerge j h1 (by omega))
    (by rw [hd]; exact hstop)
  rw [hd, hslice] at hloop
  have hFree := Free_live_eq inv hb hin1 hin2 hp3 hget hne
  rw [hloop] at hFree
  simp only at hFree
  have hstk : ∀ j, SECURE_HEAP_MIN_EXP ≤ j →
      (mergeFrom (k - sizeClass sz)
        (h.updateBlock b1.base_address (fun x => x.SetAllocationSize p 0))
        b1.base_address p (sizeClass sz)).stack j =
      if sizeClass sz ≤ j ∧ j < k then (h.stack j).erase (buddyAt b1.base_address p j)
      else h.stack j := by
    intro j hj
    rw [stack_mergeFrom _ _ _ _ _ j hlen1 hw8 (by omega) hj, hd, updateBlock_stack]
    by_cases hc : sizeClass sz ≤ j ∧ j < k
    · rw [if_pos hc, if_pos hc]
      exact (List.Nodup.erase_eq_filter (inv.nodup j) _).symm
    · rw [if_neg hc, if_neg hc]
  by_cases hkE : k = b1.own_exponent
  · rw [if_pos hkE] at hFree
    unfold SecureHeap.DestroyBlock at hFree
    rw [if_neg (by omega)] at hFree
    refine ⟨_, hFree, hget, ?_, ?_, ?_⟩
    · intro j hj
      have h1 := hstk j hj
      have hc2 : ¬ (j = k ∧ k < b1.own_exponent) := by omega
      rw [if_neg hc2]
      exact h1
    · simp only [mergeFrom_len]
      rfl
    · rw [if_neg (by omega)]
      simp only [mergeFrom_base]
      exact mapErase_updateBlock h _ _ (fun _ => rfl)
  · rw [if_neg hkE] at hFree
    have hkl : k < b1.own_exponent := by omega
    refine ⟨_, hFree, hget, ?_, ?_, ?_⟩
    · intro j hj
      rw [stack_setStack _ j k _ (by rw [mergeFrom_len]; exact hlen1) (by omega) (by omega) hj]
      by_cases hjk : j = k
      · subst hjk
        rw [if_pos rfl, if_neg (by omega), if_pos ⟨rfl, hkl⟩, hstk j hj, if_neg (by omega)]
        rfl
      · rw [if_neg hjk, hstk j hj]
        have hc2 : ¬ (j = k ∧ k < b1.own_exponent) := by omega
        by_cases hc : sizeClass sz ≤ j ∧ j < k
        · rw [if_pos hc, if_pos hc]
        · rw [if_neg hc, if_neg hc, if_neg hc2]
    · simp only [setStack_len, mergeFrom_len]
      rfl
    · rw [if_pos hkl]
      simp only [setStack_base, mergeFrom_base, SecureHeap.updateBlock]
      apply List.map_congr_left
      intro x hx
      by_cases hxb : x.base_address = b1.base_address
      · rw [if_pos hxb, if_pos hxb]
        unfold Block.SetAllocationSize
        rw [GetOffsetInUnits_eq (by omega) (by omega)]
      · rw [if_neg hxb, if_neg hxb]

set_option maxRecDepth 100000 in
theorem C11_free_merges_up_to_first_busy_buddy_witness :
    Reach 4096 demoHeap2 [(66560, 1024), (65536, 100)] ∧
    (65536, 100) ∈ [(66560, 1024), (65536, 100)] ∧
    (⟨65536, 16, 8 :: 0 :: 0 :: 0 :: 10 :: List.replicate 251 0⟩ : Block) ∈
      demoHeap2.base_addresses ∧
    sizeClass 100 ≤ 10 ∧
    (∀ j, sizeClass 100 ≤ j → j < 10 → buddyAt 65536 65536 j ∈ demoHeap2.stack j) ∧
    buddyAt 65536 65536 10 ∉ demoHeap2.stack 10 ∧
    ∃ h1, demoHeap2.Free 65536 = Result.ok h1 ∧
      (∀ j, SECURE_HEAP_MIN_EXP ≤ j → h1.stack j =
        if sizeClass 100 ≤ j ∧ j < 10 then (demoHeap2.stack j).erase (buddyAt 65536 65536 j)
        else if j = 10 ∧ 10 < 16 then demoHeap2.stack j ++ [⟨65536, sliceAt 65536 65536 10⟩]
        else demoHeap2.stack j) := by
  have hcls : sizeClass 100 = 8 := by
    unfold sizeClass
    rw [clog_of_between (i := 6) (by decide) (by decide)]
    decide
  have hm : ∀ j, sizeClass 100 ≤ j → j < 10 → buddyAt 65536 65536 j ∈ demoHeap2.stack j := by
    rw [hcls]
    intro j h1 h2
    interval_cases j <;> decide
  have hs : buddyAt 65536 65536 10 ∉ demoHeap2.stack 10 := by decide
  obtain ⟨h1, hF, _, hst, _, _⟩ := C11_free_merges_up_to_first_busy_buddy 65536 100 10
    ⟨65536, 16, 8 :: 0 :: 0 :: 0 :: 10 :: List.replicate 251 0⟩ demoHeap2_reach (by decide)
    (by decide) (by decide) (by decide) (by rw [hcls]; decide) (by decide) hm (Or.inr hs)
  exact ⟨demoHeap2_reach, by decide, by decide, by rw [hcls]; decide, hm, hs, h1, hF, hst⟩

/-! ## The buddy computations of `Alloc` and `Free` -/

theorem GetBuddy_block (a : BlockAddress) (e : Nat) : (a.GetBuddy e).block = a.block := rfl

theorem GetNext_block (a : BlockAddress) (e : Nat) :
    (a.GetAddressAtNextExponent e).block = a.block := rfl

theorem AllocExponentTrace_big (n : Nat) (h : SecureHeap) (e : Nat)
    (he : e > SECURE_HEAP_MAX_EXP) : h.AllocExponentTrace n e = [] := by
  cases n with
  | zero => rfl
  | succ n =>
    unfold SecureHeap.AllocExponentTrace
    rw [if_pos he]

theorem AllocExponentTrace_fail (n : Nat) (h : SecureHeap) (e : Nat)
    (hempty : ∀ e1, e ≤ e1 → e1 ≤ SECURE_HEAP_MAX_EXP → h.stack e1 = []) :
    h.AllocExponentTrace n e = [] := by
  induction n generalizing e with
  | zero => rfl
  | succ n ih =>
    unfold SecureHeap.AllocExponentTrace
    by_cases hgt : e > SECURE_HEAP_MAX_EXP
    · rw [if_pos hgt]
    · rw [if_neg hgt]
      have hs : h.stack e = [] := hempty e (le_refl _) (by omega)
      have hself : h.setStack e [] = h := by
        have := setStack_self h e
        rw [hs] at this
        exact this
      simp only [hs, Pop_nil, toBool_empty, hself, Bool.false_eq_true, not_false_eq_true,
        if_true]
      rw [ih (e + 1) (fun e1 h1 h2 => hempty e1 (by omega) h2),
        AllocExponentFrom_fail n h (e + 1) (fun e1 h1 h2 => hempty e1 (by omega) h2)]
      simp [toBool_empty]

/-- With the stacks of the classes from `e` up to `e + d - 1` empty and `t` on
top of the stack of class `e + d`, the buddy computations of `AllocExponent(e)`
are those of `t` at the classes below `e + d`, each pushed on its stack. -/
theorem AllocExponentTrace_succeed (d : Nat) (n : Nat) (h : SecureHeap) (e : Nat)
    (S : FreeStack) (t : BlockAddress) (hk : e + d ≤ SECURE_HEAP_MAX_EXP) (hn : d + 1 ≤ n)
    (hempty : ∀ e1, e ≤ e1 → e1 < e + d → h.stack e1 = [])
    (hst : h.stack (e + d) = S ++ [t]) (ht : t.address ≠ 0) :
    ∀ ev ∈ h.AllocExponentTrace n e, ∃ e1, e ≤ e1 ∧ e1 < e + d ∧
      (ev = BuddyEvent.request t e1 ∨ ev = BuddyEvent.use (t.GetBuddy e1) e1) := by
  induction d generalizing n e with
  | zero =>
    obtain ⟨n1, rfl⟩ : ∃ n1, n = n1 + 1 := ⟨n - 1, by omega⟩
    unfold SecureHeap.AllocExponentTrace
    rw [if_neg (by omega)]
    simp only [Nat.add_zero] at hst ⊢
    simp only [hst, Pop_concat, toBool_of_ne ht, not_true_eq_false, if_false]
    intro ev hev
    exact absurd hev (List.not_mem_nil _)
  | succ d ih =>
    obtain ⟨n1, rfl⟩ : ∃ n1, n = n1 + 1 := ⟨n - 1, by omega⟩
    unfold SecureHeap.AllocExponentTrace
    rw [if_neg (by omega)]
    have hs : h.stack e = [] := hempty e (le_refl _) (by omega)
    have hself : h.setStack e [] = h := by
      have := setStack_self h e
      rw [hs] at this
      exact this
    have hk2 : e + 1 + d = e + (d + 1) := by omega
    have hrec := ih n1 (e + 1) (by omega) (by omega)
      (fun e1 h1 h2 => hempty e1 (by omega) (by omega)) (by rw [hk2]; exact hst)
    have hrun := AllocExponentFrom_succeed d n1 h (e + 1) S t (by omega) (by omega)
      (fun e1 h1 h2 => hempty e1 (by omega) (by omega)) (by rw [hk2]; exact hst) ht
    simp only [hs, Pop_nil, toBool_empty, hself, Bool.false_eq_true, not_false_eq_true,
      if_true, hrun, toBool_of_ne ht]
    intro ev hev
    rcases List.mem_append.mp hev with h1 | h1
    · obtain ⟨e1, h2, h3, h4⟩ := hrec ev h1
      exact ⟨e1, by omega, by omega, h4⟩
    · refine ⟨e, le_refl _, by omega, ?_⟩
      simp only [List.mem_cons, List.mem_singleton, List.not_mem_nil, or_false] at h1
      exact h1

/-- Every event of the loop of `Free` is on the block of the slice the loop
starts with; the requests are at exponents up to `own_exponent`, and the buddies
handed to `Remove` are at exponents below it. -/
theorem FreeLoopTrace_bound (n : Nat) :
    ∀ (h : SecureHeap) (own : Nat) (addr : BlockAddress) (e : Nat),
      ∀ ev ∈ h.FreeLoopTrace n own addr e, ∃ a e1, a.block = addr.block ∧ e ≤ e1 ∧
        ((ev = BuddyEvent.request a e1 ∧ e1 ≤ own) ∨ (ev = BuddyEvent.use a e1 ∧ e1 < own)) := by
  induction n with
  | zero =>
    intro h own addr e ev hev
    exact absurd hev (List.not_mem_nil _)
  | succ n ih =>
    intro h own addr e ev hev
    unfold SecureHeap.FreeLoopTrace at hev
    by_cases hlt : e < own
    · rw [if_pos hlt] at hev
      simp only [List.mem_cons] at hev
      rcases hev with h1 | h1
      · exact ⟨addr.GetBuddy e, e, rfl, le_refl _, Or.inr ⟨h1, hlt⟩⟩
      · by_cases hrem : ((h.stack e).Remove (addr.GetBuddy e)).1 = true
        · rw [if_pos hrem] at h1
          simp only [List.mem_cons] at h1
          rcases h1 with h2 | h2
          · exact ⟨addr.GetAddressAtNextExponent e, e + 1, rfl, by omega,
              Or.inl ⟨h2, by omega⟩⟩
          · obtain ⟨a, e1, h3, h4, h5⟩ := ih _ _ _ _ ev h2
            exact ⟨a, e1, h3, by omega, h5⟩
        · rw [if_neg hrem] at h1
          exact absurd h1 (List.not_mem_nil _)
    · rw [if_neg hlt] at hev
      exact absurd hev (List.not_mem_nil _)

/-- The events of `Free(p)` of a live pointer `p`. -/
theorem FreeTrace_live_eq {h : SecureHeap} {L : List (Nat × Nat)} (inv : InvP h L none)
    {b : Block} (hb : b ∈ h.base_addresses) {p e : Nat}
    (hp1 : b.base_address ≤ p) (hp2 : p < b.base_address + 2 ^ b.own_exponent)
    (hp3 : 2 ^ SECURE_HEAP_MIN_EXP ∣ p - b.base_address)
    (hget : b.alloc_sizes.getD ((p - b.base_address) / 2 ^ SECURE_HEAP_MIN_EXP) 0 = e)
    (hne : e ≠ 0) :
    h.FreeTrace p =
      BuddyEvent.request ⟨b.base_address, p⟩ e ::
        (h.updateBlock b.base_address (fun x => x.SetAllocationSize p 0)).FreeLoopTrace
          (b.own_exponent - e) b.own_exponent ⟨b.base_address, p⟩ e := by
  obtain ⟨hbpos, hbal, hW, hE8, hE20, hlen⟩ := inv.blk_ok b hb
  have hmod := mod_unit_of_fits hp1 hbal hp3
  have hnil : h.base_addresses.isEmpty = false := by
    cases hm : h.base_addresses with
    | nil => rw [hm] at hb; simp at hb
    | cons _ _ => rfl
  have hvalid : b.IsValidPointer p = true :=
    (IsValidPointer_iff (inv.blk_ok b hb) p).mpr ⟨hp1, hp2, hmod⟩
  have hsize : b.GetAllocationSize p = e := by
    unfold Block.GetAllocationSize
    rw [GetOffsetInUnits_eq hp1 (by omega)]
    exact hget
  unfold SecureHeap.FreeTrace
  rw [if_neg (by omega), hnil]
  simp only [Bool.false_eq_true, if_false]
  rw [GetBlockAddress_of_mem inv hb hp1 hp2, if_pos hmod]
  simp only
  rw [if_neg (by omega), findBlock_of_mem inv.sorted hb]
  simp only [hvalid, not_true_eq_false, if_false, hsize]
  rw [if_neg hne]

/-- Every buddy computation of `Alloc` is on a block of the heap it returns, at
an exponent below the `own_exponent` of that block. -/
theorem AllocTrace_bound {page_size : Nat} {os : Nat → Nat} {h h1 : SecureHeap}
    {L : List (Nat × Nat)} {sz p : Nat} (inv : InvP h L none)
    (hW : sz < WORD) (hA : h.Alloc page_size os sz = Result.ok (p, h1)) :
    ∀ ev ∈ h.AllocTrace page_size os sz, ∃ a e,
      (ev = BuddyEvent.request a e ∨ ev = BuddyEvent.use a e) ∧
      ∃ b ∈ h1.base_addresses, b.base_address = a.block ∧ e < b.own_exponent := by
  intro ev hev
  by_cases h0 : sz = 0
  · subst h0
    unfold SecureHeap.AllocTrace at hev
    rw [if_pos rfl] at hev
    exact absurd hev (List.not_mem_nil _)
  have hpos : 0 < sz := by omega
  have hw8 := sizeClass_ge sz
  have hcls : max SECURE_HEAP_MIN_EXP (Nat.clog 2 sz) = sizeClass sz := rfl
  unfold SecureHeap.AllocTrace at hev
  rw [if_neg h0, WidthOfSize_eq hpos hW] at hev
  simp only [hcls] at hev
  unfold SecureHeap.AllocExponent at hev
  by_cases hcl : sizeClass sz ≤ SECURE_HEAP_MAX_EXP
  swap
  · rw [AllocExponentTrace_big _ _ _ (by omega)] at hev
    simp only [hcl, and_false, if_false, List.append_nil] at hev
    exact absurd hev (List.not_mem_nil _)
  rcases first_nonempty h (SECURE_HEAP_MAX_EXP + 1 - sizeClass sz) (sizeClass sz) (by omega)
    with hempty | ⟨d, hd1, hd2, hd3⟩
  · rw [AllocExponentTrace_fail _ h _ hempty, AllocExponentFrom_fail _ h _ hempty] at hev
    simp only [toBool_empty, Bool.false_eq_true, not_false_eq_true, hcl, and_self, if_true,
      List.nil_append] at hev
    cases hg : GetPageSizeExponent page_size with
    | fatal =>
      exact absurd hA (Alloc_no_free_not_ok page_size os h sz hpos hW hcl hempty
        (by rw [hg]; simp) _)
    | undefined =>
      exact absurd hA (Alloc_no_free_not_ok page_size os h sz hpos hW hcl hempty
        (by rw [hg]; simp) _)
    | ok pexp =>
      rw [Alloc_of_no_free page_size os h sz inv.len hpos hW hcl hempty pexp hg] at hA
      rw [CreateBlock_eq page_size os h (sizeClass sz) hw8 hcl pexp hg] at hev
      obtain ⟨hE1, hE2⟩ := blockExponent_bounds pexp (sizeClass sz) hcl
      generalize hE : blockExponent pexp (sizeClass sz) = E at *
      by_cases hb : os (2 ^ E) = 0
      · rw [if_neg (by simpa using hb)] at hev
        simp only [ne_eq, not_true_eq_false, if_false] at hev
        exact absurd hev (List.not_mem_nil _)
      · rw [if_pos hb] at hA hev
        simp only [ne_eq, hb, not_false_eq_true, if_true] at hev
        simp only [Result.ok.injEq, Prod.mk.injEq] at hA
        obtain ⟨_, rfl⟩ := hA
        have hsE : h.stack E = [] := hempty E hE1 hE2
        have hd : sizeClass sz + (E - sizeClass sz) = E := by omega
        obtain ⟨e1, h2, h3, h4⟩ := AllocExponentTrace_succeed (E - sizeClass sz)
          (SECURE_HEAP_MAX_EXP + 2 - sizeClass sz)
          { free_slices := (h.setStack E (h.stack E ++ [⟨os (2 ^ E), os (2 ^ E)⟩])).free_slices
            base_addresses := mapInsert h.base_addresses
              ⟨os (2 ^ E), E, List.replicate (2 ^ (E - SECURE_HEAP_MIN_EXP)) 0⟩ }
          (sizeClass sz) [] ⟨os (2 ^ E), os (2 ^ E)⟩ (by omega) (by omega)
          (by
            intro e1 h1 h2
            show (h.setStack E (h.stack E ++ [⟨os (2 ^ E), os (2 ^ E)⟩])).stack e1 = []
            rw [stack_setStack h e1 E _ inv.len (by omega) hE2 (by omega), if_neg (by omega)]
            exact hempty e1 h1 (by omega))
          (by
            rw [hd]
            show (h.setStack E (h.stack E ++ [⟨os (2 ^ E), os (2 ^ E)⟩])).stack E =
              [] ++ [⟨os (2 ^ E), os (2 ^ E)⟩]
            rw [stack_setStack h E E _ inv.len (by omega) hE2 (by omega), if_pos rfl, hsE])
          hb ev hev
        have hmem : ∃ b ∈ (SecureHeap.updateBlock
            (splitFrom (E - sizeClass sz) (h.withBlock (os (2 ^ E)) E)
              ⟨os (2 ^ E), os (2 ^ E)⟩ (sizeClass sz)) (os (2 ^ E))
            (fun b => b.SetAllocationSize (os (2 ^ E)) (sizeClass sz))).base_addresses,
            b.base_address = os (2 ^ E) ∧ e1 < b.own_exponent := by
          refine ⟨_, (mem_updateBlock _ _ _ _).mpr
            ⟨⟨os (2 ^ E), E, List.replicate (2 ^ (E - SECURE_HEAP_MIN_EXP)) 0⟩, ?_, rfl⟩, ?_, ?_⟩
          · rw [splitFrom_base]
            exact mem_mapInsert_self _ _
          · simp [SetAllocationSize_base]
          · simp only [if_true, SetAllocationSize_exp]
            omega
        rcases h4 with h4 | h4
        · exact ⟨_, e1, Or.inl h4, hmem⟩
        · exact ⟨_, e1, Or.inr h4, hmem⟩
  · obtain ⟨S, t, hst⟩ : ∃ S t, h.stack (sizeClass sz + d) = S ++ [t] := by
      rcases List.eq_nil_or_concat (h.stack (sizeClass sz + d)) with h1 | ⟨S, t, h1⟩
      · exact absurd h1 hd3
      · exact ⟨S, t, by rw [h1, List.concat_eq_append]⟩
    have htf : h.isFree t.block t.address (sizeClass sz + d) :=
      ⟨by omega, hd1, by rw [hst]; simp⟩
    have ht := (free_address_ne_zero inv htf).1
    obtain ⟨b, hb, hB, hkE, _⟩ := inv.free_ok _ _ _ htf
    rw [Alloc_of_free page_size os h sz d S t hpos hW hd1 hd2 hst ht] at hA
    simp only [Result.ok.injEq, Prod.mk.injEq] at hA
    obtain ⟨_, rfl⟩ := hA
    rw [AllocExponentFrom_succeed d _ h _ S t hd1 (by omega) hd2 hst ht] at hev
    simp only [toBool_of_ne ht, not_true_eq_false, false_and, if_false, List.append_nil] at hev
    obtain ⟨e1, h2, h3, h4⟩ := AllocExponentTrace_succeed d _ h _ S t hd1 (by omega) hd2 hst ht
      ev hev
    have hmem : ∃ b1 ∈ (SecureHeap.updateBlock
        (splitFrom d (h.setStack (sizeClass sz + d) S) t (sizeClass sz)) t.block
        (fun b => b.SetAllocationSize t.address (sizeClass sz))).base_addresses,
        b1.base_address = t.block ∧ e1 < b1.own_exponent := by
      refine ⟨_, (mem_updateBlock _ _ _ _).mpr ⟨b, ?_, rfl⟩, ?_, ?_⟩
      · rw [splitFrom_base]
        exact hb
      · simp [hB, SetAllocationSize_base]
      · simp only [hB, if_true, SetAllocationSize_exp]
        omega
    rcases h4 with h4 | h4
    · exact ⟨_, e1, Or.inl h4, hmem⟩
    · exact ⟨_, e1, Or.inr h4, hmem⟩

theorem wholeHeap1_reach : Reach 4096 wholeHeap1 [(65536, 65536)] :=
  Reach.alloc Reach.init demoOS_contract (by unfold WORD; omega) wholeHeap1_alloc (by decide)

/-- C18 (as amended): in every reachable heap state, every `GetBuddy(e)` that an
`Alloc` call invokes is on a slice of a block with `e < own_exponent`, and so is
every buddy it pushes; every `GetBuddy(e)` that a `Free` call of a live pointer
invokes is on a slice of a block of the map with `e <= own_exponent`, and the
buddy it returns is handed to `Remove` only when `e < own_exponent` (the buddy
at `own_exponent` may be computed, before the loop guard is tested, but is never
looked up). -/
theorem C18_buddy_requested_up_to_own_exponent {page_size : Nat} {h : SecureHeap}
    {L : List (Nat × Nat)} (hr : Reach page_size h L) :
    (∀ (os : Nat → Nat) (sz p : Nat) (h1 : SecureHeap), sz < WORD →
      h.Alloc page_size os sz = Result.ok (p, h1) →
      ∀ ev ∈ h.AllocTrace page_size os sz, ∃ a e,
        (ev = BuddyEvent.request a e ∨ ev = BuddyEvent.use a e) ∧
        ∃ b ∈ h1.base_addresses, b.base_address = a.block ∧ e < b.own_exponent) ∧
    (∀ p sz, (p, sz) ∈ L → ∀ ev ∈ h.FreeTrace p, ∃ a e, ∃ b ∈ h.base_addresses,
      b.base_address = a.block ∧
      ((ev = BuddyEvent.request a e ∧ e ≤ b.own_exponent) ∨
        (ev = BuddyEvent.use a e ∧ e < b.own_exponent))) := by
  have inv := hr.inv
  constructor
  · intro os sz p h1 hW hA
    exact AllocTrace_bound inv hW hA
  · intro p sz hp ev hev
    obtain ⟨_, _, B, hl⟩ := inv.ghost_in p sz hp
    obtain ⟨b2, _, hB2, _, hle, _⟩ := inv.live_ok _ _ _ hl
    obtain ⟨b, hb, hB, hp1, hp2, hp3, hget, hne⟩ := hl
    subst hB
    have hbb : b2 = b := block_unique inv.sorted (by assumption) hb hB2
    subst hbb
    rw [FreeTrace_live_eq inv hb hp1 hp2 hp3 hget hne] at hev
    rcases List.mem_cons.mp hev with h1 | h1
    · exact ⟨⟨b2.base_address, p⟩, _, b2, hb, rfl, Or.inl ⟨h1, hle⟩⟩
    · obtain ⟨a, e1, h3, _, h5⟩ := FreeLoopTrace_bound _ _ _ _ _ ev h1
      exact ⟨a, e1, b2, hb, h3.symm, h5⟩

theorem C18_buddy_requested_up_to_own_exponent_witness :
    Reach 4096 demoHeap2 [(66560, 1024), (65536, 100)] ∧
    ((∀ (os : Nat → Nat) (sz p : Nat) (h1 : SecureHeap), sz < WORD →
      demoHeap2.Alloc 4096 os sz = Result.ok (p, h1) →
      ∀ ev ∈ demoHeap2.AllocTrace 4096 os sz, ∃ a e,
        (ev = BuddyEvent.request a e ∨ ev = BuddyEvent.use a e) ∧
        ∃ b ∈ h1.base_addresses, b.base_address = a.block ∧ e < b.own_exponent) ∧
    (∀ p sz, (p, sz) ∈ [(66560, 1024), (65536, 100)] →
      ∀ ev ∈ demoHeap2.FreeTrace p, ∃ a e, ∃ b ∈ demoHeap2.base_addresses,
      b.base_address = a.block ∧
      ((ev = BuddyEvent.request a e ∧ e ≤ b.own_exponent) ∨
        (ev = BuddyEvent.use a e ∧ e < b.own_exponent)))) :=
  ⟨demoHeap2_reach, C18_buddy_requested_up_to_own_exponent demoHeap2_reach⟩

set_option maxRecDepth 100000 in
/-- C18 as stated fails: in the reachable state `wholeHeap1` the live pointer
65536 is an allocation of class 16 in a block with `own_exponent` 16, and
`Free(65536)` begins by calling `GetBuddy(16)` on it, before the loop guard
`exponent < own_exponent` is tested. -/
theorem C18_counterexample :
    ¬ (∀ (page_size : Nat) (h : SecureHeap) (L : List (Nat × Nat)) (p sz : Nat)
        (a : BlockAddress) (e : Nat),
        Reach page_size h L → (p, sz) ∈ L → BuddyEvent.request a e ∈ h.FreeTrace p →
        ∃ b ∈ h.base_addresses, b.base_address = a.block ∧ e < b.own_exponent) := by
  intro hall
  obtain ⟨b, hb, _, hlt⟩ := hall 4096 wholeHeap1 [(65536, 65536)] 65536 65536 ⟨65536, 65536⟩ 16
    wholeHeap1_reach (by decide) (by decide)
  have hb2 : b = ⟨65536, 16, 16 :: List.replicate 255 0⟩ := List.mem_singleton.mp hb
  rw [hb2] at hlt
  exact absurd hlt (by decide)

/-! ## The memory: `Free` zeroes the span it releases -/

/-- The heap that `FreeWithMemory` returns is the heap that `Free` returns, in
every case. -/
theorem FreeWithMemory_heap (h : SecureHeap) (mem : Memory) (ptr : Nat) :
    h.Free ptr =
      match h.FreeWithMemory mem ptr with
      | Result.ok r => Result.ok r.1
      | Result.fatal => Result.fatal
      | Result.undefined => Result.undefined := by
  unfold SecureHeap.Free SecureHeap.FreeWithMemory SecureHeap.FreeZero
  by_cases h0 : ptr = 0
  · simp only [h0, if_true]
  simp only [h0, if_false]
  cases hnil : h.base_addresses.isEmpty with
  | true => simp only [if_true]
  | false =>
    simp only [Bool.false_eq_true, if_false]
    cases hg : h.GetBlockAddress ptr with
    | fatal => rfl
    | undefined => rfl
    | ok found =>
      simp only
      by_cases hfb : found.block = 0
      · simp only [hfb, if_true]
      simp only [hfb, if_false]
      cases hf : h.findBlock found.block with
      | none => rfl
      | some block =>
        simp only
        cases hv : block.IsValidPointer ptr with
        | false => simp only [Bool.false_eq_true, not_false_eq_true, if_true]
        | true =>
          simp only [not_true_eq_false, if_false]
          by_cases he : block.GetAllocationSize ptr = 0
          · simp only [he, if_true]
          simp only [he, if_false]
          rw [(findBlock_some hf).2]
          by_cases hE : (SecureHeap.FreeLoop (block.own_exponent - block.GetAllocationSize ptr)
              (h.updateBlock found.block (fun b => b.SetAllocationSize ptr 0))
              block.own_exponent ⟨found.block, ptr⟩ (block.GetAllocationSize ptr)).2.1 =
                block.own_exponent
          · simp only [hE, if_true]
            cases SecureHeap.DestroyBlock _ _ <;> rfl
          · simp only [hE, if_false]

/-- `FreeZero(p)` of a live pointer `p`. -/
theorem FreeZero_live_eq {h : SecureHeap} {L : List (Nat × Nat)} (inv : InvP h L none)
    (mem : Memory) {b : Block} (hb : b ∈ h.base_addresses) {p e : Nat}
    (hp1 : b.base_address ≤ p) (hp2 : p < b.base_address + 2 ^ b.own_exponent)
    (hp3 : 2 ^ SECURE_HEAP_MIN_EXP ∣ p - b.base_address)
    (hget : b.alloc_sizes.getD ((p - b.base_address) / 2 ^ SECURE_HEAP_MIN_EXP) 0 = e)
    (hne : e ≠ 0) :
    h.FreeZero mem p =
      Result.ok (h.updateBlock b.base_address (fun x => x.SetAllocationSize p 0),
        memset mem p 0 (2 ^ e), b, e) := by
  obtain ⟨hbpos, hbal, hW, hE8, hE20, hlen⟩ := inv.blk_ok b hb
  have hmod := mod_unit_of_fits hp1 hbal hp3
  have hnil : h.base_addresses.isEmpty = false := by
    cases hm : h.base_addresses with
    | nil => rw [hm] at hb; simp at hb
    | cons _ _ => rfl
  have hvalid : b.IsValidPointer p = true :=
    (IsValidPointer_iff (inv.blk_ok b hb) p).mpr ⟨hp1, hp2, hmod⟩
  have hsize : b.GetAllocationSize p = e := by
    unfold Block.GetAllocationSize
    rw [GetOffsetInUnits_eq hp1 (by omega)]
    exact hget
  unfold SecureHeap.FreeZero
  rw [hnil]
  simp only [Bool.false_eq_true, if_false]
  rw [GetBlockAddress_of_mem inv hb hp1 hp2, if_pos hmod]
  simp only
  rw [if_neg (by omega), findBlock_of_mem inv.sorted hb]
  simp only [hvalid, not_true_eq_false, if_false, hsize]
  rw [if_neg hne, Nat.one_shiftLeft]

/-- `FreeWithMemory(p)` of a live pointer `p` returns the heap of `Free(p)` and
the memory with the span of `p` zeroed. -/
theorem FreeWithMemory_live {h : SecureHeap} {L : List (Nat × Nat)} (inv : InvP h L none)
    (mem : Memory) {p sz : Nat} (hp : (p, sz) ∈ L) :
    ∃ h1, h.Free p = Result.ok h1 ∧
      h.FreeWithMemory mem p = Result.ok (h1, memset mem p 0 (2 ^ sizeClass sz)) := by
  obtain ⟨h1, hF, _⟩ := Free_inv inv hp
  refine ⟨h1, hF, ?_⟩
  obtain ⟨_, _, B, b, hb, hB, hp1, hp2, hp3, hget, hne⟩ := inv.ghost_in p sz hp
  subst hB
  obtain ⟨hbpos, _⟩ := inv.blk_ok b hb
  have hheap := FreeWithMemory_heap h mem p
  have hz := FreeZero_live_eq inv mem hb hp1 hp2 hp3 hget hne
  rw [hF] at hheap
  unfold SecureHeap.FreeWithMemory at hheap ⊢
  rw [if_neg (by omega), hz] at hheap ⊢
  simp only at hheap ⊢
  split_ifs at hheap ⊢ with hE
  · cases hd : SecureHeap.DestroyBlock _ _ with
    | fatal => rw [hd] at hheap; simp at hheap
    | undefined => rw [hd] at hheap; simp at hheap
    | ok h2 =>
      rw [hd] at hheap
      simp only [Result.ok.injEq] at hheap
      rw [hheap]
  · simp only [Result.ok.injEq] at hheap
    rw [hheap]

/-- A state reachable with the memory is reachable. -/
theorem ReachM.reach {page_size : Nat} {h : SecureHeap} {L : List (Nat × Nat)} {mem : Memory}
    {Z : Set Nat} (hr : ReachM page_size h L mem Z) : Reach page_size h L := by
  induction hr with
  | init mem => exact Reach.init
  | malloc _ hc hW hA hp ih => exact Reach.alloc ih hc hW hA hp
  | @zalloc h h1 L mem mem1 Z os sz p _ hc hW hA hp ih =>
    unfold SecureHeap_zalloc at hA
    cases hAl : h.Alloc page_size os sz with
    | fatal => rw [hAl] at hA; simp at hA
    | undefined => rw [hAl] at hA; simp at hA
    | ok r =>
      obtain ⟨q, h2⟩ := r
      rw [hAl] at hA
      simp only at hA
      split_ifs at hA <;>
      · simp only [Result.ok.injEq, Prod.mk.injEq] at hA
        obtain ⟨rfl, rfl, _⟩ := hA
        exact Reach.alloc ih hc hW hAl hp
  | alloc_null _ hc hW hA ih => exact Reach.alloc_null ih hc hW hA
  | @free h h1 L mem mem1 Z p sz _ hp hF ih =>
    have hheap := FreeWithMemory_heap h mem p
    rw [hF] at hheap
    exact Reach.free ih hp hheap
  | @free_null h h1 L mem mem1 Z _ hF ih =>
    have hheap := FreeWithMemory_heap h mem 0
    rw [hF] at hheap
    exact Reach.free_null ih hheap
  | store _ _ _ ih => exact ih

theorem memset_inside (mem : Memory) (p c n x : Nat) (h1 : p ≤ x) (h2 : x < p + n) :
    memset mem p c n x = c := by
  unfold memset
  rw [if_pos ⟨h1, h2⟩]

theorem memset_outside (mem : Memory) (p c n x : Nat) (h : ¬ (p ≤ x ∧ x < p + n)) :
    memset mem p c n x = mem x := by
  unfold memset
  rw [if_neg h]

theorem memset_zero_of_zero (mem : Memory) (p n x : Nat) (h : mem x = 0) :
    memset mem p 0 n x = 0 := by
  unfold memset
  split_ifs
  · rfl
  · exact h

/-- Two live allocations whose spans share an address are the same allocation. -/
theorem live_spans_disjoint {h : SecureHeap} {L : List (Nat × Nat)} (inv : InvP h L none)
    {p sz q s x : Nat} (hp : (p, sz) ∈ L) (hq : (q, s) ∈ L) (hx1 : x ∈ span p sz)
    (hx2 : x ∈ span q s) : p = q := by
  obtain ⟨_, _, B, hl⟩ := inv.ghost_in p sz hp
  obtain ⟨_, _, B2, hl2⟩ := inv.ghost_in q s hq
  have := inv.uniq ⟨SliceKind.live, B, p, sizeClass sz⟩ ⟨SliceKind.live, B2, q, sizeClass s⟩ x
    (Or.inr (Or.inl ⟨rfl, hl⟩)) (Or.inr (Or.inl ⟨rfl, hl2⟩)) hx1 hx2
  exact congrArg Slice.addr this

theorem fst_ne_of_mem_erase {L : List (Nat × Nat)} (hn : (L.map Prod.fst).Nodup) {p sz q s : Nat}
    (hq : (q, s) ∈ L.erase (p, sz)) (hp : (p, sz) ∈ L) : q ≠ p := by
  intro hqp
  subst hqp
  have hnd : L.Nodup := List.Nodup.of_map _ hn
  have hqL : (q, s) ∈ L := List.mem_of_mem_erase hq
  have hs : s = sz := by
    by_contra hne
    have hinj := List.inj_on_of_nodup_map hn hqL hp rfl
    exact hne (congrArg Prod.snd hinj)
  subst hs
  exact (List.Nodup.mem_erase_iff hnd).mp hq |>.1 rfl

/-- In every state reachable with the memory, every address of the zeroed set
reads zero and lies in no live allocation. -/
theorem ReachM.zeroed {page_size : Nat} {h : SecureHeap} {L : List (Nat × Nat)} {mem : Memory}
    {Z : Set Nat} (hr : ReachM page_size h L mem Z) :
    ∀ x ∈ Z, mem x = 0 ∧ ∀ q s, (q, s) ∈ L → x ∉ span q s := by
  induction hr with
  | init mem =>
    intro x hx
    exact absurd hx (Set.not_mem_empty x)
  | malloc _ _ _ _ _ ih =>
    intro x hx
    obtain ⟨h1, h2⟩ := ih x hx.1
    refine ⟨h1, ?_⟩
    intro q s hq
    rcases List.mem_cons.mp hq with heq | hq
    · simp only [Prod.mk.injEq] at heq
      rw [heq.1, heq.2]
      exact hx.2
    · exact h2 q s hq
  | @zalloc h h1 L mem mem1 Z os sz p _ _ _ hA hp ih =>
    intro x hx
    obtain ⟨h1, h2⟩ := ih x hx.1
    have hmem : mem1 = memset mem p 0 sz := by
      unfold SecureHeap_zalloc at hA
      cases hAl : h.Alloc page_size os sz with
      | fatal => rw [hAl] at hA; simp at hA
      | undefined => rw [hAl] at hA; simp at hA
      | ok r =>
        obtain ⟨q, h2⟩ := r
        rw [hAl] at hA
        simp only at hA
        split_ifs at hA with hq
        · simp only [Result.ok.injEq, Prod.mk.injEq] at hA
          obtain ⟨rfl, _, rfl⟩ := hA
          rfl
        · simp only [Result.ok.injEq, Prod.mk.injEq] at hA
          obtain ⟨rfl, _, _⟩ := hA
          exact absurd hp hq
    refine ⟨by rw [hmem]; exact memset_zero_of_zero mem p sz x h1, ?_⟩
    intro q s hq
    rcases List.mem_cons.mp hq with heq | hq
    · simp only [Prod.mk.injEq] at heq
      rw [heq.1, heq.2]
      exact hx.2
    · exact h2 q s hq
  | alloc_null _ _ _ _ ih => exact ih
  | @free h h1 L mem mem1 Z p sz hr0 hp hF ih =>
    intro x hx
    have inv := hr0.reach.inv
    obtain ⟨h2, _, hF2⟩ := FreeWithMemory_live inv mem hp
    rw [hF] at hF2
    simp only [Result.ok.injEq, Prod.mk.injEq] at hF2
    obtain ⟨_, hmem⟩ := hF2
    rcases hx.1 with hz | hs
    · obtain ⟨h3, h4⟩ := ih x hz
      refine ⟨by rw [hmem]; exact memset_zero_of_zero mem p _ x h3, ?_⟩
      intro q s hq
      exact h4 q s (List.mem_of_mem_erase hq)
    · refine ⟨by rw [hmem]; exact memset_inside mem p 0 _ x hs.1 hs.2, ?_⟩
      intro q s hq hxq
      have hne := fst_ne_of_mem_erase inv.ghost_nodup hq hp
      exact hne (live_spans_disjoint inv hp (List.mem_of_mem_erase hq) hs hxq).symm
  | @free_null h h1 L mem mem1 Z _ hF ih =>
    unfold SecureHeap.FreeWithMemory at hF
    rw [if_pos rfl] at hF
    simp only [Result.ok.injEq, Prod.mk.injEq] at hF
    obtain ⟨_, rfl⟩ := hF
    exact ih
  | @store h L mem Z q s x0 v _ hq hx0 ih =>
    intro x hx
    obtain ⟨h1, h2⟩ := ih x hx
    refine ⟨?_, h2⟩
    have hne : x ≠ x0 := by
      intro hc
      rw [hc] at h2
      exact h2 q s hq hx0
    rw [Function.update_noteq hne]
    exact h1

theorem FreeLoop_base (n : Nat) :
    ∀ (h : SecureHeap) (own : Nat) (addr : BlockAddress) (e : Nat),
      (SecureHeap.FreeLoop n h own addr e).2.2.base_addresses = h.base_addresses := by
  induction n with
  | zero => intro h own addr e; rfl
  | succ n ih =>
    intro h own addr e
    unfold SecureHeap.FreeLoop
    by_cases hlt : e < own
    · rw [if_pos hlt]
      simp only
      by_cases hrem : ((h.stack e).Remove (addr.GetBuddy e)).1 = true
      · rw [if_pos hrem, ih]
        rfl
      · rw [if_neg hrem]
    · rw [if_neg hlt]

/-- A block that holds the live pointer `p` and is still in the map after
`Free(p)` has kept its exponent. -/
theorem Free_survivor {h h2 : SecureHeap} {L : List (Nat × Nat)} (inv : InvP h L none)
    {b : Block} (hb : b ∈ h.base_addresses) {p e : Nat}
    (hp1 : b.base_address ≤ p) (hp2 : p < b.base_address + 2 ^ b.own_exponent)
    (hp3 : 2 ^ SECURE_HEAP_MIN_EXP ∣ p - b.base_address)
    (hget : b.alloc_sizes.getD ((p - b.base_address) / 2 ^ SECURE_HEAP_MIN_EXP) 0 = e)
    (hne : e ≠ 0) (hF : h.Free p = Result.ok h2) {b2 : Block} (hb2 : b2 ∈ h2.base_addresses)
    (hbase : b2.base_address = b.base_address) : b2.own_exponent = b.own_exponent := by
  obtain ⟨hbpos, _⟩ := inv.blk_ok b hb
  rw [Free_live_eq inv hb hp1 hp2 hp3 hget hne] at hF
  have hupd : ∀ x ∈ (h.updateBlock b.base_address
      (fun x => x.SetAllocationSize p 0)).base_addresses,
      x.base_address = b.base_address → x.own_exponent = b.own_exponent := by
    intro x hx hxb
    obtain ⟨y, hy, hxy⟩ := (mem_updateBlock _ _ _ _).mp hx
    by_cases hyb : y.base_address = b.base_address
    · rw [if_pos hyb] at hxy
      have := block_unique inv.sorted hy hb hyb
      rw [hxy, this]
      rfl
    · rw [if_neg hyb] at hxy
      rw [hxy] at hxb
      exact absurd hxb hyb
  split_ifs at hF with hE
  · unfold SecureHeap.DestroyBlock at hF
    split_ifs at hF
    simp only [Result.ok.injEq] at hF
    rw [← hF] at hb2
    simp only [FreeLoop_base] at hb2
    exact hupd b2 ((mem_mapErase _ _ _).mp hb2).1 hbase
  · simp only [Result.ok.injEq] at hF
    rw [← hF] at hb2
    simp only [setStack_base, FreeLoop_base] at hb2
    exact hupd b2 hb2 hbase

set_option maxRecDepth 100000 in
theorem demoHeap3_free : demoHeap2.Free 65536 = Result.ok demoHeap3 := by
  decide

/-- The state after `Alloc(100)`, `Alloc(1024)` and `Free` of the first pointer,
with a memory that held 255 everywhere at the start. -/
theorem demoHeap3_reachM :
    ReachM 4096 demoHeap3 ([(66560, 1024), (65536, 100)].erase (65536, 100))
      (memset (fun _ => 255) 65536 0 (2 ^ sizeClass 100))
      ((((∅ \ span 65536 100) \ span 66560 1024) ∪ span 65536 100) ∩ mapped demoHeap3) := by
  have hr2 : ReachM 4096 demoHeap2 [(66560, 1024), (65536, 100)] (fun _ => 255)
      ((∅ \ span 65536 100) \ span 66560 1024) :=
    ReachM.malloc
      (ReachM.malloc (ReachM.init _) demoOS_contract (by unfold WORD; omega) demoHeap_alloc
        (by decide))
      (noMemOS_contract _) (by unfold WORD; omega) demoHeap2_alloc (by decide)
  have hp : ((65536 : Nat), (100 : Nat)) ∈ [((66560 : Nat), (1024 : Nat)), (65536, 100)] := by
    decide
  obtain ⟨h1, hF, hM⟩ := FreeWithMemory_live demoHeap2_reach.inv (fun _ => 255) hp
  rw [demoHeap3_free] at hF
  simp only [Result.ok.injEq] at hF
  subst hF
  exact ReachM.free hr2 hp hM

/-- C14: in every state reachable with the memory, for every live pointer `p`
(requested size `sz`, recorded exponent `e`, the class of `sz`): `Free(p)`
writes zero to every byte of `[p, p + 2^e)` and to no other byte, and it does so
in its first part, which leaves every free stack as it was; the memory after
`Free(p)` is the memory after that `memset`, so the span reads zero immediately
after the call; and the state after the call is again reachable, with the span
added to the zeroed set when its block is still in the map; every address of the
zeroed set reads zero and lies in no live allocation, until `Alloc` hands it out
again or its block is destroyed. -/
theorem C14_free_zeroes_the_span {page_size : Nat} {h : SecureHeap} {L : List (Nat × Nat)}
    {mem : Memory} {Z : Set Nat} (hr : ReachM page_size h L mem Z) :
    (∀ p sz, (p, sz) ∈ L → ∃ h1 b h2,
      h.FreeZero mem p =
        Result.ok (h1, memset mem p 0 (2 ^ sizeClass sz), b, sizeClass sz) ∧
      h1.free_slices = h.free_slices ∧
      h.FreeWithMemory mem p = Result.ok (h2, memset mem p 0 (2 ^ sizeClass sz)) ∧
      h.Free p = Result.ok h2 ∧
      (∀ x ∈ span p sz, memset mem p 0 (2 ^ sizeClass sz) x = 0) ∧
      (∀ x, x ∉ span p sz → memset mem p 0 (2 ^ sizeClass sz) x = mem x) ∧
      ReachM page_size h2 (L.erase (p, sz)) (memset mem p 0 (2 ^ sizeClass sz))
        ((Z ∪ span p sz) ∩ mapped h2) ∧
      ((∃ b2 ∈ h2.base_addresses, b2.base_address = b.base_address) →
        span p sz ⊆ (Z ∪ span p sz) ∩ mapped h2)) ∧
    (∀ x ∈ Z, mem x = 0 ∧ ∀ q s, (q, s) ∈ L → x ∉ span q s) := by
  refine ⟨?_, hr.zeroed⟩
  intro p sz hp
  have inv := hr.reach.inv
  obtain ⟨h2, hF, hM⟩ := FreeWithMemory_live inv mem hp
  obtain ⟨_, _, B, hl⟩ := inv.ghost_in p sz hp
  obtain ⟨b1, hb1, hB1, _, _, hf1, hf2, hf3⟩ := inv.live_ok _ _ _ hl
  obtain ⟨b, hb, hB, hp1, hp2, hp3, hget, hne⟩ := hl
  subst hB
  have hbb : b1 = b := block_unique inv.sorted hb1 hb hB1
  subst hbb
  refine ⟨_, b1, h2, FreeZero_live_eq inv mem hb hp1 hp2 hp3 hget hne, rfl, hM, hF, ?_, ?_,
    ReachM.free hr hp hM, ?_⟩
  · intro x hx
    exact memset_inside mem p 0 _ x hx.1 hx.2
  · intro x hx
    exact memset_outside mem p 0 _ x hx
  · rintro ⟨b2, hb2, hbase⟩ x hx
    have hE := Free_survivor inv hb hp1 hp2 hp3 hget hne hF hb2 hbase
    refine ⟨Or.inr hx, b2, hb2, ?_, ?_⟩
    · rw [hbase]
      exact le_trans hf1 hx.1
    · rw [hbase, hE]
      exact lt_of_lt_of_le hx.2 hf3

theorem C14_free_zeroes_the_span_witness :
    ReachM 4096 demoHeap3 ([(66560, 1024), (65536, 100)].erase (65536, 100))
      (memset (fun _ => 255) 65536 0 (2 ^ sizeClass 100))
      ((((∅ \ span 65536 100) \ span 66560 1024) ∪ span 65536 100) ∩ mapped demoHeap3) ∧
    (65600 : Nat) ∈
      ((((∅ \ span 65536 100) \ span 66560 1024) ∪ span 65536 100) ∩ mapped demoHeap3) ∧
    (∀ x ∈ ((((∅ \ span 65536 100) \ span 66560 1024) ∪ span 65536 100) ∩ mapped demoHeap3),
      memset (fun _ => 255) 65536 0 (2 ^ sizeClass 100) x = 0 ∧
      ∀ q s, (q, s) ∈ [(66560, 1024), (65536, 100)].erase (65536, 100) → x ∉ span q s) := by
  have hcls : sizeClass 100 = 8 := by
    unfold sizeClass
    rw [clog_of_between (i := 6) (by decide) (by decide)]
    decide
  have hin : (65600 : Nat) ∈ span 65536 100 := by
    show 65536 ≤ 65600 ∧ 65600 < 65536 + 2 ^ sizeClass 100
    rw [hcls]
    decide
  have hmap : (65600 : Nat) ∈ mapped demoHeap3 :=
    ⟨⟨65536, 16, 0 :: 0 :: 0 :: 0 :: 10 :: List.replicate 251 0⟩, List.mem_singleton_self _,
      by decide, by decide⟩
  exact ⟨demoHeap3_reachM, ⟨Or.inr hin, hmap⟩, (C14_free_zeroes_the_span demoHeap3_reachM).2⟩

/-! ## The exponent of a new block and the recursion of `AllocExponent` -/

theorem WidthOfSizeLoop_pow_lt (k : Nat) {n w : Nat} (hw : WidthOfSizeLoop k n = Result.ok w)
    (hn : n = 2 ^ w) : w < k := by
  induction k with
  | zero =>
    unfold WidthOfSizeLoop at hw
    exact Result.noConfusion hw
  | succ i ih =>
    unfold WidthOfSizeLoop at hw
    rw [Nat.one_shiftLeft] at hw
    by_cases hc : n &&& 2 ^ i ≠ 0
    · rw [if_pos hc] at hw
      simp only [Result.ok.injEq] at hw
      by_cases hni : n = 2 ^ i
      · rw [if_pos hni] at hw
        omega
      · rw [if_neg hni] at hw
        exfalso
        apply hc
        rw [hn, ← hw, Nat.and_two_pow, Nat.testBit_two_pow]
        simp
    · rw [if_neg hc] at hw
      have := ih hw
      omega

/-- A page-size exponent is below 64. -/
theorem GetPageSizeExponent_lt {page_size p : Nat}
    (hp : GetPageSizeExponent page_size = Result.ok p) : p < 64 := by
  unfold GetPageSizeExponent at hp
  cases hw : WidthOfSize page_size with
  | fatal => rw [hw] at hp; simp at hp
  | undefined => rw [hw] at hp; simp at hp
  | ok w =>
    rw [hw] at hp
    simp only at hp
    split_ifs at hp with heq
    simp only [Result.ok.injEq] at hp
    subst hp
    rw [Nat.one_shiftLeft] at heq
    unfold WidthOfSize at hw
    split_ifs at hw
    exact WidthOfSizeLoop_pow_lt 64 hw heq

/-- C21: for every page-size exponent `p` (the value `GetPageSizeExponent` reads,
below 64, so that `p + k` does not wrap) and every requested minimum exponent
`m` with `MIN_EXP <= m <= MAX_EXP`, the exponent `E` for which `CreateBlock`
asks the system (`2^E` bytes) and which it records in the new block and uses for
the free stack equals `max(m, min(MAX_EXP, p + k))` with `k = 4` if `p <= 12`
and `k = 3` otherwise; `m <= E <= MAX_EXP`; the `Block` constructor returns (its
range checks hold) for every non-null base; and `CreateBlock` returns. -/
theorem C21_block_exponent_formula (page_size : Nat) (os : Nat → Nat) (h : SecureHeap)
    (m p : Nat) (hp : GetPageSizeExponent page_size = Result.ok p)
    (hm1 : SECURE_HEAP_MIN_EXP ≤ m) (hm2 : m ≤ SECURE_HEAP_MAX_EXP) :
    p < 64 ∧
    blockExponent p m = max m (min SECURE_HEAP_MAX_EXP (p + (if p ≤ 12 then 4 else 3))) ∧
    m ≤ blockExponent p m ∧ blockExponent p m ≤ SECURE_HEAP_MAX_EXP ∧
    (∀ base, base ≠ 0 → Block.create base (blockExponent p m) =
      Result.ok ⟨base, blockExponent p m,
        List.replicate (2 ^ (blockExponent p m - SECURE_HEAP_MIN_EXP)) 0⟩) ∧
    h.CreateBlock page_size os m =
      (if os (2 ^ blockExponent p m) ≠ 0 then
        Result.ok (os (2 ^ blockExponent p m),
          { free_slices := (h.setStack (blockExponent p m) (h.stack (blockExponent p m) ++
              [⟨os (2 ^ blockExponent p m), os (2 ^ blockExponent p m)⟩])).free_slices
            base_addresses := mapInsert h.base_addresses
              ⟨os (2 ^ blockExponent p m), blockExponent p m,
                List.replicate (2 ^ (blockExponent p m - SECURE_HEAP_MIN_EXP)) 0⟩ })
      else Result.ok (0, h)) := by
  obtain ⟨hE1, hE2⟩ := blockExponent_bounds p m hm2
  refine ⟨GetPageSizeExponent_lt hp, rfl, hE1, hE2, ?_, CreateBlock_eq page_size os h m hm1 hm2 p hp⟩
  intro base hb
  exact Block_create_eq hb (by omega) hE2

set_option maxRecDepth 100000 in
theorem C21_block_exponent_formula_witness :
    GetPageSizeExponent 4096 = Result.ok 12 ∧ SECURE_HEAP_MIN_EXP ≤ 8 ∧
    8 ≤ SECURE_HEAP_MAX_EXP ∧
    blockExponent 12 8 = max 8 (min SECURE_HEAP_MAX_EXP (12 + (if 12 ≤ 12 then 4 else 3))) ∧
    8 ≤ blockExponent 12 8 ∧ blockExponent 12 8 ≤ SECURE_HEAP_MAX_EXP :=
  ⟨by decide, by decide, by decide,
    (C21_block_exponent_formula 4096 demoOS SecureHeap.init 8 12 (by decide) (by decide)
      (by decide)).2.1,
    (C21_block_exponent_formula 4096 demoOS SecureHeap.init 8 12 (by decide) (by decide)
      (by decide)).2.2.1,
    (C21_block_exponent_formula 4096 demoOS SecureHeap.init 8 12 (by decide) (by decide)
      (by decide)).2.2.2.1⟩

theorem AllocExponentFrom_succ (n : Nat) (h : SecureHeap) (e : Nat) :
    h.AllocExponentFrom (n + 1) e =
      if e > SECURE_HEAP_MAX_EXP then (BlockAddress.empty, h)
      else if ¬ ((h.stack e).Pop).1.toBool then
        if (SecureHeap.AllocExponentFrom n (h.setStack e ((h.stack e).Pop).2) (e + 1)).1.toBool
        then
          ((SecureHeap.AllocExponentFrom n (h.setStack e ((h.stack e).Pop).2) (e + 1)).1,
            (SecureHeap.AllocExponentFrom n (h.setStack e ((h.stack e).Pop).2) (e + 1)).2.setStack
              e (((SecureHeap.AllocExponentFrom n (h.setStack e ((h.stack e).Pop).2)
                (e + 1)).2.stack e).Push
                ((SecureHeap.AllocExponentFrom n (h.setStack e ((h.stack e).Pop).2)
                  (e + 1)).1.GetBuddy e)))
        else SecureHeap.AllocExponentFrom n (h.setStack e ((h.stack e).Pop).2) (e + 1)
      else (((h.stack e).Pop).1, h.setStack e ((h.stack e).Pop).2) := by
  rfl

theorem AllocExponentDepth_succ (n : Nat) (h : SecureHeap) (e : Nat) :
    h.AllocExponentDepth (n + 1) e =
      if e > SECURE_HEAP_MAX_EXP then some 0
      else if ¬ ((h.stack e).Pop).1.toBool then
        match SecureHeap.AllocExponentDepth n (h.setStack e ((h.stack e).Pop).2) (e + 1) with
        | none => none
        | some d => some (d + 1)
      else some 0 := by
  rfl

/-- The recursion of `AllocExponent(e)` in closed terms: from an exponent `e`
with `e + k = MAX_EXP + 1` the depth is some `d <= k`, and every bound above `d`
on the number of calls gives that depth and the same result. -/
theorem AllocExponentFrom_depth (k : Nat) :
    ∀ (h : SecureHeap) (e : Nat), e + k = SECURE_HEAP_MAX_EXP + 1 →
      ∃ d, d ≤ k ∧ ∀ n, d + 1 ≤ n →
        h.AllocExponentDepth n e = some d ∧
        h.AllocExponentFrom n e = h.AllocExponentFrom (k + 1) e := by
  induction k with
  | zero =>
    intro h e he
    refine ⟨0, le_refl _, ?_⟩
    intro n hn
    obtain ⟨n1, rfl⟩ : ∃ n1, n = n1 + 1 := ⟨n - 1, by omega⟩
    have hgt : e > SECURE_HEAP_MAX_EXP := by omega
    rw [AllocExponentDepth_succ, AllocExponentFrom_succ, AllocExponentFrom_succ, if_pos hgt,
      if_pos hgt, if_pos hgt]
    exact ⟨rfl, rfl⟩
  | succ k ih =>
    intro h e he
    have hgt : ¬ e > SECURE_HEAP_MAX_EXP := by omega
    by_cases hpop : ((h.stack e).Pop).1.toBool = true
    · refine ⟨0, Nat.zero_le _, ?_⟩
      intro n hn
      obtain ⟨n1, rfl⟩ : ∃ n1, n = n1 + 1 := ⟨n - 1, by omega⟩
      rw [AllocExponentDepth_succ, AllocExponentFrom_succ, AllocExponentFrom_succ (k + 1),
        if_neg hgt, if_neg hgt, if_neg hgt]
      simp only [hpop, not_true_eq_false, if_false, and_self]
    · obtain ⟨d, hd, hall⟩ := ih (h.setStack e ((h.stack e).Pop).2) (e + 1) (by omega)
      refine ⟨d + 1, by omega, ?_⟩
      intro n hn
      obtain ⟨n1, rfl⟩ : ∃ n1, n = n1 + 1 := ⟨n - 1, by omega⟩
      obtain ⟨h1, h2⟩ := hall n1 (by omega)
      rw [AllocExponentDepth_succ, AllocExponentFrom_succ, AllocExponentFrom_succ (k + 1),
        if_neg hgt, if_neg hgt, if_neg hgt]
      simp only [hpop, Bool.false_eq_true, not_false_eq_true, if_true, h1, h2, and_self]

/-- C22: for every heap state and every exponent `e` with
`MIN_EXP <= e <= MAX_EXP`, `AllocExponent(e)` terminates, with a recursion depth
(number of nested recursive self-calls) `d` of at most `MAX_EXP - e + 1`: every
bound above `d` on the number of calls yields that depth, and the value
`AllocExponent(e)` returns. -/
theorem C22_alloc_exponent_recursion_depth (h : SecureHeap) (e : Nat)
    (he1 : SECURE_HEAP_MIN_EXP ≤ e) (he2 : e ≤ SECURE_HEAP_MAX_EXP) :
    ∃ d, d ≤ SECURE_HEAP_MAX_EXP - e + 1 ∧ ∀ n, d + 1 ≤ n →
      h.AllocExponentDepth n e = some d ∧ h.AllocExponentFrom n e = h.AllocExponent e := by
  have _ := he1
  obtain ⟨d, hd, hall⟩ := AllocExponentFrom_depth (SECURE_HEAP_MAX_EXP + 1 - e) h e (by omega)
  refine ⟨d, by omega, ?_⟩
  intro n hn
  obtain ⟨h1, h2⟩ := hall n hn
  refine ⟨h1, ?_⟩
  rw [h2]
  unfold SecureHeap.AllocExponent
  have hf : SECURE_HEAP_MAX_EXP + 1 - e + 1 = SECURE_HEAP_MAX_EXP + 2 - e := by omega
  rw [hf]

set_option maxRecDepth 100000 in
theorem C22_alloc_exponent_recursion_depth_witness :
    SECURE_HEAP_MIN_EXP ≤ 8 ∧ 8 ≤ SECURE_HEAP_MAX_EXP ∧
    ∃ d, d ≤ SECURE_HEAP_MAX_EXP - 8 + 1 ∧ ∀ n, d + 1 ≤ n →
      SecureHeap.init.AllocExponentDepth n 8 = some d ∧
      SecureHeap.init.AllocExponentFrom n 8 = SecureHeap.init.AllocExponent 8 :=
  ⟨by decide, by decide,
    C22_alloc_exponent_recursion_depth SecureHeap.init 8 (by decide) (by decide)⟩

/-! ## `Free` undoes the `Alloc` before it -/

/-- The buddy of a free slice is not on the stack of its class. -/
theorem buddy_not_free {h : SecureHeap} {L : List (Nat × Nat)} (inv : InvP h L none)
    {B a e : Nat} (hf : h.isFree B a e) : BlockAddress.GetBuddy ⟨B, a⟩ e ∉ h.stack e := by
  have he8 := hf.1
  have hk2 := hf.2.1
  obtain ⟨b2, hb2, hB2, he, hfit1, hfit2, hfit3⟩ := inv.free_ok _ _ _ hf
  subst hB2
  obtain ⟨hbpos, _, hW, _, hE20, _⟩ := inv.blk_ok b2 hb2
  have hpos := two_pow_pos_nat e
  intro hm
  rcases dvd_pow_cases hfit2 with hlow | ⟨hge, hup⟩
  · rw [GetBuddy_lower hfit1 hlow (by omega)] at hm
    exact inv.nobuddy _ _ e hlow hf ⟨he8, hk2, hm⟩
  · have hA : a = (a - 2 ^ e) + 2 ^ e := by omega
    have hPB : b2.base_address ≤ a - 2 ^ e := by omega
    have hPd : 2 ^ (e + 1) ∣ (a - 2 ^ e) - b2.base_address := by
      have : a - 2 ^ e - b2.base_address = a - b2.base_address - 2 ^ e := by
        omega
      rw [this]; exact hup
    have hbud := GetBuddy_upper hPB hPd (by omega)
    rw [← hA] at hbud
    rw [hbud] at hm
    have h2 : h.isFree b2.base_address (a - 2 ^ e + 2 ^ e) e := by rw [← hA]; exact hf
    exact inv.nobuddy _ _ e hPd ⟨he8, hk2, hm⟩ h2

/-- The table entry at the address of a free slice is zero. -/
theorem free_entry_zero {h : SecureHeap} {L : List (Nat × Nat)} (inv : InvP h L none)
    {b : Block} (hb : b ∈ h.base_addresses) {a e : Nat} (hf : h.isFree b.base_address a e) :
    b.alloc_sizes.getD ((a - b.base_address) / 2 ^ SECURE_HEAP_MIN_EXP) 0 = 0 := by
  by_contra hne
  obtain ⟨b2, hb2, hB2, he, hfit1, hfit2, hfit3⟩ := inv.free_ok _ _ _ hf
  have hbb : b2 = b := block_unique inv.sorted hb2 hb hB2
  subst hbb
  have hpos := two_pow_pos_nat e
  have hl : h.isLive b2.base_address a
      (b2.alloc_sizes.getD ((a - b2.base_address) / 2 ^ SECURE_HEAP_MIN_EXP) 0) :=
    ⟨b2, hb, rfl, hfit1, by omega, Dvd.dvd.trans (Nat.pow_dvd_pow 2 hf.1) hfit2, rfl, hne⟩
  have := inv.uniq ⟨SliceKind.free, b2.base_address, a, e⟩
    ⟨SliceKind.live, b2.base_address, a, _⟩ a (Or.inl ⟨rfl, hf⟩) (Or.inr (Or.inl ⟨rfl, hl⟩))
    ⟨le_refl _, Nat.lt_add_of_pos_right hpos⟩
    ⟨le_refl _, Nat.lt_add_of_pos_right (two_pow_pos_nat _)⟩
  exact SliceKind.noConfusion (congrArg Slice.kind this)

theorem mapErase_mapInsert_fresh (m : List Block) (blk : Block)
    (hfresh : ∀ x ∈ m, x.base_address ≠ blk.base_address) :
    mapErase (mapInsert m blk) blk.base_address = m := by
  have hkeep : ∀ l : List Block, (∀ x ∈ l, x.base_address ≠ blk.base_address) →
      mapErase l blk.base_address = l := by
    intro l hl
    unfold mapErase
    apply List.filter_eq_self.mpr
    intro x hx
    simpa using hl x hx
  induction m with
  | nil => simp [mapInsert, mapErase]
  | cons x xs ih =>
    have hx : x.base_address ≠ blk.base_address := hfresh x (List.mem_cons_self _ _)
    have hxs : ∀ y ∈ xs, y.base_address ≠ blk.base_address :=
      fun y hy => hfresh y (List.mem_cons_of_mem _ hy)
    unfold mapInsert
    by_cases h1 : blk.base_address < x.base_address
    · rw [if_pos h1]
      have := hkeep (x :: xs) hfresh
      unfold mapErase at this ⊢
      rw [List.filter_cons]
      simp only [bne_self_eq_false, Bool.false_eq_true, if_false]
      exact this
    · rw [if_neg h1, if_neg (fun e => hx e.symm)]
      have ih2 := ih hxs
      unfold mapErase at ih2 ⊢
      rw [List.filter_cons]
      have hxne : (x.base_address != blk.base_address) = true := by simpa using hx
      rw [hxne, if_pos rfl, ih2]

/-- Two heaps with thirteen stacks each and the same stack in every class have
the same stacks. -/
theorem free_slices_ext {h1 h : SecureHeap}
    (hl1 : h1.free_slices.length = SECURE_HEAP_MAX_EXP - SECURE_HEAP_MIN_EXP + 1)
    (hl : h.free_slices.length = SECURE_HEAP_MAX_EXP - SECURE_HEAP_MIN_EXP + 1)
    (hs : ∀ e, SECURE_HEAP_MIN_EXP ≤ e → e ≤ SECURE_HEAP_MAX_EXP → h1.stack e = h.stack e) :
    h1.free_slices = h.free_slices := by
  apply List.ext_getElem (hl1.trans hl.symm)
  intro i hi1 hi2
  have hi : i < SECURE_HEAP_MAX_EXP - SECURE_HEAP_MIN_EXP + 1 := by rw [← hl]; exact hi2
  have h8 : SECURE_HEAP_MIN_EXP ≤ i + SECURE_HEAP_MIN_EXP := Nat.le_add_left _ _
  have h20 : i + SECURE_HEAP_MIN_EXP ≤ SECURE_HEAP_MAX_EXP := by
    unfold SECURE_HEAP_MAX_EXP SECURE_HEAP_MIN_EXP at hi ⊢
    omega
  have := hs (i + SECURE_HEAP_MIN_EXP) h8 h20
  unfold SecureHeap.stack at this
  rw [Nat.add_sub_cancel] at this
  simpa [List.getD_eq_getElem?_getD, hi1, hi2] using this

/-- `Free(p)` of a live pointer in closed form, in a state that satisfies the
invariant: the stacks from the class of `p` up to `k - 1` lose the buddies, the
merged slice goes on stack `k` or the block is erased. -/
theorem Free_closed {h : SecureHeap}
    {L : List (Nat × Nat)} (p sz k : Nat) (b : Block)
    (inv : InvP h L none) (hp : (p, sz) ∈ L) (hb : b ∈ h.base_addresses)
    (hin1 : b.base_address ≤ p) (hin2 : p < b.base_address + 2 ^ b.own_exponent)
    (hk1 : sizeClass sz ≤ k) (hk2 : k ≤ b.own_exponent)
    (hmerge : ∀ j, sizeClass sz ≤ j → j < k → buddyAt b.base_address p j ∈ h.stack j)
    (hstop : k = b.own_exponent ∨ buddyAt b.base_address p k ∉ h.stack k) :
    ∃ h1, h.Free p = Result.ok h1 ∧
      b.alloc_sizes.getD ((p - b.base_address) / 2 ^ SECURE_HEAP_MIN_EXP) 0 = sizeClass sz ∧
      (∀ j, SECURE_HEAP_MIN_EXP ≤ j → h1.stack j =
        if sizeClass sz ≤ j ∧ j < k then (h.stack j).erase (buddyAt b.base_address p j)
        else if j = k ∧ k < b.own_exponent then
          h.stack j ++ [⟨b.base_address, sliceAt b.base_address p k⟩]
        else h.stack j) ∧
      h1.free_slices.length = h.free_slices.length ∧
      h1.base_addresses =
        (if k < b.own_exponent then
          h.base_addresses.map (fun x =>
            if x.base_address = b.base_address then
              ⟨x.base_address, x.own_exponent,
                x.alloc_sizes.set ((p - x.base_address) / 2 ^ SECURE_HEAP_MIN_EXP) 0⟩
            else x)
        else mapErase h.base_addresses b.base_address) := by
  have hw8 := sizeClass_ge sz
  obtain ⟨_, _, B, hl⟩ := inv.ghost_in p sz hp
  obtain ⟨b1, hb1, hB, hq1, hq2, hp3, hget, hne⟩ := hl
  subst hB
  have hbb : b1 = b := block_of_point inv.sorted hb1 hb hq1 hq2 hin1 hin2
  subst hbb
  obtain ⟨hbpos, hbal, hW, hE8, hE20, hlen⟩ := inv.blk_ok b1 hb
  obtain ⟨b2, _, hB2, _, _, _, hfit, _⟩ :=
    inv.live_ok _ p _ ⟨b1, hb, rfl, hq1, hq2, hp3, hget, hne⟩
  rw [hB2] at hfit
  have hslice : sliceAt b1.base_address p (sizeClass sz) = p := sliceAt_of_dvd hin1 hfit
  have hd : sizeClass sz + (k - sizeClass sz) = k := by omega
  have hlen1 : (h.updateBlock b1.base_address (fun x => x.SetAllocationSize p 0)).free_slices.length
      = SECURE_HEAP_MAX_EXP - SECURE_HEAP_MIN_EXP + 1 := inv.len
  have hloop := FreeLoop_closed hin1 hin2 hW hE20 (k - sizeClass sz)
    (b1.own_exponent - sizeClass sz)
    (h.updateBlock b1.base_address (fun x => x.SetAllocationSize p 0)) (sizeClass sz)
    hlen1 hw8 (by omega) (le_refl _)
    (fun j h1 h2 => hmerge j h1 (by omega))
    (by rw [hd]; exact hstop)
  rw [hd, hslice] at hloop
  have hFree := Free_live_eq inv hb hin1 hin2 hp3 hget hne
  rw [hloop] at hFree
  simp only at hFree
  have hstk : ∀ j, SECURE_HEAP_MIN_EXP ≤ j →
      (mergeFrom (k - sizeClass sz)
        (h.updateBlock b1.base_address (fun x => x.SetAllocationSize p 0))
        b1.base_address p (sizeClass sz)).stack j =
      if sizeClass sz ≤ j ∧ j < k then (h.stack j).erase (buddyAt b1.base_address p j)
      else h.stack j := by
    intro j hj
    rw [stack_mergeFrom _ _ _ _ _ j hlen1 hw8 (by omega) hj, hd, updateBlock_stack]
    by_cases hc : sizeClass sz ≤ j ∧ j < k
    · rw [if_pos hc, if_pos hc]
      exact (List.Nodup.erase_eq_filter (inv.nodup j) _).symm
    · rw [if_neg hc, if_neg hc]
  by_cases hkE : k = b1.own_exponent
  · rw [if_pos hkE] at hFree
    unfold SecureHeap.DestroyBlock at hFree
    rw [if_neg (by omega)] at hFree
    refine ⟨_, hFree, hget, ?_, ?_, ?_⟩
    · intro j hj
      have h1 := hstk j hj
      have hc2 : ¬ (j = k ∧ k < b1.own_exponent) := by omega
      rw [if_neg hc2]
      exact h1
    · simp only [mergeFrom_len]
      rfl
    · rw [if_neg (by omega)]
      simp only [mergeFrom_base]
      exact mapErase_updateBlock h _ _ (fun _ => rfl)
  · rw [if_neg hkE] at hFree
    have hkl : k < b1.own_exponent := by omega
    refine ⟨_, hFree, hget, ?_, ?_, ?_⟩
    · intro j hj
      rw [stack_setStack _ j k _ (by rw [mergeFrom_len]; exact hlen1) (by omega) (by omega) hj]
      by_cases hjk : j = k
      · subst hjk
        rw [if_pos rfl, if_neg (by omega), if_pos ⟨rfl, hkl⟩, hstk j hj, if_neg (by omega)]
        rfl
      · rw [if_neg hjk, hstk j hj]
        have hc2 : ¬ (j = k ∧ k < b1.own_exponent) := by omega
        by_cases hc : sizeClass sz ≤ j ∧ j < k
        · rw [if_pos hc, if_pos hc]
        · rw [if_neg hc, if_neg hc, if_neg hc2]
    · simp only [setStack_len, mergeFrom_len]
      rfl
    · rw [if_pos hkl]
      simp only [setStack_base, mergeFrom_base, SecureHeap.updateBlock]
      apply List.map_congr_left
      intro x hx
      by_cases hxb : x.base_address = b1.base_address
      · rw [if_pos hxb, if_pos hxb]
        unfold Block.SetAllocationSize
        rw [GetOffsetInUnits_eq (by omega) (by omega)]
      · rw [if_neg hxb, if_neg hxb]

/-- A heap is determined by its stacks and its map. -/
theorem SecureHeap_eq {h1 h : SecureHeap} (hf : h1.free_slices = h.free_slices)
    (hb : h1.base_addresses = h.base_addresses) : h1 = h := by
  cases h1
  cases h
  simp only at hf hb
  rw [hf, hb]

/-- `Free` after an `Alloc` that popped the slice `t` of class `k`. -/
theorem Free_after_pop {h : SecureHeap} {L : List (Nat × Nat)} (inv : InvP h L none)
    {sz d : Nat} {S : FreeStack} {t : BlockAddress}
    (hd1 : sizeClass sz + d ≤ SECURE_HEAP_MAX_EXP)
    (hd2 : ∀ e1, sizeClass sz ≤ e1 → e1 < sizeClass sz + d → h.stack e1 = [])
    (hst : h.stack (sizeClass sz + d) = S ++ [t])
    (inv1 : InvP ((splitFrom d (h.setStack (sizeClass sz + d) S) t (sizeClass sz)).updateBlock
      t.block (fun b => b.SetAllocationSize t.address (sizeClass sz))) ((t.address, sz) :: L)
      none) :
    SecureHeap.Free ((splitFrom d (h.setStack (sizeClass sz + d) S) t (sizeClass sz)).updateBlock
      t.block (fun b => b.SetAllocationSize t.address (sizeClass sz))) t.address =
      Result.ok h := by
  have hw8 := sizeClass_ge sz
  obtain ⟨B, a⟩ := t
  have htf : h.isFree B a (sizeClass sz + d) := ⟨by omega, hd1, by rw [hst]; simp⟩
  obtain ⟨b, hb, hB, hkE, hfit1, hfit2, hfit3⟩ := inv.free_ok _ _ _ htf
  subst hB
  obtain ⟨hbpos, hbal, hW, hE8, hE20, hlen⟩ := inv.blk_ok b hb
  have hzero := free_entry_zero inv hb htf
  have hnb := buddy_not_free inv htf
  generalize hk : sizeClass sz + d = k at *
  have hpk := two_pow_pos_nat k
  have hlenS : (h.setStack k S).free_slices.length =
      SECURE_HEAP_MAX_EXP - SECURE_HEAP_MIN_EXP + 1 := by rw [setStack_len]; exact inv.len
  have hsl : ∀ j, j ≤ k → sliceAt b.base_address a j = a := fun j hj =>
    sliceAt_of_dvd hfit1 (Dvd.dvd.trans (Nat.pow_dvd_pow 2 hj) hfit2)
  have hbud : ∀ j, j ≤ k → buddyAt b.base_address a j =
      BlockAddress.GetBuddy ⟨b.base_address, a⟩ j := by
    intro j hj
    unfold buddyAt
    rw [hsl j hj]
  have hst1 : ∀ j, SECURE_HEAP_MIN_EXP ≤ j → j ≤ SECURE_HEAP_MAX_EXP →
      ((splitFrom d (h.setStack k S) ⟨b.base_address, a⟩ (sizeClass sz)).updateBlock
        b.base_address (fun x => x.SetAllocationSize a (sizeClass sz))).stack j =
      if sizeClass sz ≤ j ∧ j < k then [BlockAddress.GetBuddy ⟨b.base_address, a⟩ j]
      else if j = k then S else h.stack j := by
    intro j hj hj2
    rw [updateBlock_stack, stack_splitFrom d _ _ _ j hlenS hw8 (by omega) hj, hk,
      stack_setStack h j k S inv.len (by omega) (by omega) hj]
    by_cases hc : sizeClass sz ≤ j ∧ j < k
    · rw [if_pos hc, if_pos hc, if_neg (by omega), hd2 j hc.1 hc.2]
      rfl
    · rw [if_neg hc, if_neg hc]
  have hb1 : b.SetAllocationSize a (sizeClass sz) ∈
      ((splitFrom d (h.setStack k S) ⟨b.base_address, a⟩ (sizeClass sz)).updateBlock
        b.base_address (fun x => x.SetAllocationSize a (sizeClass sz))).base_addresses :=
    (mem_updateBlock _ _ _ _).mpr ⟨b, by rw [splitFrom_base, setStack_base]; exact hb,
      by rw [if_pos rfl]⟩
  obtain ⟨h2, hF, _, hstk, hlen2, hmap⟩ := Free_closed a sz k
    (b.SetAllocationSize a (sizeClass sz)) inv1 (List.mem_cons_self _ _) hb1
    hfit1 (by show a < b.base_address + 2 ^ b.own_exponent; omega) (by omega)
    (by show k ≤ b.own_exponent; omega)
    (by
      intro j h1 h2
      show buddyAt b.base_address a j ∈ _
      rw [hst1 j (by omega) (by omega), if_pos ⟨h1, h2⟩, hbud j (by omega)]
      exact List.mem_singleton_self _)
    (by
      right
      show buddyAt b.base_address a k ∉ _
      rw [hst1 k (by omega) (by omega), if_neg (by omega), if_pos rfl, hbud k (le_refl _)]
      intro hm
      apply hnb
      rw [hst]
      exact List.mem_append_left _ hm)
  simp only [SetAllocationSize_base, SetAllocationSize_exp] at hstk hmap
  rw [hF]
  congr 1
  apply SecureHeap_eq
  · apply free_slices_ext
    · rw [hlen2]
      simp only [SecureHeap.updateBlock, splitFrom_len]
      exact hlenS
    · exact inv.len
    · intro j hj hj2
      rw [hstk j hj, hst1 j hj hj2]
      by_cases hc : sizeClass sz ≤ j ∧ j < k
      · rw [if_pos hc, if_pos hc, hbud j (by omega), hd2 j hc.1 hc.2]
        exact List.erase_cons_head _ _
      · rw [if_neg hc, if_neg hc]
        by_cases hjk : j = k
        · subst hjk
          rw [if_pos ⟨rfl, hkE⟩, if_pos rfl, hsl j (le_refl _), hst]
        · rw [if_neg (by omega), if_neg hjk]
  · rw [hmap, if_pos hkE]
    simp only [SecureHeap.updateBlock, splitFrom_base, setStack_base, List.map_map]
    have hid : ∀ x ∈ h.base_addresses,
        ((fun x : Block => if x.base_address = b.base_address then
            (⟨x.base_address, x.own_exponent,
              x.alloc_sizes.set ((a - x.base_address) / 2 ^ SECURE_HEAP_MIN_EXP) 0⟩ : Block)
          else x) ∘
          (fun x : Block => if x.base_address = b.base_address then
            x.SetAllocationSize a (sizeClass sz) else x)) x = id x := by
      intro x hx
      simp only [Function.comp, id]
      by_cases hxb : x.base_address = b.base_address
      · have hxe : x = b := block_unique inv.sorted hx hb hxb
        subst hxe
        rw [if_pos rfl, if_pos (by rfl)]
        unfold Block.SetAllocationSize
        simp only
        rw [GetOffsetInUnits_eq hfit1 (by omega), List.set_set]
        have := set_getD_self x.alloc_sizes ((a - x.base_address) / 2 ^ SECURE_HEAP_MIN_EXP) 0
        rw [hzero] at this
        rw [this]
      · rw [if_neg hxb, if_neg hxb]
    rw [List.map_congr_left hid, List.map_id]

/-- `Free` after an `Alloc` that created a block. -/
theorem Free_after_create {h : SecureHeap} {L : List (Nat × Nat)} (inv : InvP h L none)
    {sz E base : Nat} (hE1 : sizeClass sz ≤ E) (hE2 : E ≤ SECURE_HEAP_MAX_EXP)
    (hempty : ∀ e1, sizeClass sz ≤ e1 → e1 ≤ SECURE_HEAP_MAX_EXP → h.stack e1 = [])
    (hfresh : ∀ x ∈ h.base_addresses, x.base_address ≠ base)
    (inv1 : InvP ((splitFrom (E - sizeClass sz) (h.withBlock base E) ⟨base, base⟩
      (sizeClass sz)).updateBlock base (fun b => b.SetAllocationSize base (sizeClass sz)))
      ((base, sz) :: L) none) :
    SecureHeap.Free ((splitFrom (E - sizeClass sz) (h.withBlock base E) ⟨base, base⟩
      (sizeClass sz)).updateBlock base (fun b => b.SetAllocationSize base (sizeClass sz)))
      base = Result.ok h := by
  have hw8 := sizeClass_ge sz
  have hpE := two_pow_pos_nat E
  have hd : sizeClass sz + (E - sizeClass sz) = E := by omega
  have hlenB : (h.withBlock base E).free_slices.length =
      SECURE_HEAP_MAX_EXP - SECURE_HEAP_MIN_EXP + 1 := inv.len
  have hsl : ∀ j, sliceAt base base j = base := fun j =>
    sliceAt_of_dvd (le_refl _) (by rw [Nat.sub_self]; exact Nat.dvd_zero _)
  have hbud : ∀ j, buddyAt base base j = BlockAddress.GetBuddy ⟨base, base⟩ j := by
    intro j
    unfold buddyAt
    rw [hsl j]
  have hst1 : ∀ j, SECURE_HEAP_MIN_EXP ≤ j →
      ((splitFrom (E - sizeClass sz) (h.withBlock base E) ⟨base, base⟩
        (sizeClass sz)).updateBlock base
        (fun b => b.SetAllocationSize base (sizeClass sz))).stack j =
      if sizeClass sz ≤ j ∧ j < E then h.stack j ++ [BlockAddress.GetBuddy ⟨base, base⟩ j]
      else h.stack j := by
    intro j hj
    rw [updateBlock_stack, stack_splitFrom _ _ _ _ j hlenB hw8 (by omega) hj, hd]
    rfl
  have hb1 : Block.SetAllocationSize
      ⟨base, E, List.replicate (2 ^ (E - SECURE_HEAP_MIN_EXP)) 0⟩ base (sizeClass sz) ∈
      ((splitFrom (E - sizeClass sz) (h.withBlock base E) ⟨base, base⟩
        (sizeClass sz)).updateBlock base
        (fun b => b.SetAllocationSize base (sizeClass sz))).base_addresses :=
    (mem_updateBlock _ _ _ _).mpr
      ⟨⟨base, E, List.replicate (2 ^ (E - SECURE_HEAP_MIN_EXP)) 0⟩,
        by rw [splitFrom_base]; exact mem_mapInsert_self _ _, by rw [if_pos rfl]⟩
  obtain ⟨h2, hF, _, hstk, hlen2, hmap⟩ := Free_closed base sz E
    (Block.SetAllocationSize ⟨base, E, List.replicate (2 ^ (E - SECURE_HEAP_MIN_EXP)) 0⟩
      base (sizeClass sz)) inv1 (List.mem_cons_self _ _) hb1
    (le_refl _) (by show base < base + 2 ^ E; omega) hE1 (le_refl _)
    (by
      intro j h1 h2
      show buddyAt base base j ∈ _
      rw [hst1 j (by omega), if_pos ⟨h1, h2⟩, hbud j]
      exact List.mem_append_right _ (List.mem_singleton_self _))
    (Or.inl rfl)
  simp only [SetAllocationSize_base, SetAllocationSize_exp] at hstk hmap
  rw [hF]
  congr 1
  apply SecureHeap_eq
  · apply free_slices_ext
    · rw [hlen2]
      simp only [SecureHeap.updateBlock, splitFrom_len]
      exact hlenB
    · exact inv.len
    · intro j hj hj2
      rw [hstk j hj, hst1 j hj]
      by_cases hc : sizeClass sz ≤ j ∧ j < E
      · rw [if_pos hc, if_pos hc, hbud j, hempty j hc.1 hj2]
        exact List.erase_cons_head _ _
      · rw [if_neg hc, if_neg hc, if_neg (by omega)]
  · rw [hmap, if_neg (by omega)]
    rw [mapErase_updateBlock (splitFrom (E - sizeClass sz) (h.withBlock base E) ⟨base, base⟩
      (sizeClass sz)) base (fun b => b.SetAllocationSize base (sizeClass sz)) (fun _ => rfl),
      splitFrom_base]
    exact mapErase_mapInsert_fresh h.base_addresses
      ⟨base, E, List.replicate (2 ^ (E - SECURE_HEAP_MIN_EXP)) 0⟩ hfresh

/-- C23: in every reachable heap state `h`, for every size `sz` for which
`Alloc(sz)` returns a non-null pointer `p` (leaving the heap `h1`), `Free(p)`
called on `h1` returns and leaves exactly `h`: the same block map with the same
`alloc_sizes` tables and the same free stacks, entry for entry and in the same
order; a block that the `Alloc` created is destroyed by the `Free`. -/
theorem C23_free_undoes_alloc {page_size : Nat} {h : SecureHeap} {L : List (Nat × Nat)}
    (os : Nat → Nat) (sz p : Nat) (h1 : SecureHeap) (hr : Reach page_size h L)
    (hos : OSContract os h) (hW : sz < WORD)
    (hA : h.Alloc page_size os sz = Result.ok (p, h1)) (hp : p ≠ 0) :
    h1.Free p = Result.ok h := by
  have inv := hr.inv
  have inv1 := (Alloc_inv inv hos hW hA).1 hp
  by_cases h0 : sz = 0
  · subst h0
    rw [Alloc_zero] at hA
    simp only [Result.ok.injEq, Prod.mk.injEq] at hA
    exact absurd hA.1.symm hp
  have hpos : 0 < sz := by omega
  by_cases hbig : 2 ^ SECURE_HEAP_MAX_EXP < sz
  · rw [Alloc_too_large page_size os h sz hW hbig] at hA
    simp only [Result.ok.injEq, Prod.mk.injEq] at hA
    exact absurd hA.1.symm hp
  have hsz : sz ≤ 2 ^ SECURE_HEAP_MAX_EXP := by omega
  have hcl : sizeClass sz ≤ SECURE_HEAP_MAX_EXP := sizeClass_le_iff.mpr hsz
  have hw8 := sizeClass_ge sz
  rcases first_nonempty h (SECURE_HEAP_MAX_EXP + 1 - sizeClass sz) (sizeClass sz) (by omega)
    with hempty | ⟨d, hd1, hd2, hd3⟩
  · cases hg : GetPageSizeExponent page_size with
    | fatal =>
      exact absurd hA (Alloc_no_free_not_ok page_size os h sz hpos hW hcl hempty
        (by rw [hg]; simp) _)
    | undefined =>
      exact absurd hA (Alloc_no_free_not_ok page_size os h sz hpos hW hcl hempty
        (by rw [hg]; simp) _)
    | ok pexp =>
      rw [Alloc_of_no_free page_size os h sz inv.len hpos hW hcl hempty pexp hg] at hA
      obtain ⟨hE1, hE2⟩ := blockExponent_bounds pexp (sizeClass sz) hcl
      generalize hE : blockExponent pexp (sizeClass sz) = E at *
      by_cases hb : os (2 ^ E) = 0
      · rw [if_neg (by simpa using hb)] at hA
        simp only [Result.ok.injEq, Prod.mk.injEq] at hA
        exact absurd hA.1.symm hp
      · rw [if_pos hb] at hA
        simp only [Result.ok.injEq, Prod.mk.injEq] at hA
        obtain ⟨rfl, rfl⟩ := hA
        obtain ⟨_, _, hdisj⟩ := hos (2 ^ E) hb
        have hpE := two_pow_pos_nat E
        apply Free_after_create inv hE1 hE2 hempty _ inv1
        intro x hx hxb
        have hpx := two_pow_pos_nat x.own_exponent
        rcases hdisj x hx with hc | hc <;> omega
  · obtain ⟨S, t, hst⟩ : ∃ S t, h.stack (sizeClass sz + d) = S ++ [t] := by
      rcases List.eq_nil_or_concat (h.stack (sizeClass sz + d)) with h1 | ⟨S, t, h1⟩
      · exact absurd h1 hd3
      · exact ⟨S, t, by rw [h1, List.concat_eq_append]⟩
    have htf : h.isFree t.block t.address (sizeClass sz + d) :=
      ⟨by omega, hd1, by rw [hst]; simp⟩
    have ht := (free_address_ne_zero inv htf).1
    rw [Alloc_of_free page_size os h sz d S t hpos hW hd1 hd2 hst ht] at hA
    simp only [Result.ok.injEq, Prod.mk.injEq] at hA
    obtain ⟨rfl, rfl⟩ := hA
    exact Free_after_pop inv hd1 hd2 hst inv1

set_option maxRecDepth 100000 in
theorem C23_free_undoes_alloc_witness :
    Reach 4096 demoHeap [(65536, 100)] ∧ OSContract noMemOS demoHeap ∧ 1024 < WORD ∧
    demoHeap.Alloc 4096 noMemOS 1024 = Result.ok (66560, demoHeap2) ∧ (66560 : Nat) ≠ 0 ∧
    demoHeap2.Free 66560 = Result.ok demoHeap :=
  ⟨demoHeap_reach, noMemOS_contract _, by unfold WORD; omega, demoHeap2_alloc, by decide,
    C23_free_undoes_alloc noMemOS 1024 66560 demoHeap2 demoHeap_reach (noMemOS_contract _)
      (by unfold WORD; omega) demoHeap2_alloc (by decide)⟩

end NodeSecureHeap
